import Mathlib

/-!
# Aurelis ledger engine: serialization codec, chain data model, block store

A shallow embedding of `aurelis-node/src` (`util/serialize.hpp`, `util/hash.hpp`,
`chain/tx.hpp`, `chain/block.hpp`, `chain/blockchain.cpp`, `chain/genesis.cpp`).

Conventions.
* A byte buffer (`std::vector<uint8_t>`) is a `List Nat`; a byte is a `Nat` below 256.
* Machine integers are `Nat` (unsigned) or `Int` (signed); the predicates `wf` say
  that every field is in the range of its C++ type.
* A thrown `std::runtime_error("Deserialize underflow")` is `none` in the decoders;
  the reads `read` and `readIntStep` give their outcome as a `ReadResult`.
* `std::map` is an association list kept in key order (`StdMap`).
* The class `SHA256` (its implementation is not part of the sources at hand) is a
  parameter `sha : Bytes → uint256` giving the 32-byte digest of a byte string; the
  definition `sha256` instantiates it with SHA-256 where a concrete digest is needed.
-/

set_option autoImplicit false

namespace aurelis

/-- Byte buffers. -/
abbrev Bytes := List Nat

/-! ## util/hash.hpp -/

/-- The 256-bit hash container: `std::array<uint8_t, 32> data`. -/
structure uint256 where
  data : List Nat
  width : data.length = 32

instance : DecidableEq uint256 := fun a b =>
  decidable_of_iff (a.data = b.data) (by cases a; cases b; simp)

/-- The default constructor `uint256()`: `data.fill(0)`. -/
def uint256.zero : uint256 := ⟨List.replicate 32 0, rfl⟩

instance : Inhabited uint256 := ⟨uint256.zero⟩

/-- The lexicographic comparison of `std::array::operator<`. -/
def bytesLt : List Nat → List Nat → Bool
  | [], [] => false
  | [], _ :: _ => true
  | _ :: _, [] => false
  | a :: as, b :: bs => if a < b then true else if b < a then false else bytesLt as bs

/-- The `uint256::operator<`: `data < other.data`. -/
def uint256.lt (a b : uint256) : Bool := bytesLt a.data b.data

/-! ## util/sha256.hpp -/

/-- The double SHA-256 `Hash256`: `ctx.Update(input); ctx.Final(intermediate);
ctx2.Update(intermediate, 32); ctx2.Final(output32)`. -/
def Hash256 (sha : Bytes → uint256) (input : Bytes) : uint256 :=
  sha (sha input).data

/-! ### The SHA-256 primitive -/

namespace SHA256

/-- The round constants of SHA-256. -/
def K : List Nat :=
  [1116352408, 1899447441, 3049323471, 3921009573,
   961987163, 1508970993, 2453635748, 2870763221,
   3624381080, 310598401, 607225278, 1426881987,
   1925078388, 2162078206, 2614888103, 3248222580,
   3835390401, 4022224774, 264347078, 604807628,
   770255983, 1249150122, 1555081692, 1996064986,
   2554220882, 2821834349, 2952996808, 3210313671,
   3336571891, 3584528711, 113926993, 338241895,
   666307205, 773529912, 1294757372, 1396182291,
   1695183700, 1986661051, 2177026350, 2456956037,
   2730485921, 2820302411, 3259730800, 3345764771,
   3516065817, 3600352804, 4094571909, 275423344,
   430227734, 506948616, 659060556, 883997877,
   958139571, 1322822218, 1537002063, 1747873779,
   1955562222, 2024104815, 2227730452, 2361852424,
   2428436474, 2756734187, 3204031479, 3329325298]

/-- Rotation of a 32-bit word to the right. -/
def rotr (x n : Nat) : Nat := ((x >>> n) ||| (x <<< (32 - n))) % 4294967296

/-- The function Σ0. -/
def bsig0 (x : Nat) : Nat := rotr x 2 ^^^ rotr x 13 ^^^ rotr x 22

/-- The function Σ1. -/
def bsig1 (x : Nat) : Nat := rotr x 6 ^^^ rotr x 11 ^^^ rotr x 25

/-- The function σ0. -/
def ssig0 (x : Nat) : Nat := rotr x 7 ^^^ rotr x 18 ^^^ (x >>> 3)

/-- The function σ1. -/
def ssig1 (x : Nat) : Nat := rotr x 17 ^^^ rotr x 19 ^^^ (x >>> 10)

/-- The function Ch. -/
def ch (x y z : Nat) : Nat := (x &&& y) ^^^ ((4294967295 - x) &&& z)

/-- The function Maj. -/
def maj (x y z : Nat) : Nat := (x &&& y) ^^^ (x &&& z) ^^^ (y &&& z)

/-- The big-endian 32-bit words of a block. -/
def words : List Nat → List Nat
  | a :: b :: c :: d :: rest => (a * 16777216 + b * 65536 + c * 256 + d) :: words rest
  | _ => []

/-- The message schedule, extended by `n` words; `w` lists the words so far, the
latest first. -/
def schedule : Nat → List Nat → List Nat
  | 0, w => w
  | n + 1, w =>
    match w with
    | _ :: w2 :: _ :: _ :: _ :: _ :: w7 :: _ :: _ :: _ :: _ :: _ :: _ :: _ :: w15 :: w16 :: _ =>
      schedule n (((ssig1 w2 + w7 + ssig0 w15 + w16) % 4294967296) :: w)
    | _ => w

/-- The eight working variables. -/
structure St where
  a : Nat
  b : Nat
  c : Nat
  d : Nat
  e : Nat
  f : Nat
  g : Nat
  h : Nat

/-- One round of the compression function. -/
def round (s : St) (k w : Nat) : St :=
  let t1 := (s.h + bsig1 s.e + ch s.e s.f s.g + k + w) % 4294967296
  let t2 := (bsig0 s.a + maj s.a s.b s.c) % 4294967296
  ⟨(t1 + t2) % 4294967296, s.a, s.b, s.c, (s.d + t1) % 4294967296, s.e, s.f, s.g⟩

/-- The rounds over the constants and the schedule. -/
def rounds : St → List Nat → List Nat → St
  | s, k :: ks, w :: ws => rounds (round s k w) ks ws
  | s, _, _ => s

/-- The compression of one 64-byte block into the chaining value. -/
def compress (h : St) (block : List Nat) : St :=
  let w := (schedule 48 (words block).reverse).reverse
  let s := rounds h K w
  ⟨(h.a + s.a) % 4294967296, (h.b + s.b) % 4294967296, (h.c + s.c) % 4294967296,
   (h.d + s.d) % 4294967296, (h.e + s.e) % 4294967296, (h.f + s.f) % 4294967296,
   (h.g + s.g) % 4294967296, (h.h + s.h) % 4294967296⟩

/-- The big-endian bytes of a 32-bit word. -/
def be32 (x : Nat) : List Nat :=
  [(x >>> 24) % 256, (x >>> 16) % 256, (x >>> 8) % 256, x % 256]

/-- The padding: a one bit, zeros, and the bit length on eight big-endian bytes. -/
def pad (msg : List Nat) : List Nat :=
  msg ++ [128] ++ List.replicate ((119 - msg.length % 64) % 64) 0 ++
    (be32 ((8 * msg.length) >>> 32) ++ be32 (8 * msg.length))

/-- The chaining over `n` blocks. -/
def blocks : Nat → St → List Nat → St
  | 0, h, _ => h
  | n + 1, h, m => blocks n (compress h (m.take 64)) (m.drop 64)

/-- The final chaining value of a message. -/
def state (msg : List Nat) : St :=
  blocks ((pad msg).length / 64)
    ⟨1779033703, 3144134277, 1013904242, 2773480762,
     1359893119, 2600822924, 528734635, 1541459225⟩ (pad msg)

end SHA256

/-- Modelled from the spec: the class `SHA256` (`Update` of the whole input followed by
`Final`), declared in `util/sha256.hpp` with its implementation outside the sources at
hand; the spec names it the SHA-256 primitive, which is FIPS 180-4 SHA-256. The
functions of this development take the primitive as the parameter `sha`; this
definition instantiates it where a concrete digest is computed. -/
def sha256 (input : Bytes) : uint256 :=
  let s := SHA256.state input
  ⟨SHA256.be32 s.a ++ SHA256.be32 s.b ++ SHA256.be32 s.c ++ SHA256.be32 s.d ++
    SHA256.be32 s.e ++ SHA256.be32 s.f ++ SHA256.be32 s.g ++ SHA256.be32 s.h, rfl⟩

/-! ## util/serialize.hpp -/

/-- The serialization buffer. -/
structure Serializer where
  buffer : Bytes
deriving DecidableEq, Repr

/-- The method `Serializer::write(data, len)`: append the bytes. -/
def Serializer.write (s : Serializer) (data : Bytes) : Serializer :=
  { buffer := s.buffer ++ data }

/-- The loop `for (i ...; i < sizeof(T); ++i) buffer.push_back((val >> (i * 8)) & 0xFF)`,
with `n` iterations left at index `i`. The shift of a signed value is arithmetic and
`& 0xFF` keeps the low eight bits, so the byte is the residue modulo 256. -/
def writeIntLoop (val : Int) : Nat → Nat → Bytes
  | 0, _ => []
  | n + 1, i => ((val >>> (i * 8)) % 256).toNat :: writeIntLoop val n (i + 1)

/-- The integral branch of `Serializer::operator<<` for a type of `size` bytes. -/
def Serializer.writeInt (s : Serializer) (size : Nat) (val : Int) : Serializer :=
  { buffer := s.buffer ++ writeIntLoop val size 0 }

/-- The vector `operator<<`: the size as `uint64_t`, then every item in order. -/
def Serializer.writeVector {α : Type} (item : Serializer → α → Serializer)
    (s : Serializer) (v : List α) : Serializer :=
  v.foldl item (s.writeInt 8 (v.length : Int))

/-- A `std::vector<uint8_t>`: every byte goes through the integral branch with
`sizeof(uint8_t) = 1`. -/
def Serializer.writeBytes (s : Serializer) (v : Bytes) : Serializer :=
  s.writeVector (fun (s : Serializer) (b : Nat) => s.writeInt 1 (b : Int)) v

/-- The deserialization cursor over a constant buffer. -/
structure Deserializer where
  buffer : Bytes
  pos : Nat
deriving DecidableEq, Repr

/-- The test `pos + len > buffer.size()` of the decoder, in `size_t` arithmetic. -/
def Deserializer.underflow (d : Deserializer) (len : Nat) : Bool :=
  decide ((d.pos + len) % 2 ^ 64 > d.buffer.length)

/-- What a call of a read of the decoder does: it throws
`std::runtime_error("Deserialize underflow")` and leaves the object `obj`, or its
behaviour is undefined, or it returns with a value and leaves the object `obj`. -/
inductive ReadResult (α : Type) where
  | throws (obj : Deserializer)
  | undefined
  | returns (value : α) (obj : Deserializer)
deriving DecidableEq

/-- The method `Deserializer::read(dest, len)`. The test `pos + len > buffer.size()`
is computed in `size_t` and comes before the copy and before `pos += len`. When the
sum wraps and the test does not throw, the iterators `buffer.begin() + pos` and
`buffer.begin() + pos + len` handed to `std::copy` are not a range of the buffer, which
is undefined. Else the bytes `buffer[pos .. pos+len)` go to `dest` and `pos` advances
by `len`. -/
def Deserializer.read (d : Deserializer) (len : Nat) : ReadResult Bytes :=
  if d.underflow len then .throws d
  else if d.pos + len ≥ 2 ^ 64 then .undefined
  else .returns ((d.buffer.drop d.pos).take len) { d with pos := d.pos + len }

/-- The loop `obj |= static_cast<T>(buffer[pos++]) << (i * 8)` with `n` iterations
left at index `i`; returns the bit pattern of `obj` and the new `pos`. -/
def readIntLoop (buffer : Bytes) : Nat → Nat → Nat → Nat → Nat × Nat
  | 0, _, pos, obj => (obj, pos)
  | n + 1, i, pos, obj =>
    readIntLoop buffer n (i + 1) (pos + 1) (obj ||| (buffer.getD pos 0 <<< (i * 8)))

/-- The integral branch of `Deserializer::operator>>` for a type of `size` bytes:
the bit pattern read, as an unsigned number. -/
def Deserializer.readInt (d : Deserializer) (size : Nat) : Option (Nat × Deserializer) :=
  if d.pos + size > d.buffer.length then none
  else
    let r := readIntLoop d.buffer size 0 d.pos 0
    some (r.1, { d with pos := r.2 })

/-- The value of a `size`-byte two's complement bit pattern as a signed integer. -/
def asSigned (size : Nat) (raw : Nat) : Int :=
  if raw < 2 ^ (8 * size - 1) then (raw : Int) else (raw : Int) - 2 ^ (8 * size)

/-- The integral branch of `Deserializer::operator>>` for a signed type. -/
def Deserializer.readSigned (d : Deserializer) (size : Nat) : Option (Int × Deserializer) :=
  match d.readInt size with
  | none => none
  | some (raw, d1) => some (asSigned size raw, d1)

/-- The loop `for (i ...; i < size; ++i) d >> v[i]` with `n` items left. -/
def readItems {α : Type} (item : Deserializer → Option (α × Deserializer)) :
    Nat → Deserializer → Option (List α × Deserializer)
  | 0, d => some ([], d)
  | n + 1, d =>
    match item d with
    | none => none
    | some (x, d1) =>
      match readItems item n d1 with
      | none => none
      | some (xs, d2) => some (x :: xs, d2)

/-- The vector `operator>>`: read the `uint64_t` size, resize, read every item. -/
def Deserializer.readVector {α : Type} (item : Deserializer → Option (α × Deserializer))
    (d : Deserializer) : Option (List α × Deserializer) :=
  match d.readInt 8 with
  | none => none
  | some (size, d1) => readItems item size d1

/-- A `std::vector<uint8_t>`: every byte is read through the integral branch. -/
def Deserializer.readBytes (d : Deserializer) : Option (Bytes × Deserializer) :=
  d.readVector (fun d => d.readInt 1)

/-- Reading a `uint256` with `d.read(h.data.data(), h.data.size())`. -/
def Deserializer.readHash (d : Deserializer) : Option (uint256 × Deserializer) :=
  if h : d.pos + 32 > d.buffer.length then none
  else some (⟨(d.buffer.drop d.pos).take 32, by
    rw [List.length_take, List.length_drop]; omega⟩, { d with pos := d.pos + 32 })

/-! ## chain/tx.hpp -/

/-- A transaction input. -/
structure TxIn where
  prevout_hash : uint256
  prevout_n : Nat
  scriptSig : Bytes
  sequence : Nat
deriving DecidableEq

/-- The constructor `TxIn() : prevout_n(0), sequence(0xFFFFFFFF)`. -/
def TxIn.default : TxIn :=
  { prevout_hash := uint256.zero, prevout_n := 0, scriptSig := [], sequence := 0xFFFFFFFF }

/-- The method `TxIn::Serialize`. -/
def TxIn.Serialize (s : Serializer) (x : TxIn) : Serializer :=
  (((s.write x.prevout_hash.data).writeInt 4 (x.prevout_n : Int)).writeBytes
    x.scriptSig).writeInt 4 (x.sequence : Int)

/-- The method `TxIn::Deserialize`. -/
def TxIn.Deserialize (d : Deserializer) : Option (TxIn × Deserializer) :=
  match d.readHash with
  | none => none
  | some (prevout_hash, d1) =>
    match d1.readInt 4 with
    | none => none
    | some (prevout_n, d2) =>
      match d2.readBytes with
      | none => none
      | some (scriptSig, d3) =>
        match d3.readInt 4 with
        | none => none
        | some (sequence, d4) => some (⟨prevout_hash, prevout_n, scriptSig, sequence⟩, d4)

/-- A transaction output. -/
structure TxOut where
  value : Int
  scriptPubKey : Bytes
deriving DecidableEq

/-- The constructor `TxOut() : value(-1)`. -/
def TxOut.default : TxOut := { value := -1, scriptPubKey := [] }

/-- The method `TxOut::Serialize`. -/
def TxOut.Serialize (s : Serializer) (x : TxOut) : Serializer :=
  (s.writeInt 8 x.value).writeBytes x.scriptPubKey

/-- The method `TxOut::Deserialize`. -/
def TxOut.Deserialize (d : Deserializer) : Option (TxOut × Deserializer) :=
  match d.readSigned 8 with
  | none => none
  | some (value, d1) =>
    match d1.readBytes with
    | none => none
    | some (scriptPubKey, d2) => some (⟨value, scriptPubKey⟩, d2)

/-- A transaction. -/
structure Transaction where
  version : Int
  vin : List TxIn
  vout : List TxOut
  lockTime : Nat
deriving DecidableEq

/-- The constructor `Transaction() : version(1), lockTime(0)`. -/
def Transaction.default : Transaction := { version := 1, vin := [], vout := [], lockTime := 0 }

/-- The method `Transaction::Serialize`. -/
def Transaction.Serialize (s : Serializer) (x : Transaction) : Serializer :=
  ((((s.writeInt 4 x.version).writeVector TxIn.Serialize x.vin).writeVector
    TxOut.Serialize x.vout).writeInt 4 (x.lockTime : Int))

/-- The method `Transaction::Deserialize`. -/
def Transaction.Deserialize (d : Deserializer) : Option (Transaction × Deserializer) :=
  match d.readSigned 4 with
  | none => none
  | some (version, d1) =>
    match d1.readVector TxIn.Deserialize with
    | none => none
    | some (vin, d2) =>
      match d2.readVector TxOut.Deserialize with
      | none => none
      | some (vout, d3) =>
        match d3.readInt 4 with
        | none => none
        | some (lockTime, d4) => some (⟨version, vin, vout, lockTime⟩, d4)

/-- The method `Transaction::GetHash` (tx.cpp): `Hash256` of the serialization. -/
def Transaction.GetHash (sha : Bytes → uint256) (x : Transaction) : uint256 :=
  Hash256 sha (Transaction.Serialize ⟨[]⟩ x).buffer

/-! ## chain/block.hpp -/

/-- A block header. -/
structure BlockHeader where
  version : Int
  prev_block : uint256
  merkle_root : uint256
  timestamp : Nat
  bits : Nat
  nonce : Nat
deriving DecidableEq

/-- The constructor `BlockHeader() : version(1), timestamp(0), bits(0), nonce(0)`. -/
def BlockHeader.default : BlockHeader :=
  { version := 1, prev_block := uint256.zero, merkle_root := uint256.zero,
    timestamp := 0, bits := 0, nonce := 0 }

/-- The method `BlockHeader::Serialize`. -/
def BlockHeader.Serialize (s : Serializer) (x : BlockHeader) : Serializer :=
  ((((((s.writeInt 4 x.version).write x.prev_block.data).write x.merkle_root.data).writeInt 4
    (x.timestamp : Int)).writeInt 4 (x.bits : Int)).writeInt 4 (x.nonce : Int))

/-- The method `BlockHeader::Deserialize`. -/
def BlockHeader.Deserialize (d : Deserializer) : Option (BlockHeader × Deserializer) :=
  match d.readSigned 4 with
  | none => none
  | some (version, d1) =>
    match d1.readHash with
    | none => none
    | some (prev_block, d2) =>
      match d2.readHash with
      | none => none
      | some (merkle_root, d3) =>
        match d3.readInt 4 with
        | none => none
        | some (timestamp, d4) =>
          match d4.readInt 4 with
          | none => none
          | some (bits, d5) =>
            match d5.readInt 4 with
            | none => none
            | some (nonce, d6) =>
              some (⟨version, prev_block, merkle_root, timestamp, bits, nonce⟩, d6)

/-- The method `BlockHeader::GetHash` (block.cpp): `Hash256` of the serialization. -/
def BlockHeader.GetHash (sha : Bytes → uint256) (x : BlockHeader) : uint256 :=
  Hash256 sha (BlockHeader.Serialize ⟨[]⟩ x).buffer

/-- A block: header and transactions. -/
structure Block where
  header : BlockHeader
  vtx : List Transaction
deriving DecidableEq

/-- The implicit constructor `Block()`. -/
def Block.default : Block := { header := BlockHeader.default, vtx := [] }

/-- The method `Block::Serialize`. -/
def Block.Serialize (s : Serializer) (x : Block) : Serializer :=
  (BlockHeader.Serialize s x.header).writeVector Transaction.Serialize x.vtx

/-- The method `Block::Deserialize`. -/
def Block.Deserialize (d : Deserializer) : Option (Block × Deserializer) :=
  match BlockHeader.Deserialize d with
  | none => none
  | some (header, d1) =>
    match d1.readVector Transaction.Deserialize with
    | none => none
    | some (vtx, d2) => some (⟨header, vtx⟩, d2)

/-! ## Value ranges of the C++ field types -/

/-- A byte vector: fewer than `2^64` elements, each a `uint8_t`. -/
def bytesWf (v : Bytes) : Prop := v.length < 2 ^ 64 ∧ ∀ b ∈ v, b < 256

/-- Field ranges of a `TxIn`: `uint32_t prevout_n`, `uint32_t sequence`. -/
def TxIn.wf (x : TxIn) : Prop :=
  x.prevout_n < 2 ^ 32 ∧ bytesWf x.scriptSig ∧ x.sequence < 2 ^ 32

/-- Field ranges of a `TxOut`: `int64_t value`. -/
def TxOut.wf (x : TxOut) : Prop :=
  (-(2 ^ 63 : Int) ≤ x.value ∧ x.value < 2 ^ 63) ∧ bytesWf x.scriptPubKey

/-- Field ranges of a `Transaction`: `int32_t version`, `uint32_t lockTime`. -/
def Transaction.wf (x : Transaction) : Prop :=
  (-(2 ^ 31 : Int) ≤ x.version ∧ x.version < 2 ^ 31) ∧
  (x.vin.length < 2 ^ 64 ∧ ∀ i ∈ x.vin, i.wf) ∧
  (x.vout.length < 2 ^ 64 ∧ ∀ o ∈ x.vout, o.wf) ∧ x.lockTime < 2 ^ 32

/-- Field ranges of a `BlockHeader`. -/
def BlockHeader.wf (x : BlockHeader) : Prop :=
  (-(2 ^ 31 : Int) ≤ x.version ∧ x.version < 2 ^ 31) ∧
  x.timestamp < 2 ^ 32 ∧ x.bits < 2 ^ 32 ∧ x.nonce < 2 ^ 32

/-- Field ranges of a `Block`. -/
def Block.wf (x : Block) : Prop :=
  x.header.wf ∧ x.vtx.length < 2 ^ 64 ∧ ∀ t ∈ x.vtx, t.wf

/-! ## std::map -/

namespace StdMap

variable {K V : Type}

/-- The lookup `m.find(k)` of a `std::map` ordered by `lt`: descend to the first key
that is not less than `k` and return its value when `k` is not less than it. -/
def find (lt : K → K → Bool) (k : K) : List (K × V) → Option V
  | [] => none
  | (k', v') :: m =>
    if lt k' k then find lt k m else if lt k k' then none else some v'

/-- The assignment `m[k] = v` of a `std::map` ordered by `lt`: a new entry at its
place in key order, or the value of the existing entry replaced. -/
def insert (lt : K → K → Bool) (k : K) (v : V) : List (K × V) → List (K × V)
  | [] => [(k, v)]
  | (k', v') :: m =>
    if lt k' k then (k', v') :: insert lt k v m
    else if lt k k' then (k, v) :: (k', v') :: m
    else (k', v) :: m

/-- The removal `m.erase(k)` of a `std::map` ordered by `lt`. -/
def erase (lt : K → K → Bool) (k : K) : List (K × V) → List (K × V)
  | [] => []
  | (k', v') :: m =>
    if lt k' k then (k', v') :: erase lt k m
    else if lt k k' then (k', v') :: m
    else m

/-- The comparison `lt` is a strict total order. -/
structure StrictOrder (lt : K → K → Bool) : Prop where
  irrefl : ∀ a, lt a a = false
  trans : ∀ a b c, lt a b = true → lt b c = true → lt a c = true
  total : ∀ a b, lt a b = false → lt b a = false → a = b

/-- The keys of a map are strictly ascending. -/
def Sorted (lt : K → K → Bool) (m : List (K × V)) : Prop :=
  List.Pairwise (fun a b => lt a.1 b.1 = true) m

end StdMap

/-! ## chain/blockchain.hpp -/

/-- The index entry of an accepted block. -/
structure BlockIndex where
  hash : uint256
  header : BlockHeader
  height : Int
deriving DecidableEq

/-- The constructor `BlockIndex(block, h) : header(block.header), height(h)` with
`hash = header.GetHash()`. -/
def BlockIndex.create (sha : Bytes → uint256) (block : Block) (h : Int) : BlockIndex :=
  { hash := block.header.GetHash sha, header := block.header, height := h }

/-- A reference to a transaction output. -/
structure OutPoint where
  hash : uint256
  n : Nat
deriving DecidableEq

/-- The `OutPoint::operator<`. -/
def OutPoint.lt (a b : OutPoint) : Bool :=
  if a.hash != b.hash then bytesLt a.hash.data b.hash.data else decide (a.n < b.n)

/-- An unspent output. -/
structure UTXO where
  out : TxOut
deriving DecidableEq

/-- The state of a `BlockChain` object (`chain`, `blockIndexMap`, `blockData`,
`utxoSet`) together with `disk`, the content of the file `blockchain.dat`. -/
structure BlockChain where
  chain : List BlockIndex
  blockIndexMap : List (uint256 × BlockIndex)
  blockData : List (uint256 × Block)
  utxoSet : List (OutPoint × UTXO)
  disk : Bytes
deriving DecidableEq

/-- The constructor `BlockChain()`, with an empty `blockchain.dat`. -/
def BlockChain.empty : BlockChain :=
  { chain := [], blockIndexMap := [], blockData := [], utxoSet := [], disk := [] }

/-! ## chain/blockchain.cpp -/

/-- The merkle computation of `ValidateBlock`: the hash of the only transaction, or
`Hash256` of all transaction hashes written one after the other. -/
def computeMerkle (sha : Bytes → uint256) (vtx : List Transaction) : uint256 :=
  if vtx.length = 1 then (vtx.getD 0 Transaction.default).GetHash sha
  else Hash256 sha (vtx.foldl (fun (mer : Serializer) tx => mer.write (tx.GetHash sha).data)
    ⟨[]⟩).buffer

/-- The method `BlockChain::ValidateBlock`. -/
def BlockChain.ValidateBlock (sha : Bytes → uint256) (c : BlockChain) (block : Block) : Bool :=
  let hash := block.header.GetHash sha
  if hash.data.getD 0 0 ≠ 0 ∨ hash.data.getD 1 0 ≠ 0 then
    if c.chain.isEmpty then true else false
  else if block.vtx.isEmpty then false
  else if block.header.merkle_root ≠ computeMerkle sha block.vtx then false
  else true

/-- The loop "Spend inputs" of `AddBlock`. -/
def spendInputs (utxoSet : List (OutPoint × UTXO)) (vin : List TxIn) : List (OutPoint × UTXO) :=
  vin.foldl (fun u i =>
    if i.prevout_hash ≠ uint256.zero then
      StdMap.erase OutPoint.lt ⟨i.prevout_hash, i.prevout_n⟩ u
    else u) utxoSet

/-- The loop "Create new outputs" of `AddBlock`, at output index `i` with the outputs
`vout` still to go: `utxoSet[{txid, i}] = {tx.vout[i]}`. The index is a `uint32_t`;
a vector has fewer than `2^32` outputs, so it does not wrap. -/
def createOutputs (txid : uint256) :
    List TxOut → Nat → List (OutPoint × UTXO) → List (OutPoint × UTXO)
  | [], _, u => u
  | o :: vout, i, u => createOutputs txid vout (i + 1) (StdMap.insert OutPoint.lt ⟨txid, i⟩ ⟨o⟩ u)

/-- The loop "Update UTXO Set" of `AddBlock` (and of `LoadChain`). -/
def updateUTXO (sha : Bytes → uint256) (utxoSet : List (OutPoint × UTXO))
    (vtx : List Transaction) : List (OutPoint × UTXO) :=
  vtx.foldl (fun u tx => createOutputs (tx.GetHash sha) tx.vout 0 (spendInputs u tx.vin)) utxoSet

/-- The method `BlockChain::SaveBlock`: the serialized block is appended to
`blockchain.dat` (the file is taken to open). -/
def BlockChain.SaveBlock (c : BlockChain) (block : Block) : BlockChain :=
  { c with disk := c.disk ++ (Block.Serialize ⟨[]⟩ block).buffer }

/-- The state changes of an accepted block in `AddBlock`: the index is appended to
the chain and registered, the block is stored, the UTXO set is updated, the block is
saved. -/
def BlockChain.install (sha : Bytes → uint256) (c : BlockChain) (block : Block) : BlockChain :=
  let hash := block.header.GetHash sha
  let index := BlockIndex.create sha block c.chain.length
  BlockChain.SaveBlock
    { c with
      chain := c.chain ++ [index]
      blockIndexMap := StdMap.insert uint256.lt hash index c.blockIndexMap
      blockData := StdMap.insert uint256.lt hash block c.blockData
      utxoSet := updateUTXO sha c.utxoSet block.vtx } block

/-- The link check of `AddBlock`: `!chain.empty()` and
`block.header.prev_block != chain.back()->hash`. -/
def BlockChain.linkMismatch (c : BlockChain) (block : Block) : Bool :=
  match c.chain.getLast? with
  | some back => decide (block.header.prev_block ≠ back.hash)
  | none => false

/-- The method `BlockChain::AddBlock`: the returned flag and the state afterwards. -/
def BlockChain.AddBlock (sha : Bytes → uint256) (c : BlockChain) (block : Block) :
    Bool × BlockChain :=
  let hash := block.header.GetHash sha
  if (StdMap.find uint256.lt hash c.blockIndexMap).isSome then (false, c)
  else if ¬ c.ValidateBlock sha block then (false, c)
  else if c.linkMismatch block then (false, c)
  else (true, c.install sha block)

/-- The method `BlockChain::GetHeight`. -/
def BlockChain.GetHeight (c : BlockChain) : Int := (c.chain.length : Int) - 1

/-- The method `BlockChain::GetBestHash`. -/
def BlockChain.GetBestHash (c : BlockChain) : uint256 :=
  match c.chain.getLast? with
  | none => uint256.zero
  | some back => back.hash

/-- The method `BlockChain::GetIndex`; `nullptr` is `none`. -/
def BlockChain.GetIndex (c : BlockChain) (hash : uint256) : Option BlockIndex :=
  StdMap.find uint256.lt hash c.blockIndexMap

/-- The method `BlockChain::GetBlock`. -/
def BlockChain.GetBlock (c : BlockChain) (hash : uint256) : Block :=
  match StdMap.find uint256.lt hash c.blockData with
  | some b => b
  | none => Block.default

/-- The method `BlockChain::GetBlockByHeight`. -/
def BlockChain.GetBlockByHeight (c : BlockChain) (height : Int) : Block :=
  if height < 0 ∨ height ≥ (c.chain.length : Int) then Block.default
  else
    match c.chain[height.toNat]? with
    | none => Block.default
    | some e =>
      match StdMap.find uint256.lt e.hash c.blockData with
      | none => Block.default
      | some b => b

/-- The chain states reached from a fresh `BlockChain` by calls of `AddBlock`. -/
inductive Reachable (sha : Bytes → uint256) : BlockChain → Prop
  | empty : Reachable sha BlockChain.empty
  | add (c : BlockChain) (block : Block) :
      Reachable sha c → Reachable sha (c.AddBlock sha block).2

/-! ## chain/genesis.cpp -/

/-- The coinbase text `pszTimestamp`. -/
def pszTimestamp : Bytes :=
  List.map Char.toNat (String.toList "2026-01-08 Aurelis Republic Established")

/-- The function `Genesis::CreateGenesisBlock`; the address string is given by its bytes. -/
def CreateGenesisBlock (sha : Bytes → uint256) (nTime nNonce nBits : Nat) (nVersion : Int)
    (genesisReward : Int) (rewardAddress : Bytes) : Block :=
  let txNew : Transaction :=
    { version := 1
      vin := [{ TxIn.default with scriptSig := pszTimestamp }]
      vout := [{ TxOut.default with
        value := genesisReward
        scriptPubKey := if ¬ rewardAddress.isEmpty then rewardAddress else [] }]
      lockTime := 0 }
  { header :=
      { version := nVersion
        prev_block := uint256.zero
        merkle_root := txNew.GetHash sha
        timestamp := nTime
        bits := nBits
        nonce := nNonce }
    vtx := [txNew] }

/-- The bytes a serialization method appends to an empty buffer. -/
def bytesOf {α : Type} (ser : Serializer → α → Serializer) (x : α) : Bytes :=
  (ser ⟨[]⟩ x).buffer

/-- Concatenation of the encodings of the items of a vector. -/
def encAll {α : Type} (enc : α → Bytes) : List α → Bytes
  | [] => []
  | x :: xs => enc x ++ encAll enc xs

/-- `Reads dec x enc`: on every buffer whose unread part starts with `enc`, the decoder
`dec` succeeds with `x` and advances the cursor by exactly `enc.length`. -/
def Reads {α : Type} (dec : Deserializer → Option (α × Deserializer)) (x : α)
    (enc : Bytes) : Prop :=
  ∀ (buffer : Bytes) (pos : Nat) (rest : Bytes), buffer.drop pos = enc ++ rest →
    dec ⟨buffer, pos⟩ = some (x, ⟨buffer, pos + enc.length⟩)

/-- `Appends ser`: the serialization method only appends to the buffer, and what it
appends does not depend on the buffer. -/
def Appends {α : Type} (ser : Serializer → α → Serializer) : Prop :=
  ∀ (s : Serializer) (x : α), (ser s x).buffer = s.buffer ++ bytesOf ser x

/-- The little-endian value of a byte list. -/
def leValue : Bytes → Nat
  | [] => 0
  | b :: bs => b + 256 * leValue bs

/-! ## Class invariant and sample values -/

instance (v : Bytes) : Decidable (bytesWf v) := by
  unfold bytesWf; infer_instance

instance (x : TxIn) : Decidable x.wf := by
  unfold TxIn.wf; infer_instance

instance (x : TxOut) : Decidable x.wf := by
  unfold TxOut.wf; infer_instance

instance (x : Transaction) : Decidable x.wf := by
  unfold Transaction.wf; infer_instance

instance (x : BlockHeader) : Decidable x.wf := by
  unfold BlockHeader.wf; infer_instance

instance (x : Block) : Decidable x.wf := by
  unfold Block.wf; infer_instance

/-- The maps follow the chain: every chain entry is registered in `blockIndexMap`
under its hash, and every key of `blockData` is a key of `blockIndexMap`. `AddBlock`
and `LoadChain` write the chain and both maps together, so an object of the class is
always in such a state. -/
def BlockChain.Indexed (c : BlockChain) : Prop :=
  (∀ e ∈ c.chain, (StdMap.find uint256.lt e.hash c.blockIndexMap).isSome = true) ∧
  (∀ h, (StdMap.find uint256.lt h c.blockData).isSome = true →
    (StdMap.find uint256.lt h c.blockIndexMap).isSome = true)

/-- The calls `AddBlock(b)` for the blocks of a list, in order. -/
def addBlocks (sha : Bytes → uint256) (c : BlockChain) (blocks : List Block) : BlockChain :=
  blocks.foldl (fun c b => (c.AddBlock sha b).2) c

/-- The constant `RESERVE_ADDRESS` of `main.cpp`, as bytes. -/
def RESERVE_ADDRESS : Bytes :=
  List.map Char.toNat (String.toList "AUR131FCE87dAe14b2A9568D0146950125Fe217Bf0e")

/-- The genesis block built in `main.cpp`. -/
def mainGenesis : Block :=
  CreateGenesisBlock sha256 1767916800 0 0x1e00ffff 1 (2500 * 100000000) RESERVE_ADDRESS

/-- The coinbase that the block-found callback of `main.cpp` puts into the next
template. -/
def sampleCoinbase : Transaction :=
  (CreateGenesisBlock sha256 0 0 0 0 (2500 * 100000000) RESERVE_ADDRESS).vtx.getD 0
    Transaction.default

/-- A sample transaction that spends output 0 of `sampleCoinbase`. -/
def sampleSpend : Transaction :=
  { version := 1
    vin := [{ prevout_hash := sampleCoinbase.GetHash sha256, prevout_n := 0, scriptSig := [],
              sequence := 0xFFFFFFFF }]
    vout := [⟨1000, [65, 85, 82, 98, 111, 98]⟩, ⟨2500 * 100000000 - 1000, RESERVE_ADDRESS⟩]
    lockTime := 0 }

/-- A sample block on top of `mainGenesis`; with the nonce 46620 its header hash
starts with two zero bytes. -/
def sampleBlock1 : Block :=
  { header :=
      { version := 1
        prev_block := mainGenesis.header.GetHash sha256
        merkle_root := computeMerkle sha256 [sampleCoinbase, sampleSpend]
        timestamp := 1767916860
        bits := 0x1e00ffff
        nonce := 46620 }
    vtx := [sampleCoinbase, sampleSpend] }

/-- A sample block without transactions whose `prev_block` is `0xFF…FF`. -/
def sampleOrphan : Block :=
  { header := { BlockHeader.default with prev_block := ⟨List.replicate 32 255, rfl⟩ }
    vtx := [] }

/-- A sample transaction with negative fields and empty sequences. -/
def sampleOddTx : Transaction :=
  { version := -2
    vin := [{ TxIn.default with scriptSig := [] }]
    vout := [⟨-1, []⟩, ⟨-9223372036854775808, [0, 255]⟩]
    lockTime := 4294967295 }

/-- A sample block with negative fields and a transaction without inputs and outputs. -/
def sampleOddBlock : Block :=
  { header :=
      { version := -2147483648
        prev_block := uint256.zero
        merkle_root := ⟨List.replicate 32 255, rfl⟩
        timestamp := 4294967295
        bits := 0
        nonce := 1 }
    vtx := [sampleOddTx, Transaction.default] }

/-! ## The UTXO rule in the words of the specification -/

/-- Apply for one transaction as the specification words it: first remove
`(in.prevout_hash, in.prevout_n)` for every input whose `prevout_hash` is non-zero (an
input with zero `prevout_hash` removes nothing), then set `(hash(t), j) ↦ t.outputs[j]`
for every output index `j`. -/
def specApplyTx (sha : Bytes → uint256) (U : List (OutPoint × UTXO)) (t : Transaction) :
    List (OutPoint × UTXO) :=
  let spent := t.vin.foldl (fun U i =>
    if i.prevout_hash = uint256.zero then U
    else StdMap.erase OutPoint.lt ⟨i.prevout_hash, i.prevout_n⟩ U) U
  (List.range t.vout.length).foldl (fun U j =>
    match t.vout[j]? with
    | some o => StdMap.insert OutPoint.lt ⟨t.GetHash sha, j⟩ ⟨o⟩ U
    | none => U) spent

/-- Apply for a block as the specification words it: its transactions in block order. -/
def specApply (sha : Bytes → uint256) (U : List (OutPoint × UTXO)) (block : Block) :
    List (OutPoint × UTXO) :=
  block.vtx.foldl (specApplyTx sha) U

/-- The blocks of the chain from height 0 to the tip, as `GetBlockByHeight` returns
them. -/
def BlockChain.chainBlocks (c : BlockChain) : List Block :=
  (List.range c.chain.length).map (fun (h : Nat) => c.GetBlockByHeight (h : Int))

/-! ## chain/mempool.cpp -/

/-- The state of a `Mempool` object: the map `pool`. -/
structure Mempool where
  pool : List (uint256 × Transaction)
deriving DecidableEq

/-- The constructor `Mempool()`. -/
def Mempool.empty : Mempool := { pool := [] }

/-- The four bytes of the string literal `MINT`. -/
def MINT : Bytes := [77, 73, 78, 84]

/-- The method `Mempool::ValidateTransaction`; `memcmp(scriptSig.data(), "MINT", 4)`
compares the first four bytes. -/
def Mempool.ValidateTransaction (tx : Transaction) : Bool :=
  if tx.vout.isEmpty then false
  else if tx.vout.any (fun out => decide (out.value ≤ 0)) then false
  else
    let isMint : Bool :=
      decide (tx.vin.length = 1) &&
      decide ((tx.vin.getD 0 TxIn.default).scriptSig.length = 4) &&
      decide ((tx.vin.getD 0 TxIn.default).scriptSig.take 4 = MINT)
    if !isMint && decide (tx.vin.length = 1) &&
        decide ((tx.vin.getD 0 TxIn.default).prevout_hash = uint256.zero) then false
    else true

/-- The method `Mempool::AddTransaction`: the returned flag and the pool afterwards. -/
def Mempool.AddTransaction (sha : Bytes → uint256) (m : Mempool) (tx : Transaction) :
    Bool × Mempool :=
  let hash := tx.GetHash sha
  if (StdMap.find uint256.lt hash m.pool).isSome then (false, m)
  else if ¬ Mempool.ValidateTransaction tx then (false, m)
  else (true, { pool := StdMap.insert uint256.lt hash tx m.pool })

/-- The method `Mempool::GetTransactions`: the values of the map in key order. -/
def Mempool.GetTransactions (m : Mempool) : List Transaction :=
  m.pool.map Prod.snd

/-- The method `Mempool::RemoveTransactions`: `pool.erase(tx.GetHash())` for every
transaction of the list. -/
def Mempool.RemoveTransactions (sha : Bytes → uint256) (m : Mempool)
    (txs : List Transaction) : Mempool :=
  { pool := txs.foldl (fun p tx => StdMap.erase uint256.lt (tx.GetHash sha) p) m.pool }

/-- The method `Mempool::Size`. -/
def Mempool.Size (m : Mempool) : Nat := m.pool.length

/-- The method `Mempool::Contains`: `pool.count(hash) > 0`. -/
def Mempool.Contains (m : Mempool) (hash : uint256) : Bool :=
  (StdMap.find uint256.lt hash m.pool).isSome

/-- The mempool states reached from a fresh `Mempool` by calls of `AddTransaction` and
`RemoveTransactions`. -/
inductive MempoolReachable (sha : Bytes → uint256) : Mempool → Prop
  | empty : MempoolReachable sha Mempool.empty
  | add (m : Mempool) (tx : Transaction) :
      MempoolReachable sha m → MempoolReachable sha (m.AddTransaction sha tx).2
  | remove (m : Mempool) (txs : List Transaction) :
      MempoolReachable sha m → MempoolReachable sha (m.RemoveTransactions sha txs)

/-! ## chain/blockchain.cpp: queries and persistence -/

/-- The value of an `int64_t` after an addition: the sum reduced to the 64-bit two's
complement range. -/
def wrapInt64 (x : Int) : Int := asSigned 8 (x % 2 ^ 64).toNat

/-- The string `scriptAddr` of `GetBalance` and `GetUTXOs`: the bytes of a non-empty
`scriptPubKey`, else the empty string. -/
def scriptAddr (utxo : UTXO) : Bytes :=
  if ¬ utxo.out.scriptPubKey.isEmpty then utxo.out.scriptPubKey else []

/-- The method `BlockChain::GetBalance`; the address string is given by its bytes. -/
def BlockChain.GetBalance (c : BlockChain) (address : Bytes) : Int :=
  c.utxoSet.foldl (fun balance pair =>
    if scriptAddr pair.2 = address then wrapInt64 (balance + pair.2.out.value)
    else balance) 0

/-- The method `BlockChain::GetUTXOs`. -/
def BlockChain.GetUTXOs (c : BlockChain) (address : Bytes) : List (OutPoint × UTXO) :=
  c.utxoSet.foldl (fun results pair =>
    if scriptAddr pair.2 = address then results ++ [pair] else results) []

/-- The inner loop of `GetTransaction`: the first transaction of the block with the
hash. -/
def scanBlock (sha : Bytes → uint256) (hash : uint256) :
    List Transaction → Option Transaction
  | [] => none
  | tx :: vtx => if tx.GetHash sha = hash then some tx else scanBlock sha hash vtx

/-- The outer loop of `GetTransaction` over the chain entries from `rbegin()` on. -/
def getTransactionLoop (sha : Bytes → uint256) (blockData : List (uint256 × Block))
    (hash : uint256) : List BlockIndex → Option (Transaction × uint256)
  | [] => none
  | it :: rest =>
    match StdMap.find uint256.lt it.hash blockData with
    | some block =>
      match scanBlock sha hash block.vtx with
      | some tx => some (tx, block.header.GetHash sha)
      | none => getTransactionLoop sha blockData hash rest
    | none => getTransactionLoop sha blockData hash rest

/-- The method `BlockChain::GetTransaction`: the returned flag and the values of the
output arguments `outTx` and `outBlockHash` afterwards. -/
def BlockChain.GetTransaction (sha : Bytes → uint256) (c : BlockChain) (hash : uint256)
    (outTx : Transaction) (outBlockHash : uint256) : Bool × Transaction × uint256 :=
  match getTransactionLoop sha c.blockData hash c.chain.reverse with
  | some (tx, blockHash) => (true, tx, blockHash)
  | none => (false, outTx, outBlockHash)

/-- The state changes of `LoadChain` for one decoded block that is not skipped: the
index is appended and registered, the block is stored, the UTXO set is rebuilt. -/
def BlockChain.restore (sha : Bytes → uint256) (c : BlockChain) (block : Block) : BlockChain :=
  let hash := block.header.GetHash sha
  let index := BlockIndex.create sha block c.chain.length
  { c with
    chain := c.chain ++ [index]
    blockIndexMap := StdMap.insert uint256.lt hash index c.blockIndexMap
    blockData := StdMap.insert uint256.lt hash block c.blockData
    utxoSet := updateUTXO sha c.utxoSet block.vtx }

/-- The test `chain.size() > 0 && hash == chain[0]->hash` of `LoadChain`. -/
def BlockChain.isGenesisReplay (sha : Bytes → uint256) (c : BlockChain) (block : Block) : Bool :=
  match c.chain.head? with
  | some first => decide (block.header.GetHash sha = first.hash)
  | none => false

/-- The loop `while (d.pos < d.buffer.size())` of `LoadChain` inside its `try`: a
failed decode (an exception) ends the loop with the state reached. Every decoded
block moves the cursor forward, so `fuel` iterations suffice when `fuel` is the
buffer length. -/
def loadLoop (sha : Bytes → uint256) : Nat → Deserializer → BlockChain → BlockChain
  | 0, _, c => c
  | fuel + 1, d, c =>
    if d.pos < d.buffer.length then
      match Block.Deserialize d with
      | none => c
      | some (block, d1) =>
        if c.isGenesisReplay sha block then loadLoop sha fuel d1 c
        else loadLoop sha fuel d1 (c.restore sha block)
    else c

/-- The method `BlockChain::LoadChain` on the content `disk` of `blockchain.dat` (a
file that does not open is an empty one). -/
def BlockChain.LoadChain (sha : Bytes → uint256) (c : BlockChain) : BlockChain :=
  if c.disk.isEmpty then c
  else loadLoop sha (c.disk.length + 1) ⟨c.disk, 0⟩ c

/-- The log written for a list of blocks: their serializations one after the other. -/
def logOf (blocks : List Block) : Bytes :=
  encAll (bytesOf Block.Serialize) blocks

/-- A fresh `BlockChain` object started over the file content `log`. -/
def BlockChain.fresh (log : Bytes) : BlockChain :=
  { BlockChain.empty with disk := log }

/-- The processing of decoded blocks by `LoadChain`, block by block: a block whose
hash is that of `chain[0]` is skipped, every other block is restored. -/
def loadBlocks (sha : Bytes → uint256) (c : BlockChain) (blocks : List Block) : BlockChain :=
  blocks.foldl (fun c b => if c.isGenesisReplay sha b then c else c.restore sha b) c

/-! ## The wire format in the words of the specification -/

/-- Little-endian bytes of an integer on `n` bytes: byte `i` is the digit of weight
`256^i` (of the two's complement residue for a negative value). -/
def leBytes (n : Nat) (v : Int) : Bytes :=
  (List.range n).map (fun (i : Nat) => ((v / 256 ^ i) % 256).toNat)

/-! ## Further sample values -/

/-- The first block as the node's own template gives it with an empty mempool
(`block1Template = genesis` with `prev_block` the genesis hash, found at nonce 246):
its coinbase is the genesis coinbase. -/
def sampleTemplateBlock1 : Block :=
  { header :=
      { mainGenesis.header with
        prev_block := mainGenesis.header.GetHash sha256
        timestamp := 1767916815
        nonce := 246 }
    vtx := mainGenesis.vtx }

/-- A mint transaction as the RPC `mint` builds it: one input with zero prevout and
the `scriptSig` `MINT`, one output of value 1000. -/
def sampleMint : Transaction :=
  { version := 1
    vin := [{ TxIn.default with scriptSig := MINT }]
    vout := [⟨1000, RESERVE_ADDRESS⟩]
    lockTime := 0 }

/-- The same transaction with the `scriptSig` `FAKE`. -/
def sampleFake : Transaction :=
  { version := 1
    vin := [{ TxIn.default with scriptSig := [70, 65, 75, 69] }]
    vout := [⟨1000, RESERVE_ADDRESS⟩]
    lockTime := 0 }

/-- The search of `GetTransaction` over a list of blocks in the order visited: the
first block with a transaction of the hash gives that transaction (the first in the
block) and the hash of the block header. -/
def firstHit (sha : Bytes → uint256) (hash : uint256) :
    List Block → Option (Transaction × uint256)
  | [] => none
  | block :: rest =>
    match scanBlock sha hash block.vtx with
    | some tx => some (tx, block.header.GetHash sha)
    | none => firstHit sha hash rest

/-- `StableBy n dec`: a successful run of the decoder `dec` keeps the buffer, moves
the cursor forward by at least `n` and not beyond the end of the buffer, and is
repeated, with the same value and cursor, on every extension of the buffer. -/
def StableBy {α : Type} (n : Nat) (dec : Deserializer → Option (α × Deserializer)) : Prop :=
  ∀ (buf : Bytes) (pos : Nat) (x : α) (d1 : Deserializer), dec ⟨buf, pos⟩ = some (x, d1) →
    d1.buffer = buf ∧ pos + n ≤ d1.pos ∧ (pos ≤ buf.length → d1.pos ≤ buf.length) ∧
    ∀ ext : Bytes, dec ⟨buf ++ ext, pos⟩ = some (x, ⟨buf ++ ext, d1.pos⟩)

/-- One decoder after another: `k` continues from the value and the cursor that `dec`
returns, and a failure of `dec` is the failure of the whole. -/
def andThen {α β : Type} (dec : Deserializer → Option (α × Deserializer))
    (k : α → Deserializer → Option (β × Deserializer)) :
    Deserializer → Option (β × Deserializer) :=
  fun d =>
    match dec d with
    | none => none
    | some (a, d1) => k a d1

/-! ## util/serialize.hpp: the integral read as a step on the decoder object -/

/-- The integral branch of `Deserializer::operator>>` for `sizeof(T) = size` as a step
on the object: the test, in `size_t`, comes before the loop, which does `pos++` for
every byte and gives the bit pattern read. When the sum wraps and the test does not
throw, `buffer[pos++]` reads behind the buffer, which is undefined. -/
def Deserializer.readIntStep (d : Deserializer) (size : Nat) : ReadResult Nat :=
  if d.underflow size then .throws d
  else if d.pos + size ≥ 2 ^ 64 then .undefined
  else
    let r := readIntLoop d.buffer size 0 d.pos 0
    .returns r.1 { d with pos := r.2 }

/-! ## miner/miner.cpp -/

/-- The state that the workers of a `Miner` share: `targetBlock` and the
`std::atomic<int> workVersion`. -/
structure Miner where
  targetBlock : Block
  workVersion : Int
deriving DecidableEq

/-- The constructor `Miner(baseBlock, mp)`: `targetBlock(baseBlock)`, `workVersion(0)`. -/
def Miner.create (baseBlock : Block) : Miner :=
  { targetBlock := baseBlock, workVersion := 0 }

/-- The method `Miner::UpdateWork`, under `workMutex`: `targetBlock = baseBlock;
workVersion++`. The increment of the atomic `int` wraps. -/
def Miner.UpdateWork (m : Miner) (baseBlock : Block) : Miner :=
  { targetBlock := baseBlock
    workVersion := asSigned 4 ((m.workVersion + 1) % 2 ^ 32).toNat }

/-- The local variables of `Miner::MineWorker`. -/
structure Worker where
  myVersion : Int
  workBlock : Block
  nonceCounter : Int
deriving DecidableEq

/-- The initial values `int myVersion = -1; Block workBlock; int nonceCounter = 0;`. -/
def Worker.init : Worker :=
  { myVersion := -1, workBlock := Block.default, nonceCounter := 0 }

/-- The block "Update Merkle Root" of the refresh: the zero hash for no transaction,
the hash of the only transaction, or `Hash256` of all transaction hashes written one
after the other. -/
def minerMerkle (sha : Bytes → uint256) (vtx : List Transaction) : uint256 :=
  if vtx.isEmpty then uint256.zero
  else if vtx.length = 1 then (vtx.getD 0 Transaction.default).GetHash sha
  else Hash256 sha (vtx.foldl (fun (mer : Serializer) tx => mer.write (tx.GetHash sha).data)
    ⟨[]⟩).buffer

/-- The refresh of `MineWorker`, the body of `if (myVersion != workVersion ||
nonceCounter >= 100000)`. It runs under `workMutex`, which `UpdateWork` also takes, so
`targetBlock` and `workVersion` are those of one state `m` of the miner throughout. All
three locals are assigned. The loop `for (i = 0; i < extraTxs.size() && i < 100; ++i)`
appends the first 100 transactions of the snapshot. The product
`threadId * 100000000` is an `int` stored into the `uint32_t` nonce. -/
def refresh (sha : Bytes → uint256) (threadId : Int) (m : Miner) (mempool : Mempool) :
    Worker :=
  let workBlock := m.targetBlock
  let myVersion := m.workVersion
  let nonceCounter := 0
  let extraTxs := mempool.GetTransactions
  let workBlock := { workBlock with vtx := workBlock.vtx ++ extraTxs.take 100 }
  let workBlock := { workBlock with
    header := { workBlock.header with merkle_root := minerMerkle sha workBlock.vtx } }
  let workBlock :=
    if myVersion ≠ m.workVersion then
      { workBlock with
        header := { workBlock.header with nonce := ((threadId * 100000000) % 2 ^ 32).toNat } }
    else workBlock
  { myVersion := myVersion, workBlock := workBlock, nonceCounter := nonceCounter }

/-- The condition of the refresh, `myVersion != workVersion || nonceCounter >= 100000`;
`seen` is the value of `workVersion` that this read, before the lock is taken, gives. -/
def refreshes (seen : Int) (w : Worker) : Bool :=
  decide (w.myVersion ≠ seen ∨ w.nonceCounter ≥ 100000)

/-- The first part of one pass through the loop of `MineWorker`: the refresh, when its
condition holds. The result holds the locals at the point where the header is hashed. -/
def prepare (sha : Bytes → uint256) (threadId : Int) (seen : Int) (m : Miner)
    (mempool : Mempool) (w : Worker) : Worker :=
  if refreshes seen w then refresh sha threadId m mempool else w

/-- The difficulty test of `MineWorker`: `hash.data[0] == 0 && hash.data[1] == 0` for
the hash of the header of the work block. -/
def found (sha : Bytes → uint256) (w : Worker) : Bool :=
  let hash := w.workBlock.header.GetHash sha
  decide (hash.data.getD 0 0 = 0 ∧ hash.data.getD 1 0 = 0)

/-- The second part of one pass through the loop of `MineWorker`: hash the header; on
a hit hand the work block to the block-found callback and set `myVersion = -1`; then
`workBlock.header.nonce++` (a `uint32_t`) and `nonceCounter++`. Returns the locals
after the pass and the block handed to the callback, if any. -/
def advance (sha : Bytes → uint256) (w : Worker) : Worker × Option Block :=
  let hit := found sha w
  ({ myVersion := if hit then -1 else w.myVersion
     workBlock := { w.workBlock with
       header := { w.workBlock.header with nonce := (w.workBlock.header.nonce + 1) % 2 ^ 32 } }
     nonceCounter := w.nonceCounter + 1 },
    if hit then some w.workBlock else none)

/-- One pass through the loop `while (running)` of `MineWorker`. -/
def iteration (sha : Bytes → uint256) (threadId : Int) (seen : Int) (m : Miner)
    (mempool : Mempool) (w : Worker) : Worker × Option Block :=
  advance sha (prepare sha threadId seen m mempool w)

/-- What a worker meets in one pass: the value `seen` of `workVersion` read by the
refresh condition, and the miner state and the mempool at the time of the lock. The
other threads (`UpdateWork`, the RPC server) change them between passes. -/
structure Pass where
  seen : Int
  miner : Miner
  mempool : Mempool

/-- The history of a worker: its locals, the template copied at its last refresh, and
the blocks handed to the callback so far, each with the template of the last refresh
before it. -/
structure Trace where
  worker : Worker
  template : Option Block
  emitted : List (Block × Option Block)

/-- The start of `MineWorker`: no refresh yet, nothing handed to the callback. -/
def Trace.init : Trace := { worker := Worker.init, template := none, emitted := [] }

/-- One pass of the worker, recorded in its history. -/
def Trace.step (sha : Bytes → uint256) (threadId : Int) (t : Trace) (p : Pass) : Trace :=
  let template := if refreshes p.seen t.worker then some p.miner.targetBlock else t.template
  let r := iteration sha threadId p.seen p.miner p.mempool t.worker
  { worker := r.1
    template := template
    emitted :=
      match r.2 with
      | some b => t.emitted ++ [(b, template)]
      | none => t.emitted }

/-- The history of the worker with thread id `threadId` after the given passes. -/
def runWorker (sha : Bytes → uint256) (threadId : Int) (passes : List Pass) : Trace :=
  passes.foldl (Trace.step sha threadId) Trace.init

/-- The template of `main.cpp` for the first block: the genesis block with `prev_block`
the genesis hash and nonce 0 (here with the timestamp of `sampleTemplateBlock1`). -/
def sampleTemplate : Block :=
  { sampleTemplateBlock1 with header := { sampleTemplateBlock1.header with nonce := 0 } }

/-! ## util/hex.hpp and the hex methods of util/hash.hpp -/

/-- The bytes of a string literal of the source. -/
def ascii (s : String) : Bytes := s.toList.map Char.toNat

/-- The function `isspace` in the "C" locale. -/
def isSpace (c : Nat) : Bool := decide (c = 32 ∨ (9 ≤ c ∧ c ≤ 13))

/-- The value of a hexadecimal digit, upper or lower case. -/
def hexVal (c : Nat) : Option Nat :=
  if 48 ≤ c ∧ c ≤ 57 then some (c - 48)
  else if 97 ≤ c ∧ c ≤ 102 then some (c - 87)
  else if 65 ≤ c ∧ c ≤ 70 then some (c - 55)
  else none

/-- The call `strtol(s.c_str(), nullptr, 16)` for a `long` of 64 bits: the C string
ends at the first NUL; white space, then an optional sign, then an optional `0x` before
a digit are skipped; the digits that follow give the value, 0 when there is none; the
result is clamped to the range of `long`. -/
def strtol16 (s : Bytes) : Int :=
  let s0 := s.takeWhile (fun c => decide (c ≠ 0))
  let s1 := s0.dropWhile isSpace
  let neg : Bool := decide (s1.head? = some 45)
  let s2 := if s1.head? = some 45 ∨ s1.head? = some 43 then s1.drop 1 else s1
  let s3 :=
    match s2 with
    | 48 :: x :: d :: r => if (x = 120 ∨ x = 88) ∧ (hexVal d).isSome then d :: r else s2
    | _ => s2
  let digits := (s3.takeWhile (fun c => (hexVal c).isSome)).map (fun c => (hexVal c).getD 0)
  let v : Int := digits.foldl (fun (acc : Int) (d : Nat) => acc * 16 + (d : Int)) 0
  if neg then max (-v) (-(2 ^ 63)) else min v (2 ^ 63 - 1)

/-- The conversion `(uint8_t)` of a `long`. -/
def toUint8 (v : Int) : Nat := (v % 256).toNat

/-- The loop `for (i = 0; i < hex.length(); i += 2)` of `HexUtil::Decode` (and of
`uint256::SetHex`): the byte `(uint8_t) strtol(hex.substr(i, 2).c_str(), NULL, 16)` for
every pair of characters, the last one alone when the length is odd. -/
def hexBytes : Bytes → Bytes
  | [] => []
  | [a] => [toUint8 (strtol16 [a])]
  | a :: b :: rest => toUint8 (strtol16 [a, b]) :: hexBytes rest

/-- The function `HexUtil::Decode`. -/
def HexUtil.Decode (hex : Bytes) : Bytes := hexBytes hex

/-- A hexadecimal digit in lower case, as `std::hex` prints it. -/
def hexDigit (n : Nat) : Nat := if n < 10 then 48 + n else 87 + n

/-- The output of `ss << std::setw(2) << (int)byte` under `std::hex` and
`std::setfill('0')`: two digits. -/
def hexByte (b : Nat) : Bytes := [hexDigit (b / 16), hexDigit (b % 16)]

/-- The function `HexUtil::Encode`. -/
def HexUtil.Encode (bytes : Bytes) : Bytes := encAll hexByte bytes

/-- The method `uint256::ToString`. -/
def uint256.ToString (h : uint256) : Bytes := encAll hexByte h.data

/-- The method `uint256::SetHex`: `data.fill(0)`, then the bytes of the pairs of
characters at the positions `i < str.length() && i < 64`. -/
def uint256.SetHex (str : Bytes) : uint256 :=
  ⟨(hexBytes (str.take 64) ++ List.replicate 32 0).take 32, by simp⟩

/-- The function `std::to_string(int)`. -/
def to_string (v : Int) : Bytes := ascii (toString v)

/-- The call `std::stoll(s)` of `as_int` with its `catch (...) { return 0; }`: white
space, an optional sign and decimal digits; 0 when there is no digit
(`std::invalid_argument`) or the value is not an `int64_t` (`std::out_of_range`). -/
def stollOrZero (s : Bytes) : Int :=
  let s0 := s.takeWhile (fun c => decide (c ≠ 0))
  let s1 := s0.dropWhile isSpace
  let neg : Bool := decide (s1.head? = some 45)
  let s2 := if s1.head? = some 45 ∨ s1.head? = some 43 then s1.drop 1 else s1
  let digits := (s2.takeWhile (fun c => decide (48 ≤ c ∧ c ≤ 57))).map (fun c => c - 48)
  let v : Int := digits.foldl (fun (acc : Int) (d : Nat) => acc * 10 + (d : Int)) 0
  let r : Int := if neg then -v else v
  if digits = [] then 0
  else if r < -(2 ^ 63) ∨ r > 2 ^ 63 - 1 then 0
  else r

/-! ## util/simplejson.hpp -/

/-- The `std::variant` of `JsonValue`: `nullptr_t`, `bool`, `int64_t`, `double`,
`std::string` (as bytes), `std::vector<JsonValue>` and
`std::map<std::string, JsonValue>` (in key order). -/
inductive JsonValue where
  | null
  | bool (v : Bool)
  | int (v : Int)
  | double (v : Float)
  | str (v : Bytes)
  | arr (v : List JsonValue)
  | obj (v : List (Bytes × JsonValue))

/-- The method `JsonValue::is_string`. -/
def JsonValue.is_string : JsonValue → Bool
  | .str _ => true
  | _ => false

/-- The method `JsonValue::as_string`: the string, or the empty string. -/
def JsonValue.as_string : JsonValue → Bytes
  | .str s => s
  | _ => []

/-- The method `JsonValue::is_number`: true for the `int64_t` alternative only. -/
def JsonValue.is_number : JsonValue → Bool
  | .int _ => true
  | _ => false

/-- The conversion `static_cast<int64_t>(double)`: the value truncated towards zero;
`none` where the conversion is undefined (not a number, or out of the range). -/
def doubleToInt64 (d : Float) : Option Int :=
  if d.isNaN || d ≥ 9223372036854775808.0 || d < -9223372036854775808.0 then none
  else if d < 0.0 then some (-(((-d).floor.toUInt64.toNat : Nat) : Int))
  else some ((d.floor.toUInt64.toNat : Nat) : Int)

/-- The method `JsonValue::as_int`; `none` where the conversion of a `double` is
undefined. -/
def JsonValue.as_int : JsonValue → Option Int
  | .int v => some v
  | .double d => doubleToInt64 d
  | .str s => some (stollOrZero s)
  | _ => some 0

/-- The assignments `m[k] = v` to an empty `std::map<std::string, JsonValue>`, in the
order of the list; the keys are string literals and `std::string` compares bytes. -/
def objOf (members : List (String × JsonValue)) : JsonValue :=
  .obj (members.foldl (fun m kv => StdMap.insert bytesLt (ascii kv.1) kv.2 m) [])

/-! ## rpc/rpc_server.cpp -/

/-- The chain and the mempool that an `RpcServer` refers to. -/
structure RpcServer where
  blockchain : BlockChain
  mempool : Mempool

/-- The test `isMined` of the branch `getaddresstransactions`: one input whose
`scriptSig` has at least 4 bytes and starts with `MINT`. -/
def isMined (tx : Transaction) : Bool :=
  decide (tx.vin.length = 1) &&
  decide ((tx.vin.getD 0 TxIn.default).scriptSig.length ≥ 4) &&
  decide ((tx.vin.getD 0 TxIn.default).scriptSig.take 4 = MINT)

/-- The loop over `tx.vin` of `getaddresstransactions`: `isSender` and `fromAddr`. -/
def scanInputs (targetAddr : Bytes) (vin : List TxIn) : Bool × Bytes :=
  vin.foldl (fun (st : Bool × Bytes) (i : TxIn) =>
    (if i.scriptSig = targetAddr then true else st.1,
      if st.2 = [] then i.scriptSig else st.2)) (false, [])

/-- The first loop over `tx.vout` of `getaddresstransactions`: whether an output pays
the address, `receivedSum` and `toAddr`. -/
def scanOutputs (targetAddr : Bytes) (vout : List TxOut) : Bool × Int × Bytes :=
  vout.foldl (fun (st : Bool × Int × Bytes) (o : TxOut) =>
    if o.scriptPubKey = targetAddr then (true, wrapInt64 (st.2.1 + o.value), st.2.2)
    else (st.1, st.2.1, if st.2.2 = [] then o.scriptPubKey else st.2.2)) (false, 0, [])

/-- The loop over `tx.vout` of the sender case: `sentTotal` and `toAddr`. -/
def scanSent (targetAddr : Bytes) (vout : List TxOut) (toAddr : Bytes) : Int × Bytes :=
  vout.foldl (fun (st : Int × Bytes) (o : TxOut) =>
    if o.scriptPubKey ≠ targetAddr then (wrapInt64 (st.1 + o.value), o.scriptPubKey)
    else st) (0, toAddr)

/-- The flag `isRelevant` of `getaddresstransactions` after both loops. -/
def isRelevant (targetAddr : Bytes) (tx : Transaction) : Bool :=
  (scanInputs targetAddr tx.vin).1 || (scanOutputs targetAddr tx.vout).1

/-- The entry that `getaddresstransactions` builds for a relevant transaction `tx` of
the block at height `h`. -/
def addressEntry (sha : Bytes → uint256) (targetAddr : Bytes) (h : Int) (tx : Transaction) :
    JsonValue :=
  let ins := scanInputs targetAddr tx.vin
  let outs := scanOutputs targetAddr tx.vout
  if ins.1 then
    let sent := scanSent targetAddr tx.vout outs.2.2
    objOf [("hash", .str (tx.GetHash sha).ToString),
      ("timestamp", .str (ascii "Block #" ++ to_string h)),
      ("type", .str (ascii "send")),
      ("amount", .int sent.1),
      ("address", .str (if sent.2 = [] then ascii "Self" else sent.2))]
  else if isMined tx || decide (h = 0) then
    objOf [("hash", .str (tx.GetHash sha).ToString),
      ("timestamp", .str (ascii "Block #" ++ to_string h)),
      ("type", .str (ascii "mined")),
      ("address", .str (ascii "Imperial Treasury")),
      ("amount", .int outs.2.1)]
  else
    objOf [("hash", .str (tx.GetHash sha).ToString),
      ("timestamp", .str (ascii "Block #" ++ to_string h)),
      ("type", .str (ascii "receive")),
      ("address", .str (if ins.2 = [] then ascii "Unknown" else ins.2)),
      ("amount", .int outs.2.1)]

/-- The loop over the transactions of the block at height `h` of
`getaddresstransactions`: an entry and `count++` for every relevant transaction. -/
def scanBlockTxs (sha : Bytes → uint256) (targetAddr : Bytes) (h : Int)
    (vtx : List Transaction) (txs : List JsonValue) (count : Int) : List JsonValue × Int :=
  vtx.foldl (fun (st : List JsonValue × Int) (tx : Transaction) =>
    if isRelevant targetAddr tx then (st.1 ++ [addressEntry sha targetAddr h tx], st.2 + 1)
    else st) (txs, count)

/-- The loop `for (int h = height; h >= 0 && count < 50; --h)` of
`getaddresstransactions`, at `h = n - 1`. -/
def addressTxLoop (sha : Bytes → uint256) (c : BlockChain) (targetAddr : Bytes) :
    Nat → List JsonValue → Int → List JsonValue
  | 0, txs, _ => txs
  | n + 1, txs, count =>
    if count < 50 then
      let r := scanBlockTxs sha targetAddr (n : Int) (c.GetBlockByHeight (n : Int)).vtx
        txs count
      addressTxLoop sha c targetAddr n r.1 r.2
    else txs

/-- The branch `getaddresstransactions` of `Dispatch`. -/
def rpcGetAddressTransactions (sha : Bytes → uint256) (srv : RpcServer)
    (params : List JsonValue) : JsonValue :=
  let targetAddr : Bytes :=
    match params with
    | p0 :: _ => if p0.is_string then p0.as_string else []
    | [] => []
  .arr (addressTxLoop sha srv.blockchain targetAddr (srv.blockchain.GetHeight + 1).toNat [] 0)

/-- The branch `getblock` of `Dispatch`; `none` is the dereference of a null
`GetIndex(...)`. -/
def rpcGetBlock (sha : Bytes → uint256) (srv : RpcServer) (params : List JsonValue) :
    Option JsonValue :=
  match params with
  | [] => some (.str (ascii "Missing block hash/height"))
  | p0 :: _ =>
    let lookup : Option Block :=
      match p0 with
      | .str s =>
        if s.length = 64 then some (srv.blockchain.GetBlock (uint256.SetHex s)) else none
      | .int v => some (srv.blockchain.GetBlockByHeight (asSigned 4 (v % 2 ^ 32).toNat))
      | _ => some Block.default
    match lookup with
    | none => some (.str (ascii "Invalid hash format"))
    | some block =>
      if block.header.timestamp = 0 then some (.str (ascii "Block not found"))
      else
        match srv.blockchain.GetIndex (block.header.GetHash sha) with
        | none => none
        | some index =>
          some (objOf [("hash", .str (block.header.GetHash sha).ToString),
            ("confirmations", .int (srv.blockchain.GetHeight - index.height + 1)),
            ("size", .int 100),
            ("height", .int index.height),
            ("version", .int block.header.version),
            ("merkleroot", .str block.header.merkle_root.ToString),
            ("tx", .arr (block.vtx.map (fun tx => JsonValue.str (tx.GetHash sha).ToString))),
            ("time", .int block.header.timestamp),
            ("nonce", .int block.header.nonce),
            ("bits", .int block.header.bits),
            ("difficulty", .double 1.0),
            ("previousblockhash", .str block.header.prev_block.ToString)])

/-- The branch `gettransaction` of `Dispatch`. -/
def rpcGetTransaction (sha : Bytes → uint256) (srv : RpcServer) (params : List JsonValue) :
    JsonValue :=
  match params with
  | [] => .str (ascii "Missing txid")
  | p0 :: _ =>
    let txidStr : Bytes := if p0.is_string then p0.as_string else []
    let r := srv.blockchain.GetTransaction sha (uint256.SetHex txidStr) Transaction.default
      uint256.zero
    if r.1 then
      objOf [("txid", .str txidStr),
        ("version", .int 1),
        ("blockhash", .str r.2.2.ToString),
        ("vin", .arr (r.2.1.vin.map (fun i => objOf [("coinbase", .str i.scriptSig)]))),
        ("vout", .arr ((List.range r.2.1.vout.length).map (fun (i : Nat) =>
          let out := r.2.1.vout.getD i TxOut.default
          objOf [("value", .double (Float.ofInt out.value / 100000000.0)),
            ("n", .int i),
            ("scriptPubKey", objOf [("asm", .str out.scriptPubKey), ("hex", .str [])])])))]
    else .str (ascii "Transaction not found")

/-- The branch `mint` of `Dispatch`; `none` where `as_int` is undefined. -/
def rpcMint (sha : Bytes → uint256) (srv : RpcServer) (params : List JsonValue) :
    Option (JsonValue × RpcServer) :=
  match params with
  | p0 :: p1 :: _ =>
    match p1.as_int with
    | none => none
    | some amount =>
      let tx : Transaction :=
        { version := 1
          vin := [{ TxIn.default with scriptSig := [0x4D, 0x49, 0x4E, 0x54] }]
          vout := [{ TxOut.default with value := amount, scriptPubKey := p0.as_string }]
          lockTime := 0 }
      let r := srv.mempool.AddTransaction sha tx
      if r.1 then some (.str (tx.GetHash sha).ToString, { srv with mempool := r.2 })
      else some (.str (ascii "Error: Failed to add mint transaction to mempool"),
        { srv with mempool := r.2 })
  | _ => some (.str (ascii "Error: Usage 'mint <address> <amount_satoshi>'"), srv)

/-- The selection loop of the branch `transfer`: `total += u.second.out.value;
selected.push_back(u); if (total >= amount) break;`. -/
def selectLoop (amount : Int) :
    List (OutPoint × UTXO) → Int → List (OutPoint × UTXO) → Int × List (OutPoint × UTXO)
  | [], total, selected => (total, selected)
  | u :: rest, total, selected =>
    if wrapInt64 (total + u.2.out.value) ≥ amount then
      (wrapInt64 (total + u.2.out.value), selected ++ [u])
    else selectLoop amount rest (wrapInt64 (total + u.2.out.value)) (selected ++ [u])

/-- The branch `transfer` of `Dispatch`; `none` where `as_int` is undefined. -/
def rpcTransfer (sha : Bytes → uint256) (srv : RpcServer) (params : List JsonValue) :
    Option (JsonValue × RpcServer) :=
  match params with
  | p0 :: p1 :: p2 :: _ =>
    match p2.as_int with
    | none => none
    | some amount =>
      let sender := p0.as_string
      let sel := selectLoop amount (srv.blockchain.GetUTXOs sender) 0 []
      if sel.1 < amount then some (.str (ascii "Error: Insufficient balance"), srv)
      else
        let tx : Transaction :=
          { version := 1
            vin := sel.2.map (fun s =>
              { TxIn.default with
                prevout_hash := s.1.hash, prevout_n := s.1.n, scriptSig := sender })
            vout := [⟨amount, p1.as_string⟩] ++
              (if sel.1 > amount then [⟨wrapInt64 (sel.1 - amount), sender⟩] else [])
            lockTime := 0 }
        let r := srv.mempool.AddTransaction sha tx
        if r.1 then some (.str (tx.GetHash sha).ToString, { srv with mempool := r.2 })
        else some (.str (ascii "Error: Failed to add transfer to mempool"),
          { srv with mempool := r.2 })
  | _ => some (.str (ascii "Error: Usage 'transfer <from> <to> <amount_satoshi>'"), srv)

/-- The branch `getproposals` of `Dispatch`. -/
def rpcGetProposals : JsonValue :=
  .arr [objOf [("id", .str (ascii "1")), ("title", .str (ascii "Imperial Library Endowment")),
      ("status", .str (ascii "Active")), ("votes", .str (ascii "14,205")),
      ("end", .str (ascii "3 days left"))],
    objOf [("id", .str (ascii "2")), ("title", .str (ascii "Expand P2P Network capacity")),
      ("status", .str (ascii "Active")), ("votes", .str (ascii "8,421")),
      ("end", .str (ascii "5 days left"))]]

/-- The branch `getaddressbalance` of `Dispatch`. -/
def rpcGetAddressBalance (srv : RpcServer) (params : List JsonValue) : JsonValue :=
  if params.isEmpty then .int 0
  else
    let addr : Bytes :=
      match params.find? JsonValue.is_string with
      | some p => p.as_string
      | none => []
    if addr.isEmpty then .int 0 else .int (srv.blockchain.GetBalance addr)

/-- The branch `sendrawtransaction` of `Dispatch`. The text `e.what()` of the exception
that ends a failed decode of the bytes `data` is `what data`: that of the decoder is
"Deserialize underflow", those of a failed `resize` are the choice of the library. -/
def rpcSendRawTransaction (sha : Bytes → uint256) (what : Bytes → Bytes) (srv : RpcServer)
    (params : List JsonValue) : JsonValue × RpcServer :=
  match params with
  | [] => (.str (ascii "No hex provided"), srv)
  | p0 :: _ =>
    let data := HexUtil.Decode p0.as_string
    match Transaction.Deserialize ⟨data, 0⟩ with
    | none => (.str (ascii "Error: " ++ what data), srv)
    | some (tx, _) =>
      let r := srv.mempool.AddTransaction sha tx
      if r.1 then (.str (tx.GetHash sha).ToString, { srv with mempool := r.2 })
      else (.str (ascii "Transaction rejected (invalid or exists)"),
        { srv with mempool := r.2 })

/-- The method `RpcServer::Dispatch`: the result and the server state afterwards;
`none` where the behaviour is undefined. No branch throws, so the handlers that give
"Internal error" are not reached. -/
def Dispatch (sha : Bytes → uint256) (what : Bytes → Bytes) (srv : RpcServer)
    (method : Bytes) (params : List JsonValue) : Option (JsonValue × RpcServer) :=
  if method = ascii "getblockchaininfo" then
    some (objOf [("blocks", .int srv.blockchain.GetHeight),
      ("bestblockhash", .str srv.blockchain.GetBestHash.ToString),
      ("moneysupply", .int ((srv.blockchain.GetHeight + 1) * 2500))], srv)
  else if method = ascii "getblockcount" then some (.int srv.blockchain.GetHeight, srv)
  else if method = ascii "getbestblockhash" then
    some (.str srv.blockchain.GetBestHash.ToString, srv)
  else if method = ascii "echo" then some (.str (ascii "Aurelis Node is Alive"), srv)
  else if method = ascii "getmininginfo" then
    some (objOf [("blocks", .int srv.blockchain.GetHeight),
      ("difficulty", .double 1.0),
      ("networkhashps", .int 0),
      ("chain", .str (ascii "main"))], srv)
  else if method = ascii "getmempoolinfo" then
    some (objOf [("size", .int srv.mempool.Size)], srv)
  else if method = ascii "getblock" then
    (rpcGetBlock sha srv params).map (fun r => (r, srv))
  else if method = ascii "gettransaction" then some (rpcGetTransaction sha srv params, srv)
  else if method = ascii "getaddresstransactions" then
    some (rpcGetAddressTransactions sha srv params, srv)
  else if method = ascii "mint" then rpcMint sha srv params
  else if method = ascii "transfer" then rpcTransfer sha srv params
  else if method = ascii "getproposals" then some (rpcGetProposals, srv)
  else if method = ascii "getaddressbalance" then some (rpcGetAddressBalance srv params, srv)
  else if method = ascii "sendrawtransaction" then
    some (rpcSendRawTransaction sha what srv params)
  else some (.str (ascii "Method not found"), srv)

/-! ## Sample values for the RPC methods -/

/-- A first block with 51 transactions that pay the reserve address (51 copies of the
coinbase of `main.cpp`) and the merkle root that the validator computes for them. -/
def sampleCrowdedBlock (sha : Bytes → uint256) : Block :=
  { header := { BlockHeader.default with
      merkle_root := computeMerkle sha (List.replicate 51 sampleCoinbase)
      timestamp := 1767916800 }
    vtx := List.replicate 51 sampleCoinbase }

/-- The genesis block of `main.cpp` with `nTime = 0`. -/
def sampleZeroTimeGenesis : Block :=
  CreateGenesisBlock sha256 0 0 0x1e00ffff 1 (2500 * 100000000) RESERVE_ADDRESS

/-- The method names that `Dispatch` tests for. -/
def rpcMethods : List Bytes :=
  [ascii "echo", ascii "getblockcount", ascii "getbestblockhash", ascii "getblockchaininfo",
    ascii "getmininginfo", ascii "getmempoolinfo", ascii "getblock", ascii "gettransaction",
    ascii "getaddressbalance", ascii "getaddresstransactions", ascii "mint", ascii "transfer",
    ascii "getproposals", ascii "sendrawtransaction"]

/-! ## miner/miner.cpp: the hashing point -/

/-- The locals of the worker at the point where the pass `p`, after the passes `ps`,
hashes the header of its work block: after the refresh, if there is one. -/
def hashingPoint (sha : Bytes → uint256) (threadId : Int) (ps : List Pass) (p : Pass) : Worker :=
  prepare sha threadId p.seen p.miner p.mempool (runWorker sha threadId ps).worker

/-! ## Decoders that read canonical encodings -/

/-- `Canonical dec enc`: a successful run of the decoder `dec` on a buffer of bytes has
read exactly the encoding `enc x` of the value `x` that it returns: the unread part
started with `enc x`, and the cursor has moved to its end. -/
def Canonical {α : Type} (dec : Deserializer → Option (α × Deserializer))
    (enc : α → Bytes) : Prop :=
  ∀ (buf : Bytes) (pos : Nat) (x : α) (d1 : Deserializer), (∀ b ∈ buf, b < 256) →
    dec ⟨buf, pos⟩ = some (x, d1) →
    d1 = ⟨buf, pos + (enc x).length⟩ ∧
    buf.drop pos = enc x ++ buf.drop (pos + (enc x).length)

/-! ## Sample values for the RPC `transfer` -/

/-- A sample coinbase with a negative output: 10 and -5 to the reserve address. -/
def sampleDebtTx : Transaction :=
  { version := 1
    vin := [{ TxIn.default with scriptSig := pszTimestamp }]
    vout := [⟨10, RESERVE_ADDRESS⟩, ⟨-5, RESERVE_ADDRESS⟩]
    lockTime := 0 }

/-- A sample first block that holds `sampleDebtTx`. -/
def sampleDebtGenesis : Block :=
  { header :=
      { version := 1
        prev_block := uint256.zero
        merkle_root := sampleDebtTx.GetHash sha256
        timestamp := 1767916800
        bits := 0x1e00ffff
        nonce := 0 }
    vtx := [sampleDebtTx] }

/-- The transaction that the RPC `transfer` of 8 from the reserve address to `AURbob`
builds on the chain of `sampleDebtGenesis`: output 0 of `sampleDebtTx` is spent. -/
def sampleDebtTransfer : Transaction :=
  { version := 1
    vin := [{ prevout_hash := sampleDebtTx.GetHash sha256, prevout_n := 0,
              scriptSig := RESERVE_ADDRESS, sequence := 0xFFFFFFFF }]
    vout := [⟨8, [65, 85, 82, 98, 111, 98]⟩, ⟨2, RESERVE_ADDRESS⟩]
    lockTime := 0 }

/-! # Lemmas and theorems -/

/-! ## Evaluations on the sample values -/

/-- Every chain built by a sequence of `AddBlock` calls from a reachable state is
reachable. -/
theorem reachable_addBlocks (sha : Bytes → uint256) (c : BlockChain) (blocks : List Block)
    (h : Reachable sha c) : Reachable sha (addBlocks sha c blocks) := by
  induction blocks generalizing c with
  | nil => exact h
  | cons b bs ih => exact ih _ (Reachable.add c b h)

set_option maxRecDepth 1000000 in
set_option synthInstance.maxSize 100000 in
set_option synthInstance.maxHeartbeats 0 in
set_option maxHeartbeats 0 in
/-- The evaluations on the sample values that the closed statements below use, with
the digest `sha256`, in one statement so that a state is computed once. -/
theorem sample_evaluation :
    ((Block.default.header.GetHash sha256).data.getD 0 0 = 0x9f) ∧
    ((BlockChain.empty.AddBlock sha256 Block.default).1 = true) ∧
    ((BlockChain.empty.AddBlock sha256 mainGenesis).1 = true) ∧
    ((BlockChain.empty.AddBlock sha256 mainGenesis).2.chain.getLast? =
      some (BlockIndex.create sha256 mainGenesis 0)) ∧
    (((BlockChain.empty.AddBlock sha256 mainGenesis).2.AddBlock sha256 sampleOrphan).1 = false) ∧
    (sampleOrphan.header.prev_block ≠ (BlockIndex.create sha256 mainGenesis 0).hash) ∧
    ((BlockChain.empty.AddBlock sha256 sampleOrphan).2.chain[0]? =
      some (BlockIndex.create sha256 sampleOrphan 0)) ∧
    ((BlockIndex.create sha256 sampleOrphan 0).header.prev_block ≠ uint256.zero) ∧
    (((BlockChain.empty.AddBlock sha256 mainGenesis).2.AddBlock sha256 sampleBlock1).1 = true) ∧
    ((addBlocks sha256 BlockChain.empty [mainGenesis, sampleBlock1]).chain[0]? =
      some (BlockIndex.create sha256 mainGenesis 0)) ∧
    ((addBlocks sha256 BlockChain.empty [mainGenesis, sampleBlock1]).chain[1]? =
      some (BlockIndex.create sha256 sampleBlock1 1)) ∧
    (BlockIndex.create sha256 sampleBlock1 1 ∈
      (addBlocks sha256 BlockChain.empty [mainGenesis, sampleBlock1]).chain) ∧
    ((addBlocks sha256 BlockChain.empty [mainGenesis, sampleBlock1]).chainBlocks =
      [mainGenesis, sampleBlock1]) ∧
    ((addBlocks sha256 BlockChain.empty [mainGenesis, sampleBlock1]).GetHeight = 1) ∧
    (((1 : Nat) : Int) ≤ (addBlocks sha256 BlockChain.empty [mainGenesis, sampleBlock1]).GetHeight) ∧
    ((addBlocks sha256 BlockChain.empty [mainGenesis, sampleBlock1]).chain.length < 2 ^ 31) ∧
    ((addBlocks sha256 BlockChain.empty [mainGenesis, sampleBlock1]).GetBestHash =
      sampleBlock1.header.GetHash sha256) ∧
    (sampleCoinbase.GetHash sha256 ≠ uint256.zero) ∧
    (sampleSpend.GetHash sha256 ≠ sampleCoinbase.GetHash sha256) ∧
    ((addBlocks sha256 BlockChain.empty [mainGenesis, sampleBlock1]).GetUTXOs [1] = []) ∧
    ((addBlocks sha256 BlockChain.empty [mainGenesis, sampleBlock1]).GetBalance
      RESERVE_ADDRESS = 249999999000) ∧
    (((addBlocks sha256 BlockChain.empty [mainGenesis, sampleBlock1]).GetTransaction
      sha256 (sampleCoinbase.GetHash sha256) Transaction.default uint256.zero).1 = true) ∧
    (((addBlocks sha256 BlockChain.empty [mainGenesis, sampleBlock1]).GetTransaction
      sha256 uint256.zero sampleSpend (sampleSpend.GetHash sha256)).1 = false) ∧
    (((addBlocks sha256 BlockChain.empty [mainGenesis, sampleBlock1]).GetTransaction sha256
        (sampleCoinbase.GetHash sha256) Transaction.default uint256.zero).2.2 =
      sampleBlock1.header.GetHash sha256) ∧
    (∀ b ∈ [mainGenesis, sampleBlock1], b.wf) ∧
    (∀ x ∈ [mainGenesis], x.wf) ∧
    (sampleBlock1.wf) ∧
    ((bytesOf Block.Serialize sampleBlock1).take 100 ≠ []) ∧
    ((bytesOf Block.Serialize sampleBlock1).drop 100 ≠ []) ∧
    (∀ p ∈ (addBlocks sha256 BlockChain.empty [mainGenesis]).blockData, p.1 ≠ uint256.zero) ∧
    ((1 : Int) > (addBlocks sha256 BlockChain.empty [mainGenesis]).GetHeight) ∧
    (((BlockChain.empty.AddBlock sha256 mainGenesis).2.AddBlock sha256
      sampleTemplateBlock1).1 = true) ∧
    (sampleTemplateBlock1.header.prev_block = mainGenesis.header.GetHash sha256) ∧
    ((sampleTemplateBlock1.header.GetHash sha256).data.take 2 = [0, 0]) ∧
    (sampleTemplateBlock1.header.merkle_root = computeMerkle sha256 sampleTemplateBlock1.vtx) ∧
    (sampleTemplateBlock1.vtx.map (fun t => t.vout.map (fun o => o.scriptPubKey)) =
      [[RESERVE_ADDRESS]]) ∧
    (sampleTemplateBlock1.vtx.map (Transaction.GetHash sha256) =
      mainGenesis.vtx.map (Transaction.GetHash sha256)) ∧
    (((mainGenesis.vtx ++ sampleTemplateBlock1.vtx).map
      (fun t => (t.vout.map (fun o => o.value)).sum)).sum = 500000000000) ∧
    ((addBlocks sha256 BlockChain.empty [mainGenesis, sampleTemplateBlock1]).GetBalance
      RESERVE_ADDRESS = 250000000000) ∧
    (∀ b ∈ [mainGenesis, sampleTemplateBlock1], b.wf) ∧
    ((sampleTemplateBlock1, some sampleTemplateBlock1) ∈
      (runWorker sha256 0 [⟨0, Miner.create sampleTemplateBlock1, Mempool.empty⟩]).emitted) ∧
    ((BlockChain.empty.AddBlock sha256 sampleZeroTimeGenesis).1 = true) ∧
    ((BlockChain.empty.AddBlock sha256 sampleZeroTimeGenesis).2.chain[0]? =
      some (BlockIndex.create sha256 sampleZeroTimeGenesis 0)) ∧
    ((BlockChain.empty.AddBlock sha256 sampleZeroTimeGenesis).2.chain.length < 2 ^ 31) ∧
    ((BlockChain.empty.AddBlock sha256 sampleZeroTimeGenesis).2.GetHeight = 0) ∧
    ((Mempool.empty.AddTransaction sha256 sampleMint).1 = true) ∧
    ((Mempool.empty.AddTransaction sha256 sampleFake).1 = false) ∧
    ((Mempool.empty.AddTransaction sha256 sampleMint).2.Size = 1) ∧
    (((Mempool.empty.AddTransaction sha256 sampleMint).2.RemoveTransactions sha256
      [sampleFake, sampleMint]).Size = 0) := by
  decide!

theorem eval_default_hash :
    (Block.default.header.GetHash sha256).data.getD 0 0 = 0x9f :=
  sample_evaluation.1

theorem eval_default_accepted :
    (BlockChain.empty.AddBlock sha256 Block.default).1 = true :=
  sample_evaluation.2.1

theorem eval_genesis_accepted :
    (BlockChain.empty.AddBlock sha256 mainGenesis).1 = true :=
  sample_evaluation.2.2.1

theorem eval_genesis_tip :
    (BlockChain.empty.AddBlock sha256 mainGenesis).2.chain.getLast? =
      some (BlockIndex.create sha256 mainGenesis 0) :=
  sample_evaluation.2.2.2.1

theorem eval_orphan_rejected :
    ((BlockChain.empty.AddBlock sha256 mainGenesis).2.AddBlock sha256 sampleOrphan).1 = false :=
  sample_evaluation.2.2.2.2.1

theorem eval_orphan_prev :
    sampleOrphan.header.prev_block ≠ (BlockIndex.create sha256 mainGenesis 0).hash :=
  sample_evaluation.2.2.2.2.2.1

theorem eval_orphan_entry :
    (BlockChain.empty.AddBlock sha256 sampleOrphan).2.chain[0]? =
      some (BlockIndex.create sha256 sampleOrphan 0) :=
  sample_evaluation.2.2.2.2.2.2.1

theorem eval_orphan_prev_nonzero :
    (BlockIndex.create sha256 sampleOrphan 0).header.prev_block ≠ uint256.zero :=
  sample_evaluation.2.2.2.2.2.2.2.1

theorem eval_block1_accepted :
    ((BlockChain.empty.AddBlock sha256 mainGenesis).2.AddBlock sha256 sampleBlock1).1 = true :=
  sample_evaluation.2.2.2.2.2.2.2.2.1

theorem eval_chain_genesis_entry :
    (addBlocks sha256 BlockChain.empty [mainGenesis, sampleBlock1]).chain[0]? =
      some (BlockIndex.create sha256 mainGenesis 0) :=
  sample_evaluation.2.2.2.2.2.2.2.2.2.1

theorem eval_chain_block1_entry :
    (addBlocks sha256 BlockChain.empty [mainGenesis, sampleBlock1]).chain[1]? =
      some (BlockIndex.create sha256 sampleBlock1 1) :=
  sample_evaluation.2.2.2.2.2.2.2.2.2.2.1

theorem eval_chain_block1_mem :
    BlockIndex.create sha256 sampleBlock1 1 ∈
      (addBlocks sha256 BlockChain.empty [mainGenesis, sampleBlock1]).chain :=
  sample_evaluation.2.2.2.2.2.2.2.2.2.2.2.1

theorem eval_chain_blocks :
    (addBlocks sha256 BlockChain.empty [mainGenesis, sampleBlock1]).chainBlocks =
      [mainGenesis, sampleBlock1] :=
  sample_evaluation.2.2.2.2.2.2.2.2.2.2.2.2.1

theorem eval_chain_height :
    (addBlocks sha256 BlockChain.empty [mainGenesis, sampleBlock1]).GetHeight = 1 :=
  sample_evaluation.2.2.2.2.2.2.2.2.2.2.2.2.2.1

theorem eval_chain_height_ge :
    ((1 : Nat) : Int) ≤ (addBlocks sha256 BlockChain.empty [mainGenesis, sampleBlock1]).GetHeight :=
  sample_evaluation.2.2.2.2.2.2.2.2.2.2.2.2.2.2.1

theorem eval_chain_short :
    (addBlocks sha256 BlockChain.empty [mainGenesis, sampleBlock1]).chain.length < 2 ^ 31 :=
  sample_evaluation.2.2.2.2.2.2.2.2.2.2.2.2.2.2.2.1

theorem eval_chain_best :
    (addBlocks sha256 BlockChain.empty [mainGenesis, sampleBlock1]).GetBestHash =
      sampleBlock1.header.GetHash sha256 :=
  sample_evaluation.2.2.2.2.2.2.2.2.2.2.2.2.2.2.2.2.1

theorem eval_coinbase_hash_nonzero :
    sampleCoinbase.GetHash sha256 ≠ uint256.zero :=
  sample_evaluation.2.2.2.2.2.2.2.2.2.2.2.2.2.2.2.2.2.1

theorem eval_spend_hash_ne :
    sampleSpend.GetHash sha256 ≠ sampleCoinbase.GetHash sha256 :=
  sample_evaluation.2.2.2.2.2.2.2.2.2.2.2.2.2.2.2.2.2.2.1

theorem eval_utxos_none :
    (addBlocks sha256 BlockChain.empty [mainGenesis, sampleBlock1]).GetUTXOs [1] = [] :=
  sample_evaluation.2.2.2.2.2.2.2.2.2.2.2.2.2.2.2.2.2.2.2.1

theorem eval_reserve_balance :
    (addBlocks sha256 BlockChain.empty [mainGenesis, sampleBlock1]).GetBalance
      RESERVE_ADDRESS = 249999999000 :=
  sample_evaluation.2.2.2.2.2.2.2.2.2.2.2.2.2.2.2.2.2.2.2.2.1

theorem eval_getTransaction_found :
    ((addBlocks sha256 BlockChain.empty [mainGenesis, sampleBlock1]).GetTransaction
      sha256 (sampleCoinbase.GetHash sha256) Transaction.default uint256.zero).1 = true :=
  sample_evaluation.2.2.2.2.2.2.2.2.2.2.2.2.2.2.2.2.2.2.2.2.2.1

theorem eval_getTransaction_absent :
    ((addBlocks sha256 BlockChain.empty [mainGenesis, sampleBlock1]).GetTransaction
      sha256 uint256.zero sampleSpend (sampleSpend.GetHash sha256)).1 = false :=
  sample_evaluation.2.2.2.2.2.2.2.2.2.2.2.2.2.2.2.2.2.2.2.2.2.2.1

theorem eval_getTransaction_block :
    ((addBlocks sha256 BlockChain.empty [mainGenesis, sampleBlock1]).GetTransaction sha256
        (sampleCoinbase.GetHash sha256) Transaction.default uint256.zero).2.2 =
      sampleBlock1.header.GetHash sha256 :=
  sample_evaluation.2.2.2.2.2.2.2.2.2.2.2.2.2.2.2.2.2.2.2.2.2.2.2.1

theorem eval_blocks_wf :
    ∀ b ∈ [mainGenesis, sampleBlock1], b.wf :=
  sample_evaluation.2.2.2.2.2.2.2.2.2.2.2.2.2.2.2.2.2.2.2.2.2.2.2.2.1

theorem eval_genesis_wf :
    ∀ x ∈ [mainGenesis], x.wf :=
  sample_evaluation.2.2.2.2.2.2.2.2.2.2.2.2.2.2.2.2.2.2.2.2.2.2.2.2.2.1

theorem eval_block1_wf :
    sampleBlock1.wf :=
  sample_evaluation.2.2.2.2.2.2.2.2.2.2.2.2.2.2.2.2.2.2.2.2.2.2.2.2.2.2.1

theorem eval_block1_prefix :
    (bytesOf Block.Serialize sampleBlock1).take 100 ≠ [] :=
  sample_evaluation.2.2.2.2.2.2.2.2.2.2.2.2.2.2.2.2.2.2.2.2.2.2.2.2.2.2.2.1

theorem eval_block1_suffix :
    (bytesOf Block.Serialize sampleBlock1).drop 100 ≠ [] :=
  sample_evaluation.2.2.2.2.2.2.2.2.2.2.2.2.2.2.2.2.2.2.2.2.2.2.2.2.2.2.2.2.1

theorem eval_zero_not_key :
    ∀ p ∈ (addBlocks sha256 BlockChain.empty [mainGenesis]).blockData, p.1 ≠ uint256.zero :=
  sample_evaluation.2.2.2.2.2.2.2.2.2.2.2.2.2.2.2.2.2.2.2.2.2.2.2.2.2.2.2.2.2.1

theorem eval_height_below_one :
    (1 : Int) > (addBlocks sha256 BlockChain.empty [mainGenesis]).GetHeight :=
  sample_evaluation.2.2.2.2.2.2.2.2.2.2.2.2.2.2.2.2.2.2.2.2.2.2.2.2.2.2.2.2.2.2.1

theorem eval_template_accepted :
    ((BlockChain.empty.AddBlock sha256 mainGenesis).2.AddBlock sha256
      sampleTemplateBlock1).1 = true :=
  sample_evaluation.2.2.2.2.2.2.2.2.2.2.2.2.2.2.2.2.2.2.2.2.2.2.2.2.2.2.2.2.2.2.2.1

theorem eval_template_prev :
    sampleTemplateBlock1.header.prev_block = mainGenesis.header.GetHash sha256 :=
  sample_evaluation.2.2.2.2.2.2.2.2.2.2.2.2.2.2.2.2.2.2.2.2.2.2.2.2.2.2.2.2.2.2.2.2.1

theorem eval_template_pow :
    (sampleTemplateBlock1.header.GetHash sha256).data.take 2 = [0, 0] :=
  sample_evaluation.2.2.2.2.2.2.2.2.2.2.2.2.2.2.2.2.2.2.2.2.2.2.2.2.2.2.2.2.2.2.2.2.2.1

theorem eval_template_merkle :
    sampleTemplateBlock1.header.merkle_root = computeMerkle sha256 sampleTemplateBlock1.vtx :=
  sample_evaluation.2.2.2.2.2.2.2.2.2.2.2.2.2.2.2.2.2.2.2.2.2.2.2.2.2.2.2.2.2.2.2.2.2.2.1

theorem eval_template_pays :
    sampleTemplateBlock1.vtx.map (fun t => t.vout.map (fun o => o.scriptPubKey)) =
      [[RESERVE_ADDRESS]] :=
  sample_evaluation.2.2.2.2.2.2.2.2.2.2.2.2.2.2.2.2.2.2.2.2.2.2.2.2.2.2.2.2.2.2.2.2.2.2.2.1

theorem eval_template_txids :
    sampleTemplateBlock1.vtx.map (Transaction.GetHash sha256) =
      mainGenesis.vtx.map (Transaction.GetHash sha256) :=
  sample_evaluation.2.2.2.2.2.2.2.2.2.2.2.2.2.2.2.2.2.2.2.2.2.2.2.2.2.2.2.2.2.2.2.2.2.2.2.2.1

theorem eval_template_rewards :
    ((mainGenesis.vtx ++ sampleTemplateBlock1.vtx).map
      (fun t => (t.vout.map (fun o => o.value)).sum)).sum = 500000000000 :=
  sample_evaluation.2.2.2.2.2.2.2.2.2.2.2.2.2.2.2.2.2.2.2.2.2.2.2.2.2.2.2.2.2.2.2.2.2.2.2.2.2.1

theorem eval_template_balance :
    (addBlocks sha256 BlockChain.empty [mainGenesis, sampleTemplateBlock1]).GetBalance
      RESERVE_ADDRESS = 250000000000 :=
  sample_evaluation.2.2.2.2.2.2.2.2.2.2.2.2.2.2.2.2.2.2.2.2.2.2.2.2.2.2.2.2.2.2.2.2.2.2.2.2.2.2.1

theorem eval_template_wf :
    ∀ b ∈ [mainGenesis, sampleTemplateBlock1], b.wf :=
  sample_evaluation.2.2.2.2.2.2.2.2.2.2.2.2.2.2.2.2.2.2.2.2.2.2.2.2.2.2.2.2.2.2.2.2.2.2.2.2.2.2.2.1

theorem eval_worker_emits :
    (sampleTemplateBlock1, some sampleTemplateBlock1) ∈
      (runWorker sha256 0 [⟨0, Miner.create sampleTemplateBlock1, Mempool.empty⟩]).emitted :=
  sample_evaluation.2.2.2.2.2.2.2.2.2.2.2.2.2.2.2.2.2.2.2.2.2.2.2.2.2.2.2.2.2.2.2.2.2.2.2.2.2.2.2.2.1

theorem eval_zero_time_accepted :
    (BlockChain.empty.AddBlock sha256 sampleZeroTimeGenesis).1 = true :=
  sample_evaluation.2.2.2.2.2.2.2.2.2.2.2.2.2.2.2.2.2.2.2.2.2.2.2.2.2.2.2.2.2.2.2.2.2.2.2.2.2.2.2.2.2.1

theorem eval_zero_time_entry :
    (BlockChain.empty.AddBlock sha256 sampleZeroTimeGenesis).2.chain[0]? =
      some (BlockIndex.create sha256 sampleZeroTimeGenesis 0) :=
  sample_evaluation.2.2.2.2.2.2.2.2.2.2.2.2.2.2.2.2.2.2.2.2.2.2.2.2.2.2.2.2.2.2.2.2.2.2.2.2.2.2.2.2.2.2.1

theorem eval_zero_time_short :
    (BlockChain.empty.AddBlock sha256 sampleZeroTimeGenesis).2.chain.length < 2 ^ 31 :=
  sample_evaluation.2.2.2.2.2.2.2.2.2.2.2.2.2.2.2.2.2.2.2.2.2.2.2.2.2.2.2.2.2.2.2.2.2.2.2.2.2.2.2.2.2.2.2.1

theorem eval_zero_time_height :
    (BlockChain.empty.AddBlock sha256 sampleZeroTimeGenesis).2.GetHeight = 0 :=
  sample_evaluation.2.2.2.2.2.2.2.2.2.2.2.2.2.2.2.2.2.2.2.2.2.2.2.2.2.2.2.2.2.2.2.2.2.2.2.2.2.2.2.2.2.2.2.2.1

theorem eval_mint_added :
    (Mempool.empty.AddTransaction sha256 sampleMint).1 = true :=
  sample_evaluation.2.2.2.2.2.2.2.2.2.2.2.2.2.2.2.2.2.2.2.2.2.2.2.2.2.2.2.2.2.2.2.2.2.2.2.2.2.2.2.2.2.2.2.2.2.1

theorem eval_fake_rejected :
    (Mempool.empty.AddTransaction sha256 sampleFake).1 = false :=
  sample_evaluation.2.2.2.2.2.2.2.2.2.2.2.2.2.2.2.2.2.2.2.2.2.2.2.2.2.2.2.2.2.2.2.2.2.2.2.2.2.2.2.2.2.2.2.2.2.2.1

theorem eval_mint_size :
    (Mempool.empty.AddTransaction sha256 sampleMint).2.Size = 1 :=
  sample_evaluation.2.2.2.2.2.2.2.2.2.2.2.2.2.2.2.2.2.2.2.2.2.2.2.2.2.2.2.2.2.2.2.2.2.2.2.2.2.2.2.2.2.2.2.2.2.2.2.1

theorem eval_mint_removed :
    ((Mempool.empty.AddTransaction sha256 sampleMint).2.RemoveTransactions sha256
      [sampleFake, sampleMint]).Size = 0 :=
  sample_evaluation.2.2.2.2.2.2.2.2.2.2.2.2.2.2.2.2.2.2.2.2.2.2.2.2.2.2.2.2.2.2.2.2.2.2.2.2.2.2.2.2.2.2.2.2.2.2.2.2

/-! ## Codec lemmas -/

theorem int_divmod_mul (x a b : Int) (ha : 0 < a) (hb : 0 < b) :
    x / (a * b) = (x / a) / b ∧ x % (a * b) = x % a + a * ((x / a) % b) := by
  have h1 := Int.emod_add_ediv x a
  have h2 := Int.emod_add_ediv (x / a) b
  have e1 := Int.emod_nonneg x (ne_of_gt ha)
  have e2 := Int.emod_lt_of_pos x ha
  have e3 := Int.emod_nonneg (x / a) (ne_of_gt hb)
  have e4 := Int.emod_lt_of_pos (x / a) hb
  have hab : 0 < a * b := mul_pos ha hb
  rw [Int.ediv_emod_unique hab]
  refine ⟨?_, by positivity, ?_⟩
  · have : a * (x / a) = a * ((x / a) % b) + a * b * ((x / a) / b) := by
      rw [mul_assoc, ← mul_add, h2]
    linarith
  · have : a * ((x / a) % b) ≤ a * (b - 1) := by
      apply mul_le_mul_of_nonneg_left _ (le_of_lt ha); omega
    nlinarith

theorem writeIntLoop_length (v : Int) (n i : Nat) : (writeIntLoop v n i).length = n := by
  induction n generalizing i with
  | zero => rfl
  | succ n ih => simp [writeIntLoop, ih]

theorem writeIntLoop_lt (v : Int) (n i : Nat) : ∀ b ∈ writeIntLoop v n i, b < 256 := by
  induction n generalizing i with
  | zero => simp [writeIntLoop]
  | succ n ih =>
    intro b hb
    simp only [writeIntLoop, List.mem_cons] at hb
    rcases hb with rfl | hb
    · have := Int.emod_lt_of_pos (v >>> (i * 8)) (show (0 : Int) < 256 by norm_num)
      have := Int.emod_nonneg (v >>> (i * 8)) (show (256 : Int) ≠ 0 by norm_num)
      omega
    · exact ih _ b hb

theorem leValue_writeIntLoop (v : Int) (n i : Nat) :
    (leValue (writeIntLoop v n i) : Int) = (v / 2 ^ (8 * i)) % 2 ^ (8 * n) := by
  induction n generalizing i with
  | zero => simp [writeIntLoop, leValue, Int.emod_one]
  | succ n ih =>
    have hp : (0 : Int) < 2 ^ (8 * i) := by positivity
    have hq : (0 : Int) < 2 ^ (8 * n) := by positivity
    have h256 : (0 : Int) < 256 := by norm_num
    have hnn := Int.emod_nonneg (v >>> (i * 8)) (show (256 : Int) ≠ 0 by norm_num)
    have hsh : v >>> (i * 8) = v / 2 ^ (8 * i) := by
      rw [Int.shiftRight_eq_div_pow, Nat.mul_comm]; norm_cast
    have e1 : (2 : Int) ^ (8 * (i + 1)) = 2 ^ (8 * i) * 256 := by
      rw [Nat.mul_add, pow_add]; norm_num
    have e2 : (2 : Int) ^ (8 * (n + 1)) = 256 * 2 ^ (8 * n) := by
      rw [Nat.mul_add, pow_add]; norm_num; ring
    simp only [writeIntLoop, leValue]
    push_cast
    rw [ih (i + 1), Int.toNat_of_nonneg hnn, hsh, e1, e2,
      (int_divmod_mul v _ 256 hp h256).1, (int_divmod_mul (v / 2 ^ (8 * i)) 256 _ h256 hq).2]

theorem readIntLoop_eq (buffer : Bytes) (bs rest : Bytes) (i pos obj : Nat)
    (hb : ∀ b ∈ bs, b < 256) (hd : buffer.drop pos = bs ++ rest) (ho : obj < 2 ^ (8 * i)) :
    readIntLoop buffer bs.length i pos obj = (obj + 2 ^ (8 * i) * leValue bs, pos + bs.length) := by
  induction bs generalizing i pos obj with
  | nil => simp [readIntLoop, leValue]
  | cons b bs ih =>
    have hb0 : b < 256 := hb b (List.mem_cons_self _ _)
    have hget : buffer.getD pos 0 = b := by
      rw [List.getD_eq_getElem?_getD]
      have := List.getElem?_drop buffer pos 0
      rw [hd] at this
      simp at this
      rw [← this]; rfl
    have hdrop : buffer.drop (pos + 1) = bs ++ rest := by
      have := congrArg (List.drop 1) hd
      rw [List.drop_drop] at this
      simpa [Nat.add_comm] using this
    have hor : obj ||| (b <<< (i * 8)) = obj + 2 ^ (8 * i) * b := by
      rw [Nat.shiftLeft_eq, Nat.mul_comm i 8, Nat.mul_comm b, Nat.add_comm,
        Nat.mul_add_lt_is_or ho, Nat.or_comm]
    have hpw : 2 ^ (8 * (i + 1)) = 2 ^ (8 * i) * 256 := by
      rw [Nat.mul_add, pow_add]; norm_num
    have ho2 : obj + 2 ^ (8 * i) * b < 2 ^ (8 * (i + 1)) := by
      rw [hpw]
      have : 2 ^ (8 * i) * b ≤ 2 ^ (8 * i) * 255 := Nat.mul_le_mul_left _ (by omega)
      omega
    simp only [List.length_cons, readIntLoop, hget, hor]
    rw [ih (i + 1) (pos + 1) _ (fun x hx => hb x (List.mem_cons_of_mem _ hx)) hdrop ho2]
    simp only [leValue, hpw]
    congr 1
    · ring
    · omega

theorem drop_advance (buffer a b : Bytes) (pos : Nat) (h : buffer.drop pos = a ++ b) :
    buffer.drop (pos + a.length) = b := by
  rw [← List.drop_drop, h, List.drop_left]

theorem pos_add_le (buffer a b : Bytes) (pos : Nat) (h : buffer.drop pos = a ++ b)
    (ha : 0 < a.length) : pos + a.length ≤ buffer.length := by
  have := congrArg List.length h
  rw [List.length_drop, List.length_append] at this
  omega

theorem Reads.step {α : Type} {dec : Deserializer → Option (α × Deserializer)} {x : α}
    {enc : Bytes} (h : Reads dec x enc) (buffer : Bytes) (pos : Nat) (rest : Bytes)
    (hd : buffer.drop pos = enc ++ rest) :
    dec ⟨buffer, pos⟩ = some (x, ⟨buffer, pos + enc.length⟩) ∧
    buffer.drop (pos + enc.length) = rest :=
  ⟨h buffer pos rest hd, drop_advance _ _ _ _ hd⟩

theorem reads_int (n v : Nat) (hn : 0 < n) (hv : v < 2 ^ (8 * n)) :
    Reads (fun d => d.readInt n) v (writeIntLoop (v : Int) n 0) := by
  intro buffer pos rest hd
  have hlen := writeIntLoop_length (v : Int) n 0
  have hle := pos_add_le _ _ _ _ hd (by omega)
  rw [hlen] at hle
  have hloop := readIntLoop_eq buffer _ rest 0 pos 0 (writeIntLoop_lt _ n 0) hd (by simp)
  rw [hlen] at hloop
  have hval : leValue (writeIntLoop (v : Int) n 0) = v := by
    have h := leValue_writeIntLoop (v : Int) n 0
    simp only [Nat.mul_zero, pow_zero, Int.ediv_one] at h
    have h2 : ((v : Int) % 2 ^ (8 * n)) = v := by
      apply Int.emod_eq_of_lt (by positivity)
      exact_mod_cast hv
    rw [h2] at h
    exact_mod_cast h
  have hnot : ¬ (pos + n > buffer.length) := by omega
  simp [Deserializer.readInt, hnot, hloop, hval, hlen]

theorem reads_signed (n : Nat) (v : Int) (hn : 0 < n)
    (hlo : -(2 ^ (8 * n - 1) : Int) ≤ v) (hhi : v < 2 ^ (8 * n - 1)) :
    Reads (fun d => d.readSigned n) v (writeIntLoop v n 0) := by
  intro buffer pos rest hd
  have hlen := writeIntLoop_length v n 0
  have hle := pos_add_le _ _ _ _ hd (by omega)
  rw [hlen] at hle
  have hloop := readIntLoop_eq buffer _ rest 0 pos 0 (writeIntLoop_lt _ n 0) hd (by simp)
  rw [hlen] at hloop
  have hpow : (2 : Int) ^ (8 * n) = 2 * 2 ^ (8 * n - 1) := by
    rw [← pow_succ']; congr 1; omega
  have hpos : (0 : Int) < 2 ^ (8 * n - 1) := by positivity
  have hval : asSigned n (leValue (writeIntLoop v n 0)) = v := by
    have h := leValue_writeIntLoop v n 0
    simp only [Nat.mul_zero, pow_zero, Int.ediv_one] at h
    unfold asSigned
    by_cases hneg : v < 0
    · have h2 : v % 2 ^ (8 * n) = v + 2 ^ (8 * n) := by
        rw [← Int.add_mul_emod_self_left v (2 ^ (8 * n)) 1, mul_one]
        apply Int.emod_eq_of_lt <;> omega
      rw [h2] at h
      have hge : ¬ (leValue (writeIntLoop v n 0) < 2 ^ (8 * n - 1)) := by
        intro hc
        have : ((leValue (writeIntLoop v n 0) : Nat) : Int) < 2 ^ (8 * n - 1) := by
          exact_mod_cast hc
        omega
      rw [if_neg hge, h]; ring
    · have h2 : v % 2 ^ (8 * n) = v := by
        apply Int.emod_eq_of_lt <;> omega
      rw [h2] at h
      have hlt : leValue (writeIntLoop v n 0) < 2 ^ (8 * n - 1) := by
        have : ((leValue (writeIntLoop v n 0) : Nat) : Int) < 2 ^ (8 * n - 1) := by omega
        exact_mod_cast this
      rw [if_pos hlt, h]
  have hnot : ¬ (pos + n > buffer.length) := by omega
  simp [Deserializer.readSigned, Deserializer.readInt, hnot, hloop, hval, hlen]

theorem reads_hash (h : uint256) : Reads Deserializer.readHash h h.data := by
  intro buffer pos rest hd
  have hle := pos_add_le _ _ _ _ hd (by rw [h.width]; omega)
  rw [h.width] at hle
  have hnot : ¬ (pos + 32 > buffer.length) := by omega
  have htake : (buffer.drop pos).take 32 = h.data := by
    rw [hd, ← h.width, List.take_left]
  cases h with
  | mk data width =>
    simp only at htake
    simp [Deserializer.readHash, hnot, htake, width]

theorem reads_items {α : Type} (item : Deserializer → Option (α × Deserializer))
    (enc : α → Bytes) (v : List α) (h : ∀ x ∈ v, Reads item x (enc x)) :
    Reads (readItems item v.length) v (encAll enc v) := by
  induction v with
  | nil => intro buffer pos rest _; simp [readItems, encAll]
  | cons x xs ih =>
    intro buffer pos rest hd
    simp only [encAll, List.append_assoc] at hd
    obtain ⟨r1, hd1⟩ := (h x (List.mem_cons_self _ _)).step buffer pos _ hd
    have r2 := ih (fun y hy => h y (List.mem_cons_of_mem _ hy)) _ _ rest hd1
    simp only [List.length_cons, readItems, r1, r2]
    simp only [encAll, List.length_append, Nat.add_assoc]

theorem reads_vector {α : Type} (item : Deserializer → Option (α × Deserializer))
    (enc : α → Bytes) (v : List α) (hlen : v.length < 2 ^ 64)
    (h : ∀ x ∈ v, Reads item x (enc x)) :
    Reads (Deserializer.readVector item) v
      (writeIntLoop (v.length : Int) 8 0 ++ encAll enc v) := by
  intro buffer pos rest hd
  rw [List.append_assoc] at hd
  obtain ⟨r1, hd1⟩ := (reads_int 8 v.length (by omega) (by simpa using hlen)).step buffer pos _ hd
  have r2 := reads_items item enc v h _ _ rest hd1
  simp only [Deserializer.readVector, r1, r2]
  simp only [List.length_append, Nat.add_assoc]

theorem foldl_buffer {α : Type} (item : Serializer → α → Serializer) (happ : Appends item)
    (v : List α) (s : Serializer) :
    (v.foldl item s).buffer = s.buffer ++ encAll (bytesOf item) v := by
  induction v generalizing s with
  | nil => simp [encAll]
  | cons x xs ih => rw [List.foldl_cons, ih, happ, encAll, List.append_assoc]

theorem writeVector_buffer {α : Type} (item : Serializer → α → Serializer)
    (happ : Appends item) (v : List α) (s : Serializer) :
    (s.writeVector item v).buffer =
      s.buffer ++ (writeIntLoop (v.length : Int) 8 0 ++ encAll (bytesOf item) v) := by
  rw [Serializer.writeVector, foldl_buffer item happ, Serializer.writeInt, List.append_assoc]

theorem appends_byte : Appends (fun (s : Serializer) (b : Nat) => s.writeInt 1 (b : Int)) := by
  intro s b; simp [bytesOf, Serializer.writeInt]

theorem writeBytes_buffer (v : Bytes) (s : Serializer) :
    (s.writeBytes v).buffer = s.buffer ++ bytesOf Serializer.writeBytes v := by
  simp only [bytesOf, Serializer.writeBytes, writeVector_buffer _ appends_byte, List.nil_append]

theorem reads_bytes (v : Bytes) (h : bytesWf v) :
    Reads Deserializer.readBytes v (bytesOf Serializer.writeBytes v) := by
  have := reads_vector (fun d => d.readInt 1)
    (bytesOf (fun (s : Serializer) (b : Nat) => s.writeInt 1 (b : Int))) v h.1
    (fun b hb => by
      have hr := reads_int 1 b (by omega) (by simpa using h.2 b hb)
      simpa [bytesOf, Serializer.writeInt] using hr)
  simpa only [bytesOf, Serializer.writeBytes, writeVector_buffer _ appends_byte,
    List.nil_append] using this

theorem txIn_bytes (x : TxIn) :
    bytesOf TxIn.Serialize x = x.prevout_hash.data ++ (writeIntLoop (x.prevout_n : Int) 4 0 ++
      (bytesOf Serializer.writeBytes x.scriptSig ++ writeIntLoop (x.sequence : Int) 4 0)) := by
  show (TxIn.Serialize ⟨[]⟩ x).buffer = _
  simp [TxIn.Serialize, Serializer.writeInt, Serializer.write, writeBytes_buffer]

theorem txIn_appends : Appends TxIn.Serialize := by
  intro s x
  rw [txIn_bytes]
  simp [TxIn.Serialize, Serializer.writeInt, Serializer.write, writeBytes_buffer]

theorem txIn_reads (x : TxIn) (h : x.wf) :
    Reads TxIn.Deserialize x (bytesOf TxIn.Serialize x) := by
  intro buffer pos rest hd
  rw [txIn_bytes] at hd ⊢
  simp only [List.append_assoc] at hd
  obtain ⟨r1, hd1⟩ := (reads_hash x.prevout_hash).step buffer pos _ hd
  obtain ⟨r2, hd2⟩ := (reads_int 4 x.prevout_n (by omega) (by simpa using h.1)).step _ _ _ hd1
  obtain ⟨r3, hd3⟩ := (reads_bytes x.scriptSig h.2.1).step _ _ _ hd2
  obtain ⟨r4, -⟩ := (reads_int 4 x.sequence (by omega) (by simpa using h.2.2)).step _ _ _ hd3
  simp only [TxIn.Deserialize, r1, r2, r3, r4]
  simp only [List.length_append, Nat.add_assoc]

theorem txOut_bytes (x : TxOut) :
    bytesOf TxOut.Serialize x =
      writeIntLoop x.value 8 0 ++ bytesOf Serializer.writeBytes x.scriptPubKey := by
  show (TxOut.Serialize ⟨[]⟩ x).buffer = _
  simp [TxOut.Serialize, Serializer.writeInt, writeBytes_buffer]

theorem txOut_appends : Appends TxOut.Serialize := by
  intro s x
  rw [txOut_bytes]
  simp [TxOut.Serialize, Serializer.writeInt, writeBytes_buffer]

theorem txOut_reads (x : TxOut) (h : x.wf) :
    Reads TxOut.Deserialize x (bytesOf TxOut.Serialize x) := by
  intro buffer pos rest hd
  rw [txOut_bytes] at hd ⊢
  simp only [List.append_assoc] at hd
  obtain ⟨r1, hd1⟩ := (reads_signed 8 x.value (by omega) (by simpa using h.1.1)
    (by simpa using h.1.2)).step buffer pos _ hd
  obtain ⟨r2, -⟩ := (reads_bytes x.scriptPubKey h.2).step _ _ _ hd1
  simp only [TxOut.Deserialize, r1, r2]
  simp only [List.length_append, Nat.add_assoc]

theorem transaction_bytes (x : Transaction) :
    bytesOf Transaction.Serialize x = writeIntLoop x.version 4 0 ++
      ((writeIntLoop (x.vin.length : Int) 8 0 ++ encAll (bytesOf TxIn.Serialize) x.vin) ++
       ((writeIntLoop (x.vout.length : Int) 8 0 ++ encAll (bytesOf TxOut.Serialize) x.vout) ++
        writeIntLoop (x.lockTime : Int) 4 0)) := by
  show (Transaction.Serialize ⟨[]⟩ x).buffer = _
  simp [Transaction.Serialize, Serializer.writeInt,
    writeVector_buffer _ txIn_appends, writeVector_buffer _ txOut_appends]

theorem transaction_appends : Appends Transaction.Serialize := by
  intro s x
  rw [transaction_bytes]
  simp [Transaction.Serialize, Serializer.writeInt,
    writeVector_buffer _ txIn_appends, writeVector_buffer _ txOut_appends]

theorem transaction_reads (x : Transaction) (h : x.wf) :
    Reads Transaction.Deserialize x (bytesOf Transaction.Serialize x) := by
  intro buffer pos rest hd
  rw [transaction_bytes] at hd ⊢
  simp only [List.append_assoc] at hd
  obtain ⟨r1, hd1⟩ := (reads_signed 4 x.version (by omega) (by simpa using h.1.1)
    (by simpa using h.1.2)).step buffer pos _ hd
  have hd1' := hd1
  rw [← List.append_assoc] at hd1'
  obtain ⟨r2, hd2⟩ := (reads_vector TxIn.Deserialize (bytesOf TxIn.Serialize) x.vin h.2.1.1
    (fun i hi => txIn_reads i (h.2.1.2 i hi))).step _ _ _ hd1'
  have hd2' := hd2
  rw [← List.append_assoc] at hd2'
  obtain ⟨r3, hd3⟩ := (reads_vector TxOut.Deserialize (bytesOf TxOut.Serialize) x.vout
    h.2.2.1.1 (fun o ho => txOut_reads o (h.2.2.1.2 o ho))).step _ _ _ hd2'
  obtain ⟨r4, -⟩ := (reads_int 4 x.lockTime (by omega) (by simpa using h.2.2.2)).step _ _ _ hd3
  simp only [Transaction.Deserialize, r1, r2, r3, r4]
  simp only [List.length_append, Nat.add_assoc]

theorem blockHeader_bytes (x : BlockHeader) :
    bytesOf BlockHeader.Serialize x = writeIntLoop x.version 4 0 ++ (x.prev_block.data ++
      (x.merkle_root.data ++ (writeIntLoop (x.timestamp : Int) 4 0 ++
        (writeIntLoop (x.bits : Int) 4 0 ++ writeIntLoop (x.nonce : Int) 4 0)))) := by
  show (BlockHeader.Serialize ⟨[]⟩ x).buffer = _
  simp [BlockHeader.Serialize, Serializer.writeInt, Serializer.write]

theorem blockHeader_appends : Appends BlockHeader.Serialize := by
  intro s x
  rw [blockHeader_bytes]
  simp [BlockHeader.Serialize, Serializer.writeInt, Serializer.write]

theorem blockHeader_reads (x : BlockHeader) (h : x.wf) :
    Reads BlockHeader.Deserialize x (bytesOf BlockHeader.Serialize x) := by
  intro buffer pos rest hd
  rw [blockHeader_bytes] at hd ⊢
  simp only [List.append_assoc] at hd
  obtain ⟨r1, hd1⟩ := (reads_signed 4 x.version (by omega) (by simpa using h.1.1)
    (by simpa using h.1.2)).step buffer pos _ hd
  obtain ⟨r2, hd2⟩ := (reads_hash x.prev_block).step _ _ _ hd1
  obtain ⟨r3, hd3⟩ := (reads_hash x.merkle_root).step _ _ _ hd2
  obtain ⟨r4, hd4⟩ := (reads_int 4 x.timestamp (by omega) (by simpa using h.2.1)).step _ _ _ hd3
  obtain ⟨r5, hd5⟩ := (reads_int 4 x.bits (by omega) (by simpa using h.2.2.1)).step _ _ _ hd4
  obtain ⟨r6, -⟩ := (reads_int 4 x.nonce (by omega) (by simpa using h.2.2.2)).step _ _ _ hd5
  simp only [BlockHeader.Deserialize, r1, r2, r3, r4, r5, r6]
  simp only [List.length_append, Nat.add_assoc]

theorem block_bytes (x : Block) :
    bytesOf Block.Serialize x = bytesOf BlockHeader.Serialize x.header ++
      (writeIntLoop (x.vtx.length : Int) 8 0 ++
        encAll (bytesOf Transaction.Serialize) x.vtx) := by
  show (Block.Serialize ⟨[]⟩ x).buffer = _
  simp only [Block.Serialize, writeVector_buffer _ transaction_appends]
  rfl

theorem block_appends : Appends Block.Serialize := by
  intro s x
  rw [block_bytes]
  simp [Block.Serialize, writeVector_buffer _ transaction_appends, blockHeader_appends s]

theorem block_reads (x : Block) (h : x.wf) :
    Reads Block.Deserialize x (bytesOf Block.Serialize x) := by
  intro buffer pos rest hd
  rw [block_bytes] at hd ⊢
  simp only [List.append_assoc] at hd
  obtain ⟨r1, hd1⟩ := (blockHeader_reads x.header h.1).step buffer pos _ hd
  have hd1' := hd1
  rw [← List.append_assoc] at hd1'
  obtain ⟨r2, -⟩ := (reads_vector Transaction.Deserialize (bytesOf Transaction.Serialize)
    x.vtx h.2.1 (fun t ht => transaction_reads t (h.2.2 t ht))).step _ _ _ hd1'
  simp only [Block.Deserialize, r1, r2]
  simp only [List.length_append, Nat.add_assoc]

/-- Decoding exactly the serialized bytes from position 0 returns the value with the
cursor at the end of the buffer. -/
theorem Reads.whole {α : Type} {dec : Deserializer → Option (α × Deserializer)} {x : α}
    {enc : Bytes} (h : Reads dec x enc) : dec ⟨enc, 0⟩ = some (x, ⟨enc, enc.length⟩) := by
  have := h enc 0 [] (by simp)
  simpa using this

/-! ## Order and map lemmas -/

theorem bytesLt_irrefl (a : List Nat) : bytesLt a a = false := by
  induction a with
  | nil => rfl
  | cons x xs ih => simp [bytesLt, ih]

theorem bytesLt_trans (a b c : List Nat) (h1 : bytesLt a b = true) (h2 : bytesLt b c = true) :
    bytesLt a c = true := by
  induction a generalizing b c with
  | nil =>
    cases b with
    | nil => simp [bytesLt] at h1
    | cons y ys =>
      cases c with
      | nil => simp [bytesLt] at h2
      | cons z zs => simp [bytesLt]
  | cons x xs ih =>
    cases b with
    | nil => simp [bytesLt] at h1
    | cons y ys =>
      cases c with
      | nil => simp [bytesLt] at h2
      | cons z zs =>
        simp only [bytesLt] at h1 h2 ⊢
        by_cases hxy : x < y
        · by_cases hyz : y < z
          · simp [show x < z by omega]
          · by_cases hzy : z < y
            · simp [hyz, hzy] at h2
            · simp [show x < z by omega]
        · by_cases hyx : y < x
          · simp [hxy, hyx] at h1
          · have hxy' : x = y := by omega
            subst hxy'
            simp only [hxy, if_false] at h1
            by_cases hyz : x < z
            · simp [hyz]
            · by_cases hzy : z < x
              · simp [hyz, hzy] at h2
              · simp only [hyz, hzy, if_false] at h2 ⊢
                exact ih ys zs h1 h2

theorem bytesLt_total (a b : List Nat) (h1 : bytesLt a b = false) (h2 : bytesLt b a = false) :
    a = b := by
  induction a generalizing b with
  | nil =>
    cases b with
    | nil => rfl
    | cons y ys => simp [bytesLt] at h1
  | cons x xs ih =>
    cases b with
    | nil => simp [bytesLt] at h2
    | cons y ys =>
      simp only [bytesLt] at h1 h2
      by_cases hxy : x < y
      · simp [hxy] at h1
      · by_cases hyx : y < x
        · simp [hyx] at h2
        · simp only [hxy, hyx, if_false] at h1 h2
          have : x = y := by omega
          rw [this, ih ys h1 h2]

theorem uint256.ext_data (a b : uint256) (h : a.data = b.data) : a = b := by
  cases a; cases b; simp_all

theorem uint256_lt_order : StdMap.StrictOrder uint256.lt where
  irrefl a := bytesLt_irrefl a.data
  trans a b c := bytesLt_trans a.data b.data c.data
  total a b h1 h2 := uint256.ext_data a b (bytesLt_total a.data b.data h1 h2)

theorem outPoint_lt_order : StdMap.StrictOrder OutPoint.lt where
  irrefl a := by simp [OutPoint.lt]
  trans a b c := by
    unfold OutPoint.lt
    by_cases hab : a.hash = b.hash
    · by_cases hbc : b.hash = c.hash
      · simp only [hab, hbc, bne_self_eq_false, Bool.false_eq_true, if_false,
          decide_eq_true_eq]
        omega
      · simp only [hab, hbc, bne_self_eq_false, Bool.false_eq_true, if_false,
          decide_eq_true_eq, bne_iff_ne, ne_eq, not_false_eq_true, if_true]
        intro _ h; exact h
    · by_cases hbc : b.hash = c.hash
      · simp only [hab, ← hbc, bne_self_eq_false, Bool.false_eq_true, if_false,
          decide_eq_true_eq, bne_iff_ne, ne_eq, not_false_eq_true, if_true]
        intro h _; exact h
      · simp only [hab, hbc, bne_iff_ne, ne_eq, not_false_eq_true, if_true]
        intro h1 h2
        have h3 := bytesLt_trans _ _ _ h1 h2
        have hac : a.hash ≠ c.hash := by
          intro hac
          rw [hac] at h1
          have := bytesLt_trans _ _ _ h1 h2
          rw [bytesLt_irrefl] at this
          exact Bool.false_ne_true this
        simp [hac, h3]
  total a b := by
    unfold OutPoint.lt
    by_cases hab : a.hash = b.hash
    · simp only [hab, bne_self_eq_false, Bool.false_eq_true, if_false, decide_eq_false_iff_not]
      intro h1 h2
      have : a.n = b.n := by omega
      cases a; cases b; simp_all
    · have hba : ¬ b.hash = a.hash := fun h => hab h.symm
      simp only [hab, hba, bne_iff_ne, ne_eq, not_false_eq_true, if_true]
      intro h1 h2
      exact absurd (uint256.ext_data _ _ (bytesLt_total _ _ h1 h2)) hab

namespace StdMap

variable {K V : Type} {lt : K → K → Bool}

theorem StrictOrder.asymm (ord : StrictOrder lt) (a b : K) (h : lt a b = true) :
    lt b a = false := by
  cases hba : lt b a with
  | false => rfl
  | true =>
    have := ord.trans a b a h hba
    rw [ord.irrefl] at this
    exact absurd this Bool.false_ne_true

theorem find_insert_self (ord : StrictOrder lt) (k : K) (v : V) (m : List (K × V)) :
    find lt k (insert lt k v m) = some v := by
  induction m with
  | nil => simp [insert, find, ord.irrefl]
  | cons e m ih =>
    obtain ⟨k', v'⟩ := e
    simp only [insert]
    by_cases h1 : lt k' k = true
    · simp [h1, find, ih]
    · by_cases h2 : lt k k' = true
      · simp [h1, h2, find, ord.irrefl]
      · simp [h1, h2, find]

theorem find_insert_ne (ord : StrictOrder lt) (k k2 : K) (v : V) (m : List (K × V))
    (hne : k2 ≠ k) : find lt k2 (insert lt k v m) = find lt k2 m := by
  induction m with
  | nil =>
    simp only [insert, find]
    by_cases h1 : lt k k2 = true
    · simp [h1]
    · by_cases h2 : lt k2 k = true
      · simp [h1, h2]
      · exact absurd (ord.total k2 k (by simpa using h2) (by simpa using h1)) hne
  | cons e m ih =>
    obtain ⟨k', v'⟩ := e
    simp only [insert]
    by_cases h1 : lt k' k = true
    · simp only [h1, if_true, find, ih]
    · by_cases h2 : lt k k' = true
      · simp only [h1, h2, if_true, if_false, find]
        by_cases h3 : lt k k2 = true
        · simp [h3]
        · by_cases h4 : lt k2 k = true
          · have h5 : lt k2 k' = true := ord.trans _ _ _ h4 h2
            have h6 : lt k' k2 = false := ord.asymm _ _ h5
            simp [h3, h4, h5, h6]
          · exact absurd (ord.total k2 k (by simpa using h4) (by simpa using h3)) hne
      · have hk : k = k' := ord.total k k' (by simpa using h2) (by simpa using h1)
        subst hk
        simp only [h1, if_false, find]
        by_cases h3 : lt k k2 = true
        · simp [h3]
        · by_cases h4 : lt k2 k = true
          · simp [h3, h4]
          · exact absurd (ord.total k2 k (by simpa using h4) (by simpa using h3)) hne

theorem find_none_of_lt (ord : StrictOrder lt) (k : K) (m : List (K × V))
    (h : ∀ e ∈ m, lt k e.1 = true) : find lt k m = none := by
  cases m with
  | nil => rfl
  | cons e m =>
    have h1 := h e (List.mem_cons_self _ _)
    simp [find, h1, ord.asymm _ _ h1]

theorem find_erase_self (ord : StrictOrder lt) (k : K) (m : List (K × V))
    (hs : Sorted lt m) : find lt k (erase lt k m) = none := by
  induction m with
  | nil => rfl
  | cons e m ih =>
    obtain ⟨k', v'⟩ := e
    have hs' := List.pairwise_cons.mp hs
    simp only [erase]
    by_cases h1 : lt k' k = true
    · simp [h1, find, ih hs'.2]
    · by_cases h2 : lt k k' = true
      · simp [h1, h2, find]
      · have hk : k = k' := ord.total k k' (by simpa using h2) (by simpa using h1)
        subst hk
        simp only [h1, if_false]
        exact find_none_of_lt ord k m (fun e he => hs'.1 e he)

theorem find_erase_ne (ord : StrictOrder lt) (k k2 : K) (m : List (K × V))
    (hs : Sorted lt m) (hne : k2 ≠ k) : find lt k2 (erase lt k m) = find lt k2 m := by
  induction m with
  | nil => rfl
  | cons e m ih =>
    obtain ⟨k', v'⟩ := e
    have hs' := List.pairwise_cons.mp hs
    simp only [erase]
    by_cases h1 : lt k' k = true
    · simp only [h1, if_true, find, ih hs'.2]
    · by_cases h2 : lt k k' = true
      · simp [h1, h2]
      · have hk : k = k' := ord.total k k' (by simpa using h2) (by simpa using h1)
        subst hk
        simp only [h1, if_false, find]
        by_cases h3 : lt k k2 = true
        · simp [h3]
        · by_cases h4 : lt k2 k = true
          · simp only [h3, h4, if_true, if_false]
            exact find_none_of_lt ord k2 m (fun e he => ord.trans _ _ _ h4 (hs'.1 e he))
          · exact absurd (ord.total k2 k (by simpa using h4) (by simpa using h3)) hne

theorem mem_insert (k : K) (v : V) (m : List (K × V)) :
    ∀ e ∈ insert lt k v m, e.1 = k ∨ ∃ e' ∈ m, e'.1 = e.1 := by
  induction m with
  | nil =>
    intro e he
    simp only [insert, List.mem_singleton] at he
    left; rw [he]
  | cons x m ih =>
    obtain ⟨k', v'⟩ := x
    intro e he
    simp only [insert] at he
    by_cases h1 : lt k' k = true
    · simp only [h1, if_true, List.mem_cons] at he
      cases he with
      | inl he => right; exact ⟨(k', v'), List.mem_cons_self _ _, by rw [he]⟩
      | inr he =>
        cases ih e he with
        | inl h => left; exact h
        | inr h =>
          obtain ⟨e', he', h⟩ := h
          right; exact ⟨e', List.mem_cons_of_mem _ he', h⟩
    · by_cases h2 : lt k k' = true
      · simp only [h1, h2, if_true, if_false, Bool.false_eq_true, List.mem_cons] at he
        cases he with
        | inl he => left; rw [he]
        | inr he => right; exact ⟨e, List.mem_cons.mpr he, rfl⟩
      · simp only [h1, h2, if_false, Bool.false_eq_true] at he
        cases List.mem_cons.mp he with
        | inl he => right; exact ⟨(k', v'), List.mem_cons_self _ _, by rw [he]⟩
        | inr he => right; exact ⟨e, List.mem_cons_of_mem _ he, rfl⟩

theorem sorted_insert (ord : StrictOrder lt) (k : K) (v : V) (m : List (K × V))
    (hs : Sorted lt m) : Sorted lt (insert lt k v m) := by
  induction m with
  | nil => simp [insert, Sorted]
  | cons x m ih =>
    obtain ⟨k', v'⟩ := x
    have hs' := List.pairwise_cons.mp hs
    simp only [insert]
    by_cases h1 : lt k' k = true
    · simp only [h1, if_true]
      refine List.pairwise_cons.mpr ⟨?_, ih hs'.2⟩
      intro e he
      rcases mem_insert k v m e he with h | ⟨e', he', h⟩
      · rw [h]; exact h1
      · rw [← h]; exact hs'.1 e' he'
    · by_cases h2 : lt k k' = true
      · simp only [h1, h2, if_true, if_false, Bool.false_eq_true]
        refine List.pairwise_cons.mpr ⟨?_, hs⟩
        intro e he
        rcases List.mem_cons.mp he with he | he
        · rw [he]; exact h2
        · exact ord.trans _ _ _ h2 (hs'.1 e he)
      · simp only [h1, h2, if_false, Bool.false_eq_true]
        exact List.pairwise_cons.mpr ⟨hs'.1, hs'.2⟩

theorem erase_sublist (k : K) (m : List (K × V)) : List.Sublist (erase lt k m) m := by
  induction m with
  | nil => exact List.Sublist.slnil
  | cons x m ih =>
    obtain ⟨k', v'⟩ := x
    simp only [erase]
    by_cases h1 : lt k' k = true
    · simp only [h1, if_true]; exact ih.cons₂ _
    · by_cases h2 : lt k k' = true
      · simp [h1, h2]
      · simp only [h1, h2, if_false, Bool.false_eq_true]; exact List.sublist_cons_self _ _

theorem sorted_erase (k : K) (m : List (K × V)) (hs : Sorted lt m) :
    Sorted lt (erase lt k m) :=
  List.Pairwise.sublist (erase_sublist k m) hs

end StdMap
/-! ## Block store lemmas -/

theorem AddBlock_false (sha : Bytes → uint256) (c : BlockChain) (block : Block)
    (h : (c.AddBlock sha block).1 = false) : (c.AddBlock sha block).2 = c := by
  unfold BlockChain.AddBlock at h ⊢
  simp only at h ⊢
  split_ifs at h ⊢ <;> simp_all

theorem AddBlock_true_iff (sha : Bytes → uint256) (c : BlockChain) (block : Block) :
    (c.AddBlock sha block).1 = true ↔
      StdMap.find uint256.lt (block.header.GetHash sha) c.blockIndexMap = none ∧
      c.ValidateBlock sha block = true ∧ c.linkMismatch block = false := by
  unfold BlockChain.AddBlock
  simp only
  split_ifs with h1 h2 h3
  · simp only [Bool.false_eq_true, false_iff, not_and]
    intro h; rw [h] at h1; simp at h1
  · simp_all
  · simp_all
  · simp_all

theorem AddBlock_true (sha : Bytes → uint256) (c : BlockChain) (block : Block)
    (h : (c.AddBlock sha block).1 = true) : (c.AddBlock sha block).2 = c.install sha block := by
  unfold BlockChain.AddBlock at h ⊢
  simp only at h ⊢
  split_ifs at h ⊢
  rfl

theorem linkMismatch_false_iff (c : BlockChain) (block : Block) :
    c.linkMismatch block = false ↔
      ∀ back, c.chain.getLast? = some back → block.header.prev_block = back.hash := by
  unfold BlockChain.linkMismatch
  cases c.chain.getLast? with
  | none => simp
  | some back => simp

/-! ## Round trip of the codec -/


/-- C1: for every well-formed `TxIn`, `TxOut`, `Transaction`, `BlockHeader` and `Block`,
deserializing the serialization succeeds, ends with the cursor at the end of the
buffer and returns the value itself; hence the transaction hash and the header hash
of the decoded value are those of the original. -/
theorem serialize_deserialize_identity (sha : Bytes → uint256)
    (i : TxIn) (o : TxOut) (t : Transaction) (h : BlockHeader) (b : Block)
    (hi : i.wf) (ho : o.wf) (ht : t.wf) (hh : h.wf) (hb : b.wf) :
    TxIn.Deserialize ⟨bytesOf TxIn.Serialize i, 0⟩ =
      some (i, ⟨bytesOf TxIn.Serialize i, (bytesOf TxIn.Serialize i).length⟩) ∧
    TxOut.Deserialize ⟨bytesOf TxOut.Serialize o, 0⟩ =
      some (o, ⟨bytesOf TxOut.Serialize o, (bytesOf TxOut.Serialize o).length⟩) ∧
    Transaction.Deserialize ⟨bytesOf Transaction.Serialize t, 0⟩ =
      some (t, ⟨bytesOf Transaction.Serialize t, (bytesOf Transaction.Serialize t).length⟩) ∧
    BlockHeader.Deserialize ⟨bytesOf BlockHeader.Serialize h, 0⟩ =
      some (h, ⟨bytesOf BlockHeader.Serialize h, (bytesOf BlockHeader.Serialize h).length⟩) ∧
    Block.Deserialize ⟨bytesOf Block.Serialize b, 0⟩ =
      some (b, ⟨bytesOf Block.Serialize b, (bytesOf Block.Serialize b).length⟩) ∧
    (Transaction.Deserialize ⟨bytesOf Transaction.Serialize t, 0⟩).map
      (fun r => r.1.GetHash sha) = some (t.GetHash sha) ∧
    (BlockHeader.Deserialize ⟨bytesOf BlockHeader.Serialize h, 0⟩).map
      (fun r => r.1.GetHash sha) = some (h.GetHash sha) ∧
    (Block.Deserialize ⟨bytesOf Block.Serialize b, 0⟩).map
      (fun r => (r.1.header.GetHash sha, r.1.vtx.map (Transaction.GetHash sha))) =
        some (b.header.GetHash sha, b.vtx.map (Transaction.GetHash sha)) := by
  have e1 := (txIn_reads i hi).whole
  have e2 := (txOut_reads o ho).whole
  have e3 := (transaction_reads t ht).whole
  have e4 := (blockHeader_reads h hh).whole
  have e5 := (block_reads b hb).whole
  refine ⟨e1, e2, e3, e4, e5, ?_, ?_, ?_⟩
  · rw [e3]; rfl
  · rw [e4]; rfl
  · rw [e5]; rfl

theorem serialize_deserialize_identity_witness :
    (TxIn.default.wf ∧ TxOut.default.wf ∧ sampleOddTx.wf ∧ sampleOddBlock.header.wf ∧
      sampleOddBlock.wf) ∧
    Block.Deserialize ⟨bytesOf Block.Serialize sampleOddBlock, 0⟩ =
      some (sampleOddBlock, ⟨bytesOf Block.Serialize sampleOddBlock,
        (bytesOf Block.Serialize sampleOddBlock).length⟩) :=
  ⟨by decide, (serialize_deserialize_identity sha256 TxIn.default TxOut.default sampleOddTx
    sampleOddBlock.header sampleOddBlock (by decide) (by decide) (by decide) (by decide)
    (by decide)).2.2.2.2.1⟩

/-! ## Acceptance and rejection by `AddBlock` -/

theorem install_chain (sha : Bytes → uint256) (c : BlockChain) (block : Block) :
    (c.install sha block).chain = c.chain ++ [BlockIndex.create sha block c.chain.length] := rfl

theorem install_blockIndexMap (sha : Bytes → uint256) (c : BlockChain) (block : Block) :
    (c.install sha block).blockIndexMap =
      StdMap.insert uint256.lt (block.header.GetHash sha)
        (BlockIndex.create sha block c.chain.length) c.blockIndexMap := rfl

theorem install_blockData (sha : Bytes → uint256) (c : BlockChain) (block : Block) :
    (c.install sha block).blockData =
      StdMap.insert uint256.lt (block.header.GetHash sha) block c.blockData := rfl

theorem install_utxoSet (sha : Bytes → uint256) (c : BlockChain) (block : Block) :
    (c.install sha block).utxoSet = updateUTXO sha c.utxoSet block.vtx := rfl

theorem install_disk (sha : Bytes → uint256) (c : BlockChain) (block : Block) :
    (c.install sha block).disk = c.disk ++ bytesOf Block.Serialize block := rfl

/-- On an empty chain a header hash that does not start with two zero bytes makes
`ValidateBlock` return true before the transaction and merkle checks. -/
theorem ValidateBlock_empty_chain_bypass (sha : Bytes → uint256) (c : BlockChain)
    (block : Block) (hc : c.chain = [])
    (hpow : (block.header.GetHash sha).data.getD 0 0 ≠ 0 ∨
      (block.header.GetHash sha).data.getD 1 0 ≠ 0) :
    c.ValidateBlock sha block = true := by
  unfold BlockChain.ValidateBlock
  simp only [hpow, hc, if_true, List.isEmpty_nil]

/-- C2: the code at the failing input. On a fresh chain `AddBlock` returns true for
the default block, which has no transaction (its header hash starts with the byte
0x9f, so `ValidateBlock` returns before the transaction and merkle checks), although
the claim requires at least one transaction for acceptance. -/
theorem addBlock_accepts_block_without_transactions :
    Block.default.vtx = [] ∧
    (Block.default.header.GetHash sha256).data.getD 0 0 = 0x9f ∧
    (BlockChain.empty.AddBlock sha256 Block.default).1 = true := by
  exact ⟨rfl, eval_default_hash, eval_default_accepted⟩

/-- C3: a call of `AddBlock` that returns false leaves the whole state (chain, both
maps, UTXO set, log) as it was; and on a non-empty chain a block whose `prev_block`
differs from the tip hash is rejected, with height and UTXO set unchanged. -/
theorem addBlock_rejected_unchanged (sha : Bytes → uint256) (c : BlockChain) (block : Block) :
    ((c.AddBlock sha block).1 = false → (c.AddBlock sha block).2 = c) ∧
    (∀ back, c.chain.getLast? = some back → block.header.prev_block ≠ back.hash →
      (c.AddBlock sha block).1 = false ∧
      (c.AddBlock sha block).2.GetHeight = c.GetHeight ∧
      (c.AddBlock sha block).2.utxoSet = c.utxoSet ∧
      (c.AddBlock sha block).2 = c) := by
  refine ⟨AddBlock_false sha c block, ?_⟩
  intro back hback hne
  have hfalse : (c.AddBlock sha block).1 = false := by
    cases hres : (c.AddBlock sha block).1 with
    | false => rfl
    | true =>
      have h := ((AddBlock_true_iff sha c block).mp hres).2.2
      exact absurd ((linkMismatch_false_iff c block).mp h back hback) hne
  have hsame := AddBlock_false sha c block hfalse
  exact ⟨hfalse, by rw [hsame], by rw [hsame], hsame⟩

set_option maxRecDepth 100000 in
theorem addBlock_rejected_unchanged_witness :
    ((BlockChain.empty.AddBlock sha256 mainGenesis).2.AddBlock sha256 sampleOrphan).1 = false ∧
    ((BlockChain.empty.AddBlock sha256 mainGenesis).2.AddBlock sha256 sampleOrphan).2 =
      (BlockChain.empty.AddBlock sha256 mainGenesis).2 ∧
    (BlockChain.empty.AddBlock sha256 mainGenesis).2.chain.getLast? =
      some (BlockIndex.create sha256 mainGenesis 0) ∧
    sampleOrphan.header.prev_block ≠ (BlockIndex.create sha256 mainGenesis 0).hash ∧
    ((BlockChain.empty.AddBlock sha256 mainGenesis).2.AddBlock sha256 sampleOrphan).2.utxoSet =
      (BlockChain.empty.AddBlock sha256 mainGenesis).2.utxoSet :=
  have h1 : ((BlockChain.empty.AddBlock sha256 mainGenesis).2.AddBlock sha256
      sampleOrphan).1 = false := eval_orphan_rejected
  have h2 : (BlockChain.empty.AddBlock sha256 mainGenesis).2.chain.getLast? =
      some (BlockIndex.create sha256 mainGenesis 0) := eval_genesis_tip
  have h3 : sampleOrphan.header.prev_block ≠ (BlockIndex.create sha256 mainGenesis 0).hash := by
    exact eval_orphan_prev
  ⟨h1, (addBlock_rejected_unchanged sha256 _ sampleOrphan).1 h1, h2, h3,
    ((addBlock_rejected_unchanged sha256 _ sampleOrphan).2 _ h2 h3).2.2.1⟩

/-- C4: after an accepted `AddBlock(B)` an immediate second `AddBlock(B)` returns false
and leaves the whole state (chain, both maps, UTXO set, log) unchanged. -/
theorem addBlock_duplicate_rejected (sha : Bytes → uint256) (c : BlockChain) (block : Block)
    (h : (c.AddBlock sha block).1 = true) :
    (c.AddBlock sha block).2.AddBlock sha block = (false, (c.AddBlock sha block).2) := by
  rw [AddBlock_true sha c block h]
  have hfind : (StdMap.find uint256.lt (block.header.GetHash sha)
      (c.install sha block).blockIndexMap).isSome = true := by
    rw [install_blockIndexMap, StdMap.find_insert_self uint256_lt_order]; rfl
  unfold BlockChain.AddBlock
  simp only [hfind, if_true]

set_option maxRecDepth 100000 in
theorem addBlock_duplicate_rejected_witness :
    (BlockChain.empty.AddBlock sha256 mainGenesis).1 = true ∧
    (BlockChain.empty.AddBlock sha256 mainGenesis).2.AddBlock sha256 mainGenesis =
      (false, (BlockChain.empty.AddBlock sha256 mainGenesis).2) :=
  have h : (BlockChain.empty.AddBlock sha256 mainGenesis).1 = true := eval_genesis_accepted
  ⟨h, addBlock_duplicate_rejected sha256 BlockChain.empty mainGenesis h⟩

theorem indexed_empty : BlockChain.empty.Indexed := by
  constructor
  · intro e he; simp [BlockChain.empty] at he
  · intro h hh; simp [BlockChain.empty, StdMap.find] at hh

theorem indexed_install (sha : Bytes → uint256) (c : BlockChain) (block : Block)
    (hc : c.Indexed) : (c.install sha block).Indexed := by
  have ord := uint256_lt_order
  constructor
  · intro e he
    rw [install_chain, List.mem_append, List.mem_singleton] at he
    rw [install_blockIndexMap]
    by_cases hk : e.hash = block.header.GetHash sha
    · rw [hk, StdMap.find_insert_self ord]; rfl
    · rw [StdMap.find_insert_ne ord _ _ _ _ hk]
      rcases he with he | he
      · exact hc.1 e he
      · exact absurd (by rw [he]; rfl) hk
  · intro h hh
    rw [install_blockData] at hh
    rw [install_blockIndexMap]
    by_cases hk : h = block.header.GetHash sha
    · rw [hk, StdMap.find_insert_self ord]; rfl
    · rw [StdMap.find_insert_ne ord _ _ _ _ hk] at hh ⊢
      exact hc.2 h hh

theorem indexed_addBlock (sha : Bytes → uint256) (c : BlockChain) (block : Block)
    (hc : c.Indexed) : (c.AddBlock sha block).2.Indexed := by
  cases h : (c.AddBlock sha block).1 with
  | false => rw [AddBlock_false sha c block h]; exact hc
  | true => rw [AddBlock_true sha c block h]; exact indexed_install sha c block hc

theorem indexed_of_reachable (sha : Bytes → uint256) (c : BlockChain)
    (h : Reachable sha c) : c.Indexed := by
  induction h with
  | empty => exact indexed_empty
  | add c block _ ih => exact indexed_addBlock sha c block ih

theorem getBlockByHeight_eq (c : BlockChain) (i : Nat) (e : BlockIndex)
    (he : c.chain[i]? = some e) :
    c.GetBlockByHeight (i : Int) = c.GetBlock e.hash := by
  have hlt : i < c.chain.length := by
    by_contra hge
    rw [List.getElem?_eq_none (by omega)] at he
    exact Option.noConfusion he
  unfold BlockChain.GetBlockByHeight BlockChain.GetBlock
  have hcond : ¬ ((i : Int) < 0 ∨ (i : Int) ≥ (c.chain.length : Int)) := by omega
  simp only [hcond, if_false, Int.toNat_ofNat, he]
  cases StdMap.find uint256.lt e.hash c.blockData <;> rfl

/-- C5: an accepted `AddBlock(B)` on a chain of height `n` yields height `n+1`, best
hash `hash(B.header)`, `GetBlock(hash(B.header)) = B`, `GetBlockByHeight(n+1) = B`, an
index entry with height `n+1` and header `B.header`; the chain entries, index entries
and blocks stored before are unchanged, and the log is the old log followed by the
serialization of `B`. -/
theorem addBlock_accepted_effect (sha : Bytes → uint256) (c : BlockChain) (block : Block)
    (hc : c.Indexed) (h : (c.AddBlock sha block).1 = true) :
    (c.AddBlock sha block).2.GetHeight = c.GetHeight + 1 ∧
    (c.AddBlock sha block).2.GetBestHash = block.header.GetHash sha ∧
    (c.AddBlock sha block).2.GetBlock (block.header.GetHash sha) = block ∧
    (c.AddBlock sha block).2.GetBlockByHeight (c.GetHeight + 1) = block ∧
    (c.AddBlock sha block).2.GetIndex (block.header.GetHash sha) =
      some ⟨block.header.GetHash sha, block.header, c.GetHeight + 1⟩ ∧
    (∀ (i : Nat) (e : BlockIndex), c.chain[i]? = some e →
      (c.AddBlock sha block).2.chain[i]? = some e ∧
      (c.AddBlock sha block).2.GetIndex e.hash = c.GetIndex e.hash ∧
      (c.AddBlock sha block).2.GetBlockByHeight (i : Int) = c.GetBlockByHeight (i : Int)) ∧
    (∀ k b, StdMap.find uint256.lt k c.blockData = some b →
      (c.AddBlock sha block).2.GetBlock k = b) ∧
    (∀ k, k ≠ block.header.GetHash sha →
      (c.AddBlock sha block).2.GetIndex k = c.GetIndex k ∧
      (c.AddBlock sha block).2.GetBlock k = c.GetBlock k) ∧
    (c.AddBlock sha block).2.disk = c.disk ++ bytesOf Block.Serialize block := by
  have ord := uint256_lt_order
  have hnew := ((AddBlock_true_iff sha c block).mp h).1
  rw [AddBlock_true sha c block h]
  have hchain := install_chain sha c block
  have hidx := install_blockIndexMap sha c block
  have hdat := install_blockData sha c block
  have hne_of_indexed : ∀ k, (StdMap.find uint256.lt k c.blockIndexMap).isSome = true →
      k ≠ block.header.GetHash sha := by
    intro k hk heq
    rw [heq, hnew] at hk
    exact Bool.false_ne_true hk
  have hother : ∀ k, k ≠ block.header.GetHash sha →
      (c.install sha block).GetIndex k = c.GetIndex k ∧
      (c.install sha block).GetBlock k = c.GetBlock k := by
    intro k hk
    unfold BlockChain.GetIndex BlockChain.GetBlock
    rw [hidx, hdat, StdMap.find_insert_ne ord _ _ _ _ hk, StdMap.find_insert_ne ord _ _ _ _ hk]
    exact ⟨rfl, rfl⟩
  have hlast : (c.install sha block).chain[c.chain.length]? =
      some (BlockIndex.create sha block c.chain.length) := by
    rw [hchain]; exact List.getElem?_concat_length _ _
  have hblock : (c.install sha block).GetBlock (block.header.GetHash sha) = block := by
    unfold BlockChain.GetBlock
    rw [hdat, StdMap.find_insert_self ord]
  have hheight : c.GetHeight + 1 = (c.chain.length : Int) := by
    unfold BlockChain.GetHeight; omega
  refine ⟨?_, ?_, hblock, ?_, ?_, ?_, ?_, hother, install_disk sha c block⟩
  · unfold BlockChain.GetHeight
    rw [hchain]; simp
  · unfold BlockChain.GetBestHash
    rw [hchain]; simp [BlockIndex.create]
  · rw [hheight, getBlockByHeight_eq _ _ _ hlast]
    exact hblock
  · unfold BlockChain.GetIndex
    rw [hidx, StdMap.find_insert_self ord, hheight]; rfl
  · intro i e he
    have hmem : e ∈ c.chain := List.getElem?_mem he
    have hk := hne_of_indexed e.hash (hc.1 e hmem)
    have hi : i < c.chain.length := by
      by_contra hge
      rw [List.getElem?_eq_none (by omega)] at he
      exact Option.noConfusion he
    have he' : (c.install sha block).chain[i]? = some e := by
      rw [hchain, List.getElem?_append_left hi]
      exact he
    refine ⟨he', (hother e.hash hk).1, ?_⟩
    rw [getBlockByHeight_eq _ _ _ he', getBlockByHeight_eq _ _ _ he]
    exact (hother e.hash hk).2
  · intro k b hk
    have hsome : (StdMap.find uint256.lt k c.blockData).isSome = true := by rw [hk]; rfl
    have hk' := hne_of_indexed k (hc.2 k hsome)
    rw [(hother k hk').2]
    unfold BlockChain.GetBlock
    rw [hk]

set_option maxRecDepth 100000 in
theorem addBlock_accepted_effect_witness :
    ((BlockChain.empty.AddBlock sha256 mainGenesis).2.Indexed ∧
      ((BlockChain.empty.AddBlock sha256 mainGenesis).2.AddBlock sha256 sampleBlock1).1 = true) ∧
    ((BlockChain.empty.AddBlock sha256 mainGenesis).2.AddBlock sha256 sampleBlock1).2.GetHeight =
      (BlockChain.empty.AddBlock sha256 mainGenesis).2.GetHeight + 1 :=
  have h1 : (BlockChain.empty.AddBlock sha256 mainGenesis).2.Indexed :=
    indexed_addBlock sha256 _ _ indexed_empty
  have h2 : ((BlockChain.empty.AddBlock sha256 mainGenesis).2.AddBlock sha256
      sampleBlock1).1 = true := eval_block1_accepted
  ⟨⟨h1, h2⟩, (addBlock_accepted_effect sha256 _ sampleBlock1 h1 h2).1⟩

theorem computeMerkle_single (sha : Bytes → uint256) (tx : Transaction) :
    computeMerkle sha [tx] = tx.GetHash sha := by
  simp [computeMerkle]

/-- C6: for all parameters the block `G` of `CreateGenesisBlock` has a zero `prev_block`,
exactly one transaction with one input of zero prevout and one output, and the hash of
that transaction as merkle root; `AddBlock(G)` on a fresh chain returns true for every
digest function (whatever the leading bytes of the header hash), and afterwards the
height is 0, the best hash is the header hash of `G` and the UTXO set is the single
entry `(hash(tx0), 0) ↦ tx0.vout[0]`. -/
theorem genesis_accepted (sha : Bytes → uint256) (nTime nNonce nBits : Nat) (nVersion : Int)
    (genesisReward : Int) (rewardAddress : Bytes) :
    ∃ (tx0 : Transaction) (i : TxIn) (o : TxOut),
      (CreateGenesisBlock sha nTime nNonce nBits nVersion genesisReward
        rewardAddress).header.prev_block = uint256.zero ∧
      (CreateGenesisBlock sha nTime nNonce nBits nVersion genesisReward
        rewardAddress).vtx = [tx0] ∧
      tx0.vin = [i] ∧ i.prevout_hash = uint256.zero ∧ i.prevout_n = 0 ∧ tx0.vout = [o] ∧
      o.value = genesisReward ∧ o.scriptPubKey = rewardAddress ∧
      (CreateGenesisBlock sha nTime nNonce nBits nVersion genesisReward
        rewardAddress).header.merkle_root = tx0.GetHash sha ∧
      (BlockChain.empty.AddBlock sha (CreateGenesisBlock sha nTime nNonce nBits nVersion
        genesisReward rewardAddress)).1 = true ∧
      (BlockChain.empty.AddBlock sha (CreateGenesisBlock sha nTime nNonce nBits nVersion
        genesisReward rewardAddress)).2.GetHeight = 0 ∧
      (BlockChain.empty.AddBlock sha (CreateGenesisBlock sha nTime nNonce nBits nVersion
        genesisReward rewardAddress)).2.GetBestHash =
        (CreateGenesisBlock sha nTime nNonce nBits nVersion genesisReward
          rewardAddress).header.GetHash sha ∧
      (BlockChain.empty.AddBlock sha (CreateGenesisBlock sha nTime nNonce nBits nVersion
        genesisReward rewardAddress)).2.utxoSet = [(⟨tx0.GetHash sha, 0⟩, ⟨o⟩)] := by
  have hacc : (BlockChain.empty.AddBlock sha (CreateGenesisBlock sha nTime nNonce nBits
      nVersion genesisReward rewardAddress)).1 = true := by
    rw [AddBlock_true_iff]
    refine ⟨rfl, ?_, rfl⟩
    unfold BlockChain.ValidateBlock
    simp only
    split_ifs with h1 h2 h3 h4
    · rfl
    · simp [BlockChain.empty] at h2
    · simp [CreateGenesisBlock] at h3
    · exact absurd (by simp only [CreateGenesisBlock, computeMerkle_single]) h4
    · rfl
  have hscript : (if ¬ rewardAddress.isEmpty = true then rewardAddress else []) =
      rewardAddress := by
    cases rewardAddress <;> simp
  refine ⟨_, _, _, rfl, rfl, rfl, rfl, rfl, rfl, rfl, hscript, rfl, hacc, ?_, ?_, ?_⟩
  · rw [AddBlock_true _ _ _ hacc]; rfl
  · rw [AddBlock_true _ _ _ hacc]; rfl
  · rw [AddBlock_true _ _ _ hacc, install_utxoSet]
    simp [CreateGenesisBlock, updateUTXO, spendInputs, createOutputs, StdMap.insert,
      BlockChain.empty, TxIn.default]

/-! ## Chain invariants -/

/-- The chain invariant kept by `AddBlock`: every entry carries its position as
height and the hash of its header, and every entry after the first names the hash of
its predecessor as `prev_block`. -/
theorem linked_of_reachable (sha : Bytes → uint256) (c : BlockChain) (h : Reachable sha c) :
    (∀ (i : Nat) (e : BlockIndex), c.chain[i]? = some e →
      e.height = (i : Int) ∧ e.hash = e.header.GetHash sha) ∧
    (∀ (i : Nat) (e p : BlockIndex), c.chain[i + 1]? = some e → c.chain[i]? = some p →
      e.header.prev_block = p.hash) := by
  induction h with
  | empty =>
    constructor
    · intro i e he; simp [BlockChain.empty] at he
    · intro i e p he; simp [BlockChain.empty] at he
  | add c block _ ih =>
    cases hres : (c.AddBlock sha block).1 with
    | false => rw [AddBlock_false sha c block hres]; exact ih
    | true =>
      have hlink := (linkMismatch_false_iff c block).mp
        ((AddBlock_true_iff sha c block).mp hres).2.2
      rw [AddBlock_true sha c block hres, install_chain]
      constructor
      · intro i e he
        by_cases hi : i < c.chain.length
        · rw [List.getElem?_append_left hi] at he
          exact ih.1 i e he
        · have hlen : (c.chain ++ [BlockIndex.create sha block c.chain.length]).length =
              c.chain.length + 1 := by simp
          have hi' : i = c.chain.length := by
            have := (List.getElem?_eq_some.mp he).1
            omega
          subst hi'
          rw [List.getElem?_concat_length] at he
          injection he with he
          subst he
          exact ⟨rfl, rfl⟩
      · intro i e p he hp
        by_cases hi : i + 1 < c.chain.length
        · rw [List.getElem?_append_left hi] at he
          rw [List.getElem?_append_left (by omega)] at hp
          exact ih.2 i e p he hp
        · have hlen : (c.chain ++ [BlockIndex.create sha block c.chain.length]).length =
              c.chain.length + 1 := by simp
          have hi' : i + 1 = c.chain.length := by
            have := (List.getElem?_eq_some.mp he).1
            omega
          rw [hi', List.getElem?_concat_length] at he
          injection he with he
          rw [List.getElem?_append_left (by omega)] at hp
          have hback : c.chain.getLast? = some p := by
            rw [List.getLast?_eq_getElem?, ← hi', Nat.add_sub_cancel]; exact hp
          rw [← he]
          exact hlink p hback

/-- C7: in every chain state reached from the empty chain by calls of `AddBlock`, for
all `i ≥ 1` the entry `chain[i]` has `prev_block` equal to the hash of `chain[i-1]` and
height `i`. -/
theorem chain_linked_and_heights (sha : Bytes → uint256) (c : BlockChain)
    (h : Reachable sha c) (i : Nat) (e : BlockIndex) (hi : 1 ≤ i)
    (he : c.chain[i]? = some e) :
    (∃ p, c.chain[i - 1]? = some p ∧ e.header.prev_block = p.hash) ∧ e.height = (i : Int) := by
  have hinv := linked_of_reachable sha c h
  have hlt : i < c.chain.length := (List.getElem?_eq_some.mp he).1
  have hlt1 : i - 1 < c.chain.length := by omega
  have hp : c.chain[i - 1]? = some c.chain[i - 1] := List.getElem?_eq_getElem hlt1
  refine ⟨⟨_, hp, ?_⟩, (hinv.1 i e he).1⟩
  have he' : c.chain[i - 1 + 1]? = some e := by
    rw [Nat.sub_add_cancel hi]; exact he
  exact hinv.2 (i - 1) e _ he' hp

set_option maxRecDepth 100000 in
theorem chain_linked_and_heights_witness :
    (Reachable sha256 (addBlocks sha256 BlockChain.empty [mainGenesis, sampleBlock1]) ∧
      (addBlocks sha256 BlockChain.empty [mainGenesis, sampleBlock1]).chain[1]? =
        some (BlockIndex.create sha256 sampleBlock1 1)) ∧
    (∃ p, (addBlocks sha256 BlockChain.empty [mainGenesis, sampleBlock1]).chain[1 - 1]? =
        some p ∧
      (BlockIndex.create sha256 sampleBlock1 1).header.prev_block = p.hash) ∧
    (BlockIndex.create sha256 sampleBlock1 1).height = ((1 : Nat) : Int) :=
  have h1 : Reachable sha256 (addBlocks sha256 BlockChain.empty [mainGenesis, sampleBlock1]) :=
    reachable_addBlocks sha256 _ _ Reachable.empty
  have h2 : (addBlocks sha256 BlockChain.empty [mainGenesis, sampleBlock1]).chain[1]? =
      some (BlockIndex.create sha256 sampleBlock1 1) := eval_chain_block1_entry
  ⟨⟨h1, h2⟩, chain_linked_and_heights sha256 _ h1 1 _ (le_refl 1) h2⟩

set_option maxRecDepth 100000 in
/-- C8, counterexample: the state after `AddBlock(sampleOrphan)` on the fresh chain is
reachable and has a non-empty chain whose entry 0 has the `prev_block` `0xFF…FF`. -/
theorem genesis_prev_block_not_always_zero :
    ¬ (∀ c : BlockChain, Reachable sha256 c → ∀ e : BlockIndex, c.chain[0]? = some e →
      e.header.prev_block = uint256.zero) := by
  intro hall
  have hr : Reachable sha256 (BlockChain.empty.AddBlock sha256 sampleOrphan).2 :=
    Reachable.add _ _ Reachable.empty
  have he : (BlockChain.empty.AddBlock sha256 sampleOrphan).2.chain[0]? =
      some (BlockIndex.create sha256 sampleOrphan 0) := eval_orphan_entry
  have hz := hall _ hr _ he
  have hne : (BlockIndex.create sha256 sampleOrphan 0).header.prev_block ≠ uint256.zero := by
    exact eval_orphan_prev_nonzero
  exact hne hz

/-- C8, amended: in every chain state reached from the empty chain by calls of
`AddBlock` with a non-empty chain, `chain[0]` is the index entry of a block `G` that
`AddBlock` accepted on an empty chain; so `chain[0].header.prev_block` is the
`prev_block` of `G`, and it is the zero hash when that of `G` is. -/
theorem genesis_entry_is_first_accepted (sha : Bytes → uint256) (c : BlockChain)
    (h : Reachable sha c) (e : BlockIndex) (he : c.chain[0]? = some e) :
    ∃ (c0 : BlockChain) (G : Block), Reachable sha c0 ∧ c0.chain = [] ∧
      (c0.AddBlock sha G).1 = true ∧ e = BlockIndex.create sha G 0 ∧
      e.header.prev_block = G.header.prev_block ∧
      (G.header.prev_block = uint256.zero → e.header.prev_block = uint256.zero) := by
  induction h with
  | empty => simp [BlockChain.empty] at he
  | add c block hc ih =>
    cases hres : (c.AddBlock sha block).1 with
    | false =>
      rw [AddBlock_false sha c block hres] at he
      exact ih he
    | true =>
      rw [AddBlock_true sha c block hres, install_chain] at he
      cases hchain : c.chain with
      | nil =>
        rw [hchain] at he
        simp only [List.nil_append, List.length_nil, List.getElem?_cons_zero,
          Option.some.injEq] at he
        refine ⟨c, block, hc, hchain, hres, ?_, ?_, ?_⟩
        · rw [← he]; rfl
        · rw [← he]; rfl
        · intro hz; rw [← he]; exact hz
      | cons x xs =>
        rw [hchain] at he
        apply ih
        rw [hchain]
        simpa using he

set_option maxRecDepth 100000 in
theorem genesis_entry_is_first_accepted_witness :
    (Reachable sha256 (addBlocks sha256 BlockChain.empty [mainGenesis, sampleBlock1]) ∧
      (addBlocks sha256 BlockChain.empty [mainGenesis, sampleBlock1]).chain[0]? =
        some (BlockIndex.create sha256 mainGenesis 0)) ∧
    ∃ (c0 : BlockChain) (G : Block), Reachable sha256 c0 ∧ c0.chain = [] ∧
      (c0.AddBlock sha256 G).1 = true ∧
      BlockIndex.create sha256 mainGenesis 0 = BlockIndex.create sha256 G 0 ∧
      (BlockIndex.create sha256 mainGenesis 0).header.prev_block = G.header.prev_block ∧
      (G.header.prev_block = uint256.zero →
        (BlockIndex.create sha256 mainGenesis 0).header.prev_block = uint256.zero) :=
  have h1 : Reachable sha256 (addBlocks sha256 BlockChain.empty [mainGenesis, sampleBlock1]) :=
    reachable_addBlocks sha256 _ _ Reachable.empty
  have h2 : (addBlocks sha256 BlockChain.empty [mainGenesis, sampleBlock1]).chain[0]? =
      some (BlockIndex.create sha256 mainGenesis 0) := eval_chain_genesis_entry
  ⟨⟨h1, h2⟩, genesis_entry_is_first_accepted sha256 _ h1 _ h2⟩

/-! ## The UTXO set -/

theorem createOutputs_eq_fold (txid : uint256) (vout : List TxOut) (i : Nat)
    (U : List (OutPoint × UTXO)) :
    createOutputs txid vout i U =
      (List.range vout.length).foldl (fun U j =>
        match vout[j]? with
        | some o => StdMap.insert OutPoint.lt ⟨txid, i + j⟩ ⟨o⟩ U
        | none => U) U := by
  induction vout generalizing i U with
  | nil => rfl
  | cons o os ih =>
    rw [createOutputs, ih, List.length_cons, List.range_succ_eq_map, List.foldl_cons,
      List.foldl_map]
    simp only [List.getElem?_cons_zero, List.getElem?_cons_succ, Nat.add_zero]
    congr 1
    funext U j
    rw [Nat.add_assoc, Nat.add_comm 1 j]

theorem updateUTXO_eq_specApply (sha : Bytes → uint256) (U : List (OutPoint × UTXO))
    (block : Block) : updateUTXO sha U block.vtx = specApply sha U block := by
  unfold updateUTXO specApply
  congr 1
  funext U t
  unfold specApplyTx spendInputs
  rw [createOutputs_eq_fold]
  simp only [Nat.zero_add]
  congr 2
  funext u i
  by_cases hz : i.prevout_hash = uint256.zero <;> simp [hz]

theorem updateUTXO_append (sha : Bytes → uint256) (U : List (OutPoint × UTXO))
    (xs ys : List Transaction) :
    updateUTXO sha U (xs ++ ys) = updateUTXO sha (updateUTXO sha U xs) ys := by
  unfold updateUTXO; rw [List.foldl_append]

theorem updateUTXO_cons (sha : Bytes → uint256) (U : List (OutPoint × UTXO))
    (t : Transaction) (ts : List Transaction) :
    updateUTXO sha U (t :: ts) =
      updateUTXO sha (createOutputs (t.GetHash sha) t.vout 0 (spendInputs U t.vin)) ts := rfl

theorem install_getBlockByHeight_old (sha : Bytes → uint256) (c : BlockChain) (block : Block)
    (hc : c.Indexed)
    (hnew : StdMap.find uint256.lt (block.header.GetHash sha) c.blockIndexMap = none)
    (i : Nat) (hi : i < c.chain.length) :
    (c.install sha block).GetBlockByHeight (i : Int) = c.GetBlockByHeight (i : Int) := by
  have he : c.chain[i]? = some c.chain[i] := List.getElem?_eq_getElem hi
  have he' : (c.install sha block).chain[i]? = some c.chain[i] := by
    rw [install_chain, List.getElem?_append_left hi]; exact he
  have hk : c.chain[i].hash ≠ block.header.GetHash sha := by
    intro heq
    have := hc.1 _ (List.getElem?_mem he)
    rw [heq, hnew] at this
    exact Bool.false_ne_true this
  rw [getBlockByHeight_eq _ _ _ he', getBlockByHeight_eq _ _ _ he]
  unfold BlockChain.GetBlock
  rw [install_blockData, StdMap.find_insert_ne uint256_lt_order _ _ _ _ hk]

theorem install_getBlockByHeight_new (sha : Bytes → uint256) (c : BlockChain) (block : Block) :
    (c.install sha block).GetBlockByHeight (c.chain.length : Int) = block := by
  have he : (c.install sha block).chain[c.chain.length]? =
      some (BlockIndex.create sha block c.chain.length) := by
    rw [install_chain]; exact List.getElem?_concat_length _ _
  rw [getBlockByHeight_eq _ _ _ he]
  unfold BlockChain.GetBlock
  rw [install_blockData]
  show (match StdMap.find uint256.lt (block.header.GetHash sha)
    (StdMap.insert uint256.lt (block.header.GetHash sha) block c.blockData) with
    | some b => b | none => Block.default) = block
  rw [StdMap.find_insert_self uint256_lt_order]

theorem install_chainBlocks (sha : Bytes → uint256) (c : BlockChain) (block : Block)
    (hc : c.Indexed)
    (hnew : StdMap.find uint256.lt (block.header.GetHash sha) c.blockIndexMap = none) :
    (c.install sha block).chainBlocks = c.chainBlocks ++ [block] := by
  unfold BlockChain.chainBlocks
  rw [install_chain, List.length_append, List.length_singleton, List.range_succ,
    List.map_append, List.map_singleton, install_getBlockByHeight_new]
  congr 1
  apply List.map_congr_left
  intro i hi
  exact install_getBlockByHeight_old sha c block hc hnew i (List.mem_range.mp hi)

theorem utxo_fold_of_reachable (sha : Bytes → uint256) (c : BlockChain)
    (h : Reachable sha c) :
    c.utxoSet = c.chainBlocks.foldl (fun U b => updateUTXO sha U b.vtx) [] := by
  induction h with
  | empty => rfl
  | add c block hc ih =>
    cases hres : (c.AddBlock sha block).1 with
    | false => rw [AddBlock_false sha c block hres]; exact ih
    | true =>
      have hnew := ((AddBlock_true_iff sha c block).mp hres).1
      rw [AddBlock_true sha c block hres,
        install_chainBlocks sha c block (indexed_of_reachable sha c hc) hnew,
        List.foldl_append, install_utxoSet, ih]
      rfl

/-- C9: in every chain state reached from the empty chain by calls of `AddBlock`, the
UTXO map is the left fold, over the blocks of the chain from height 0 to the tip, of
Apply as the specification words it (`specApply`). -/
theorem utxo_is_fold_of_apply (sha : Bytes → uint256) (c : BlockChain)
    (h : Reachable sha c) :
    c.utxoSet = c.chainBlocks.foldl (specApply sha) [] := by
  rw [utxo_fold_of_reachable sha c h]
  congr 1
  funext U b
  exact updateUTXO_eq_specApply sha U b

set_option maxRecDepth 100000 in
theorem utxo_is_fold_of_apply_witness :
    Reachable sha256 (addBlocks sha256 BlockChain.empty [mainGenesis, sampleBlock1]) ∧
    (addBlocks sha256 BlockChain.empty [mainGenesis, sampleBlock1]).chainBlocks =
      [mainGenesis, sampleBlock1] ∧
    (addBlocks sha256 BlockChain.empty [mainGenesis, sampleBlock1]).utxoSet =
      (addBlocks sha256 BlockChain.empty [mainGenesis, sampleBlock1]).chainBlocks.foldl
        (specApply sha256) [] :=
  have h1 : Reachable sha256 (addBlocks sha256 BlockChain.empty [mainGenesis, sampleBlock1]) :=
    reachable_addBlocks sha256 _ _ Reachable.empty
  ⟨h1, eval_chain_blocks, utxo_is_fold_of_apply sha256 _ h1⟩

theorem sorted_spendInputs (U : List (OutPoint × UTXO)) (vin : List TxIn)
    (hs : StdMap.Sorted OutPoint.lt U) : StdMap.Sorted OutPoint.lt (spendInputs U vin) := by
  unfold spendInputs
  induction vin generalizing U with
  | nil => exact hs
  | cons x xs ih =>
    rw [List.foldl_cons]
    apply ih
    split_ifs
    · exact StdMap.sorted_erase _ _ hs
    · exact hs

theorem sorted_createOutputs (txid : uint256) (vout : List TxOut) (i : Nat)
    (U : List (OutPoint × UTXO)) (hs : StdMap.Sorted OutPoint.lt U) :
    StdMap.Sorted OutPoint.lt (createOutputs txid vout i U) := by
  induction vout generalizing i U with
  | nil => exact hs
  | cons o os ih =>
    rw [createOutputs]
    exact ih _ _ (StdMap.sorted_insert outPoint_lt_order _ _ _ hs)

theorem sorted_updateUTXO (sha : Bytes → uint256) (U : List (OutPoint × UTXO))
    (vtx : List Transaction) (hs : StdMap.Sorted OutPoint.lt U) :
    StdMap.Sorted OutPoint.lt (updateUTXO sha U vtx) := by
  induction vtx generalizing U with
  | nil => exact hs
  | cons t ts ih =>
    rw [updateUTXO_cons]
    exact ih _ (sorted_createOutputs _ _ _ _ (sorted_spendInputs _ _ hs))

theorem sorted_utxo_of_reachable (sha : Bytes → uint256) (c : BlockChain)
    (h : Reachable sha c) : StdMap.Sorted OutPoint.lt c.utxoSet := by
  induction h with
  | empty => exact List.Pairwise.nil
  | add c block _ ih =>
    cases hres : (c.AddBlock sha block).1 with
    | false => rw [AddBlock_false sha c block hres]; exact ih
    | true =>
      rw [AddBlock_true sha c block hres, install_utxoSet]
      exact sorted_updateUTXO sha _ _ ih

theorem find_erase_none (K : OutPoint) (k : OutPoint) (U : List (OutPoint × UTXO))
    (hs : StdMap.Sorted OutPoint.lt U) (h : StdMap.find OutPoint.lt K U = none) :
    StdMap.find OutPoint.lt K (StdMap.erase OutPoint.lt k U) = none := by
  by_cases hk : K = k
  · rw [hk]; exact StdMap.find_erase_self outPoint_lt_order k U hs
  · rw [StdMap.find_erase_ne outPoint_lt_order k K U hs hk]; exact h

theorem find_spendInputs_none (K : OutPoint) (U : List (OutPoint × UTXO)) (vin : List TxIn)
    (hs : StdMap.Sorted OutPoint.lt U) (h : StdMap.find OutPoint.lt K U = none) :
    StdMap.find OutPoint.lt K (spendInputs U vin) = none := by
  unfold spendInputs
  induction vin generalizing U with
  | nil => exact h
  | cons x xs ih =>
    rw [List.foldl_cons]
    split_ifs
    · exact ih _ (StdMap.sorted_erase _ _ hs) (find_erase_none K _ U hs h)
    · exact ih _ hs h

theorem find_spendInputs_spent (U : List (OutPoint × UTXO)) (vin : List TxIn) (inp : TxIn)
    (hs : StdMap.Sorted OutPoint.lt U) (hin : inp ∈ vin)
    (hnz : inp.prevout_hash ≠ uint256.zero) :
    StdMap.find OutPoint.lt ⟨inp.prevout_hash, inp.prevout_n⟩ (spendInputs U vin) = none := by
  induction vin generalizing U with
  | nil => simp at hin
  | cons x xs ih =>
    have hstep : spendInputs U (x :: xs) = spendInputs (spendInputs U [x]) xs := rfl
    have hs1 : StdMap.Sorted OutPoint.lt (spendInputs U [x]) := sorted_spendInputs U [x] hs
    rw [hstep]
    rcases List.mem_cons.mp hin with hx | hx
    · apply find_spendInputs_none _ _ _ hs1
      rw [← hx]
      simp only [spendInputs, List.foldl_cons, List.foldl_nil, hnz, ne_eq, not_false_eq_true,
        if_true]
      exact StdMap.find_erase_self outPoint_lt_order _ U hs
    · exact ih _ hs1 hx

theorem find_createOutputs_other (txid : uint256) (vout : List TxOut) (i : Nat)
    (U : List (OutPoint × UTXO)) (K : OutPoint) (hK : K.hash ≠ txid ∨ K.n < i) :
    StdMap.find OutPoint.lt K (createOutputs txid vout i U) = StdMap.find OutPoint.lt K U := by
  induction vout generalizing i U with
  | nil => rfl
  | cons o os ih =>
    rw [createOutputs, ih (i + 1) _ (by rcases hK with h | h; exact Or.inl h; exact Or.inr (by omega))]
    apply StdMap.find_insert_ne outPoint_lt_order
    intro heq
    rcases hK with h | h
    · exact h (by rw [heq])
    · rw [heq] at h; exact Nat.lt_irrefl _ h

theorem find_createOutputs_self (txid : uint256) (vout : List TxOut) (i k : Nat) (o : TxOut)
    (U : List (OutPoint × UTXO)) (hk : vout[k]? = some o) :
    StdMap.find OutPoint.lt ⟨txid, i + k⟩ (createOutputs txid vout i U) = some ⟨o⟩ := by
  induction vout generalizing i k U with
  | nil => simp at hk
  | cons x xs ih =>
    rw [createOutputs]
    cases k with
    | zero =>
      simp only [List.getElem?_cons_zero, Option.some.injEq] at hk
      rw [find_createOutputs_other _ _ _ _ _ (Or.inr (by simp)), Nat.add_zero,
        StdMap.find_insert_self outPoint_lt_order, hk]
    | succ k =>
      simp only [List.getElem?_cons_succ] at hk
      have := ih (i + 1) k (StdMap.insert OutPoint.lt ⟨txid, i⟩ ⟨x⟩ U) hk
      rw [Nat.add_assoc, Nat.add_comm 1 k] at this
      exact this

theorem find_updateUTXO_none (sha : Bytes → uint256) (K : OutPoint)
    (U : List (OutPoint × UTXO)) (vtx : List Transaction)
    (hs : StdMap.Sorted OutPoint.lt U) (h : StdMap.find OutPoint.lt K U = none)
    (hne : ∀ t ∈ vtx, t.GetHash sha ≠ K.hash) :
    StdMap.find OutPoint.lt K (updateUTXO sha U vtx) = none := by
  induction vtx generalizing U with
  | nil => exact h
  | cons t ts ih =>
    rw [updateUTXO_cons]
    apply ih _ (sorted_createOutputs _ _ _ _ (sorted_spendInputs _ _ hs))
    · rw [find_createOutputs_other _ _ _ _ _
        (Or.inl (fun heq => hne t (List.mem_cons_self _ _) heq.symm))]
      exact find_spendInputs_none K U t.vin hs h
    · intro t' ht'; exact hne t' (List.mem_cons_of_mem _ ht')

/-- C10: when a block is accepted in which the transaction at position `j` has an input
referencing output `k` of the transaction `ti` at an earlier position `i < j` (a
reference is an input with that non-zero `prevout_hash`), and no transaction at a
position `≥ j` has the hash of `ti`, the outpoint `(hash(ti), k)` is absent from the
UTXO set after `AddBlock`. Within one transaction the inputs are removed before its
own outputs are inserted: the step for a transaction is `createOutputs` applied to the
result of `spendInputs`, so that every output of the last transaction of the block is
present afterwards, also one that an input of the same transaction names. -/
theorem spend_within_block (sha : Bytes → uint256) (c : BlockChain) (block : Block)
    (hs : StdMap.Sorted OutPoint.lt c.utxoSet) (hacc : (c.AddBlock sha block).1 = true) :
    (∀ (i j k : Nat) (ti tj : Transaction) (inp : TxIn), i < j →
      block.vtx[i]? = some ti → block.vtx[j]? = some tj → inp ∈ tj.vin →
      inp.prevout_hash = ti.GetHash sha → inp.prevout_n = k →
      ti.GetHash sha ≠ uint256.zero →
      (∀ (m : Nat) (t : Transaction), j ≤ m → block.vtx[m]? = some t →
        t.GetHash sha ≠ ti.GetHash sha) →
      StdMap.find OutPoint.lt ⟨ti.GetHash sha, k⟩ (c.AddBlock sha block).2.utxoSet = none) ∧
    (∀ (pre : List Transaction) (t : Transaction), block.vtx = pre ++ [t] →
      (c.AddBlock sha block).2.utxoSet =
        createOutputs (t.GetHash sha) t.vout 0
          (spendInputs (updateUTXO sha c.utxoSet pre) t.vin) ∧
      ∀ (k : Nat) (o : TxOut), t.vout[k]? = some o →
        StdMap.find OutPoint.lt ⟨t.GetHash sha, k⟩ (c.AddBlock sha block).2.utxoSet =
          some ⟨o⟩) := by
  rw [AddBlock_true sha c block hacc, install_utxoSet]
  constructor
  · intro i j k ti tj inp _ _ htj hin hh hn hnz hlater
    have hj : j < block.vtx.length := (List.getElem?_eq_some.mp htj).1
    have hsplit : block.vtx = block.vtx.take j ++ tj :: block.vtx.drop (j + 1) := by
      have h1 := (List.take_append_drop j block.vtx).symm
      have h2 : block.vtx.drop j = tj :: block.vtx.drop (j + 1) := by
        rw [List.drop_eq_getElem_cons hj]
        congr 1
        have := (List.getElem?_eq_some.mp htj).2
        exact this
      rw [h2] at h1
      exact h1
    have hs1 : StdMap.Sorted OutPoint.lt (updateUTXO sha c.utxoSet (block.vtx.take j)) :=
      sorted_updateUTXO sha _ _ hs
    have hs2 := sorted_spendInputs _ tj.vin hs1
    have hspent := find_spendInputs_spent _ tj.vin inp hs1 hin (by rw [hh]; exact hnz)
    rw [hh, hn] at hspent
    rw [hsplit, updateUTXO_append, updateUTXO_cons]
    apply find_updateUTXO_none sha _ _ _ (sorted_createOutputs _ _ _ _ hs2)
    · rw [find_createOutputs_other _ _ _ _ _
        (Or.inl (fun heq => hlater j tj (le_refl j) htj heq.symm))]
      exact hspent
    · intro t ht
      obtain ⟨m, hm⟩ := List.getElem?_of_mem ht
      have hm' : block.vtx[j + 1 + m]? = some t := by
        rw [List.getElem?_drop] at hm; exact hm
      exact hlater (j + 1 + m) t (by omega) hm'
  · intro pre t hvtx
    have hU : updateUTXO sha c.utxoSet block.vtx =
        createOutputs (t.GetHash sha) t.vout 0
          (spendInputs (updateUTXO sha c.utxoSet pre) t.vin) := by
      rw [hvtx, updateUTXO_append]; rfl
    refine ⟨hU, ?_⟩
    intro k o hk
    rw [hU]
    have := find_createOutputs_self (t.GetHash sha) t.vout 0 k o
      (spendInputs (updateUTXO sha c.utxoSet pre) t.vin) hk
    rw [Nat.zero_add] at this
    exact this
set_option maxRecDepth 100000 in
theorem spend_within_block_witness :
    (StdMap.Sorted OutPoint.lt (BlockChain.empty.AddBlock sha256 mainGenesis).2.utxoSet ∧
      ((BlockChain.empty.AddBlock sha256 mainGenesis).2.AddBlock sha256 sampleBlock1).1 = true ∧
      sampleBlock1.vtx[0]? = some sampleCoinbase ∧ sampleBlock1.vtx[1]? = some sampleSpend ∧
      sampleCoinbase.GetHash sha256 ≠ uint256.zero) ∧
    StdMap.find OutPoint.lt ⟨sampleCoinbase.GetHash sha256, 0⟩
      ((BlockChain.empty.AddBlock sha256 mainGenesis).2.AddBlock sha256
        sampleBlock1).2.utxoSet = none ∧
    StdMap.find OutPoint.lt ⟨sampleSpend.GetHash sha256, 0⟩
      ((BlockChain.empty.AddBlock sha256 mainGenesis).2.AddBlock sha256
        sampleBlock1).2.utxoSet = some ⟨⟨1000, [65, 85, 82, 98, 111, 98]⟩⟩ :=
  have hs : StdMap.Sorted OutPoint.lt (BlockChain.empty.AddBlock sha256 mainGenesis).2.utxoSet :=
    sorted_utxo_of_reachable sha256 _ (Reachable.add _ _ Reachable.empty)
  have hacc : ((BlockChain.empty.AddBlock sha256 mainGenesis).2.AddBlock sha256
      sampleBlock1).1 = true := eval_block1_accepted
  have hnz : sampleCoinbase.GetHash sha256 ≠ uint256.zero := eval_coinbase_hash_nonzero
  have hne : sampleSpend.GetHash sha256 ≠ sampleCoinbase.GetHash sha256 := eval_spend_hash_ne
  have hlater : ∀ (m : Nat) (t : Transaction), 1 ≤ m → sampleBlock1.vtx[m]? = some t →
      t.GetHash sha256 ≠ sampleCoinbase.GetHash sha256 := by
    intro m t hm hget
    match m, hm, hget with
    | 1, _, hget =>
      have ht : t = sampleSpend := by
        have : sampleBlock1.vtx[1]? = some sampleSpend := rfl
        rw [this] at hget
        exact (Option.some.inj hget).symm
      rw [ht]; exact hne
    | m + 2, _, hget =>
      have : sampleBlock1.vtx[m + 2]? = none := rfl
      rw [this] at hget
      exact Option.noConfusion hget
  ⟨⟨hs, hacc, rfl, rfl, hnz⟩,
    (spend_within_block sha256 _ sampleBlock1 hs hacc).1 0 1 0 sampleCoinbase sampleSpend
      { prevout_hash := sampleCoinbase.GetHash sha256, prevout_n := 0, scriptSig := [],
        sequence := 0xFFFFFFFF }
      (by decide) rfl rfl (List.mem_singleton.mpr rfl) rfl rfl hnz hlater,
    ((spend_within_block sha256 _ sampleBlock1 hs hacc).2 [sampleCoinbase] sampleSpend
      rfl).2 0 _ rfl⟩

/-! ## Mempool -/

namespace StdMap

variable {K V : Type} {lt : K → K → Bool}

theorem insert_perm (k : K) (v : V) (m : List (K × V))
    (h : find lt k m = none) : (insert lt k v m).Perm ((k, v) :: m) := by
  induction m with
  | nil => simp [insert]
  | cons e m ih =>
    obtain ⟨k', v'⟩ := e
    simp only [find] at h
    simp only [insert]
    by_cases h1 : lt k' k = true
    · simp only [h1, if_true] at h ⊢
      exact ((ih h).cons _).trans (List.Perm.swap _ _ _)
    · by_cases h2 : lt k k' = true
      · simp only [h1, h2, if_true, if_false, Bool.false_eq_true]
        exact List.Perm.refl _
      · simp [h1, h2] at h

theorem erase_of_find_none (k : K) (m : List (K × V)) (h : find lt k m = none) :
    erase lt k m = m := by
  induction m with
  | nil => rfl
  | cons e m ih =>
    obtain ⟨k', v'⟩ := e
    simp only [find] at h
    simp only [erase]
    by_cases h1 : lt k' k = true
    · simp only [h1, if_true] at h ⊢
      rw [ih h]
    · by_cases h2 : lt k k' = true
      · simp [h1, h2]
      · simp [h1, h2] at h

theorem erase_eq_filter [DecidableEq K] (ord : StrictOrder lt) (k : K) (m : List (K × V))
    (hs : Sorted lt m) : erase lt k m = m.filter (fun e => decide (e.1 ≠ k)) := by
  induction m with
  | nil => rfl
  | cons e m ih =>
    obtain ⟨k', v'⟩ := e
    have hs' := List.pairwise_cons.mp hs
    simp only [erase]
    by_cases h1 : lt k' k = true
    · have hne : k' ≠ k := by
        intro heq; rw [heq, ord.irrefl] at h1; exact Bool.false_ne_true h1
      simp only [h1, if_true, ih hs'.2]
      rw [List.filter_cons_of_pos (by simpa using hne)]
    · by_cases h2 : lt k k' = true
      · have hne : k' ≠ k := by
          intro heq; rw [heq, ord.irrefl] at h2; exact Bool.false_ne_true h2
        simp only [h1, h2, if_true, if_false, Bool.false_eq_true]
        rw [List.filter_cons_of_pos (by simpa using hne)]
        congr 1
        symm
        apply List.filter_eq_self.mpr
        intro x hx
        have hx' := ord.trans _ _ _ h2 (hs'.1 x hx)
        simp only [ne_eq, decide_eq_true_eq]
        intro heq; rw [heq, ord.irrefl] at hx'; exact Bool.false_ne_true hx'
      · have hk : k = k' := ord.total k k' (by simpa using h2) (by simpa using h1)
        subst hk
        simp only [h1, if_false, Bool.false_eq_true]
        rw [List.filter_cons_of_neg (by simp)]
        symm
        apply List.filter_eq_self.mpr
        intro x hx
        have hx' := hs'.1 x hx
        simp only [ne_eq, decide_eq_true_eq]
        intro heq; rw [heq, ord.irrefl] at hx'; exact Bool.false_ne_true hx'

theorem keys_nodup_of_sorted (ord : StrictOrder lt) (m : List (K × V)) (hs : Sorted lt m) :
    (m.map Prod.fst).Nodup := by
  unfold Sorted at hs
  rw [List.Nodup, List.pairwise_map]
  exact hs.imp (fun {a b} hab heq => by
    rw [heq, ord.irrefl] at hab; exact Bool.false_ne_true hab)

end StdMap

theorem validateTransaction_iff (tx : Transaction) :
    Mempool.ValidateTransaction tx = true ↔
      tx.vout ≠ [] ∧ (∀ o ∈ tx.vout, 0 < o.value) ∧
      ¬ (∃ i : TxIn, tx.vin = [i] ∧ i.prevout_hash = uint256.zero ∧ i.scriptSig ≠ MINT) := by
  unfold Mempool.ValidateTransaction
  by_cases hv : tx.vout = []
  · simp [hv]
  · have hne : tx.vout.isEmpty = false := by
      cases hvo : tx.vout with
      | nil => exact absurd hvo hv
      | cons a b => rfl
    simp only [hne, Bool.false_eq_true, if_false]
    by_cases hany : (tx.vout.any fun out => decide (out.value ≤ 0)) = true
    · simp only [hany, if_true, Bool.false_eq_true, false_iff, not_and]
      intro _ hall
      obtain ⟨o, ho, hle⟩ := List.any_eq_true.mp hany
      have := hall o ho
      simp at hle
      omega
    · have hall : ∀ o ∈ tx.vout, 0 < o.value := by
        intro o ho
        by_contra hle
        apply hany
        exact List.any_eq_true.mpr ⟨o, ho, by simpa using hle⟩
      simp only [hany, Bool.false_eq_true, if_false]
      have hrhs : (tx.vout ≠ [] ∧ (∀ o ∈ tx.vout, 0 < o.value) ∧
          ¬ (∃ i : TxIn, tx.vin = [i] ∧ i.prevout_hash = uint256.zero ∧ i.scriptSig ≠ MINT)) ↔
          ¬ (∃ i : TxIn, tx.vin = [i] ∧ i.prevout_hash = uint256.zero ∧ i.scriptSig ≠ MINT) :=
        ⟨fun h => h.2.2, fun h => ⟨hv, hall, h⟩⟩
      rw [hrhs]
      cases hvin : tx.vin with
      | nil => simp
      | cons i rest =>
        cases rest with
        | cons j rest2 => simp
        | nil =>
          have hmint : (i.scriptSig.length = 4 ∧ i.scriptSig.take 4 = MINT) ↔
              i.scriptSig = MINT := by
            constructor
            · rintro ⟨h4, ht⟩
              rw [← ht, ← h4, List.take_length]
            · intro h; rw [h]; exact ⟨rfl, rfl⟩
          simp only [List.length_singleton, decide_True, List.getD_cons_zero, Bool.true_and,
            List.cons.injEq, and_true, exists_eq_left']
          by_cases hs : i.scriptSig = MINT
          · have h4 := (hmint.mpr hs).1
            have ht := (hmint.mpr hs).2
            simp only [hs] at h4 ht
            simp [hs, h4, ht]
          · by_cases hz : i.prevout_hash = uint256.zero
            · by_cases h4 : i.scriptSig.length = 4
              · have ht : ¬ i.scriptSig.take 4 = MINT := fun h => hs (hmint.mp ⟨h4, h⟩)
                simp [hs, hz, h4, ht]
              · simp [hs, hz, h4]
            · simp [hz]

theorem addTransaction_true_iff (sha : Bytes → uint256) (m : Mempool) (tx : Transaction) :
    (m.AddTransaction sha tx).1 = true ↔
      StdMap.find uint256.lt (tx.GetHash sha) m.pool = none ∧
      Mempool.ValidateTransaction tx = true := by
  unfold Mempool.AddTransaction
  simp only
  split_ifs with h1 h2
  · simp only [Bool.false_eq_true, false_iff, not_and]
    intro h; rw [h] at h1; simp at h1
  · simp_all
  · simp_all

theorem addTransaction_true (sha : Bytes → uint256) (m : Mempool) (tx : Transaction)
    (h : (m.AddTransaction sha tx).1 = true) :
    (m.AddTransaction sha tx).2 =
      { pool := StdMap.insert uint256.lt (tx.GetHash sha) tx m.pool } := by
  unfold Mempool.AddTransaction at h ⊢
  simp only at h ⊢
  split_ifs at h ⊢
  rfl

theorem addTransaction_false (sha : Bytes → uint256) (m : Mempool) (tx : Transaction)
    (h : (m.AddTransaction sha tx).1 = false) : (m.AddTransaction sha tx).2 = m := by
  unfold Mempool.AddTransaction at h ⊢
  simp only at h ⊢
  split_ifs at h ⊢ <;> simp_all

theorem find_isSome_false_iff {V : Type} (k : uint256) (p : List (uint256 × V)) :
    (StdMap.find uint256.lt k p).isSome = false ↔ StdMap.find uint256.lt k p = none := by
  cases StdMap.find uint256.lt k p <;> simp

/-- C11: `AddTransaction(tx)` returns true exactly when `hash(tx)` is not a key of the
pool, `tx` has an output, every output value is positive, and `tx` is not a
transaction with exactly one input that has a zero `prevout_hash` and a `scriptSig`
other than `MINT`. On true the pool is the old pool with `hash(tx) ↦ tx` added (size
plus one, `Contains(hash(tx))`, `tx` among `GetTransactions()`), on false it is
unchanged. A transaction with one zero-prevout input with `scriptSig` `MINT` and one
output of value 1000 is admitted when its hash is not in the pool, and with `scriptSig`
`FAKE` it is rejected. -/
theorem addTransaction_admission (sha : Bytes → uint256) (m : Mempool) (tx : Transaction) :
    ((m.AddTransaction sha tx).1 = true ↔
      m.Contains (tx.GetHash sha) = false ∧ tx.vout ≠ [] ∧ (∀ o ∈ tx.vout, 0 < o.value) ∧
      ¬ (∃ i : TxIn, tx.vin = [i] ∧ i.prevout_hash = uint256.zero ∧ i.scriptSig ≠ MINT)) ∧
    ((m.AddTransaction sha tx).1 = true →
      (∀ k, StdMap.find uint256.lt k (m.AddTransaction sha tx).2.pool =
        if k = tx.GetHash sha then some tx else StdMap.find uint256.lt k m.pool) ∧
      (m.AddTransaction sha tx).2.pool.Perm ((tx.GetHash sha, tx) :: m.pool) ∧
      (m.AddTransaction sha tx).2.Size = m.Size + 1 ∧
      (m.AddTransaction sha tx).2.Contains (tx.GetHash sha) = true ∧
      tx ∈ (m.AddTransaction sha tx).2.GetTransactions) ∧
    ((m.AddTransaction sha tx).1 = false → (m.AddTransaction sha tx).2 = m) ∧
    (∀ (i : TxIn) (o : TxOut), tx.vin = [i] → i.prevout_hash = uint256.zero →
      tx.vout = [o] → o.value = 1000 →
      (i.scriptSig = MINT → m.Contains (tx.GetHash sha) = false →
        (m.AddTransaction sha tx).1 = true) ∧
      (i.scriptSig = [70, 65, 75, 69] → (m.AddTransaction sha tx).1 = false)) := by
  have hiff : (m.AddTransaction sha tx).1 = true ↔
      m.Contains (tx.GetHash sha) = false ∧ tx.vout ≠ [] ∧ (∀ o ∈ tx.vout, 0 < o.value) ∧
      ¬ (∃ i : TxIn, tx.vin = [i] ∧ i.prevout_hash = uint256.zero ∧ i.scriptSig ≠ MINT) := by
    rw [addTransaction_true_iff, validateTransaction_iff]
    unfold Mempool.Contains
    rw [find_isSome_false_iff]
  refine ⟨hiff, ?_, addTransaction_false sha m tx, ?_⟩
  · intro h
    have hnone := ((addTransaction_true_iff sha m tx).mp h).1
    have hperm := StdMap.insert_perm (tx.GetHash sha) tx m.pool hnone
    rw [addTransaction_true sha m tx h]
    refine ⟨?_, hperm, ?_, ?_, ?_⟩
    · intro k
      by_cases hk : k = tx.GetHash sha
      · rw [if_pos hk, hk]; exact StdMap.find_insert_self uint256_lt_order _ _ _
      · rw [if_neg hk]; exact StdMap.find_insert_ne uint256_lt_order _ _ _ _ hk
    · unfold Mempool.Size
      rw [hperm.length_eq]; rfl
    · unfold Mempool.Contains
      simp only
      rw [StdMap.find_insert_self uint256_lt_order]; rfl
    · unfold Mempool.GetTransactions
      simp only
      exact List.mem_map.mpr ⟨(tx.GetHash sha, tx), hperm.symm.subset (List.mem_cons_self _ _), rfl⟩
  · intro i o hvin hz hvout hval
    constructor
    · intro hs hc
      rw [hiff]
      refine ⟨hc, by rw [hvout]; simp, ?_, ?_⟩
      · intro o' ho'
        rw [hvout] at ho'
        rw [List.mem_singleton.mp ho', hval]; decide
      · rintro ⟨j, hj, _, hne⟩
        rw [hvin] at hj
        have : i = j := by simpa using hj
        rw [← this] at hne
        exact hne hs
    · intro hs
      cases hres : (m.AddTransaction sha tx).1 with
      | false => rfl
      | true =>
        exfalso
        apply (hiff.mp hres).2.2.2
        exact ⟨i, hvin, hz, by rw [hs]; decide⟩

set_option maxRecDepth 100000 in
theorem addTransaction_admission_witness :
    ((Mempool.empty.AddTransaction sha256 sampleMint).1 = true ∧
      (Mempool.empty.AddTransaction sha256 sampleFake).1 = false) ∧
    (Mempool.empty.AddTransaction sha256 sampleMint).2.Size = Mempool.empty.Size + 1 ∧
    (Mempool.empty.AddTransaction sha256 sampleFake).2 = Mempool.empty :=
  have h1 : (Mempool.empty.AddTransaction sha256 sampleMint).1 = true := eval_mint_added
  have h2 : (Mempool.empty.AddTransaction sha256 sampleFake).1 = false := eval_fake_rejected
  ⟨⟨h1, h2⟩, ((addTransaction_admission sha256 Mempool.empty sampleMint).2.1 h1).2.2.1,
    (addTransaction_admission sha256 Mempool.empty sampleFake).2.2.1 h2⟩

theorem mempool_entries_of_reachable (sha : Bytes → uint256) (m : Mempool)
    (h : MempoolReachable sha m) :
    StdMap.Sorted uint256.lt m.pool ∧
    ∀ e ∈ m.pool, e.1 = e.2.GetHash sha ∧ e.2.vout ≠ [] ∧ ∀ o ∈ e.2.vout, 0 < o.value := by
  induction h with
  | empty =>
    exact ⟨List.Pairwise.nil, fun e he => by simp [Mempool.empty] at he⟩
  | add m tx _ ih =>
    cases hres : (m.AddTransaction sha tx).1 with
    | false => rw [addTransaction_false sha m tx hres]; exact ih
    | true =>
      have hnone := ((addTransaction_true_iff sha m tx).mp hres).1
      have hval := (validateTransaction_iff tx).mp ((addTransaction_true_iff sha m tx).mp hres).2
      rw [addTransaction_true sha m tx hres]
      refine ⟨StdMap.sorted_insert uint256_lt_order _ _ _ ih.1, ?_⟩
      intro e he
      have hmem := (StdMap.insert_perm (tx.GetHash sha) tx m.pool
        hnone).subset he
      cases List.mem_cons.mp hmem with
      | inl heq => rw [heq]; exact ⟨rfl, hval.1, hval.2.1⟩
      | inr hin => exact ih.2 e hin
  | remove m txs _ ih =>
    have key : ∀ (p : List (uint256 × Transaction)),
        (StdMap.Sorted uint256.lt p ∧
          ∀ e ∈ p, e.1 = e.2.GetHash sha ∧ e.2.vout ≠ [] ∧ ∀ o ∈ e.2.vout, 0 < o.value) →
        (StdMap.Sorted uint256.lt
            (txs.foldl (fun p tx => StdMap.erase uint256.lt (tx.GetHash sha) p) p) ∧
          ∀ e ∈ txs.foldl (fun p tx => StdMap.erase uint256.lt (tx.GetHash sha) p) p,
            e.1 = e.2.GetHash sha ∧ e.2.vout ≠ [] ∧ ∀ o ∈ e.2.vout, 0 < o.value) := by
      induction txs with
      | nil => intro p hp; exact hp
      | cons t ts iht =>
        intro p hp
        rw [List.foldl_cons]
        apply iht
        exact ⟨StdMap.sorted_erase _ _ hp.1,
          fun e he => hp.2 e ((StdMap.erase_sublist _ _).subset he)⟩
    exact key m.pool ih

/-- C12: in every mempool state reached from the empty pool by calls of
`AddTransaction` and `RemoveTransactions`, every entry `h ↦ tx` has `h = hash(tx)`, a
non-empty output list and only positive output values; so the transactions that
`GetTransactions()` returns have pairwise different hashes and `Size()` is the number
of distinct hashes held. -/
theorem mempool_entries_valid (sha : Bytes → uint256) (m : Mempool)
    (h : MempoolReachable sha m) :
    (∀ e ∈ m.pool, e.1 = e.2.GetHash sha ∧ e.2.vout ≠ [] ∧ ∀ o ∈ e.2.vout, 0 < o.value) ∧
    (m.GetTransactions.map (Transaction.GetHash sha)).Nodup ∧
    m.Size = (m.GetTransactions.map (Transaction.GetHash sha)).dedup.length := by
  have hinv := mempool_entries_of_reachable sha m h
  have hkeys : m.GetTransactions.map (Transaction.GetHash sha) = m.pool.map Prod.fst := by
    unfold Mempool.GetTransactions
    rw [List.map_map]
    apply List.map_congr_left
    intro e he
    exact (hinv.2 e he).1.symm
  have hnodup : (m.GetTransactions.map (Transaction.GetHash sha)).Nodup := by
    rw [hkeys]; exact StdMap.keys_nodup_of_sorted uint256_lt_order _ hinv.1
  refine ⟨hinv.2, hnodup, ?_⟩
  rw [List.Nodup.dedup hnodup]
  unfold Mempool.Size Mempool.GetTransactions
  simp

set_option maxRecDepth 100000 in
theorem mempool_entries_valid_witness :
    MempoolReachable sha256 (Mempool.empty.AddTransaction sha256 sampleMint).2 ∧
    (Mempool.empty.AddTransaction sha256 sampleMint).2.Size = 1 ∧
    (Mempool.empty.AddTransaction sha256 sampleMint).2.Size =
      ((Mempool.empty.AddTransaction sha256 sampleMint).2.GetTransactions.map
        (Transaction.GetHash sha256)).dedup.length :=
  have h : MempoolReachable sha256 (Mempool.empty.AddTransaction sha256 sampleMint).2 :=
    MempoolReachable.add _ _ MempoolReachable.empty
  ⟨h, eval_mint_size, (mempool_entries_valid sha256 _ h).2.2⟩

theorem foldl_erase_eq_filter (sha : Bytes → uint256) (L : List Transaction)
    (p : List (uint256 × Transaction)) (hs : StdMap.Sorted uint256.lt p) :
    L.foldl (fun p tx => StdMap.erase uint256.lt (tx.GetHash sha) p) p =
      p.filter (fun e => decide (e.1 ∉ L.map (Transaction.GetHash sha))) := by
  induction L generalizing p with
  | nil => simp
  | cons t ts ih =>
    rw [List.foldl_cons, ih _ (StdMap.sorted_erase _ _ hs),
      StdMap.erase_eq_filter uint256_lt_order _ _ hs, List.filter_filter]
    apply List.filter_congr
    intro e _
    simp only [List.map_cons, List.mem_cons, not_or, ne_eq, Bool.decide_and, Bool.and_comm]

/-- C13: after `RemoveTransactions(L)` no transaction of `L` is contained, every pool
entry whose key is not the hash of an element of `L` is kept as it was (the pool is
the old pool without the entries keyed by hashes of `L`), and hashes of `L` that the
pool does not hold change nothing. -/
theorem removeTransactions_effect (sha : Bytes → uint256) (m : Mempool) (L : List Transaction)
    (hs : StdMap.Sorted uint256.lt m.pool) :
    (∀ t ∈ L, (m.RemoveTransactions sha L).Contains (t.GetHash sha) = false) ∧
    (∀ k, (∀ t ∈ L, t.GetHash sha ≠ k) →
      StdMap.find uint256.lt k (m.RemoveTransactions sha L).pool =
        StdMap.find uint256.lt k m.pool) ∧
    (m.RemoveTransactions sha L).pool =
      m.pool.filter (fun e => decide (e.1 ∉ L.map (Transaction.GetHash sha))) ∧
    ((∀ t ∈ L, m.Contains (t.GetHash sha) = false) → m.RemoveTransactions sha L = m) := by
  have ord := uint256_lt_order
  have key : ∀ (L : List Transaction) (p : List (uint256 × Transaction)),
      StdMap.Sorted uint256.lt p →
      StdMap.Sorted uint256.lt
        (L.foldl (fun p tx => StdMap.erase uint256.lt (tx.GetHash sha) p) p) ∧
      ∀ k, StdMap.find uint256.lt k
          (L.foldl (fun p tx => StdMap.erase uint256.lt (tx.GetHash sha) p) p) =
        if k ∈ L.map (Transaction.GetHash sha) then none else StdMap.find uint256.lt k p := by
    intro L
    induction L with
    | nil => intro p hp; exact ⟨hp, fun k => by simp⟩
    | cons t ts ih =>
      intro p hp
      rw [List.foldl_cons]
      have hp' := StdMap.sorted_erase (t.GetHash sha) p hp
      refine ⟨(ih _ hp').1, ?_⟩
      intro k
      rw [(ih _ hp').2 k]
      by_cases hk : k ∈ ts.map (Transaction.GetHash sha)
      · simp [hk]
      · by_cases hkt : k = t.GetHash sha
        · rw [hkt] at hk ⊢
          simp only [hk, if_false, List.map_cons, List.mem_cons, true_or, if_true]
          exact StdMap.find_erase_self ord _ _ hp
        · simp only [hk, if_false, List.map_cons, List.mem_cons, hkt, or_self]
          exact StdMap.find_erase_ne ord _ _ _ hp hkt
  have hfind := (key L m.pool hs).2
  refine ⟨?_, ?_, foldl_erase_eq_filter sha L m.pool hs, ?_⟩
  · intro t ht
    unfold Mempool.Contains Mempool.RemoveTransactions
    simp only
    rw [hfind, if_pos (List.mem_map.mpr ⟨t, ht, rfl⟩)]
    rfl
  · intro k hk
    unfold Mempool.RemoveTransactions
    simp only
    rw [hfind, if_neg]
    intro hmem
    obtain ⟨t, ht, heq⟩ := List.mem_map.mp hmem
    exact hk t ht heq
  · intro habsent
    have : ∀ (L : List Transaction) (p : List (uint256 × Transaction)),
        (∀ t ∈ L, StdMap.find uint256.lt (t.GetHash sha) p = none) →
        L.foldl (fun p tx => StdMap.erase uint256.lt (tx.GetHash sha) p) p = p := by
      intro L
      induction L with
      | nil => intro p _; rfl
      | cons t ts ih =>
        intro p hp
        rw [List.foldl_cons, StdMap.erase_of_find_none _ _ (hp t (List.mem_cons_self _ _))]
        exact ih p (fun t' ht' => hp t' (List.mem_cons_of_mem _ ht'))
    unfold Mempool.RemoveTransactions
    rw [this L m.pool (fun t ht => (find_isSome_false_iff _ _).mp (habsent t ht))]

set_option maxRecDepth 100000 in
theorem removeTransactions_effect_witness :
    StdMap.Sorted uint256.lt (Mempool.empty.AddTransaction sha256 sampleMint).2.pool ∧
    ((Mempool.empty.AddTransaction sha256 sampleMint).2.RemoveTransactions sha256
      [sampleFake, sampleMint]).Contains (sampleMint.GetHash sha256) = false ∧
    ((Mempool.empty.AddTransaction sha256 sampleMint).2.RemoveTransactions sha256
      [sampleFake, sampleMint]).Size = 0 :=
  have hs : StdMap.Sorted uint256.lt (Mempool.empty.AddTransaction sha256 sampleMint).2.pool :=
    (mempool_entries_of_reachable sha256 _
      (MempoolReachable.add _ _ MempoolReachable.empty)).1
  ⟨hs, (removeTransactions_effect sha256 _ [sampleFake, sampleMint] hs).1 sampleMint
    (by simp), eval_mint_removed⟩

/-! ## Wire format -/

theorem writeIntLoop_eq_map (v : Int) (n i : Nat) :
    writeIntLoop v n i =
      (List.range n).map (fun (j : Nat) => ((v / 256 ^ (i + j)) % 256).toNat) := by
  induction n generalizing i with
  | zero => rfl
  | succ n ih =>
    rw [writeIntLoop, ih, List.range_succ_eq_map, List.map_cons, List.map_map]
    have hsh : v >>> (i * 8) = v / 256 ^ i := by
      rw [Int.shiftRight_eq_div_pow, Nat.mul_comm, pow_mul]; norm_num
    rw [hsh, Nat.add_zero]
    congr 1
    apply List.map_congr_left
    intro j _
    simp only [Function.comp_apply, Nat.succ_eq_add_one]
    rw [Nat.add_assoc, Nat.add_comm 1 j]

theorem writeIntLoop_eq_leBytes (v : Int) (n : Nat) : writeIntLoop v n 0 = leBytes n v := by
  rw [writeIntLoop_eq_map]
  unfold leBytes
  simp only [Nat.zero_add]

theorem leBytes_length (n : Nat) (v : Int) : (leBytes n v).length = n := by
  simp [leBytes]

theorem encAll_bytes (v : Bytes) (h : ∀ b ∈ v, b < 256) :
    encAll (fun (b : Nat) => leBytes 1 (b : Int)) v = v := by
  induction v with
  | nil => rfl
  | cons b bs ih =>
    have hb : b < 256 := h b (List.mem_cons_self _ _)
    have hb' : ((b : Int) % 256).toNat = b := by omega
    have hr : List.range 1 = [0] := rfl
    rw [encAll, ih (fun x hx => h x (List.mem_cons_of_mem _ hx))]
    simp [leBytes, hr, hb']

theorem encAll_length {α : Type} (enc : α → Bytes) (xs : List α) :
    (encAll enc xs).length = (xs.map (fun x => (enc x).length)).sum := by
  induction xs with
  | nil => rfl
  | cons x xs ih => simp [encAll, ih]

theorem bytesOf_writeBytes (v : Bytes) :
    bytesOf Serializer.writeBytes v =
      leBytes 8 (v.length : Int) ++ encAll (fun (b : Nat) => leBytes 1 (b : Int)) v := by
  show (Serializer.writeBytes ⟨[]⟩ v).buffer = _
  rw [Serializer.writeBytes, writeVector_buffer _ appends_byte, writeIntLoop_eq_leBytes]
  simp only [List.nil_append]
  congr 1
  have : bytesOf (fun (s : Serializer) (b : Nat) => s.writeInt 1 (b : Int)) =
      fun (b : Nat) => leBytes 1 (b : Int) := by
    funext b
    show (Serializer.writeInt ⟨[]⟩ 1 (b : Int)).buffer = _
    rw [Serializer.writeInt, writeIntLoop_eq_leBytes]; rfl
  rw [this]

theorem bytesOf_writeBytes_length (v : Bytes) :
    (bytesOf Serializer.writeBytes v).length = 8 + v.length := by
  rw [bytesOf_writeBytes, List.length_append, leBytes_length, encAll_length]
  congr 1
  induction v with
  | nil => rfl
  | cons b bs ih => simp [leBytes_length, ih]; omega

theorem txIn_bytes_length (x : TxIn) :
    (bytesOf TxIn.Serialize x).length = 48 + x.scriptSig.length := by
  rw [txIn_bytes]
  simp only [List.length_append, writeIntLoop_length, x.prevout_hash.width,
    bytesOf_writeBytes_length]
  omega

theorem txOut_bytes_length (x : TxOut) :
    (bytesOf TxOut.Serialize x).length = 16 + x.scriptPubKey.length := by
  rw [txOut_bytes]
  simp only [List.length_append, writeIntLoop_length, bytesOf_writeBytes_length]
  omega

/-- C19: the serialization of a block header is `version` on 4 little-endian bytes,
the 32 bytes of `prev_block`, the 32 bytes of `merkle_root`, then `timestamp`, `bits`
and `nonce` on 4 little-endian bytes each, 80 bytes in all, and `GetHash` is `Hash256`
of these bytes. -/
theorem blockHeader_layout (sha : Bytes → uint256) (h : BlockHeader) :
    bytesOf BlockHeader.Serialize h =
      leBytes 4 h.version ++ h.prev_block.data ++ h.merkle_root.data ++
        leBytes 4 (h.timestamp : Int) ++ leBytes 4 (h.bits : Int) ++
        leBytes 4 (h.nonce : Int) ∧
    (bytesOf BlockHeader.Serialize h).length = 80 ∧
    h.prev_block.data.length = 32 ∧ h.merkle_root.data.length = 32 ∧
    h.GetHash sha =
      Hash256 sha (leBytes 4 h.version ++ h.prev_block.data ++ h.merkle_root.data ++
        leBytes 4 (h.timestamp : Int) ++ leBytes 4 (h.bits : Int) ++
        leBytes 4 (h.nonce : Int)) := by
  have hb : bytesOf BlockHeader.Serialize h =
      leBytes 4 h.version ++ h.prev_block.data ++ h.merkle_root.data ++
        leBytes 4 (h.timestamp : Int) ++ leBytes 4 (h.bits : Int) ++
        leBytes 4 (h.nonce : Int) := by
    rw [blockHeader_bytes]
    simp only [writeIntLoop_eq_leBytes, List.append_assoc]
  refine ⟨hb, ?_, h.prev_block.width, h.merkle_root.width, ?_⟩
  · rw [hb]
    simp only [List.length_append, leBytes_length, h.prev_block.width, h.merkle_root.width]
  · show Hash256 sha (bytesOf BlockHeader.Serialize h) = _
    rw [hb]

/-- C20: a byte string and a sequence of `TxIn`, `TxOut` or `Transaction` values are
encoded as the element count on 8 little-endian bytes followed by the encodings of the
elements in order (a byte is its own encoding); a transaction serializes to
`4 + 8 + Σ(48 + s_i) + 8 + Σ(16 + p_j) + 4` bytes, for the `scriptSig` lengths `s_i` of
its inputs and the `scriptPubKey` lengths `p_j` of its outputs. -/
theorem vector_layout (s : Serializer) (v : Bytes) (vin : List TxIn) (vout : List TxOut)
    (vtx : List Transaction) (t : Transaction) :
    ((s.writeBytes v).buffer = s.buffer ++ (leBytes 8 (v.length : Int) ++
      encAll (fun (b : Nat) => leBytes 1 (b : Int)) v)) ∧
    ((∀ b ∈ v, b < 256) → (s.writeBytes v).buffer = s.buffer ++ (leBytes 8 (v.length : Int) ++ v)) ∧
    ((s.writeVector TxIn.Serialize vin).buffer =
      s.buffer ++ (leBytes 8 (vin.length : Int) ++ encAll (bytesOf TxIn.Serialize) vin)) ∧
    ((s.writeVector TxOut.Serialize vout).buffer =
      s.buffer ++ (leBytes 8 (vout.length : Int) ++ encAll (bytesOf TxOut.Serialize) vout)) ∧
    ((s.writeVector Transaction.Serialize vtx).buffer =
      s.buffer ++ (leBytes 8 (vtx.length : Int) ++
        encAll (bytesOf Transaction.Serialize) vtx)) ∧
    (bytesOf Transaction.Serialize t).length =
      4 + 8 + (t.vin.map (fun (i : TxIn) => 48 + i.scriptSig.length)).sum +
        8 + (t.vout.map (fun (o : TxOut) => 16 + o.scriptPubKey.length)).sum + 4 := by
  have h1 : (s.writeBytes v).buffer = s.buffer ++ (leBytes 8 (v.length : Int) ++
      encAll (fun (b : Nat) => leBytes 1 (b : Int)) v) := by
    rw [writeBytes_buffer, bytesOf_writeBytes]
  refine ⟨h1, ?_, ?_, ?_, ?_, ?_⟩
  · intro hv
    rw [h1, encAll_bytes v hv]
  · rw [writeVector_buffer _ txIn_appends, writeIntLoop_eq_leBytes]
  · rw [writeVector_buffer _ txOut_appends, writeIntLoop_eq_leBytes]
  · rw [writeVector_buffer _ transaction_appends, writeIntLoop_eq_leBytes]
  · rw [transaction_bytes]
    simp only [List.length_append, writeIntLoop_length, encAll_length]
    have e1 : (fun (x : TxIn) => (bytesOf TxIn.Serialize x).length) =
        fun (i : TxIn) => 48 + i.scriptSig.length := funext txIn_bytes_length
    have e2 : (fun (x : TxOut) => (bytesOf TxOut.Serialize x).length) =
        fun (o : TxOut) => 16 + o.scriptPubKey.length := funext txOut_bytes_length
    rw [e1, e2]
    omega

theorem vector_layout_witness :
    (∀ b ∈ ([0, 255] : Bytes), b < 256) ∧
    (Serializer.writeBytes ⟨[]⟩ [0, 255]).buffer =
      ([] : Bytes) ++ (leBytes 8 (([0, 255] : Bytes).length : Int) ++ [0, 255]) :=
  have h : ∀ b ∈ ([0, 255] : Bytes), b < 256 := by decide
  ⟨h, (vector_layout ⟨[]⟩ [0, 255] [] [] [] Transaction.default).2.1 h⟩

/-! ## Address queries -/

theorem wrapInt64_eq (x : Int) :
    wrapInt64 x = if x % 18446744073709551616 < 9223372036854775808 then
      x % 18446744073709551616 else x % 18446744073709551616 - 18446744073709551616 := by
  unfold wrapInt64 asSigned
  have h0 : (0 : Int) ≤ x % 2 ^ 64 := Int.emod_nonneg _ (by norm_num)
  have hc : (((x % 2 ^ 64).toNat : Nat) : Int) = x % 2 ^ 64 := Int.toNat_of_nonneg h0
  have hlt : ((x % 2 ^ 64).toNat < 2 ^ (8 * 8 - 1)) ↔ (x % 2 ^ 64 < 9223372036854775808) := by
    constructor
    · intro h
      have : (((x % 2 ^ 64).toNat : Nat) : Int) < ((2 ^ (8 * 8 - 1) : Nat) : Int) := by
        exact_mod_cast h
      rw [hc] at this
      norm_num at this
      exact this
    · intro h
      have : (((x % 2 ^ 64).toNat : Nat) : Int) < ((2 ^ (8 * 8 - 1) : Nat) : Int) := by
        rw [hc]; norm_num; exact h
      exact_mod_cast this
  have e64 : (2 : Int) ^ 64 = 18446744073709551616 := by norm_num
  by_cases h : x % 2 ^ 64 < 9223372036854775808
  · rw [if_pos (hlt.mpr h), hc, e64]
    rw [e64] at h
    rw [if_pos h]
  · rw [if_neg (fun hh => h (hlt.mp hh)), hc]
    rw [e64] at h ⊢
    rw [if_neg h]

theorem wrapInt64_add (x y : Int) : wrapInt64 (wrapInt64 x + y) = wrapInt64 (x + y) := by
  rw [wrapInt64_eq (wrapInt64 x + y), wrapInt64_eq (x + y), wrapInt64_eq x]
  split_ifs <;> omega

theorem wrapInt64_of_range (x : Int) (h1 : -9223372036854775808 ≤ x)
    (h2 : x < 9223372036854775808) : wrapInt64 x = x := by
  rw [wrapInt64_eq]
  split_ifs <;> omega

theorem scriptAddr_eq (u : UTXO) : scriptAddr u = u.out.scriptPubKey := by
  unfold scriptAddr
  cases h : u.out.scriptPubKey with
  | nil => simp
  | cons b bs => simp

theorem getUTXOs_eq_filter (c : BlockChain) (a : Bytes) :
    c.GetUTXOs a = c.utxoSet.filter (fun e => decide (e.2.out.scriptPubKey = a)) := by
  unfold BlockChain.GetUTXOs
  have key : ∀ (l acc : List (OutPoint × UTXO)),
      l.foldl (fun results pair =>
        if scriptAddr pair.2 = a then results ++ [pair] else results) acc =
      acc ++ l.filter (fun e => decide (e.2.out.scriptPubKey = a)) := by
    intro l
    induction l with
    | nil => intro acc; simp
    | cons e l ih =>
      intro acc
      rw [List.foldl_cons, ih, scriptAddr_eq]
      by_cases h : e.2.out.scriptPubKey = a
      · simp [h]
      · simp [h]
  rw [key]; simp

theorem getBalance_eq (c : BlockChain) (a : Bytes) :
    c.GetBalance a = wrapInt64 ((c.GetUTXOs a).map (fun e => e.2.out.value)).sum := by
  rw [getUTXOs_eq_filter]
  unfold BlockChain.GetBalance
  have key : ∀ (l : List (OutPoint × UTXO)) (acc : Int),
      l.foldl (fun balance pair =>
        if scriptAddr pair.2 = a then wrapInt64 (balance + pair.2.out.value)
        else balance) (wrapInt64 acc) =
      wrapInt64 (acc + ((l.filter (fun e => decide (e.2.out.scriptPubKey = a))).map
        (fun e => e.2.out.value)).sum) := by
    intro l
    induction l with
    | nil => intro acc; simp
    | cons e l ih =>
      intro acc
      rw [List.foldl_cons, scriptAddr_eq]
      by_cases h : e.2.out.scriptPubKey = a
      · rw [if_pos h, wrapInt64_add, ih]
        simp [h, add_assoc]
      · rw [if_neg h, ih]
        simp [h]
  have h0 : wrapInt64 0 = 0 := wrapInt64_of_range 0 (by norm_num) (by norm_num)
  have := key c.utxoSet 0
  rw [h0, zero_add] at this
  exact this

/-- C17: `GetUTXOs(a)` returns exactly the entries of the UTXO map whose `scriptPubKey`
bytes are the bytes of `a` (an empty `scriptPubKey` for the empty address only), in
the order of the map, which is ascending in the outpoint; `GetBalance(a)` is the sum of
their values in 64-bit signed arithmetic, the plain sum when that is in range, and 0
when no entry matches. -/
theorem address_queries (c : BlockChain) (a : Bytes) :
    c.GetUTXOs a = c.utxoSet.filter (fun e => decide (e.2.out.scriptPubKey = a)) ∧
    (∀ e, e ∈ c.GetUTXOs a ↔ e ∈ c.utxoSet ∧ e.2.out.scriptPubKey = a) ∧
    (StdMap.Sorted OutPoint.lt c.utxoSet → StdMap.Sorted OutPoint.lt (c.GetUTXOs a)) ∧
    c.GetBalance a = wrapInt64 ((c.GetUTXOs a).map (fun e => e.2.out.value)).sum ∧
    (-9223372036854775808 ≤ ((c.GetUTXOs a).map (fun e => e.2.out.value)).sum →
      ((c.GetUTXOs a).map (fun e => e.2.out.value)).sum < 9223372036854775808 →
      c.GetBalance a = ((c.GetUTXOs a).map (fun e => e.2.out.value)).sum) ∧
    (c.GetUTXOs a = [] → c.GetBalance a = 0) := by
  have hf := getUTXOs_eq_filter c a
  have hb := getBalance_eq c a
  refine ⟨hf, ?_, ?_, hb, ?_, ?_⟩
  · intro e
    rw [hf, List.mem_filter]
    simp
  · intro hs
    rw [hf]
    exact List.Pairwise.sublist (List.filter_sublist _) hs
  · intro h1 h2
    rw [hb, wrapInt64_of_range _ h1 h2]
  · intro hnone
    rw [hb, hnone]
    exact wrapInt64_of_range 0 (by norm_num) (by norm_num)

set_option maxRecDepth 100000 in
theorem address_queries_witness :
    (StdMap.Sorted OutPoint.lt
        (addBlocks sha256 BlockChain.empty [mainGenesis, sampleBlock1]).utxoSet ∧
      (addBlocks sha256 BlockChain.empty [mainGenesis, sampleBlock1]).GetUTXOs [1] = []) ∧
    StdMap.Sorted OutPoint.lt
      ((addBlocks sha256 BlockChain.empty [mainGenesis, sampleBlock1]).GetUTXOs
        RESERVE_ADDRESS) ∧
    (addBlocks sha256 BlockChain.empty [mainGenesis, sampleBlock1]).GetBalance [1] = 0 ∧
    (addBlocks sha256 BlockChain.empty [mainGenesis, sampleBlock1]).GetBalance
      RESERVE_ADDRESS = 249999999000 :=
  have hs : StdMap.Sorted OutPoint.lt
      (addBlocks sha256 BlockChain.empty [mainGenesis, sampleBlock1]).utxoSet :=
    sorted_utxo_of_reachable sha256 _ (reachable_addBlocks sha256 _ _ Reachable.empty)
  have hn : (addBlocks sha256 BlockChain.empty [mainGenesis, sampleBlock1]).GetUTXOs [1] =
      [] := eval_utxos_none
  ⟨⟨hs, hn⟩, (address_queries _ RESERVE_ADDRESS).2.2.1 hs,
    (address_queries _ [1]).2.2.2.2.2 hn, eval_reserve_balance⟩

/-! ## GetTransaction -/

theorem scanBlock_none_iff (sha : Bytes → uint256) (h : uint256) (vtx : List Transaction) :
    scanBlock sha h vtx = none ↔ ∀ t ∈ vtx, t.GetHash sha ≠ h := by
  induction vtx with
  | nil => simp [scanBlock]
  | cons t ts ih =>
    simp only [scanBlock]
    by_cases ht : t.GetHash sha = h
    · simp [ht]
    · simp [ht, ih]

theorem scanBlock_some (sha : Bytes → uint256) (h : uint256) (vtx : List Transaction)
    (t : Transaction) (hs : scanBlock sha h vtx = some t) :
    ∃ k : Nat, vtx[k]? = some t ∧ t.GetHash sha = h ∧
      ∀ (k' : Nat) (t' : Transaction), k' < k → vtx[k']? = some t' → t'.GetHash sha ≠ h := by
  induction vtx with
  | nil => simp [scanBlock] at hs
  | cons x xs ih =>
    simp only [scanBlock] at hs
    by_cases hx : x.GetHash sha = h
    · rw [if_pos hx] at hs
      have hxt : x = t := Option.some.inj hs
      refine ⟨0, by simp [hxt], by rw [← hxt]; exact hx, ?_⟩
      intro k' t' hk'; omega
    · rw [if_neg hx] at hs
      obtain ⟨k, hk, hh, hbefore⟩ := ih hs
      refine ⟨k + 1, by simpa using hk, hh, ?_⟩
      intro k' t' hk' hget
      cases k' with
      | zero =>
        simp only [List.getElem?_cons_zero, Option.some.injEq] at hget
        rw [← hget]; exact hx
      | succ k'' =>
        simp only [List.getElem?_cons_succ] at hget
        exact hbefore k'' t' (by omega) hget

theorem getTransactionLoop_eq_firstHit (sha : Bytes → uint256) (c : BlockChain) (h : uint256)
    (es : List BlockIndex) :
    getTransactionLoop sha c.blockData h es =
      firstHit sha h (es.map (fun e => c.GetBlock e.hash)) := by
  induction es with
  | nil => rfl
  | cons e es ih =>
    simp only [getTransactionLoop, List.map_cons, firstHit, BlockChain.GetBlock]
    cases hf : StdMap.find uint256.lt e.hash c.blockData with
    | none =>
      simp only [Block.default, scanBlock]
      exact ih
    | some block =>
      simp only
      cases scanBlock sha h block.vtx with
      | none => exact ih
      | some tx => rfl

theorem chainBlocks_eq_map (c : BlockChain) :
    c.chainBlocks = c.chain.map (fun e => c.GetBlock e.hash) := by
  unfold BlockChain.chainBlocks
  apply List.ext_getElem?
  intro i
  rw [List.getElem?_map, List.getElem?_map]
  by_cases hi : i < c.chain.length
  · have he : c.chain[i]? = some c.chain[i] := List.getElem?_eq_getElem hi
    rw [List.getElem?_range hi, he]
    simp only [Option.map_some']
    rw [getBlockByHeight_eq c i _ he]
  · rw [List.getElem?_eq_none (by simpa using hi), List.getElem?_eq_none (by omega)]
    rfl

theorem firstHit_reverse (sha : Bytes → uint256) (h : uint256) (bs : List Block) :
    (firstHit sha h bs.reverse = none ↔ ∀ b ∈ bs, scanBlock sha h b.vtx = none) ∧
    (∀ (t : Transaction) (bh : uint256), firstHit sha h bs.reverse = some (t, bh) →
      ∃ (i : Nat) (b : Block), bs[i]? = some b ∧ scanBlock sha h b.vtx = some t ∧
        bh = b.header.GetHash sha ∧
        ∀ (j : Nat) (b' : Block), i < j → bs[j]? = some b' →
          scanBlock sha h b'.vtx = none) := by
  induction bs using List.reverseRecOn with
  | nil => simp [firstHit]
  | append_singleton bs b ih =>
    rw [List.reverse_append, List.reverse_singleton, List.singleton_append]
    simp only [firstHit]
    cases hb : scanBlock sha h b.vtx with
    | some tx =>
      simp only
      constructor
      · simp only [false_iff, reduceCtorEq]
        intro hall
        have := hall b (by simp)
        rw [hb] at this
        exact Option.noConfusion this
      · intro t bh heq
        simp only [Option.some.injEq, Prod.mk.injEq] at heq
        refine ⟨bs.length, b, List.getElem?_concat_length _ _, by rw [hb, heq.1], heq.2.symm, ?_⟩
        intro j b' hj hget
        rw [List.getElem?_eq_none (by simp; omega)] at hget
        exact Option.noConfusion hget
    | none =>
      simp only
      constructor
      · rw [ih.1]
        constructor
        · intro hall b' hb'
          rcases List.mem_append.mp hb' with hm | hm
          · exact hall b' hm
          · rw [List.mem_singleton.mp hm]; exact hb
        · intro hall b' hb'
          exact hall b' (List.mem_append_left _ hb')
      · intro t bh heq
        obtain ⟨i, b0, hi, hscan, hbh, hlater⟩ := ih.2 t bh heq
        have hilt : i < bs.length := (List.getElem?_eq_some.mp hi).1
        refine ⟨i, b0, by rw [List.getElem?_append_left hilt]; exact hi, hscan, hbh, ?_⟩
        intro j b' hj hget
        by_cases hjl : j < bs.length
        · rw [List.getElem?_append_left hjl] at hget
          exact hlater j b' hj hget
        · by_cases hje : j = bs.length
          · rw [hje, List.getElem?_concat_length] at hget
            rw [← Option.some.inj hget]; exact hb
          · rw [List.getElem?_eq_none (by simp; omega)] at hget
            exact Option.noConfusion hget

theorem getTransaction_eq (sha : Bytes → uint256) (c : BlockChain) (h : uint256)
    (outTx : Transaction) (outBlockHash : uint256) :
    c.GetTransaction sha h outTx outBlockHash =
      match firstHit sha h c.chainBlocks.reverse with
      | some (tx, blockHash) => (true, tx, blockHash)
      | none => (false, outTx, outBlockHash) := by
  unfold BlockChain.GetTransaction
  rw [getTransactionLoop_eq_firstHit, List.map_reverse, ← chainBlocks_eq_map]

/-- C18: `GetTransaction(h)` reports found exactly when a block of the chain holds a
transaction with hash `h`. When found, the returned transaction has hash `h` and is
the first such transaction of the highest block that holds one, and the returned
block hash is the header hash of that block; when not found the output arguments keep
their values. -/
theorem getTransaction_result (sha : Bytes → uint256) (c : BlockChain) (h : uint256)
    (outTx : Transaction) (outBlockHash : uint256) :
    ((c.GetTransaction sha h outTx outBlockHash).1 = true ↔
      ∃ b ∈ c.chainBlocks, ∃ t ∈ b.vtx, t.GetHash sha = h) ∧
    ((c.GetTransaction sha h outTx outBlockHash).1 = true →
      ∃ (i : Nat) (b : Block) (k : Nat), c.chainBlocks[i]? = some b ∧
        b.vtx[k]? = some (c.GetTransaction sha h outTx outBlockHash).2.1 ∧
        (c.GetTransaction sha h outTx outBlockHash).2.1.GetHash sha = h ∧
        (∀ (k' : Nat) (t' : Transaction), k' < k → b.vtx[k']? = some t' →
          t'.GetHash sha ≠ h) ∧
        (∀ (j : Nat) (b' : Block), i < j → c.chainBlocks[j]? = some b' →
          ∀ t' ∈ b'.vtx, t'.GetHash sha ≠ h) ∧
        (c.GetTransaction sha h outTx outBlockHash).2.2 = b.header.GetHash sha) ∧
    ((c.GetTransaction sha h outTx outBlockHash).1 = false →
      (c.GetTransaction sha h outTx outBlockHash).2 = (outTx, outBlockHash)) := by
  rw [getTransaction_eq]
  have hrev := firstHit_reverse sha h c.chainBlocks
  cases hf : firstHit sha h c.chainBlocks.reverse with
  | none =>
    simp only [Bool.false_eq_true, false_iff, false_implies, true_and, implies_true, and_true]
    rintro ⟨b, hb, t, ht, hh⟩
    exact (scanBlock_none_iff sha h b.vtx).mp (hrev.1.mp hf b hb) t ht hh
  | some r =>
    obtain ⟨tx, bh⟩ := r
    obtain ⟨i, b, hi, hscan, hbh, hlater⟩ := hrev.2 tx bh hf
    obtain ⟨k, hk, hh, hbefore⟩ := scanBlock_some sha h b.vtx tx hscan
    simp only [true_iff, true_implies, Bool.true_eq_false, false_implies, and_true]
    refine ⟨⟨b, List.getElem?_mem hi, tx, List.getElem?_mem hk, hh⟩, ?_⟩
    refine ⟨i, b, k, hi, hk, hh, hbefore, ?_, hbh⟩
    intro j b' hj hget
    exact (scanBlock_none_iff sha h b'.vtx).mp (hlater j b' hj hget)

set_option maxRecDepth 100000 in
theorem getTransaction_result_witness :
    ((addBlocks sha256 BlockChain.empty [mainGenesis, sampleBlock1]).GetTransaction sha256
        (sampleCoinbase.GetHash sha256) Transaction.default uint256.zero).1 = true ∧
    ((addBlocks sha256 BlockChain.empty [mainGenesis, sampleBlock1]).GetTransaction sha256
        uint256.zero sampleSpend (sampleSpend.GetHash sha256)).1 = false ∧
    ((addBlocks sha256 BlockChain.empty [mainGenesis, sampleBlock1]).GetTransaction sha256
        (sampleCoinbase.GetHash sha256) Transaction.default uint256.zero).2.2 =
      sampleBlock1.header.GetHash sha256 ∧
    ((addBlocks sha256 BlockChain.empty [mainGenesis, sampleBlock1]).GetTransaction sha256
        uint256.zero sampleSpend (sampleSpend.GetHash sha256)).2 =
      (sampleSpend, sampleSpend.GetHash sha256) :=
  have h1 : ((addBlocks sha256 BlockChain.empty [mainGenesis, sampleBlock1]).GetTransaction
      sha256 (sampleCoinbase.GetHash sha256) Transaction.default uint256.zero).1 = true := by
    exact eval_getTransaction_found
  have h2 : ((addBlocks sha256 BlockChain.empty [mainGenesis, sampleBlock1]).GetTransaction
      sha256 uint256.zero sampleSpend (sampleSpend.GetHash sha256)).1 = false := eval_getTransaction_absent
  ⟨h1, h2, eval_getTransaction_block,
    (getTransaction_result sha256 _ uint256.zero sampleSpend
      (sampleSpend.GetHash sha256)).2.2 h2⟩

/-! ## Decoders on longer and shorter buffers -/

theorem readIntLoop_snd (buffer : Bytes) (n i pos obj : Nat) :
    (readIntLoop buffer n i pos obj).2 = pos + n := by
  induction n generalizing i pos obj with
  | zero => rfl
  | succ n ih => rw [readIntLoop, ih]; omega

theorem readIntLoop_append (buf ext : Bytes) (n i pos obj : Nat)
    (h : pos + n ≤ buf.length) :
    readIntLoop (buf ++ ext) n i pos obj = readIntLoop buf n i pos obj := by
  induction n generalizing i pos obj with
  | zero => rfl
  | succ n ih =>
    have hget : (buf ++ ext).getD pos 0 = buf.getD pos 0 := by
      rw [List.getD_eq_getElem?_getD, List.getD_eq_getElem?_getD,
        List.getElem?_append_left (by omega)]
    rw [readIntLoop, readIntLoop, hget, ih _ _ _ (by omega)]

theorem stable_mono {α : Type} {n m : Nat} {dec : Deserializer → Option (α × Deserializer)}
    (h : StableBy n dec) (hm : m ≤ n) : StableBy m dec := by
  intro buf pos x d1 hd
  obtain ⟨h1, h2, h3, h4⟩ := h buf pos x d1 hd
  exact ⟨h1, by omega, h3, h4⟩

theorem stable_readInt (size : Nat) : StableBy size (fun d => d.readInt size) := by
  intro buf pos x d1 hd
  simp only [Deserializer.readInt] at hd
  split_ifs at hd with hg
  simp only [Option.some.injEq, Prod.mk.injEq] at hd
  obtain ⟨hx, hd1⟩ := hd
  subst hd1
  simp only [readIntLoop_snd]
  simp only [not_lt] at hg
  refine ⟨trivial, le_refl _, fun _ => by omega, ?_⟩
  intro ext
  have hg' : ¬ (pos + size > (buf ++ ext).length) := by
    rw [List.length_append]; omega
  simp only [Deserializer.readInt, hg', if_false, readIntLoop_append buf ext size 0 pos 0
    (by omega), hx, readIntLoop_snd]

theorem stable_readSigned (size : Nat) : StableBy size (fun d => d.readSigned size) := by
  intro buf pos x d1 hd
  simp only [Deserializer.readSigned] at hd
  cases hr : Deserializer.readInt ⟨buf, pos⟩ size with
  | none => rw [hr] at hd; exact Option.noConfusion hd
  | some r =>
    obtain ⟨raw, d2⟩ := r
    rw [hr] at hd
    simp only [Option.some.injEq, Prod.mk.injEq] at hd
    obtain ⟨hx, hd2⟩ := hd
    subst hd2
    obtain ⟨h1, h2, h3, h4⟩ := stable_readInt size buf pos raw d2 hr
    refine ⟨h1, h2, h3, ?_⟩
    intro ext
    have := h4 ext
    simp only at this
    simp only [Deserializer.readSigned, this, hx]

theorem stable_readHash : StableBy 32 Deserializer.readHash := by
  intro buf pos x d1 hd
  unfold Deserializer.readHash at hd
  split_ifs at hd with hg
  simp only [Option.some.injEq, Prod.mk.injEq] at hd
  obtain ⟨hx, hd1⟩ := hd
  subst hd1
  simp only [gt_iff_lt, not_lt] at hg
  refine ⟨rfl, le_refl _, fun _ => hg, ?_⟩
  intro ext
  have hg' : ¬ (pos + 32 > (buf ++ ext).length) := by
    rw [List.length_append]; omega
  unfold Deserializer.readHash
  simp only [hg', dite_false, Option.some.injEq, Prod.mk.injEq, and_true]
  apply uint256.ext_data
  rw [← hx]
  simp only
  have hdrop : List.drop pos (buf ++ ext) = List.drop pos buf ++ ext :=
    List.drop_append_of_le_length (by omega)
  rw [hdrop, List.take_append_of_le_length (by rw [List.length_drop]; omega)]

theorem stable_seq {α β : Type} {n1 n2 : Nat}
    {dec1 : Deserializer → Option (α × Deserializer)}
    {k : α → Deserializer → Option (β × Deserializer)}
    (h1 : StableBy n1 dec1) (h2 : ∀ a, StableBy n2 (k a)) :
    StableBy (n1 + n2) (andThen dec1 k) := by
  intro buf pos x d2 hd
  simp only [andThen] at hd
  cases hr : dec1 ⟨buf, pos⟩ with
  | none => rw [hr] at hd; exact Option.noConfusion hd
  | some r =>
    obtain ⟨a, d1⟩ := r
    rw [hr] at hd
    simp only at hd
    obtain ⟨a1, a2, a3, a4⟩ := h1 buf pos a d1 hr
    obtain ⟨bf, p1⟩ := d1
    simp only at a1 a2 a3 a4
    subst a1
    obtain ⟨b1, b2, b3, b4⟩ := h2 a bf p1 x d2 hd
    refine ⟨b1, by omega, fun hp => b3 (a3 hp), ?_⟩
    intro ext
    simp only [andThen, a4 ext, b4 ext]

theorem stable_ret {α : Type} (x : α) :
    StableBy 0 (fun (d : Deserializer) => some (x, d)) := by
  intro buf pos y d1 hd
  simp only [Option.some.injEq, Prod.mk.injEq] at hd
  obtain ⟨hx, hd1⟩ := hd
  subst hd1
  exact ⟨rfl, le_refl _, fun hp => hp, fun ext => by simp [hx]⟩

theorem stable_of_eq {α : Type} {n m : Nat} {f g : Deserializer → Option (α × Deserializer)}
    (h : StableBy n g) (he : f = g) (hm : m ≤ n) : StableBy m f := by
  rw [he]; exact stable_mono h hm

theorem readItems_succ_eq {α : Type} (item : Deserializer → Option (α × Deserializer))
    (m : Nat) :
    readItems item (m + 1) =
      andThen item (fun x => andThen (readItems item m) (fun xs d => some (x :: xs, d))) := by
  funext d
  simp only [readItems, andThen]
  cases item d with
  | none => rfl
  | some r =>
    obtain ⟨x, d1⟩ := r
    simp only
    cases readItems item m d1 with
    | none => rfl
    | some r2 => rfl

theorem stable_readItems {α : Type} {n : Nat} (item : Deserializer → Option (α × Deserializer))
    (h : StableBy n item) (count : Nat) : StableBy 0 (readItems item count) := by
  induction count with
  | zero => exact stable_ret []
  | succ m ih =>
    exact stable_of_eq
      (stable_seq h (fun x => stable_seq ih (fun xs => stable_ret (x :: xs))))
      (readItems_succ_eq item m) (Nat.zero_le _)

theorem readVector_eq {α : Type} (item : Deserializer → Option (α × Deserializer)) :
    Deserializer.readVector item =
      andThen (fun d => d.readInt 8) (fun size => readItems item size) := by
  funext d
  simp only [Deserializer.readVector, andThen]
  cases d.readInt 8 with
  | none => rfl
  | some r => rfl

theorem stable_readVector {α : Type} {n : Nat}
    (item : Deserializer → Option (α × Deserializer)) (h : StableBy n item) :
    StableBy 8 (Deserializer.readVector item) :=
  stable_of_eq (stable_seq (stable_readInt 8) (fun size => stable_readItems item h size))
    (readVector_eq item) (le_refl _)

theorem stable_readBytes : StableBy 8 Deserializer.readBytes :=
  stable_readVector _ (stable_readInt 1)

theorem txIn_deserialize_eq :
    TxIn.Deserialize =
      andThen Deserializer.readHash (fun prevout_hash =>
        andThen (fun d => d.readInt 4) (fun prevout_n =>
          andThen Deserializer.readBytes (fun scriptSig =>
            andThen (fun d => d.readInt 4) (fun sequence d =>
              some (⟨prevout_hash, prevout_n, scriptSig, sequence⟩, d))))) := by
  funext d
  simp only [TxIn.Deserialize, andThen]
  cases d.readHash with
  | none => rfl
  | some r1 =>
    obtain ⟨a1, d1⟩ := r1
    simp only
    cases d1.readInt 4 with
    | none => rfl
    | some r2 =>
      obtain ⟨a2, d2⟩ := r2
      simp only
      cases d2.readBytes with
      | none => rfl
      | some r3 =>
        obtain ⟨a3, d3⟩ := r3
        simp only
        cases d3.readInt 4 with
        | none => rfl
        | some r4 => rfl

theorem stable_txIn : StableBy 48 TxIn.Deserialize :=
  stable_of_eq
    (stable_seq stable_readHash (fun prevout_hash =>
      stable_seq (stable_readInt 4) (fun prevout_n =>
        stable_seq stable_readBytes (fun scriptSig =>
          stable_seq (stable_readInt 4) (fun sequence =>
            stable_ret (⟨prevout_hash, prevout_n, scriptSig, sequence⟩ : TxIn))))))
    txIn_deserialize_eq (by decide)

theorem txOut_deserialize_eq :
    TxOut.Deserialize =
      andThen (fun d => d.readSigned 8) (fun value =>
        andThen Deserializer.readBytes (fun scriptPubKey d =>
          some (⟨value, scriptPubKey⟩, d))) := by
  funext d
  simp only [TxOut.Deserialize, andThen]
  cases d.readSigned 8 with
  | none => rfl
  | some r1 =>
    obtain ⟨a1, d1⟩ := r1
    simp only
    cases d1.readBytes with
    | none => rfl
    | some r2 => rfl

theorem stable_txOut : StableBy 16 TxOut.Deserialize :=
  stable_of_eq
    (stable_seq (stable_readSigned 8) (fun value =>
      stable_seq stable_readBytes (fun scriptPubKey =>
        stable_ret (⟨value, scriptPubKey⟩ : TxOut))))
    txOut_deserialize_eq (by decide)

theorem transaction_deserialize_eq :
    Transaction.Deserialize =
      andThen (fun d => d.readSigned 4) (fun version =>
        andThen (Deserializer.readVector TxIn.Deserialize) (fun vin =>
          andThen (Deserializer.readVector TxOut.Deserialize) (fun vout =>
            andThen (fun d => d.readInt 4) (fun lockTime d =>
              some (⟨version, vin, vout, lockTime⟩, d))))) := by
  funext d
  simp only [Transaction.Deserialize, andThen]
  cases d.readSigned 4 with
  | none => rfl
  | some r1 =>
    obtain ⟨a1, d1⟩ := r1
    simp only
    cases Deserializer.readVector TxIn.Deserialize d1 with
    | none => rfl
    | some r2 =>
      obtain ⟨a2, d2⟩ := r2
      simp only
      cases Deserializer.readVector TxOut.Deserialize d2 with
      | none => rfl
      | some r3 =>
        obtain ⟨a3, d3⟩ := r3
        simp only
        cases d3.readInt 4 with
        | none => rfl
        | some r4 => rfl

theorem stable_transaction : StableBy 24 Transaction.Deserialize :=
  stable_of_eq
    (stable_seq (stable_readSigned 4) (fun version =>
      stable_seq (stable_readVector _ stable_txIn) (fun vin =>
        stable_seq (stable_readVector _ stable_txOut) (fun vout =>
          stable_seq (stable_readInt 4) (fun lockTime =>
            stable_ret (⟨version, vin, vout, lockTime⟩ : Transaction))))))
    transaction_deserialize_eq (by decide)

theorem blockHeader_deserialize_eq :
    BlockHeader.Deserialize =
      andThen (fun d => d.readSigned 4) (fun version =>
        andThen Deserializer.readHash (fun prev_block =>
          andThen Deserializer.readHash (fun merkle_root =>
            andThen (fun d => d.readInt 4) (fun timestamp =>
              andThen (fun d => d.readInt 4) (fun bits =>
                andThen (fun d => d.readInt 4) (fun nonce d =>
                  some (⟨version, prev_block, merkle_root, timestamp, bits, nonce⟩, d))))))) := by
  funext d
  simp only [BlockHeader.Deserialize, andThen]
  cases d.readSigned 4 with
  | none => rfl
  | some r1 =>
    obtain ⟨a1, d1⟩ := r1
    simp only
    cases d1.readHash with
    | none => rfl
    | some r2 =>
      obtain ⟨a2, d2⟩ := r2
      simp only
      cases d2.readHash with
      | none => rfl
      | some r3 =>
        obtain ⟨a3, d3⟩ := r3
        simp only
        cases d3.readInt 4 with
        | none => rfl
        | some r4 =>
          obtain ⟨a4, d4⟩ := r4
          simp only
          cases d4.readInt 4 with
          | none => rfl
          | some r5 =>
            obtain ⟨a5, d5⟩ := r5
            simp only
            cases d5.readInt 4 with
            | none => rfl
            | some r6 => rfl

theorem stable_blockHeader : StableBy 80 BlockHeader.Deserialize :=
  stable_of_eq
    (stable_seq (stable_readSigned 4) (fun version =>
      stable_seq stable_readHash (fun prev_block =>
        stable_seq stable_readHash (fun merkle_root =>
          stable_seq (stable_readInt 4) (fun timestamp =>
            stable_seq (stable_readInt 4) (fun bits =>
              stable_seq (stable_readInt 4) (fun nonce =>
                stable_ret
                  (⟨version, prev_block, merkle_root, timestamp, bits, nonce⟩ :
                    BlockHeader))))))))
    blockHeader_deserialize_eq (by decide)

theorem block_deserialize_eq :
    Block.Deserialize =
      andThen BlockHeader.Deserialize (fun header =>
        andThen (Deserializer.readVector Transaction.Deserialize) (fun vtx d =>
          some (⟨header, vtx⟩, d))) := by
  funext d
  simp only [Block.Deserialize, andThen]
  cases BlockHeader.Deserialize d with
  | none => rfl
  | some r1 =>
    obtain ⟨a1, d1⟩ := r1
    simp only
    cases Deserializer.readVector Transaction.Deserialize d1 with
    | none => rfl
    | some r2 => rfl

theorem stable_block : StableBy 88 Block.Deserialize :=
  stable_of_eq
    (stable_seq stable_blockHeader (fun header =>
      stable_seq (stable_readVector _ stable_transaction) (fun vtx =>
        stable_ret (⟨header, vtx⟩ : Block))))
    block_deserialize_eq (by decide)

/-- A decoder that reads a value back from its encoding fails on every strict prefix
of the encoding at the end of a buffer. -/
theorem strict_prefix_fails {α : Type} {n : Nat}
    {dec : Deserializer → Option (α × Deserializer)} {x : α} {enc : Bytes}
    (hst : StableBy n dec) (hr : Reads dec x enc) (pre p ext : Bytes)
    (hp : p ++ ext = enc) (hext : ext ≠ []) :
    dec ⟨pre ++ p, pre.length⟩ = none := by
  cases hd : dec ⟨pre ++ p, pre.length⟩ with
  | none => rfl
  | some r =>
    exfalso
    obtain ⟨y, d1⟩ := r
    obtain ⟨_, _, h3, h4⟩ := hst _ _ _ _ hd
    have hle := h3 (by simp)
    have hlong := hr (pre ++ p ++ ext) pre.length [] (by
      rw [List.append_assoc, List.drop_left, hp, List.append_nil])
    rw [h4 ext] at hlong
    simp only [Option.some.injEq, Prod.mk.injEq, Deserializer.mk.injEq, true_and] at hlong
    have hlen : enc.length = p.length + ext.length := by rw [← hp, List.length_append]
    have hpos : 0 < ext.length := List.length_pos.mpr hext
    rw [List.length_append] at hle
    omega

/-! ## LoadChain -/

theorem block_bytes_pos (b : Block) : 0 < (bytesOf Block.Serialize b).length := by
  rw [block_bytes]
  simp only [List.length_append, writeIntLoop_length]
  omega

theorem logOf_append (xs ys : List Block) : logOf (xs ++ ys) = logOf xs ++ logOf ys := by
  unfold logOf
  induction xs with
  | nil => rfl
  | cons x xs ih =>
    show bytesOf Block.Serialize x ++ encAll (bytesOf Block.Serialize) (xs ++ ys) =
      (bytesOf Block.Serialize x ++ encAll (bytesOf Block.Serialize) xs) ++
        encAll (bytesOf Block.Serialize) ys
    rw [ih, List.append_assoc]

theorem logOf_singleton (b : Block) : logOf [b] = bytesOf Block.Serialize b := by
  simp [logOf, encAll]

theorem logOf_length_ge (bs : List Block) : bs.length ≤ (logOf bs).length := by
  unfold logOf
  induction bs with
  | nil => simp [encAll]
  | cons b bs ih =>
    have := block_bytes_pos b
    simp only [encAll, List.length_cons, List.length_append]
    omega

theorem loadLoop_end (sha : Bytes → uint256) (fuel : Nat) (d : Deserializer) (c : BlockChain)
    (h : d.buffer.length ≤ d.pos) : loadLoop sha fuel d c = c := by
  cases fuel with
  | zero => rfl
  | succ f =>
    have : ¬ d.pos < d.buffer.length := by omega
    simp only [loadLoop, this, if_false]

theorem loadLoop_fail (sha : Bytes → uint256) (fuel : Nat) (d : Deserializer) (c : BlockChain)
    (h : Block.Deserialize d = none) : loadLoop sha fuel d c = c := by
  cases fuel with
  | zero => rfl
  | succ f =>
    simp only [loadLoop, h]
    split_ifs <;> rfl

theorem loadBlocks_cons (sha : Bytes → uint256) (c : BlockChain) (b : Block)
    (bs : List Block) :
    loadBlocks sha c (b :: bs) =
      loadBlocks sha (if c.isGenesisReplay sha b then c else c.restore sha b) bs := rfl

theorem loadBlocks_append (sha : Bytes → uint256) (c : BlockChain) (xs ys : List Block) :
    loadBlocks sha c (xs ++ ys) = loadBlocks sha (loadBlocks sha c xs) ys := by
  unfold loadBlocks; rw [List.foldl_append]

theorem loadLoop_blocks (sha : Bytes → uint256) (bs : List Block) (hwf : ∀ b ∈ bs, b.wf)
    (buffer rest : Bytes) (pos fuel : Nat) (c : BlockChain)
    (hd : buffer.drop pos = logOf bs ++ rest) (hf : bs.length ≤ fuel) :
    loadLoop sha fuel ⟨buffer, pos⟩ c =
      loadLoop sha (fuel - bs.length) ⟨buffer, pos + (logOf bs).length⟩
        (loadBlocks sha c bs) := by
  induction bs generalizing pos fuel c with
  | nil => simp [logOf, encAll, loadBlocks]
  | cons b bs ih =>
    cases fuel with
    | zero => simp at hf
    | succ f =>
      have hd' : buffer.drop pos = bytesOf Block.Serialize b ++ (logOf bs ++ rest) := by
        rw [hd]; simp only [logOf, encAll, List.append_assoc]
      have hpos := pos_add_le _ _ _ _ hd' (block_bytes_pos b)
      have hlt : pos < buffer.length := by
        have := block_bytes_pos b; omega
      obtain ⟨hdec, hdrop⟩ := (block_reads b (hwf b (List.mem_cons_self _ _))).step
        buffer pos _ hd'
      have hstep : loadLoop sha (f + 1) ⟨buffer, pos⟩ c =
          loadLoop sha f ⟨buffer, pos + (bytesOf Block.Serialize b).length⟩
            (if c.isGenesisReplay sha b then c else c.restore sha b) := by
        simp only [loadLoop, hlt, if_true, hdec]
        split_ifs <;> rfl
      rw [hstep, ih (fun x hx => hwf x (List.mem_cons_of_mem _ hx)) _ f _ hdrop
        (by simpa using hf), loadBlocks_cons]
      have hlen : (logOf (b :: bs)).length =
          (bytesOf Block.Serialize b).length + (logOf bs).length := by
        simp only [logOf, encAll, List.length_append]
      rw [hlen, List.length_cons, Nat.add_sub_add_right, Nat.add_assoc]

theorem isGenesisReplay_disk (sha : Bytes → uint256) (c : BlockChain) (d : Bytes) (b : Block) :
    BlockChain.isGenesisReplay sha { c with disk := d } b = c.isGenesisReplay sha b := rfl

theorem loadBlocks_disk (sha : Bytes → uint256) (c : BlockChain) (d : Bytes)
    (bs : List Block) :
    loadBlocks sha { c with disk := d } bs = { loadBlocks sha c bs with disk := d } := by
  induction bs generalizing c with
  | nil => rfl
  | cons b bs ih =>
    rw [loadBlocks_cons, loadBlocks_cons, isGenesisReplay_disk]
    by_cases hg : c.isGenesisReplay sha b = true
    · rw [if_pos hg, if_pos hg, ih]
    · rw [if_neg hg, if_neg hg]
      exact ih (c.restore sha b)

/-- `LoadChain` on a log that holds the serializations of well-formed blocks followed
by a tail on which decoding fails (or by nothing) processes exactly these blocks. -/
theorem loadChain_of_log (sha : Bytes → uint256) (bs : List Block) (hwf : ∀ b ∈ bs, b.wf)
    (tail : Bytes)
    (htail : tail = [] ∨ Block.Deserialize ⟨logOf bs ++ tail, (logOf bs).length⟩ = none) :
    (BlockChain.fresh (logOf bs ++ tail)).LoadChain sha =
      loadBlocks sha (BlockChain.fresh (logOf bs ++ tail)) bs := by
  unfold BlockChain.LoadChain
  have hdisk : (BlockChain.fresh (logOf bs ++ tail)).disk = logOf bs ++ tail := rfl
  rw [hdisk]
  by_cases hempty : (logOf bs ++ tail).isEmpty = true
  · rw [if_pos hempty]
    have hnil : logOf bs ++ tail = [] := List.isEmpty_iff.mp hempty
    have hbs : bs = [] := by
      have h1 := logOf_length_ge bs
      have h2 : (logOf bs).length = 0 := by
        have := congrArg List.length hnil
        rw [List.length_append] at this
        simp only [List.length_nil] at this
        omega
      exact List.eq_nil_of_length_eq_zero (by omega)
    rw [hbs]; rfl
  · rw [if_neg hempty]
    have hge := logOf_length_ge bs
    rw [loadLoop_blocks sha bs hwf (logOf bs ++ tail) tail 0 _ _ (by simp)
      (by rw [List.length_append]; omega), Nat.zero_add]
    rcases htail with ht | ht
    · apply loadLoop_end
      simp [ht]
    · exact loadLoop_fail sha _ _ _ ht

theorem install_eq_restore (sha : Bytes → uint256) (c : BlockChain) (block : Block) :
    c.install sha block =
      { c.restore sha block with disk := c.disk ++ bytesOf Block.Serialize block } := rfl

theorem isGenesisReplay_false_of_new (sha : Bytes → uint256) (c : BlockChain) (block : Block)
    (hc : c.Indexed)
    (hnew : StdMap.find uint256.lt (block.header.GetHash sha) c.blockIndexMap = none) :
    c.isGenesisReplay sha block = false := by
  unfold BlockChain.isGenesisReplay
  cases hh : c.chain.head? with
  | none => rfl
  | some first =>
    simp only [decide_eq_false_iff_not]
    intro heq
    have hmem : first ∈ c.chain := List.mem_of_mem_head? hh
    have := hc.1 first hmem
    rw [← heq, hnew] at this
    exact Bool.false_ne_true this

/-- The log and the state of a chain built by `AddBlock` from a fresh instance: the
log holds the accepted blocks, and processing them as `LoadChain` does gives the
state. -/
theorem logged_of_addBlocks (sha : Bytes → uint256) (blocks : List Block)
    (hwf : ∀ b ∈ blocks, b.wf) :
    ∃ acc : List Block, (∀ b ∈ acc, b.wf) ∧
      (addBlocks sha BlockChain.empty blocks).disk = logOf acc ∧
      addBlocks sha BlockChain.empty blocks =
        { loadBlocks sha BlockChain.empty acc with disk := logOf acc } ∧
      (addBlocks sha BlockChain.empty blocks).Indexed := by
  induction blocks using List.reverseRecOn with
  | nil => exact ⟨[], fun b hb => by simp at hb, rfl, rfl, indexed_empty⟩
  | append_singleton bs b ih =>
    obtain ⟨acc, hacc, hdisk, hstate, hidx⟩ :=
      ih (fun x hx => hwf x (List.mem_append_left _ hx))
    have hrun : addBlocks sha BlockChain.empty (bs ++ [b]) =
        ((addBlocks sha BlockChain.empty bs).AddBlock sha b).2 := by
      unfold addBlocks; rw [List.foldl_append]; rfl
    rw [hrun]
    cases hres : ((addBlocks sha BlockChain.empty bs).AddBlock sha b).1 with
    | false =>
      rw [AddBlock_false sha _ b hres]
      exact ⟨acc, hacc, hdisk, hstate, hidx⟩
    | true =>
      have hnew := ((AddBlock_true_iff sha _ b).mp hres).1
      have hrep := isGenesisReplay_false_of_new sha _ b hidx hnew
      rw [AddBlock_true sha _ b hres]
      refine ⟨acc ++ [b], ?_, ?_, ?_, indexed_install sha _ b hidx⟩
      · intro x hx
        rcases List.mem_append.mp hx with h | h
        · exact hacc x h
        · rw [List.mem_singleton.mp h]; exact hwf b (by simp)
      · rw [install_disk, hdisk, logOf_append, logOf_singleton]
      · rw [install_eq_restore, loadBlocks_append]
        have hstep : loadBlocks sha (loadBlocks sha BlockChain.empty acc) [b] =
            (loadBlocks sha BlockChain.empty acc).restore sha b := by
          have hrep' : (loadBlocks sha BlockChain.empty acc).isGenesisReplay sha b = false := by
            rw [hstate] at hrep
            exact hrep
          show (if (loadBlocks sha BlockChain.empty acc).isGenesisReplay sha b = true
            then loadBlocks sha BlockChain.empty acc
            else (loadBlocks sha BlockChain.empty acc).restore sha b) = _
          rw [hrep']; rfl
        rw [hstep, hdisk, logOf_append, logOf_singleton]
        conv_lhs => rw [hstate]
        rfl

/-- `LoadChain` on a fresh instance over the log of a chain built by `AddBlock` gives
the state of that chain. -/
theorem loadChain_of_addBlocks (sha : Bytes → uint256) (blocks : List Block)
    (hwf : ∀ b ∈ blocks, b.wf) :
    (BlockChain.fresh (addBlocks sha BlockChain.empty blocks).disk).LoadChain sha =
      addBlocks sha BlockChain.empty blocks := by
  obtain ⟨acc, hacc, hdisk, hstate, _⟩ := logged_of_addBlocks sha blocks hwf
  rw [hdisk]
  have h := loadChain_of_log sha acc hacc [] (Or.inl rfl)
  rw [List.append_nil] at h
  rw [h]
  have hfresh : BlockChain.fresh (logOf acc) =
      { BlockChain.empty with disk := logOf acc } := rfl
  rw [hfresh, loadBlocks_disk]
  exact hstate.symm

/-- C14: after any sequence of `AddBlock` calls on a fresh chain with an empty log,
`LoadChain` on a fresh instance over the resulting log gives the same state: chain,
both maps and UTXO set (and the log it read); so `GetHeight()` and `GetBestHash()`
agree. -/
theorem loadChain_reproduces (sha : Bytes → uint256) (blocks : List Block)
    (hwf : ∀ b ∈ blocks, b.wf) :
    (BlockChain.fresh (addBlocks sha BlockChain.empty blocks).disk).LoadChain sha =
      addBlocks sha BlockChain.empty blocks ∧
    ((BlockChain.fresh (addBlocks sha BlockChain.empty blocks).disk).LoadChain sha).GetHeight =
      (addBlocks sha BlockChain.empty blocks).GetHeight ∧
    ((BlockChain.fresh (addBlocks sha BlockChain.empty blocks).disk).LoadChain sha).GetBestHash =
      (addBlocks sha BlockChain.empty blocks).GetBestHash := by
  have hload := loadChain_of_addBlocks sha blocks hwf
  exact ⟨hload, by rw [hload], by rw [hload]⟩

set_option maxRecDepth 100000 in
theorem loadChain_reproduces_witness :
    (∀ b ∈ [mainGenesis, sampleBlock1], b.wf) ∧
    ((BlockChain.fresh (addBlocks sha256 BlockChain.empty
      [mainGenesis, sampleBlock1]).disk).LoadChain sha256).GetHeight = 1 ∧
    ((BlockChain.fresh (addBlocks sha256 BlockChain.empty
      [mainGenesis, sampleBlock1]).disk).LoadChain sha256).GetBestHash =
      sampleBlock1.header.GetHash sha256 :=
  have hwf : ∀ b ∈ [mainGenesis, sampleBlock1], b.wf := eval_blocks_wf
  have h := loadChain_reproduces sha256 [mainGenesis, sampleBlock1] hwf
  ⟨hwf, by rw [h.1]; exact eval_chain_height, by rw [h.1]; exact eval_chain_best⟩

/-- C16: for well-formed blocks `bs` and `b` and a strict prefix `p` (non-empty or
not) of the serialization of `b`, decoding at the tail `p` of the log `logOf bs ++ p` fails, and
`LoadChain` on a fresh chain over that log gives the chain, maps and UTXO set that it
gives over `logOf bs`. -/
theorem loadChain_drops_partial_tail (sha : Bytes → uint256) (bs : List Block) (b : Block)
    (p ext : Bytes) (hbs : ∀ x ∈ bs, x.wf) (hb : b.wf)
    (hp : p ++ ext = bytesOf Block.Serialize b) (hext : ext ≠ []) :
    Block.Deserialize ⟨logOf bs ++ p, (logOf bs).length⟩ = none ∧
    (BlockChain.fresh (logOf bs ++ p)).LoadChain sha =
      { (BlockChain.fresh (logOf bs)).LoadChain sha with disk := logOf bs ++ p } := by
  have hfail : Block.Deserialize ⟨logOf bs ++ p, (logOf bs).length⟩ = none :=
    strict_prefix_fails stable_block (block_reads b hb) (logOf bs) p ext hp hext
  refine ⟨hfail, ?_⟩
  have h1 := loadChain_of_log sha bs hbs p (Or.inr hfail)
  have h2 := loadChain_of_log sha bs hbs [] (Or.inl rfl)
  rw [List.append_nil] at h2
  rw [h1, h2]
  have e1 : loadBlocks sha (BlockChain.fresh (logOf bs ++ p)) bs =
      { loadBlocks sha BlockChain.empty bs with disk := logOf bs ++ p } :=
    loadBlocks_disk sha BlockChain.empty (logOf bs ++ p) bs
  have e2 : loadBlocks sha (BlockChain.fresh (logOf bs)) bs =
      { loadBlocks sha BlockChain.empty bs with disk := logOf bs } :=
    loadBlocks_disk sha BlockChain.empty (logOf bs) bs
  rw [e1, e2]

set_option maxRecDepth 100000 in
theorem loadChain_drops_partial_tail_witness :
    ((∀ x ∈ [mainGenesis], x.wf) ∧ sampleBlock1.wf ∧
      (bytesOf Block.Serialize sampleBlock1).take 100 ++
        (bytesOf Block.Serialize sampleBlock1).drop 100 =
        bytesOf Block.Serialize sampleBlock1 ∧
      (bytesOf Block.Serialize sampleBlock1).take 100 ≠ [] ∧
      (bytesOf Block.Serialize sampleBlock1).drop 100 ≠ []) ∧
    (BlockChain.fresh (logOf [mainGenesis] ++
      (bytesOf Block.Serialize sampleBlock1).take 100)).LoadChain sha256 =
      { (BlockChain.fresh (logOf [mainGenesis])).LoadChain sha256 with
        disk := logOf [mainGenesis] ++ (bytesOf Block.Serialize sampleBlock1).take 100 } :=
  have h1 : ∀ x ∈ [mainGenesis], x.wf := eval_genesis_wf
  have h2 : sampleBlock1.wf := eval_block1_wf
  have h4 : (bytesOf Block.Serialize sampleBlock1).drop 100 ≠ [] := eval_block1_suffix
  ⟨⟨h1, h2, List.take_append_drop _ _, eval_block1_prefix, h4⟩,
    (loadChain_drops_partial_tail sha256 [mainGenesis] sampleBlock1 _ _ h1 h2
      (List.take_append_drop 100 _) h4).2⟩

/-- C15 on the code: the genesis block of `main.cpp` followed by the first block of the
node's own template (which extends it, has two leading zero hash bytes, a correct
merkle root and the genesis coinbase paying the reserve address) are both accepted;
the coinbase outputs of the two blocks sum to `500000000000`, yet `GetBalance` of the
reserve address is `250000000000`, before and after a reload of the log: the second
coinbase has the txid of the first and replaces its entry in the UTXO map. -/
theorem reserve_balance_after_template_block :
    (BlockChain.empty.AddBlock sha256 mainGenesis).1 = true ∧
    ((BlockChain.empty.AddBlock sha256 mainGenesis).2.AddBlock sha256
      sampleTemplateBlock1).1 = true ∧
    sampleTemplateBlock1.header.prev_block = mainGenesis.header.GetHash sha256 ∧
    (sampleTemplateBlock1.header.GetHash sha256).data.take 2 = [0, 0] ∧
    sampleTemplateBlock1.header.merkle_root = computeMerkle sha256 sampleTemplateBlock1.vtx ∧
    sampleTemplateBlock1.vtx.map (fun t => t.vout.map (fun o => o.scriptPubKey)) =
      [[RESERVE_ADDRESS]] ∧
    sampleTemplateBlock1.vtx.map (Transaction.GetHash sha256) =
      mainGenesis.vtx.map (Transaction.GetHash sha256) ∧
    ((mainGenesis.vtx ++ sampleTemplateBlock1.vtx).map
      (fun t => (t.vout.map (fun o => o.value)).sum)).sum = 500000000000 ∧
    (addBlocks sha256 BlockChain.empty [mainGenesis, sampleTemplateBlock1]).GetBalance
      RESERVE_ADDRESS = 250000000000 ∧
    ((BlockChain.fresh (addBlocks sha256 BlockChain.empty
      [mainGenesis, sampleTemplateBlock1]).disk).LoadChain sha256).GetBalance
      RESERVE_ADDRESS = 250000000000 := by
  have hload := loadChain_of_addBlocks sha256 [mainGenesis, sampleTemplateBlock1]
    eval_template_wf
  exact ⟨eval_genesis_accepted, eval_template_accepted, eval_template_prev, eval_template_pow,
    eval_template_merkle, eval_template_pays, eval_template_txids, eval_template_rewards,
    eval_template_balance, by rw [hload]; exact eval_template_balance⟩

/-- The loop of `LoadChain` ends: every decoded block moves the cursor forward, so the
result does not depend on the fuel once it exceeds the bytes left. The fuel
`disk.length + 1` of `LoadChain` is of that kind. -/
theorem loadLoop_fuel (sha : Bytes → uint256) (fuel1 fuel2 : Nat) (buf : Bytes) (pos : Nat)
    (c : BlockChain) (h1 : buf.length - pos < fuel1) (h2 : buf.length - pos < fuel2) :
    loadLoop sha fuel1 ⟨buf, pos⟩ c = loadLoop sha fuel2 ⟨buf, pos⟩ c := by
  induction fuel1 generalizing fuel2 pos c with
  | zero => omega
  | succ f1 ih =>
    cases fuel2 with
    | zero => omega
    | succ f2 =>
      by_cases hlt : pos < buf.length
      · cases hdec : Block.Deserialize ⟨buf, pos⟩ with
        | none => rw [loadLoop_fail sha _ _ _ hdec, loadLoop_fail sha _ _ _ hdec]
        | some r =>
          obtain ⟨block, d1⟩ := r
          obtain ⟨hbuf, hadv, _, _⟩ := stable_block buf pos block d1 hdec
          have hd1 : d1 = ⟨buf, d1.pos⟩ := by
            cases d1; simp only at hbuf; rw [hbuf]
          simp only [loadLoop, hlt, if_true, hdec]
          rw [hd1]
          split_ifs
          · exact ih f2 _ _ (by omega) (by omega)
          · exact ih f2 _ _ (by omega) (by omega)
      · rw [loadLoop_end sha _ _ _ (by simp only; omega),
          loadLoop_end sha _ _ _ (by simp only; omega)]

/-! ## The decoder reads -/

theorem leValue_take_eq (buffer : Bytes) (pos n : Nat) (h : pos + n ≤ buffer.length)
    (hb : ∀ b ∈ buffer, b < 256) :
    readIntLoop buffer n 0 pos 0 = (leValue ((buffer.drop pos).take n), pos + n) := by
  have hlen : ((buffer.drop pos).take n).length = n := by
    rw [List.length_take, List.length_drop]; omega
  have hd : buffer.drop pos = (buffer.drop pos).take n ++ (buffer.drop pos).drop n :=
    (List.take_append_drop n _).symm
  have hbytes : ∀ b ∈ (buffer.drop pos).take n, b < 256 := fun b hb1 =>
    hb b (List.mem_of_mem_drop (List.mem_of_mem_take hb1))
  have h1 := readIntLoop_eq buffer _ _ 0 pos 0 hbytes hd (by simp)
  rw [hlen] at h1
  rw [h1]
  simp

theorem underflow_below_wrap (d : Deserializer) (n : Nat) (h64 : d.pos + n < 2 ^ 64) :
    d.underflow n = true ↔ d.pos + n > d.buffer.length := by
  unfold Deserializer.underflow
  rw [Nat.mod_eq_of_lt h64]
  simp

/-- The reads below the wrap of `pos + n`: they throw exactly when `pos + n > |buffer|`
and leave the object as it was; else `read` gives the bytes `buffer[pos .. pos+n)`, the
integral read their little-endian value, and the cursor advances by `n`. -/
theorem read_below_wrap (d : Deserializer) (n : Nat) (h64 : d.pos + n < 2 ^ 64)
    (hb : ∀ b ∈ d.buffer, b < 256) :
    ((∃ obj, d.read n = .throws obj) ↔ d.pos + n > d.buffer.length) ∧
    ((∃ obj, d.readIntStep n = .throws obj) ↔ d.pos + n > d.buffer.length) ∧
    (d.pos + n > d.buffer.length → d.read n = .throws d ∧ d.readIntStep n = .throws d) ∧
    (d.pos + n ≤ d.buffer.length →
      d.read n = .returns ((d.buffer.drop d.pos).take n) ⟨d.buffer, d.pos + n⟩ ∧
      ((d.buffer.drop d.pos).take n).length = n ∧
      (∀ i, i < n → ((d.buffer.drop d.pos).take n)[i]? = d.buffer[d.pos + i]?) ∧
      d.readIntStep n =
        .returns (leValue ((d.buffer.drop d.pos).take n)) ⟨d.buffer, d.pos + n⟩) := by
  have hu := underflow_below_wrap d n h64
  have hnw : ¬ (d.pos + n ≥ 2 ^ 64) := by omega
  by_cases hgt : d.pos + n > d.buffer.length
  · have hut : d.underflow n = true := hu.mpr hgt
    have h1 : d.read n = .throws d := by
      unfold Deserializer.read; rw [if_pos hut]
    have h2 : d.readIntStep n = .throws d := by
      unfold Deserializer.readIntStep; rw [if_pos hut]
    exact ⟨⟨fun _ => hgt, fun _ => ⟨d, h1⟩⟩, ⟨fun _ => hgt, fun _ => ⟨d, h2⟩⟩,
      fun _ => ⟨h1, h2⟩, fun hle => absurd hgt (by omega)⟩
  · have huf : ¬ d.underflow n = true := fun hc => hgt (hu.mp hc)
    have hle : d.pos + n ≤ d.buffer.length := by omega
    have hloop := leValue_take_eq d.buffer d.pos n hle hb
    have h1 : d.read n = .returns ((d.buffer.drop d.pos).take n) ⟨d.buffer, d.pos + n⟩ := by
      unfold Deserializer.read; rw [if_neg huf, if_neg hnw]
    have h2 : d.readIntStep n =
        .returns (leValue ((d.buffer.drop d.pos).take n)) ⟨d.buffer, d.pos + n⟩ := by
      unfold Deserializer.readIntStep; rw [if_neg huf, if_neg hnw]
      simp only [hloop]
    refine ⟨⟨?_, fun h => absurd h hgt⟩, ⟨?_, fun h => absurd h hgt⟩, fun h => absurd h hgt,
      fun _ => ⟨h1, ?_, ?_, h2⟩⟩
    · rintro ⟨obj, ho⟩
      rw [h1] at ho
      exact ReadResult.noConfusion ho
    · rintro ⟨obj, ho⟩
      rw [h2] at ho
      exact ReadResult.noConfusion ho
    · rw [List.length_take, List.length_drop]; omega
    · intro i hi
      rw [List.getElem?_take_of_lt hi, List.getElem?_drop]

/-- The reads of the decoders are these reads, an exception being `none`. -/
theorem decoders_read (d : Deserializer) (n : Nat) (h64 : d.pos + n < 2 ^ 64)
    (h32 : d.pos + 32 < 2 ^ 64) :
    ((∃ obj, d.readIntStep n = .throws obj) → d.readInt n = none) ∧
    (∀ v obj, d.readIntStep n = .returns v obj → d.readInt n = some (v, obj)) ∧
    ((∃ obj, d.read 32 = .throws obj) → d.readHash = none) ∧
    (∀ v obj, d.read 32 = .returns v obj →
      d.readHash.map (fun r => (r.1.data, r.2)) = some (v, obj)) := by
  have hu := underflow_below_wrap d n h64
  have hu32 := underflow_below_wrap d 32 h32
  refine ⟨?_, ?_, ?_, ?_⟩
  · rintro ⟨obj, ho⟩
    unfold Deserializer.readIntStep at ho
    by_cases hc : d.underflow n = true
    · have := hu.mp hc
      simp [Deserializer.readInt, this]
    · rw [if_neg hc] at ho
      split_ifs at ho
  · intro v obj ho
    unfold Deserializer.readIntStep at ho
    by_cases hc : d.underflow n = true
    · rw [if_pos hc] at ho; exact ReadResult.noConfusion ho
    · rw [if_neg hc, if_neg (by omega)] at ho
      have hle : ¬ (d.pos + n > d.buffer.length) := fun h => hc (hu.mpr h)
      simp only [ReadResult.returns.injEq] at ho
      simp only [Deserializer.readInt, hle, if_false, ho.1, ho.2]
  · rintro ⟨obj, ho⟩
    unfold Deserializer.read at ho
    by_cases hc : d.underflow 32 = true
    · have := hu32.mp hc
      simp [Deserializer.readHash, this]
    · rw [if_neg hc] at ho
      split_ifs at ho
  · intro v obj ho
    unfold Deserializer.read at ho
    by_cases hc : d.underflow 32 = true
    · rw [if_pos hc] at ho; exact ReadResult.noConfusion ho
    · rw [if_neg hc, if_neg (by omega)] at ho
      have hle : ¬ (d.pos + 32 > d.buffer.length) := fun h => hc (hu32.mpr h)
      simp only [ReadResult.returns.injEq] at ho
      simp only [Deserializer.readHash, hle, dite_false, Option.map_some', ho.1, ho.2]

/-- C21 on the code: the test `pos + len > buffer.size()` is computed in `size_t`, so a
request whose sum with the cursor wraps is not refused. With the buffer `[1, 2, 3]`,
the cursor at 1 and `n = 2^64 - 1`, more bytes are requested than remain
(`pos + n > |buffer|`), the sum is 0 in `size_t`, the test is false and `read(dest, n)`
does not throw "Deserialize underflow"; it goes on to a copy whose behaviour is
undefined. For every request below the wrap (`pos + n < 2^64`, so for every integral
read of at most 8 bytes with the cursor inside a buffer shorter than `2^63`) the reads
are as claimed: they throw exactly when `pos + n > |buffer|` and then leave the object
as it was, and else the cursor advances by exactly `n`, `read` gives the bytes
`buffer[pos .. pos+n)` and the integral read their little-endian value; the reads of
the decoders (`readInt`, `readHash`) are these reads. -/
theorem read_underflow_test_wraps :
    ((⟨[1, 2, 3], 1⟩ : Deserializer).pos ≤ [1, 2, 3].length ∧
      (⟨[1, 2, 3], 1⟩ : Deserializer).pos + (2 ^ 64 - 1) > [1, 2, 3].length ∧
      Deserializer.underflow ⟨[1, 2, 3], 1⟩ (2 ^ 64 - 1) = false ∧
      Deserializer.read ⟨[1, 2, 3], 1⟩ (2 ^ 64 - 1) = .undefined ∧
      ¬ ∃ obj, Deserializer.read ⟨[1, 2, 3], 1⟩ (2 ^ 64 - 1) = .throws obj) ∧
    (Deserializer.readIntStep ⟨[1, 2, 3, 4, 5], 1⟩ 4 = .returns 84148994 ⟨[1, 2, 3, 4, 5], 5⟩ ∧
      Deserializer.readIntStep ⟨[1, 2, 3, 4, 5], 1⟩ 8 = .throws ⟨[1, 2, 3, 4, 5], 1⟩) ∧
    (∀ (d : Deserializer) (n : Nat), d.pos ≤ d.buffer.length → d.buffer.length < 2 ^ 63 →
      n ≤ 8 → d.pos + n < 2 ^ 64) ∧
    (∀ (d : Deserializer) (n : Nat), d.pos + n < 2 ^ 64 → (∀ b ∈ d.buffer, b < 256) →
      ((∃ obj, d.read n = .throws obj) ↔ d.pos + n > d.buffer.length) ∧
      ((∃ obj, d.readIntStep n = .throws obj) ↔ d.pos + n > d.buffer.length) ∧
      (d.pos + n > d.buffer.length → d.read n = .throws d ∧ d.readIntStep n = .throws d) ∧
      (d.pos + n ≤ d.buffer.length →
        d.read n = .returns ((d.buffer.drop d.pos).take n) ⟨d.buffer, d.pos + n⟩ ∧
        ((d.buffer.drop d.pos).take n).length = n ∧
        (∀ i, i < n → ((d.buffer.drop d.pos).take n)[i]? = d.buffer[d.pos + i]?) ∧
        d.readIntStep n =
          .returns (leValue ((d.buffer.drop d.pos).take n)) ⟨d.buffer, d.pos + n⟩)) ∧
    (∀ (d : Deserializer) (n : Nat), d.pos + n < 2 ^ 64 → d.pos + 32 < 2 ^ 64 →
      ((∃ obj, d.readIntStep n = .throws obj) → d.readInt n = none) ∧
      (∀ v obj, d.readIntStep n = .returns v obj → d.readInt n = some (v, obj)) ∧
      ((∃ obj, d.read 32 = .throws obj) → d.readHash = none) ∧
      (∀ v obj, d.read 32 = .returns v obj →
        d.readHash.map (fun r => (r.1.data, r.2)) = some (v, obj))) := by
  have hund : Deserializer.read ⟨[1, 2, 3], 1⟩ (2 ^ 64 - 1) = .undefined := by
    unfold Deserializer.read Deserializer.underflow
    norm_num
  refine ⟨⟨by decide, by norm_num, ?_, hund, ?_⟩, ⟨?_, ?_⟩, ?_, read_below_wrap, decoders_read⟩
  · unfold Deserializer.underflow
    norm_num
  · rintro ⟨obj, ho⟩
    rw [hund] at ho
    exact ReadResult.noConfusion ho
  · exact ((read_below_wrap ⟨[1, 2, 3, 4, 5], 1⟩ 4 (by norm_num) (by decide)).2.2.2
      (by decide)).2.2.2
  · exact ((read_below_wrap ⟨[1, 2, 3, 4, 5], 1⟩ 8 (by norm_num) (by decide)).2.2.1
      (by decide)).2
  · intro d n h1 h2 h3
    have : (2 : Nat) ^ 64 = 2 ^ 63 + 2 ^ 63 := by norm_num
    omega

/-! ## The orders of the map keys -/

theorem bytesLt_iff_first_difference (a b : List Nat) (h : a.length = b.length) :
    bytesLt a b = true ↔
      ∃ i, i < a.length ∧ (∀ j, j < i → a.getD j 0 = b.getD j 0) ∧
        a.getD i 0 < b.getD i 0 := by
  induction a generalizing b with
  | nil =>
    cases b with
    | nil => simp [bytesLt]
    | cons y ys => simp at h
  | cons x xs ih =>
    cases b with
    | nil => simp at h
    | cons y ys =>
      have hlen : xs.length = ys.length := by simpa using h
      simp only [bytesLt]
      by_cases hxy : x < y
      · simp only [hxy, if_true, true_iff]
        exact ⟨0, by simp, fun j hj => by omega, by simpa using hxy⟩
      · by_cases hyx : y < x
        · simp only [hxy, hyx, if_false, if_true, Bool.false_eq_true, false_iff]
          rintro ⟨i, _, hpre, hlt⟩
          cases i with
          | zero => simp at hlt; omega
          | succ i =>
            have := hpre 0 (by omega)
            simp at this
            omega
        · have hxe : x = y := by omega
          subst hxe
          simp only [lt_self_iff_false, if_false, ih ys hlen]
          constructor
          · rintro ⟨i, hi, hpre, hlt⟩
            refine ⟨i + 1, by simpa using hi, ?_, by simpa using hlt⟩
            intro j hj
            cases j with
            | zero => simp
            | succ j => simpa using hpre j (by omega)
          · rintro ⟨i, hi, hpre, hlt⟩
            cases i with
            | zero => simp at hlt
            | succ i =>
              refine ⟨i, by simpa using hi, ?_, by simpa using hlt⟩
              intro j hj
              simpa using hpre (j + 1) (by omega)

theorem outPoint_lt_iff (a b : OutPoint) :
    OutPoint.lt a b = true ↔
      uint256.lt a.hash b.hash = true ∨ (a.hash = b.hash ∧ a.n < b.n) := by
  unfold OutPoint.lt uint256.lt
  by_cases h : a.hash = b.hash
  · simp [h, bytesLt_irrefl]
  · simp [h]

/-- C30: `OutPoint::operator<` is irreflexive and transitive, exactly one of `a < b`,
`b < a` and `a.hash == b.hash && a.n == b.n` holds, and it is the lexicographic order
on (hash, index): `a < b` when `a.hash < b.hash`, or the hashes are equal and
`a.n < b.n`. The `uint256::operator<` is the lexicographic order on the 32 bytes: some
byte of `a` is smaller than the byte of `b` at its place and all bytes before are
equal. -/
theorem outPoint_lt_lexicographic :
    (∀ a : OutPoint, OutPoint.lt a a = false) ∧
    (∀ a b c : OutPoint, OutPoint.lt a b = true → OutPoint.lt b c = true →
      OutPoint.lt a c = true) ∧
    (∀ a b : OutPoint,
      (OutPoint.lt a b = true ∧ OutPoint.lt b a = false ∧ ¬ (a.hash = b.hash ∧ a.n = b.n)) ∨
      (OutPoint.lt a b = false ∧ OutPoint.lt b a = true ∧ ¬ (a.hash = b.hash ∧ a.n = b.n)) ∨
      (OutPoint.lt a b = false ∧ OutPoint.lt b a = false ∧ a.hash = b.hash ∧ a.n = b.n)) ∧
    (∀ a b : OutPoint, OutPoint.lt a b = true ↔
      uint256.lt a.hash b.hash = true ∨ (a.hash = b.hash ∧ a.n < b.n)) ∧
    (∀ a b : uint256, uint256.lt a b = true ↔
      ∃ i, i < 32 ∧ (∀ j, j < i → a.data.getD j 0 = b.data.getD j 0) ∧
        a.data.getD i 0 < b.data.getD i 0) := by
  refine ⟨outPoint_lt_order.irrefl, outPoint_lt_order.trans, ?_, outPoint_lt_iff, ?_⟩
  · intro a b
    have hne : ∀ x y : OutPoint, OutPoint.lt x y = true → ¬ (x.hash = y.hash ∧ x.n = y.n) := by
      intro x y hlt heq
      have : x = y := by
        cases x; cases y; simp only [OutPoint.mk.injEq]; exact heq
      rw [this, outPoint_lt_order.irrefl] at hlt
      exact Bool.false_ne_true hlt
    cases hab : OutPoint.lt a b with
    | true =>
      exact Or.inl ⟨rfl, StdMap.StrictOrder.asymm outPoint_lt_order a b hab, hne a b hab⟩
    | false =>
      cases hba : OutPoint.lt b a with
      | true =>
        refine Or.inr (Or.inl ⟨rfl, rfl, ?_⟩)
        intro heq
        exact hne b a hba ⟨heq.1.symm, heq.2.symm⟩
      | false =>
        have := outPoint_lt_order.total a b hab hba
        exact Or.inr (Or.inr ⟨rfl, rfl, by rw [this], by rw [this]⟩)
  · intro a b
    have h := bytesLt_iff_first_difference a.data b.data (by rw [a.width, b.width])
    rw [a.width] at h
    exact h

/-! ## The index of the chain -/

/-- In a chain built by `AddBlock`, the entry at position `i` has height `i`, its hash
is the hash of its header, the index map gives the entry itself for that hash, and no
other position holds an entry with the same hash. -/
theorem entries_of_reachable (sha : Bytes → uint256) (c : BlockChain) (h : Reachable sha c) :
    (∀ (i : Nat) (e : BlockIndex), c.chain[i]? = some e →
      StdMap.find uint256.lt e.hash c.blockIndexMap = some e) ∧
    List.Pairwise (fun a b : BlockIndex => a.hash ≠ b.hash) c.chain := by
  induction h with
  | empty =>
    exact ⟨fun i e he => by simp [BlockChain.empty] at he, by simp [BlockChain.empty]⟩
  | add c block hr ih =>
    cases hres : (c.AddBlock sha block).1 with
    | false => rw [AddBlock_false sha c block hres]; exact ih
    | true =>
      have hnew := ((AddBlock_true_iff sha c block).mp hres).1
      have hidx := indexed_of_reachable sha c hr
      rw [AddBlock_true sha c block hres, install_chain, install_blockIndexMap]
      have hfresh : ∀ e ∈ c.chain, e.hash ≠ block.header.GetHash sha := by
        intro e he heq
        have := hidx.1 e he
        rw [heq, hnew] at this
        exact Bool.false_ne_true this
      constructor
      · intro i e he
        by_cases hi : i < c.chain.length
        · rw [List.getElem?_append_left hi] at he
          have hmem : e ∈ c.chain := List.mem_iff_getElem?.mpr ⟨i, he⟩
          rw [StdMap.find_insert_ne uint256_lt_order _ _ _ _ (hfresh e hmem)]
          exact ih.1 i e he
        · by_cases hie : i = c.chain.length
          · rw [hie, List.getElem?_concat_length] at he
            rw [← Option.some.inj he]
            exact StdMap.find_insert_self uint256_lt_order _ _ _
          · rw [List.getElem?_eq_none (by simp; omega)] at he
            exact Option.noConfusion he
      · rw [List.pairwise_append]
        refine ⟨ih.2, by simp, ?_⟩
        intro a ha b hb
        rw [List.mem_singleton.mp hb]
        exact hfresh a ha

/-- C29: in every chain state reached from the empty chain by `AddBlock` calls, no two
chain entries (at different positions) have the same hash, and every chain entry `e`
has `e.hash == Hash256(Serialize(e.header))`, `GetIndex(e.hash)` returns `e` itself,
and `chain[e.height]` is `e`. -/
theorem chain_entries_indexed (sha : Bytes → uint256) (c : BlockChain)
    (h : Reachable sha c) :
    (∀ (i j : Nat) (a b : BlockIndex), c.chain[i]? = some a → c.chain[j]? = some b →
      i ≠ j → a.hash ≠ b.hash) ∧
    (∀ e ∈ c.chain,
      e.hash = Hash256 sha (bytesOf BlockHeader.Serialize e.header) ∧
      c.GetIndex e.hash = some e ∧
      0 ≤ e.height ∧ c.chain[e.height.toNat]? = some e) := by
  have hent := entries_of_reachable sha c h
  have hlink := (linked_of_reachable sha c h).1
  constructor
  · intro i j a b hi hj hij
    have hpw := List.pairwise_iff_getElem.mp hent.2
    have hil := (List.getElem?_eq_some.mp hi)
    have hjl := (List.getElem?_eq_some.mp hj)
    rcases Nat.lt_or_gt_of_ne hij with hlt | hgt
    · have := hpw i j hil.1 hjl.1 hlt
      rw [hil.2, hjl.2] at this
      exact this
    · have := hpw j i hjl.1 hil.1 hgt
      rw [hil.2, hjl.2] at this
      exact fun heq => this heq.symm
  · intro e he
    obtain ⟨i, hi⟩ := List.getElem?_of_mem he
    obtain ⟨hheight, hhash⟩ := hlink i e hi
    refine ⟨?_, hent.1 i e hi, by rw [hheight]; exact Int.natCast_nonneg i, ?_⟩
    · rw [hhash]; rfl
    · rw [hheight, Int.toNat_ofNat]; exact hi

set_option maxRecDepth 100000 in
theorem chain_entries_indexed_witness :
    Reachable sha256 (addBlocks sha256 BlockChain.empty [mainGenesis, sampleBlock1]) ∧
    (addBlocks sha256 BlockChain.empty [mainGenesis, sampleBlock1]).GetIndex
      (sampleBlock1.header.GetHash sha256) = some (BlockIndex.create sha256 sampleBlock1 1) :=
  have h1 : Reachable sha256 (addBlocks sha256 BlockChain.empty [mainGenesis, sampleBlock1]) :=
    reachable_addBlocks sha256 _ _ Reachable.empty
  have h2 : BlockIndex.create sha256 sampleBlock1 1 ∈
      (addBlocks sha256 BlockChain.empty [mainGenesis, sampleBlock1]).chain := eval_chain_block1_mem
  ⟨h1, ((chain_entries_indexed sha256 _ h1).2 _ h2).2.1⟩

/-! ## Queries for absent data -/

theorem find_none_of_not_key {K V : Type} {lt : K → K → Bool} (ord : StdMap.StrictOrder lt)
    (k : K) (m : List (K × V)) (h : ∀ e ∈ m, e.1 ≠ k) : StdMap.find lt k m = none := by
  induction m with
  | nil => rfl
  | cons e m ih =>
    obtain ⟨k', v'⟩ := e
    have hne : k' ≠ k := h (k', v') (List.mem_cons_self _ _)
    simp only [StdMap.find]
    by_cases h1 : lt k' k = true
    · rw [if_pos h1]
      exact ih (fun e he => h e (List.mem_cons_of_mem _ he))
    · rw [if_neg h1]
      by_cases h2 : lt k k' = true
      · rw [if_pos h2]
      · exact absurd (ord.total k' k (by simpa using h1) (by simpa using h2)) hne

/-- C28: queries for absent data give default values. On an empty chain `GetHeight()`
is `-1` and `GetBestHash()` the zero hash; for a hash that is not a key of the block
map `GetBlock` gives the default `Block` (version 1, zero `prev_block` and
`merkle_root`, timestamp 0, bits 0, nonce 0, no transactions); for a hash that is not a
key of the index map `GetIndex` gives null; for a hash that no transaction of a block
of the chain has, `GetTransaction` returns false (and leaves its output arguments); for
`h < 0` or `h > GetHeight()`, `GetBlockByHeight(h)` gives the default `Block`. -/
theorem absent_queries_default (sha : Bytes → uint256) (c : BlockChain) :
    (c.chain = [] → c.GetHeight = -1 ∧ c.GetBestHash = uint256.zero) ∧
    (∀ hash : uint256, (∀ p ∈ c.blockData, p.1 ≠ hash) → c.GetBlock hash = Block.default) ∧
    Block.default = ⟨⟨1, uint256.zero, uint256.zero, 0, 0, 0⟩, []⟩ ∧
    (∀ hash : uint256, (∀ p ∈ c.blockIndexMap, p.1 ≠ hash) → c.GetIndex hash = none) ∧
    (∀ (hash : uint256) (outTx : Transaction) (outBlockHash : uint256),
      (∀ b ∈ c.chainBlocks, ∀ t ∈ b.vtx, t.GetHash sha ≠ hash) →
      c.GetTransaction sha hash outTx outBlockHash = (false, outTx, outBlockHash)) ∧
    (∀ h : Int, h < 0 ∨ h > c.GetHeight → c.GetBlockByHeight h = Block.default) := by
  refine ⟨?_, ?_, rfl, ?_, ?_, ?_⟩
  · intro hc
    simp [BlockChain.GetHeight, BlockChain.GetBestHash, hc]
  · intro hash hk
    unfold BlockChain.GetBlock
    rw [find_none_of_not_key uint256_lt_order hash c.blockData hk]
  · intro hash hk
    exact find_none_of_not_key uint256_lt_order hash c.blockIndexMap hk
  · intro hash outTx outBlockHash hno
    rw [getTransaction_eq]
    have hnone : firstHit sha hash c.chainBlocks.reverse = none :=
      (firstHit_reverse sha hash c.chainBlocks).1.mpr
        (fun b hb => (scanBlock_none_iff sha hash b.vtx).mpr (hno b hb))
    rw [hnone]
  · intro h hh
    unfold BlockChain.GetBlockByHeight
    have hcond : h < 0 ∨ h ≥ (c.chain.length : Int) := by
      unfold BlockChain.GetHeight at hh
      omega
    rw [if_pos hcond]

set_option maxRecDepth 100000 in
theorem absent_queries_default_witness :
    (BlockChain.empty.GetHeight = -1 ∧ BlockChain.empty.GetBestHash = uint256.zero) ∧
    (addBlocks sha256 BlockChain.empty [mainGenesis]).GetBlock uint256.zero = Block.default ∧
    (addBlocks sha256 BlockChain.empty [mainGenesis]).GetBlockByHeight 1 = Block.default :=
  have h := absent_queries_default sha256 (addBlocks sha256 BlockChain.empty [mainGenesis])
  ⟨(absent_queries_default sha256 BlockChain.empty).1 rfl,
    h.2.1 uint256.zero eval_zero_not_key,
    h.2.2.2.2.2 1 (Or.inr eval_height_below_one)⟩

/-! ## The miner -/

theorem refresh_workBlock (sha : Bytes → uint256) (k : Int) (m : Miner) (pool : Mempool) :
    (refresh sha k m pool).workBlock =
      { header := { m.targetBlock.header with
          merkle_root := minerMerkle sha (m.targetBlock.vtx ++ pool.GetTransactions.take 100) }
        vtx := m.targetBlock.vtx ++ pool.GetTransactions.take 100 } := by
  simp [refresh]

theorem foldl_write_buffer (sha : Bytes → uint256) (vtx : List Transaction) (s : Serializer) :
    (vtx.foldl (fun (mer : Serializer) tx => mer.write (tx.GetHash sha).data) s).buffer =
      s.buffer ++ encAll (fun (t : Transaction) => (t.GetHash sha).data) vtx := by
  induction vtx generalizing s with
  | nil => simp [encAll]
  | cons t ts ih =>
    rw [List.foldl_cons, ih]
    simp [Serializer.write, encAll]

theorem minerMerkle_eq_computeMerkle (sha : Bytes → uint256) (vtx : List Transaction)
    (h : vtx ≠ []) : minerMerkle sha vtx = computeMerkle sha vtx := by
  unfold minerMerkle computeMerkle
  have : vtx.isEmpty = false := by
    cases vtx with
    | nil => exact absurd rfl h
    | cons _ _ => rfl
  simp [this]

/-- C23: for every template `T` (the `targetBlock`) and mempool, a refresh gives a work
block whose transactions are those of `T` followed by the first `min(100, |M|)`
transactions of the snapshot `M`, whose header fields other than `merkle_root` are
those of `T`, and whose `merkle_root` is the zero hash for no transaction, the hash of
the transaction for exactly one, and `Hash256` of the concatenated transaction hashes
for two or more; the nonce counter is 0 and the snapshot version is the current
`workVersion`. A pass whose refresh condition holds does this refresh. -/
theorem refresh_work_block (sha : Bytes → uint256) (k : Int) (m : Miner) (pool : Mempool) :
    (refresh sha k m pool).workBlock.vtx =
      m.targetBlock.vtx ++
        pool.GetTransactions.take (min 100 pool.GetTransactions.length) ∧
    ((refresh sha k m pool).workBlock.header.version = m.targetBlock.header.version ∧
      (refresh sha k m pool).workBlock.header.prev_block = m.targetBlock.header.prev_block ∧
      (refresh sha k m pool).workBlock.header.timestamp = m.targetBlock.header.timestamp ∧
      (refresh sha k m pool).workBlock.header.bits = m.targetBlock.header.bits ∧
      (refresh sha k m pool).workBlock.header.nonce = m.targetBlock.header.nonce) ∧
    ((refresh sha k m pool).workBlock.vtx = [] →
      (refresh sha k m pool).workBlock.header.merkle_root = uint256.zero) ∧
    (∀ tx, (refresh sha k m pool).workBlock.vtx = [tx] →
      (refresh sha k m pool).workBlock.header.merkle_root = tx.GetHash sha) ∧
    (2 ≤ (refresh sha k m pool).workBlock.vtx.length →
      (refresh sha k m pool).workBlock.header.merkle_root =
        Hash256 sha (encAll (fun (t : Transaction) => (t.GetHash sha).data)
          (refresh sha k m pool).workBlock.vtx)) ∧
    (refresh sha k m pool).nonceCounter = 0 ∧
    (refresh sha k m pool).myVersion = m.workVersion ∧
    (∀ (seen : Int) (w : Worker), (w.myVersion ≠ seen ∨ w.nonceCounter ≥ 100000) →
      prepare sha k seen m pool w = refresh sha k m pool) := by
  have hw := refresh_workBlock sha k m pool
  have hmin : pool.GetTransactions.take (min 100 pool.GetTransactions.length) =
      pool.GetTransactions.take 100 := by
    rw [← List.take_take, List.take_length]
  refine ⟨by rw [hw, hmin], by rw [hw]; exact ⟨rfl, rfl, rfl, rfl, rfl⟩, ?_, ?_, ?_, rfl, rfl, ?_⟩
  · rw [hw]
    intro h
    simp only at h
    simp only [h, minerMerkle, List.isEmpty_nil, if_true]
  · rw [hw]
    intro tx h
    simp only at h
    simp only [h, minerMerkle, List.isEmpty_cons, Bool.false_eq_true, if_false,
      List.length_singleton, if_true, List.getD_cons_zero]
  · rw [hw]
    intro h
    simp only at h
    have hne : (m.targetBlock.vtx ++ pool.GetTransactions.take 100).isEmpty = false := by
      cases hv : m.targetBlock.vtx ++ pool.GetTransactions.take 100 with
      | nil => rw [hv] at h; simp at h
      | cons _ _ => rfl
    have hl : ¬ (m.targetBlock.vtx ++ pool.GetTransactions.take 100).length = 1 := by omega
    simp only [minerMerkle, hne, Bool.false_eq_true, if_false, hl, foldl_write_buffer,
      List.nil_append]
  · intro seen w hcond
    simp [prepare, refreshes, hcond]

/-- C22 on the code: a refresh caused by a version change leaves the work block with
the nonce of the template, for every thread id: `myVersion` has just been set to
`workVersion` under the lock when `myVersion != workVersion` is tested, so the
assignment `nonce = threadId * 100000000` is never reached. For thread 1 and the
template of `main.cpp` (nonce 0) the first refresh gives nonce 0, not 100000000. -/
theorem refresh_nonce_not_staggered :
    (∀ (sha : Bytes → uint256) (k seen : Int) (m : Miner) (pool : Mempool) (w : Worker),
      w.myVersion ≠ seen →
      (prepare sha k seen m pool w).workBlock.header.nonce = m.targetBlock.header.nonce) ∧
    Worker.init.myVersion ≠ (Miner.create sampleTemplate).workVersion ∧
    (prepare sha256 1 (Miner.create sampleTemplate).workVersion (Miner.create sampleTemplate)
      Mempool.empty Worker.init).workBlock.header.nonce = 0 ∧
    (prepare sha256 1 (Miner.create sampleTemplate).workVersion (Miner.create sampleTemplate)
      Mempool.empty Worker.init).workBlock.header.nonce ≠ 1 * 100000000 := by
  have hgen : ∀ (sha : Bytes → uint256) (k seen : Int) (m : Miner) (pool : Mempool)
      (w : Worker), w.myVersion ≠ seen →
      (prepare sha k seen m pool w).workBlock.header.nonce = m.targetBlock.header.nonce := by
    intro sha k seen m pool w h
    have hp : prepare sha k seen m pool w = refresh sha k m pool := by
      simp [prepare, refreshes, h]
    rw [hp, refresh_workBlock]
  have hne : Worker.init.myVersion ≠ (Miner.create sampleTemplate).workVersion := by
    decide
  have h0 := hgen sha256 1 _ (Miner.create sampleTemplate) Mempool.empty Worker.init hne
  have ht : (Miner.create sampleTemplate).targetBlock.header.nonce = 0 := rfl
  refine ⟨hgen, hne, by rw [h0, ht], by rw [h0, ht]; decide⟩

theorem runWorker_append (sha : Bytes → uint256) (k : Int) (ps : List Pass) (p : Pass) :
    runWorker sha k (ps ++ [p]) = (runWorker sha k ps).step sha k p := by
  unfold runWorker
  rw [List.foldl_append]
  rfl

/-- What every pass keeps: the merkle root of the work block is the miner's merkle of
its transactions, the work block has the `prev_block` of the template of the last
refresh and starts with its transactions, and every block handed to the callback had
these properties and a header hash with two leading zero bytes. -/
theorem runWorker_invariant (sha : Bytes → uint256) (k : Int) (passes : List Pass) :
    ((runWorker sha k passes).worker.workBlock.header.merkle_root =
        minerMerkle sha (runWorker sha k passes).worker.workBlock.vtx ∧
      (∀ T, (runWorker sha k passes).template = some T →
        (runWorker sha k passes).worker.workBlock.header.prev_block = T.header.prev_block ∧
        T.vtx <+: (runWorker sha k passes).worker.workBlock.vtx) ∧
      ((runWorker sha k passes).template = none →
        (runWorker sha k passes).worker.myVersion = -1)) ∧
    (∀ b g, (b, g) ∈ (runWorker sha k passes).emitted →
      ((b.header.GetHash sha).data.getD 0 0 = 0 ∧ (b.header.GetHash sha).data.getD 1 0 = 0) ∧
      b.header.merkle_root = minerMerkle sha b.vtx ∧
      ∀ T, g = some T → b.header.prev_block = T.header.prev_block ∧ T.vtx <+: b.vtx) ∧
    ((∀ p ∈ passes, p.seen ≠ -1) →
      (passes ≠ [] → (runWorker sha k passes).template.isSome = true) ∧
      ∀ b g, (b, g) ∈ (runWorker sha k passes).emitted → g.isSome = true) := by
  induction passes using List.reverseRecOn with
  | nil =>
    refine ⟨⟨rfl, ?_, fun _ => rfl⟩, ?_, ?_⟩
    · intro T hT; exact Option.noConfusion hT
    · intro b g hbg; simp [runWorker, Trace.init] at hbg
    · intro _
      exact ⟨fun h => absurd rfl h, fun b g hbg => by simp [runWorker, Trace.init] at hbg⟩
  | append_singleton ps p ih =>
    obtain ⟨⟨ihm, iht, ihn⟩, ihe, ihs⟩ := ih
    rw [runWorker_append]
    generalize runWorker sha k ps = t at ihm iht ihn ihe ihs
    -- the locals where the header is hashed
    have hprep : (prepare sha k p.seen p.miner p.mempool t.worker).workBlock.header.merkle_root =
          minerMerkle sha (prepare sha k p.seen p.miner p.mempool t.worker).workBlock.vtx ∧
        ∀ T, (if refreshes p.seen t.worker then some p.miner.targetBlock else t.template) =
            some T →
          (prepare sha k p.seen p.miner p.mempool t.worker).workBlock.header.prev_block =
            T.header.prev_block ∧
          T.vtx <+: (prepare sha k p.seen p.miner p.mempool t.worker).workBlock.vtx := by
      unfold prepare
      cases hr : refreshes p.seen t.worker with
      | true =>
        simp only [if_true, refresh_workBlock]
        refine ⟨trivial, ?_⟩
        intro T hT
        rw [← Option.some.inj hT]
        exact ⟨rfl, List.prefix_append _ _⟩
      | false =>
        simp only [Bool.false_eq_true, if_false]
        exact ⟨ihm, iht⟩
    have hw : ((t.step sha k p).worker.workBlock.header.merkle_root =
          (prepare sha k p.seen p.miner p.mempool t.worker).workBlock.header.merkle_root) ∧
        ((t.step sha k p).worker.workBlock.header.prev_block =
          (prepare sha k p.seen p.miner p.mempool t.worker).workBlock.header.prev_block) ∧
        ((t.step sha k p).worker.workBlock.vtx =
          (prepare sha k p.seen p.miner p.mempool t.worker).workBlock.vtx) := ⟨rfl, rfl, rfl⟩
    have htemp : (t.step sha k p).template =
        (if refreshes p.seen t.worker then some p.miner.targetBlock else t.template) := rfl
    have hem : ∀ b g, (b, g) ∈ (t.step sha k p).emitted →
        (b, g) ∈ t.emitted ∨
        (found sha (prepare sha k p.seen p.miner p.mempool t.worker) = true ∧
          b = (prepare sha k p.seen p.miner p.mempool t.worker).workBlock ∧
          g = (t.step sha k p).template) := by
      intro b g hbg
      simp only [Trace.step, iteration, advance] at hbg
      cases hf : found sha (prepare sha k p.seen p.miner p.mempool t.worker) with
      | false =>
        simp only [hf, Bool.false_eq_true, if_false] at hbg
        exact Or.inl hbg
      | true =>
        simp only [hf, if_true, List.mem_append, List.mem_singleton, Prod.mk.injEq] at hbg
        rcases hbg with h | ⟨h1, h2⟩
        · exact Or.inl h
        · exact Or.inr ⟨rfl, h1, h2⟩
    have hver : (t.step sha k p).worker.myVersion =
        if found sha (prepare sha k p.seen p.miner p.mempool t.worker) then -1
        else (prepare sha k p.seen p.miner p.mempool t.worker).myVersion := rfl
    refine ⟨⟨?_, ?_, ?_⟩, ?_, ?_⟩
    · rw [hw.1, hw.2.2]; exact hprep.1
    · intro T hT
      rw [hw.2.1, hw.2.2]
      exact hprep.2 T (htemp ▸ hT)
    · intro hnone
      rw [htemp] at hnone
      rw [hver]
      cases hr : refreshes p.seen t.worker with
      | true => rw [hr] at hnone; simp at hnone
      | false =>
        rw [hr] at hnone
        simp only [Bool.false_eq_true, if_false] at hnone
        simp only [prepare, hr, Bool.false_eq_true, if_false, ihn hnone, ite_self]
    · intro b g hbg
      rcases hem b g hbg with h | ⟨hf, hb, hg⟩
      · exact ihe b g h
      · subst hb
        refine ⟨?_, hprep.1, ?_⟩
        · simpa [found] using hf
        · intro T hT
          exact hprep.2 T (by rw [← htemp, ← hg]; exact hT)
    · intro hseen
      have hseen1 : ∀ q ∈ ps, q.seen ≠ -1 := fun q hq => hseen q (List.mem_append_left _ hq)
      have hp : p.seen ≠ -1 := hseen p (by simp)
      have htsome : (t.step sha k p).template.isSome = true := by
        rw [htemp]
        cases hr : refreshes p.seen t.worker with
        | true => rfl
        | false =>
          simp only [Bool.false_eq_true, if_false]
          cases htt : t.template with
          | some T => rfl
          | none =>
            exfalso
            have hv := ihn htt
            have : refreshes p.seen t.worker = true := by
              simp only [refreshes, decide_eq_true_eq]
              left; rw [hv]; exact fun h => hp h.symm
            rw [hr] at this
            exact Bool.false_ne_true this
      refine ⟨fun _ => htsome, ?_⟩
      intro b g hbg
      rcases hem b g hbg with h | ⟨_, _, hg⟩
      · exact (ihs hseen1).2 b g h
      · rw [hg]; exact htsome

/-- C24: every block that a worker hands to the block-found callback has a header hash
with two leading zero bytes, the `prev_block` of the template copied at the last
refresh of the worker, the transactions of that template first, and as `merkle_root`
the merkle value that the validator computes for its transactions (the hash of the
transaction when there is one only). So when the template has a transaction,
`ValidateBlock` accepts the block on every chain, and `AddBlock` accepts it exactly
when its hash is not indexed yet and the chain is empty or its `prev_block` is the tip
hash. A refresh came before, provided the work version read is never `-1`. -/
theorem emitted_blocks_valid (sha : Bytes → uint256) (k : Int) (passes : List Pass)
    (b : Block) (g : Option Block)
    (h : (b, g) ∈ (runWorker sha k passes).emitted) :
    ((b.header.GetHash sha).data.getD 0 0 = 0 ∧ (b.header.GetHash sha).data.getD 1 0 = 0) ∧
    (b.vtx ≠ [] → b.header.merkle_root = computeMerkle sha b.vtx) ∧
    (∀ tx, b.vtx = [tx] → b.header.merkle_root = tx.GetHash sha) ∧
    ((∀ p ∈ passes, p.seen ≠ -1) → ∃ T, g = some T) ∧
    (∀ T, g = some T →
      b.header.prev_block = T.header.prev_block ∧ T.vtx <+: b.vtx ∧
      (T.vtx ≠ [] → ∀ c : BlockChain,
        c.ValidateBlock sha b = true ∧
        ((c.AddBlock sha b).1 = true ↔
          c.GetIndex (b.header.GetHash sha) = none ∧
          (c.chain = [] ∨ b.header.prev_block = c.GetBestHash)))) := by
  obtain ⟨_, hem, hsome⟩ := runWorker_invariant sha k passes
  obtain ⟨hz, hm, hT⟩ := hem b g h
  have hmerk : b.vtx ≠ [] → b.header.merkle_root = computeMerkle sha b.vtx := fun hne => by
    rw [hm, minerMerkle_eq_computeMerkle sha b.vtx hne]
  refine ⟨hz, hmerk, ?_, ?_, ?_⟩
  · intro tx htx
    rw [hmerk (by rw [htx]; simp), htx, computeMerkle_single]
  · intro hseen
    exact Option.isSome_iff_exists.mp ((hsome hseen).2 b g h)
  · intro T hg
    obtain ⟨hprev, hpre⟩ := hT T hg
    refine ⟨hprev, hpre, ?_⟩
    intro hTne c
    have hbne : b.vtx ≠ [] := by
      intro hb
      rw [hb] at hpre
      exact hTne (List.prefix_nil.mp hpre)
    have hval : c.ValidateBlock sha b = true := by
      unfold BlockChain.ValidateBlock
      have hemp : b.vtx.isEmpty = false := by
        cases hv : b.vtx with
        | nil => exact absurd hv hbne
        | cons _ _ => rfl
      have hcond : ¬ ((b.header.GetHash sha).data.getD 0 0 ≠ 0 ∨
          (b.header.GetHash sha).data.getD 1 0 ≠ 0) := by
        rw [hz.1, hz.2]; simp
      have hroot : ¬ b.header.merkle_root ≠ computeMerkle sha b.vtx := by
        rw [hmerk hbne]; simp
      simp only [hcond, if_false, hemp, Bool.false_eq_true, hroot]
    refine ⟨hval, ?_⟩
    rw [AddBlock_true_iff, linkMismatch_false_iff]
    unfold BlockChain.GetIndex BlockChain.GetBestHash
    constructor
    · rintro ⟨h1, _, h3⟩
      refine ⟨h1, ?_⟩
      cases hl : c.chain.getLast? with
      | none => left; exact List.getLast?_eq_none_iff.mp hl
      | some back => right; exact h3 back hl
    · rintro ⟨h1, h3⟩
      refine ⟨h1, hval, ?_⟩
      intro back hback
      rcases h3 with h3 | h3
      · rw [h3] at hback; simp at hback
      · rw [h3, hback]

set_option maxRecDepth 100000 in
theorem emitted_blocks_valid_witness :
    (sampleTemplateBlock1, some sampleTemplateBlock1) ∈
      (runWorker sha256 0 [⟨0, Miner.create sampleTemplateBlock1, Mempool.empty⟩]).emitted ∧
    (BlockChain.empty.AddBlock sha256 mainGenesis).2.ValidateBlock sha256
      sampleTemplateBlock1 = true :=
  have h : (sampleTemplateBlock1, some sampleTemplateBlock1) ∈
      (runWorker sha256 0 [⟨0, Miner.create sampleTemplateBlock1, Mempool.empty⟩]).emitted := by
    exact eval_worker_emits
  have hv := (emitted_blocks_valid sha256 0 _ _ _ h).2.2.2.2 sampleTemplateBlock1 rfl
  ⟨h, (hv.2.2 (by decide) _).1⟩

/-! ## RPC dispatch -/

/-- C27: for every method name that is not one of the names `Dispatch` tests for
(`echo`, `getblockcount`, `getbestblockhash`, `getblockchaininfo`, `getmininginfo`,
`getmempoolinfo`, `getblock`, `gettransaction`, `getaddressbalance`,
`getaddresstransactions`, `mint`, `transfer`, `getproposals`, `sendrawtransaction`)
and every parameter list, `Dispatch` returns the string "Method not found" and leaves
the chain and the mempool as they were. -/
theorem dispatch_unknown_method (sha : Bytes → uint256) (what : Bytes → Bytes)
    (srv : RpcServer) (method : Bytes) (params : List JsonValue)
    (h : method ∉ rpcMethods) :
    Dispatch sha what srv method params = some (.str (ascii "Method not found"), srv) := by
  simp only [rpcMethods, List.mem_cons, List.mem_singleton, not_or, List.mem_nil_iff,
    not_false_eq_true, and_true] at h
  obtain ⟨h1, h2, h3, h4, h5, h6, h7, h8, h9, h10, h11, h12, h13, h14⟩ := h
  unfold Dispatch
  rw [if_neg h4, if_neg h2, if_neg h3, if_neg h1, if_neg h5, if_neg h6, if_neg h7, if_neg h8,
    if_neg h10, if_neg h11, if_neg h12, if_neg h13, if_neg h9, if_neg h14]

theorem dispatch_unknown_method_witness :
    ascii "getblockhash" ∉ rpcMethods ∧
    Dispatch sha256 (fun _ => []) ⟨BlockChain.empty, Mempool.empty⟩ (ascii "getblockhash")
      [.int 0] = some (.str (ascii "Method not found"), ⟨BlockChain.empty, Mempool.empty⟩) :=
  have h : ascii "getblockhash" ∉ rpcMethods := by decide
  ⟨h, dispatch_unknown_method sha256 _ _ _ _ h⟩

/-! ## getaddresstransactions -/

theorem scanBlockTxs_length (sha : Bytes → uint256) (a : Bytes) (h : Int)
    (vtx : List Transaction) (txs : List JsonValue) (count : Int) :
    (scanBlockTxs sha a h vtx txs count).1.length =
      txs.length + (vtx.filter (isRelevant a)).length ∧
    (scanBlockTxs sha a h vtx txs count).2 = count + ((vtx.filter (isRelevant a)).length : Int) := by
  unfold scanBlockTxs
  induction vtx generalizing txs count with
  | nil => simp
  | cons t ts ih =>
    rw [List.foldl_cons]
    cases ht : isRelevant a t with
    | true =>
      simp only [if_true, List.filter_cons, ht]
      obtain ⟨h1, h2⟩ := ih (txs ++ [addressEntry sha a h t]) (count + 1)
      constructor
      · rw [h1]
        simp only [List.length_append, List.length_singleton, List.length_cons, List.length_nil]
        omega
      · rw [h2]
        simp only [List.length_cons, Nat.cast_add, Nat.cast_one]
        omega
    | false =>
      simp only [Bool.false_eq_true, if_false, List.filter_cons, ht]
      exact ih txs count

/-- C25 on the code: for every digest function, the block of 51 transactions that pay
the reserve address is accepted as the first block of a fresh chain, and
`getaddresstransactions` for the reserve address then returns a list of 51 entries:
`count < 50` is tested between blocks only, not between the transactions of a block. -/
theorem getaddresstransactions_exceeds_cap (sha : Bytes → uint256) (what : Bytes → Bytes) :
    (BlockChain.empty.AddBlock sha (sampleCrowdedBlock sha)).1 = true ∧
    ∃ txs : List JsonValue,
      Dispatch sha what ⟨(BlockChain.empty.AddBlock sha (sampleCrowdedBlock sha)).2,
          Mempool.empty⟩ (ascii "getaddresstransactions") [.str RESERVE_ADDRESS] =
        some (.arr txs, ⟨(BlockChain.empty.AddBlock sha (sampleCrowdedBlock sha)).2,
          Mempool.empty⟩) ∧
      txs.length = 51 := by
  have hacc : (BlockChain.empty.AddBlock sha (sampleCrowdedBlock sha)).1 = true := by
    rw [AddBlock_true_iff, linkMismatch_false_iff]
    refine ⟨rfl, ?_, fun back hb => by simp [BlockChain.empty] at hb⟩
    unfold BlockChain.ValidateBlock
    simp only
    by_cases hz : ((sampleCrowdedBlock sha).header.GetHash sha).data.getD 0 0 ≠ 0 ∨
        ((sampleCrowdedBlock sha).header.GetHash sha).data.getD 1 0 ≠ 0
    · rw [if_pos hz]; rfl
    · have hne : ¬ ((sampleCrowdedBlock sha).vtx.isEmpty = true) := by
        simp [sampleCrowdedBlock]
      rw [if_neg hz, if_neg hne, if_neg (fun h => h rfl)]
  refine ⟨hacc, ?_⟩
  rw [AddBlock_true sha _ _ hacc]
  have hblock : (BlockChain.empty.install sha (sampleCrowdedBlock sha)).GetBlockByHeight
      ((0 : Nat) : Int) = sampleCrowdedBlock sha :=
    install_getBlockByHeight_new sha BlockChain.empty (sampleCrowdedBlock sha)
  have hheight : ((BlockChain.empty.install sha (sampleCrowdedBlock sha)).GetHeight + 1).toNat
      = 1 := rfl
  have hrel : isRelevant RESERVE_ADDRESS sampleCoinbase = true := by decide
  have hlen := (scanBlockTxs_length sha RESERVE_ADDRESS ((0 : Nat) : Int)
    (sampleCrowdedBlock sha).vtx [] 0).1
  have hfilter : (sampleCrowdedBlock sha).vtx.filter (isRelevant RESERVE_ADDRESS) =
      List.replicate 51 sampleCoinbase := by
    show (List.replicate 51 sampleCoinbase).filter (isRelevant RESERVE_ADDRESS) = _
    rw [List.filter_eq_self]
    intro t ht
    rw [List.eq_of_mem_replicate ht]; exact hrel
  rw [hfilter, List.length_replicate] at hlen
  refine ⟨(scanBlockTxs sha RESERVE_ADDRESS ((0 : Nat) : Int) (sampleCrowdedBlock sha).vtx
    [] 0).1, ?_, by simpa using hlen⟩
  have hd : Dispatch sha what ⟨BlockChain.empty.install sha (sampleCrowdedBlock sha),
      Mempool.empty⟩ (ascii "getaddresstransactions") [.str RESERVE_ADDRESS] =
      some (rpcGetAddressTransactions sha ⟨BlockChain.empty.install sha
        (sampleCrowdedBlock sha), Mempool.empty⟩ [.str RESERVE_ADDRESS],
        ⟨BlockChain.empty.install sha (sampleCrowdedBlock sha), Mempool.empty⟩) := by
    unfold Dispatch
    rw [if_neg (by decide), if_neg (by decide), if_neg (by decide), if_neg (by decide),
      if_neg (by decide), if_neg (by decide), if_neg (by decide), if_neg (by decide),
      if_pos rfl]
  rw [hd]
  unfold rpcGetAddressTransactions
  simp only [JsonValue.is_string, JsonValue.as_string, if_true, hheight]
  rw [addressTxLoop, if_pos (by decide), hblock, addressTxLoop]
theorem scanBlockTxs_eq (sha : Bytes → uint256) (a : Bytes) (h : Int)
    (vtx : List Transaction) (txs : List JsonValue) (count : Int) :
    (scanBlockTxs sha a h vtx txs count).1 =
      txs ++ (vtx.filter (isRelevant a)).map (addressEntry sha a h) := by
  unfold scanBlockTxs
  induction vtx generalizing txs count with
  | nil => simp
  | cons t ts ih =>
    rw [List.foldl_cons]
    cases ht : isRelevant a t with
    | true =>
      simp only [if_true, List.filter_cons, ht, List.map_cons]
      rw [ih, List.append_assoc]
      rfl
    | false =>
      simp only [Bool.false_eq_true, if_false, List.filter_cons, ht]
      exact ih txs count

/-- The list of `getaddresstransactions` does follow the heights downwards: the loop
at `h = n - 1` appends entries for relevant transactions of blocks below height `n`,
those of a higher block first. -/
theorem addressTxLoop_order (sha : Bytes → uint256) (c : BlockChain) (a : Bytes) (n : Nat)
    (txs : List JsonValue) (count : Int) :
    ∃ hs : List (Nat × Transaction),
      addressTxLoop sha c a n txs count =
        txs ++ hs.map (fun p => addressEntry sha a (p.1 : Int) p.2) ∧
      List.Pairwise (fun p q : Nat × Transaction => q.1 ≤ p.1) hs ∧
      ∀ p ∈ hs, p.1 < n ∧ p.2 ∈ (c.GetBlockByHeight (p.1 : Int)).vtx ∧
        isRelevant a p.2 = true := by
  induction n generalizing txs count with
  | zero => exact ⟨[], by simp [addressTxLoop], List.Pairwise.nil, fun p hp => by simp at hp⟩
  | succ n ih =>
    rw [addressTxLoop]
    by_cases hc : count < 50
    · rw [if_pos hc]
      simp only
      obtain ⟨hs, heq, hpw, hmem⟩ := ih
        (scanBlockTxs sha a (n : Int) (c.GetBlockByHeight (n : Int)).vtx txs count).1
        (scanBlockTxs sha a (n : Int) (c.GetBlockByHeight (n : Int)).vtx txs count).2
      refine ⟨(((c.GetBlockByHeight (n : Int)).vtx.filter (isRelevant a)).map
        (fun t => (n, t))) ++ hs, ?_, ?_, ?_⟩
      · rw [heq, scanBlockTxs_eq, List.map_append, List.map_map, List.append_assoc]
        rfl
      · rw [List.pairwise_append]
        refine ⟨?_, hpw, ?_⟩
        · rw [List.pairwise_map]
          exact List.Pairwise.imp (fun _ => le_refl n) (List.pairwise_of_forall (fun _ _ => trivial))
        · intro p hp q hq
          obtain ⟨t, _, hpt⟩ := List.mem_map.mp hp
          rw [← hpt]
          exact Nat.le_of_lt (hmem q hq).1
      · intro p hp
        rcases List.mem_append.mp hp with h1 | h1
        · obtain ⟨t, ht, hpt⟩ := List.mem_map.mp h1
          rw [← hpt]
          have := List.mem_filter.mp ht
          exact ⟨Nat.lt_succ_self n, this.1, this.2⟩
        · obtain ⟨h2, h3, h4⟩ := hmem p h1
          exact ⟨Nat.lt_succ_of_lt h2, h3, h4⟩
    · rw [if_neg hc]
      exact ⟨[], by simp, List.Pairwise.nil, fun p hp => by simp at hp⟩

/-! ## getblock -/

set_option maxRecDepth 100000 in
theorem hexByte_roundtrip : ∀ b, b < 256 → toUint8 (strtol16 (hexByte b)) = b := by
  decide!

theorem hexBytes_encAll (data : Bytes) (h : ∀ b ∈ data, b < 256) :
    hexBytes (encAll hexByte data) = data := by
  induction data with
  | nil => rfl
  | cons b bs ih =>
    have hb := hexByte_roundtrip b (h b (List.mem_cons_self _ _))
    have hstep : hexBytes (encAll hexByte (b :: bs)) =
        toUint8 (strtol16 (hexByte b)) :: hexBytes (encAll hexByte bs) := rfl
    rw [hstep, hb, ih (fun x hx => h x (List.mem_cons_of_mem _ hx))]

theorem encAll_hexByte_length (data : Bytes) : (encAll hexByte data).length = 2 * data.length := by
  induction data with
  | nil => rfl
  | cons b bs ih =>
    show (hexByte b ++ encAll hexByte bs).length = _
    rw [List.length_append, ih]
    simp [hexByte]
    omega

theorem toString_length (x : uint256) : x.ToString.length = 64 := by
  unfold uint256.ToString
  rw [encAll_hexByte_length, x.width]

theorem setHex_toString (x : uint256) (h : ∀ b ∈ x.data, b < 256) :
    uint256.SetHex x.ToString = x := by
  apply uint256.ext_data
  have hl := toString_length x
  show (hexBytes (x.ToString.take 64) ++ List.replicate 32 0).take 32 = x.data
  have e1 : x.ToString.take 64 = x.ToString := List.take_of_length_le (by omega)
  rw [e1]
  unfold uint256.ToString
  rw [hexBytes_encAll x.data h, List.take_append_of_le_length (by rw [x.width]),
    List.take_of_length_le (by rw [x.width])]

/-- In a chain built by `AddBlock`, the block map gives for the hash of every chain
entry a block with the header of the entry. -/
theorem blocks_of_reachable (sha : Bytes → uint256) (c : BlockChain) (h : Reachable sha c) :
    ∀ (i : Nat) (e : BlockIndex), c.chain[i]? = some e →
      ∃ b, StdMap.find uint256.lt e.hash c.blockData = some b ∧ b.header = e.header := by
  induction h with
  | empty => intro i e he; simp [BlockChain.empty] at he
  | add c block hr ih =>
    cases hres : (c.AddBlock sha block).1 with
    | false => rw [AddBlock_false sha c block hres]; exact ih
    | true =>
      have hnew := ((AddBlock_true_iff sha c block).mp hres).1
      have hidx := indexed_of_reachable sha c hr
      rw [AddBlock_true sha c block hres, install_chain, install_blockData]
      intro i e he
      by_cases hi : i < c.chain.length
      · rw [List.getElem?_append_left hi] at he
        have hmem : e ∈ c.chain := List.mem_iff_getElem?.mpr ⟨i, he⟩
        have hne : e.hash ≠ block.header.GetHash sha := by
          intro heq
          have := hidx.1 e hmem
          rw [heq, hnew] at this
          exact Bool.false_ne_true this
        rw [StdMap.find_insert_ne uint256_lt_order _ _ _ _ hne]
        exact ih i e he
      · by_cases hie : i = c.chain.length
        · rw [hie, List.getElem?_concat_length] at he
          rw [← Option.some.inj he]
          exact ⟨block, StdMap.find_insert_self uint256_lt_order _ _ _, rfl⟩
        · rw [List.getElem?_eq_none (by simp; omega)] at he
          exact Option.noConfusion he

theorem dispatch_getblock (sha : Bytes → uint256) (what : Bytes → Bytes) (srv : RpcServer)
    (params : List JsonValue) :
    Dispatch sha what srv (ascii "getblock") params =
      (rpcGetBlock sha srv params).map (fun r => (r, srv)) := by
  unfold Dispatch
  rw [if_neg (by decide), if_neg (by decide), if_neg (by decide), if_neg (by decide),
    if_neg (by decide), if_neg (by decide), if_pos rfl]

/-- The block object of `getblock` for the chain entry `e`, the transactions `vtx` of
its block and the height `top` of the chain. -/
theorem getblock_of_entry (sha : Bytes → uint256) (c : BlockChain)
    (mp : Mempool) (h : Nat) (e : BlockIndex) (hr : Reachable sha c)
    (he : c.chain[h]? = some e) (hlen : c.chain.length < 2 ^ 31)
    (hsha : ∀ x, ∀ b ∈ (sha x).data, b < 256) :
    ∃ block, c.GetBlockByHeight (h : Int) = block ∧ block.header = e.header ∧
      c.GetBlock e.hash = block ∧
      c.GetIndex (block.header.GetHash sha) = some e ∧
      e.height = (h : Int) ∧ e.hash = e.header.GetHash sha ∧
      rpcGetBlock sha ⟨c, mp⟩ [.int h] = rpcGetBlock sha ⟨c, mp⟩ [.str e.hash.ToString] ∧
      rpcGetBlock sha ⟨c, mp⟩ [.int h] =
        if block.header.timestamp = 0 then some (.str (ascii "Block not found"))
        else
          some (objOf [("hash", .str (block.header.GetHash sha).ToString),
            ("confirmations", .int (c.GetHeight - e.height + 1)),
            ("size", .int 100),
            ("height", .int e.height),
            ("version", .int block.header.version),
            ("merkleroot", .str block.header.merkle_root.ToString),
            ("tx", .arr (block.vtx.map (fun tx => JsonValue.str (tx.GetHash sha).ToString))),
            ("time", .int block.header.timestamp),
            ("nonce", .int block.header.nonce),
            ("bits", .int block.header.bits),
            ("difficulty", .double 1.0),
            ("previousblockhash", .str block.header.prev_block.ToString)]) := by
  obtain ⟨b, hb, hbh⟩ := blocks_of_reachable sha c hr h e he
  obtain ⟨hheight, hhash⟩ := (linked_of_reachable sha c hr).1 h e he
  have hent := (entries_of_reachable sha c hr).1 h e he
  have hlt : h < c.chain.length := (List.getElem?_eq_some.mp he).1
  have hgb : c.GetBlock e.hash = b := by
    unfold BlockChain.GetBlock; rw [hb]
  have hgh : c.GetBlockByHeight (h : Int) = b := by
    rw [getBlockByHeight_eq c h e he, hgb]
  have hidx : c.GetIndex (b.header.GetHash sha) = some e := by
    rw [hbh, ← hhash]; exact hent
  have hbytes : ∀ x ∈ e.hash.data, x < 256 := by
    rw [hhash]; exact hsha _
  have hcast : asSigned 4 (((h : Int) % 2 ^ 32).toNat) = (h : Int) := by
    have h31 : (2 : Nat) ^ 31 = 2147483648 := by norm_num
    have hmod : ((h : Int) % 2 ^ 32) = (h : Int) := by
      apply Int.emod_eq_of_lt (Int.natCast_nonneg h)
      have : (h : Int) < 2147483648 := by exact_mod_cast (by omega : h < 2147483648)
      omega
    rw [hmod, Int.toNat_ofNat]
    unfold asSigned
    have : h < 2 ^ (8 * 4 - 1) := by norm_num; omega
    rw [if_pos this]
  have hint : rpcGetBlock sha ⟨c, mp⟩ [.int h] =
      if b.header.timestamp = 0 then some (.str (ascii "Block not found"))
      else
        some (objOf [("hash", .str (b.header.GetHash sha).ToString),
          ("confirmations", .int (c.GetHeight - e.height + 1)),
          ("size", .int 100),
          ("height", .int e.height),
          ("version", .int b.header.version),
          ("merkleroot", .str b.header.merkle_root.ToString),
          ("tx", .arr (b.vtx.map (fun tx => JsonValue.str (tx.GetHash sha).ToString))),
          ("time", .int b.header.timestamp),
          ("nonce", .int b.header.nonce),
          ("bits", .int b.header.bits),
          ("difficulty", .double 1.0),
          ("previousblockhash", .str b.header.prev_block.ToString)]) := by
    simp only [rpcGetBlock, hcast, hgh, hidx]
  have hstr : rpcGetBlock sha ⟨c, mp⟩ [.str e.hash.ToString] =
      rpcGetBlock sha ⟨c, mp⟩ [.int h] := by
    rw [hint]
    simp only [rpcGetBlock, toString_length, if_true, setHex_toString e.hash hbytes, hgb, hidx]
  exact ⟨b, hgh, hbh, hgb, hidx, hheight, hhash, hstr.symm, hint⟩
theorem sha256_bytes (x : Bytes) : ∀ b ∈ (sha256 x).data, b < 256 := by
  intro b hb
  simp only [sha256, SHA256.be32, List.cons_append, List.nil_append, List.mem_cons,
    List.mem_singleton, List.mem_nil_iff, or_false] at hb
  rcases hb with h | h | h | h | h | h | h | h | h | h | h | h | h | h | h | h | h | h | h
    | h | h | h | h | h | h | h | h | h | h | h | h | h <;>
  · rw [h]; exact Nat.mod_lt _ (by norm_num)

/-- C26 with the timestamp made explicit: in every chain state reached by `AddBlock`
(with a height that fits an `int`, and a digest of bytes) and for every height
`0 ≤ h ≤ GetHeight()`, with `e = chain[h]` and its block: when `e.header.timestamp` is
not 0, `getblock` with the number `h` returns the object with `hash` the hex of
`e.hash`, `height` `h`, `confirmations` `GetHeight() − h + 1`, `previousblockhash`,
`merkleroot`, `time`, `nonce`, `bits` and `version` of `e.header`, `tx` the hex hashes
of the transactions of the block in order (and `size` 100, `difficulty` 1.0), and the
same for the 64 characters of the hex of `e.hash`; when the timestamp is 0, both calls
return the string "Block not found". Chain and mempool stay as they were. -/
theorem getblock_result (sha : Bytes → uint256) (what : Bytes → Bytes) (c : BlockChain)
    (mp : Mempool) (h : Nat) (hr : Reachable sha c) (hh : (h : Int) ≤ c.GetHeight)
    (hlen : c.chain.length < 2 ^ 31) (hsha : ∀ x, ∀ b ∈ (sha x).data, b < 256) :
    ∃ (e : BlockIndex) (block : Block),
      c.chain[h]? = some e ∧ c.GetBlockByHeight (h : Int) = block ∧
      block.header = e.header ∧ e.hash.ToString.length = 64 ∧
      Dispatch sha what ⟨c, mp⟩ (ascii "getblock") [.str e.hash.ToString] =
        Dispatch sha what ⟨c, mp⟩ (ascii "getblock") [.int h] ∧
      (e.header.timestamp ≠ 0 →
        Dispatch sha what ⟨c, mp⟩ (ascii "getblock") [.int h] =
          some (objOf [("hash", .str e.hash.ToString),
            ("confirmations", .int (c.GetHeight - (h : Int) + 1)),
            ("size", .int 100),
            ("height", .int h),
            ("version", .int e.header.version),
            ("merkleroot", .str e.header.merkle_root.ToString),
            ("tx", .arr (block.vtx.map (fun tx => JsonValue.str (tx.GetHash sha).ToString))),
            ("time", .int e.header.timestamp),
            ("nonce", .int e.header.nonce),
            ("bits", .int e.header.bits),
            ("difficulty", .double 1.0),
            ("previousblockhash", .str e.header.prev_block.ToString)], ⟨c, mp⟩)) ∧
      (e.header.timestamp = 0 →
        Dispatch sha what ⟨c, mp⟩ (ascii "getblock") [.int h] =
          some (.str (ascii "Block not found"), ⟨c, mp⟩)) := by
  have hlt : h < c.chain.length := by
    unfold BlockChain.GetHeight at hh; omega
  have he : c.chain[h]? = some c.chain[h] := List.getElem?_eq_getElem hlt
  obtain ⟨b, hgh, hbh, _, _, hheight, hhash, hstr, hint⟩ :=
    getblock_of_entry sha c mp h _ hr he hlen hsha
  refine ⟨c.chain[h], b, he, hgh, hbh, toString_length _, ?_, ?_, ?_⟩
  · rw [dispatch_getblock, dispatch_getblock, hstr]
  · intro hts
    rw [dispatch_getblock, hint, hbh, if_neg hts, hheight, ← hhash]
    rfl
  · intro hts
    rw [dispatch_getblock, hint, hbh, if_pos hts]
    rfl

set_option maxRecDepth 100000 in
theorem getblock_result_witness :
    (Reachable sha256 (addBlocks sha256 BlockChain.empty [mainGenesis, sampleBlock1]) ∧
      ((1 : Nat) : Int) ≤ (addBlocks sha256 BlockChain.empty
        [mainGenesis, sampleBlock1]).GetHeight) ∧
    ∃ (e : BlockIndex) (block : Block),
      (addBlocks sha256 BlockChain.empty [mainGenesis, sampleBlock1]).chain[1]? = some e ∧
      (addBlocks sha256 BlockChain.empty [mainGenesis, sampleBlock1]).GetBlockByHeight
        ((1 : Nat) : Int) = block ∧
      block.header = e.header ∧ e.hash.ToString.length = 64 ∧
      Dispatch sha256 (fun _ => []) ⟨addBlocks sha256 BlockChain.empty
          [mainGenesis, sampleBlock1], Mempool.empty⟩ (ascii "getblock")
          [.str e.hash.ToString] =
        Dispatch sha256 (fun _ => []) ⟨addBlocks sha256 BlockChain.empty
          [mainGenesis, sampleBlock1], Mempool.empty⟩ (ascii "getblock") [.int (1 : Nat)] :=
  have h1 : Reachable sha256 (addBlocks sha256 BlockChain.empty [mainGenesis, sampleBlock1]) :=
    reachable_addBlocks sha256 _ _ Reachable.empty
  have h2 : ((1 : Nat) : Int) ≤ (addBlocks sha256 BlockChain.empty
      [mainGenesis, sampleBlock1]).GetHeight := eval_chain_height_ge
  have h3 : (addBlocks sha256 BlockChain.empty [mainGenesis, sampleBlock1]).chain.length
      < 2 ^ 31 := eval_chain_short
  have h := getblock_result sha256 (fun _ => []) _ Mempool.empty 1 h1 h2 h3 sha256_bytes
  ⟨⟨h1, h2⟩, h.elim (fun e he => he.elim (fun block hb =>
    ⟨e, block, hb.1, hb.2.1, hb.2.2.1, hb.2.2.2.1, hb.2.2.2.2.1⟩))⟩

set_option maxRecDepth 100000 in
/-- C26 as stated fails: the genesis block of `main.cpp` built with `nTime = 0` is
accepted by a fresh chain, the height is then 0, and `getblock` with the number 0
returns the string "Block not found", not a block object. -/
theorem getblock_zero_timestamp_not_found :
    Reachable sha256 (BlockChain.empty.AddBlock sha256 sampleZeroTimeGenesis).2 ∧
    (BlockChain.empty.AddBlock sha256 sampleZeroTimeGenesis).1 = true ∧
    (BlockChain.empty.AddBlock sha256 sampleZeroTimeGenesis).2.GetHeight = 0 ∧
    Dispatch sha256 (fun _ => []) ⟨(BlockChain.empty.AddBlock sha256 sampleZeroTimeGenesis).2,
        Mempool.empty⟩ (ascii "getblock") [.int 0] =
      some (.str (ascii "Block not found"),
        ⟨(BlockChain.empty.AddBlock sha256 sampleZeroTimeGenesis).2, Mempool.empty⟩) := by
  have hr : Reachable sha256 (BlockChain.empty.AddBlock sha256 sampleZeroTimeGenesis).2 :=
    Reachable.add _ _ Reachable.empty
  have he : (BlockChain.empty.AddBlock sha256 sampleZeroTimeGenesis).2.chain[0]? =
      some (BlockIndex.create sha256 sampleZeroTimeGenesis 0) := eval_zero_time_entry
  have hlen : (BlockChain.empty.AddBlock sha256 sampleZeroTimeGenesis).2.chain.length
      < 2 ^ 31 := eval_zero_time_short
  obtain ⟨b, _, hbh, _, _, _, _, _, hint⟩ :=
    getblock_of_entry sha256 _ Mempool.empty 0 _ hr he hlen sha256_bytes
  have hts : b.header.timestamp = 0 := by rw [hbh]; rfl
  refine ⟨hr, eval_zero_time_accepted, eval_zero_time_height, ?_⟩
  rw [dispatch_getblock]
  have hint0 : rpcGetBlock sha256 ⟨(BlockChain.empty.AddBlock sha256
      sampleZeroTimeGenesis).2, Mempool.empty⟩ [.int 0] =
      some (.str (ascii "Block not found")) := by
    have := hint
    rw [if_pos hts] at this
    exact this
  rw [hint0]
  rfl

/-! ## Acceptance on a non-empty chain -/

theorem validateBlock_nonempty (sha : Bytes → uint256) (c : BlockChain) (block : Block)
    (hne : c.chain ≠ []) :
    c.ValidateBlock sha block = true ↔
      ((block.header.GetHash sha).data.getD 0 0 = 0 ∧
        (block.header.GetHash sha).data.getD 1 0 = 0) ∧
      block.vtx ≠ [] ∧ block.header.merkle_root = computeMerkle sha block.vtx := by
  have hemp : c.chain.isEmpty = false := by
    cases hc : c.chain with
    | nil => exact absurd hc hne
    | cons a l => rfl
  unfold BlockChain.ValidateBlock
  simp only [hemp]
  by_cases h0 : (block.header.GetHash sha).data.getD 0 0 ≠ 0 ∨
      (block.header.GetHash sha).data.getD 1 0 ≠ 0
  · rw [if_pos h0]
    simp only [Bool.false_eq_true, if_false, false_iff]
    intro h
    rcases h0 with h0 | h0
    · exact h0 h.1.1
    · exact h0 h.1.2
  · rw [if_neg h0]
    have h00 : (block.header.GetHash sha).data.getD 0 0 = 0 ∧
        (block.header.GetHash sha).data.getD 1 0 = 0 := by
      constructor
      · by_contra hx; exact h0 (Or.inl hx)
      · by_contra hx; exact h0 (Or.inr hx)
    by_cases hv : block.vtx.isEmpty = true
    · rw [if_pos hv]
      simp only [Bool.false_eq_true, false_iff]
      intro h
      exact h.2.1 (List.isEmpty_iff.mp hv)
    · rw [if_neg hv]
      have hv2 : block.vtx ≠ [] := fun h => hv (List.isEmpty_iff.mpr h)
      by_cases hm : block.header.merkle_root = computeMerkle sha block.vtx
      · rw [if_neg (not_not.mpr hm)]
        exact ⟨fun _ => ⟨h00, hv2, hm⟩, fun _ => rfl⟩
      · rw [if_pos hm]
        simp only [Bool.false_eq_true, false_iff]
        intro h
        exact hm h.2.2

theorem getBestHash_eq (c : BlockChain) (hne : c.chain ≠ []) :
    ∃ back, c.chain.getLast? = some back ∧ c.GetBestHash = back.hash := by
  unfold BlockChain.GetBestHash
  cases hl : c.chain.getLast? with
  | none => exact absurd (List.getLast?_eq_none_iff.mp hl) hne
  | some back => exact ⟨back, rfl, rfl⟩

/-- C31: on a non-empty chain with tip hash `T = GetBestHash()`, `AddBlock(B)` returns
true if and only if the header hash of `B` is not indexed, its first two bytes are
zero, `B` has a transaction, `B.header.merkle_root` is the computed merkle and
`B.header.prev_block = T`; in particular a block with the right `prev_block` whose
header hash has a non-zero first byte is rejected, and the state is unchanged. -/
theorem addBlock_accepts_iff (sha : Bytes → uint256) (c : BlockChain) (B : Block)
    (hne : c.chain ≠ []) :
    ((c.AddBlock sha B).1 = true ↔
      c.GetIndex (B.header.GetHash sha) = none ∧
      (B.header.GetHash sha).data.getD 0 0 = 0 ∧
      (B.header.GetHash sha).data.getD 1 0 = 0 ∧
      B.vtx.length ≥ 1 ∧
      B.header.merkle_root = computeMerkle sha B.vtx ∧
      B.header.prev_block = c.GetBestHash) ∧
    (B.header.prev_block = c.GetBestHash → (B.header.GetHash sha).data.getD 0 0 ≠ 0 →
      c.AddBlock sha B = (false, c)) := by
  obtain ⟨back, hback, hbest⟩ := getBestHash_eq c hne
  have hlink : c.linkMismatch B = false ↔ B.header.prev_block = c.GetBestHash := by
    rw [linkMismatch_false_iff, hbest]
    constructor
    · intro h; exact h back hback
    · intro h b hb
      rw [hback] at hb
      rw [← Option.some.inj hb]; exact h
  have hlen : B.vtx.length ≥ 1 ↔ B.vtx ≠ [] := by
    cases B.vtx with
    | nil => simp
    | cons t ts => simp
  have hiff : (c.AddBlock sha B).1 = true ↔
      c.GetIndex (B.header.GetHash sha) = none ∧
      (B.header.GetHash sha).data.getD 0 0 = 0 ∧
      (B.header.GetHash sha).data.getD 1 0 = 0 ∧
      B.vtx.length ≥ 1 ∧
      B.header.merkle_root = computeMerkle sha B.vtx ∧
      B.header.prev_block = c.GetBestHash := by
    rw [AddBlock_true_iff, validateBlock_nonempty sha c B hne, hlink, hlen]
    unfold BlockChain.GetIndex
    tauto
  refine ⟨hiff, ?_⟩
  intro _ h0
  have hfalse : (c.AddBlock sha B).1 = false := by
    cases hres : (c.AddBlock sha B).1 with
    | false => rfl
    | true => exact absurd (hiff.mp hres).2.1 h0
  have hstate := AddBlock_false sha c B hfalse
  exact Prod.ext hfalse hstate

theorem addBlock_accepts_iff_witness :
    ((BlockChain.empty.AddBlock sha256 mainGenesis).2.chain ≠ []) ∧
    ((((BlockChain.empty.AddBlock sha256 mainGenesis).2.AddBlock sha256 sampleBlock1).1 = true ↔
      (BlockChain.empty.AddBlock sha256 mainGenesis).2.GetIndex
        (sampleBlock1.header.GetHash sha256) = none ∧
      (sampleBlock1.header.GetHash sha256).data.getD 0 0 = 0 ∧
      (sampleBlock1.header.GetHash sha256).data.getD 1 0 = 0 ∧
      sampleBlock1.vtx.length ≥ 1 ∧
      sampleBlock1.header.merkle_root = computeMerkle sha256 sampleBlock1.vtx ∧
      sampleBlock1.header.prev_block =
        (BlockChain.empty.AddBlock sha256 mainGenesis).2.GetBestHash)) :=
  have hne : (BlockChain.empty.AddBlock sha256 mainGenesis).2.chain ≠ [] := by
    intro h
    have ht := eval_genesis_tip
    rw [h] at ht
    exact Option.noConfusion ht
  ⟨hne, (addBlock_accepts_iff sha256 _ sampleBlock1 hne).1⟩

/-! ## The verdict depends on the tip only -/

/-- C33: for two chain states that are both empty, or both non-empty with the same tip
hash, `ValidateBlock(B)` gives the same verdict and the `prev_block` link check of
`AddBlock` gives the same verdict, whatever the rest of the chain, the maps, the UTXO
set and the log are (the mempool is no part of the chain state). -/
theorem verdict_depends_on_tip (sha : Bytes → uint256) (c1 c2 : BlockChain) (B : Block)
    (h : (c1.chain = [] ∧ c2.chain = []) ∨
      (c1.chain ≠ [] ∧ c2.chain ≠ [] ∧ c1.GetBestHash = c2.GetBestHash)) :
    c1.ValidateBlock sha B = c2.ValidateBlock sha B ∧
    c1.linkMismatch B = c2.linkMismatch B ∧
    (c1.ValidateBlock sha B && !c1.linkMismatch B) =
      (c2.ValidateBlock sha B && !c2.linkMismatch B) := by
  have key : c1.ValidateBlock sha B = c2.ValidateBlock sha B ∧
      c1.linkMismatch B = c2.linkMismatch B := by
    rcases h with ⟨h1, h2⟩ | ⟨h1, h2, hb⟩
    · unfold BlockChain.ValidateBlock BlockChain.linkMismatch
      rw [h1, h2]
      exact ⟨rfl, rfl⟩
    · obtain ⟨b1, hl1, hb1⟩ := getBestHash_eq c1 h1
      obtain ⟨b2, hl2, hb2⟩ := getBestHash_eq c2 h2
      have hemp1 : c1.chain.isEmpty = false := by
        cases hc : c1.chain with
        | nil => exact absurd hc h1
        | cons a l => rfl
      have hemp2 : c2.chain.isEmpty = false := by
        cases hc : c2.chain with
        | nil => exact absurd hc h2
        | cons a l => rfl
      constructor
      · unfold BlockChain.ValidateBlock
        simp only [hemp1, hemp2]
      · unfold BlockChain.linkMismatch
        rw [hl1, hl2]
        have : b1.hash = b2.hash := by rw [← hb1, ← hb2, hb]
        simp only [this]
  exact ⟨key.1, key.2, by rw [key.1, key.2]⟩

theorem verdict_depends_on_tip_witness :
    ((BlockChain.empty.AddBlock sha256 mainGenesis).2.chain ≠ [] ∧
      ({ (BlockChain.empty.AddBlock sha256 mainGenesis).2 with
          blockIndexMap := [], blockData := [], utxoSet := [], disk := [] } :
        BlockChain).chain ≠ []) ∧
    ((BlockChain.empty.AddBlock sha256 mainGenesis).2.ValidateBlock sha256 sampleBlock1 =
      ({ (BlockChain.empty.AddBlock sha256 mainGenesis).2 with
          blockIndexMap := [], blockData := [], utxoSet := [], disk := [] } :
        BlockChain).ValidateBlock sha256 sampleBlock1) :=
  have hne : (BlockChain.empty.AddBlock sha256 mainGenesis).2.chain ≠ [] := by
    intro h
    have ht := eval_genesis_tip
    rw [h] at ht
    exact Option.noConfusion ht
  have hsame : ∀ c : BlockChain, c.chain ≠ [] →
      c.chain ≠ [] ∧
      ({ c with
          blockIndexMap := [], blockData := [], utxoSet := [], disk := [] } :
        BlockChain).chain ≠ [] ∧
      c.GetBestHash = ({ c with
          blockIndexMap := [], blockData := [], utxoSet := [], disk := [] } :
        BlockChain).GetBestHash := fun _ h => ⟨h, h, rfl⟩
  ⟨⟨hne, (hsame _ hne).2.1⟩,
    (verdict_depends_on_tip sha256 _ _ sampleBlock1 (Or.inr (hsame _ hne))).1⟩

/-! ## The key sets of the two maps -/

/-- In a chain built by `AddBlock`, every key of the index map is the hash of a chain
entry and a key of the block map, and the block stored under a key has that header
hash. -/
theorem maps_of_reachable (sha : Bytes → uint256) (c : BlockChain) (h : Reachable sha c) :
    (∀ k, (StdMap.find uint256.lt k c.blockIndexMap).isSome = true →
      (∃ e ∈ c.chain, e.hash = k) ∧ (StdMap.find uint256.lt k c.blockData).isSome = true) ∧
    (∀ k b, StdMap.find uint256.lt k c.blockData = some b → b.header.GetHash sha = k) := by
  have ord := uint256_lt_order
  induction h with
  | empty =>
    exact ⟨fun k hk => by simp [BlockChain.empty, StdMap.find] at hk,
      fun k b hk => by simp [BlockChain.empty, StdMap.find] at hk⟩
  | add c block hr ih =>
    cases hres : (c.AddBlock sha block).1 with
    | false => rw [AddBlock_false sha c block hres]; exact ih
    | true =>
      rw [AddBlock_true sha c block hres, install_chain, install_blockIndexMap,
        install_blockData]
      constructor
      · intro k hk
        by_cases hkey : k = block.header.GetHash sha
        · rw [hkey, StdMap.find_insert_self ord]
          refine ⟨⟨BlockIndex.create sha block c.chain.length, ?_, rfl⟩, rfl⟩
          rw [List.mem_append, List.mem_singleton]
          exact Or.inr rfl
        · rw [StdMap.find_insert_ne ord _ _ _ _ hkey] at hk ⊢
          obtain ⟨⟨e, he, hek⟩, hb⟩ := ih.1 k hk
          exact ⟨⟨e, List.mem_append_left _ he, hek⟩, hb⟩
      · intro k b hk
        by_cases hkey : k = block.header.GetHash sha
        · rw [hkey, StdMap.find_insert_self ord] at hk
          rw [← Option.some.inj hk, hkey]
        · rw [StdMap.find_insert_ne ord _ _ _ _ hkey] at hk
          exact ih.2 k b hk

/-- C37: in every chain state reachable from the empty chain by `AddBlock` calls, the
index map and the block map have the same keys, the keys are the hashes of the chain
entries, and the block stored under a key `h` has header hash `h`; hence `GetIndex`
of the header hash is non-null for every block that `GetBlock` finds and for the
block of every height of the chain, and for every block that the RPC `getblock`
takes as found (non-zero timestamp) from `GetBlock` or `GetBlockByHeight`. -/
theorem maps_share_keys (sha : Bytes → uint256) (c : BlockChain) (hr : Reachable sha c) :
    (∀ h, (StdMap.find uint256.lt h c.blockIndexMap).isSome =
      (StdMap.find uint256.lt h c.blockData).isSome) ∧
    (∀ h, (StdMap.find uint256.lt h c.blockIndexMap).isSome = true ↔
      ∃ e ∈ c.chain, e.hash = h) ∧
    (∀ h b, StdMap.find uint256.lt h c.blockData = some b → b.header.GetHash sha = h) ∧
    (∀ h b, StdMap.find uint256.lt h c.blockData = some b →
      c.GetBlock h = b ∧ (c.GetIndex (b.header.GetHash sha)).isSome = true) ∧
    (∀ i : Nat, i < c.chain.length →
      (c.GetIndex ((c.GetBlockByHeight (i : Int)).header.GetHash sha)).isSome = true) ∧
    (∀ h, (c.GetBlock h).header.timestamp ≠ 0 →
      (c.GetIndex ((c.GetBlock h).header.GetHash sha)).isSome = true) ∧
    (∀ height : Int, (c.GetBlockByHeight height).header.timestamp ≠ 0 →
      (c.GetIndex ((c.GetBlockByHeight height).header.GetHash sha)).isSome = true) := by
  have hidx := indexed_of_reachable sha c hr
  obtain ⟨hkeys, hstored⟩ := maps_of_reachable sha c hr
  have hfound : ∀ h b, StdMap.find uint256.lt h c.blockData = some b →
      c.GetBlock h = b ∧ (c.GetIndex (b.header.GetHash sha)).isSome = true := by
    intro h b hb
    constructor
    · unfold BlockChain.GetBlock; rw [hb]
    · unfold BlockChain.GetIndex
      rw [hstored h b hb]
      exact hidx.2 h (by rw [hb]; rfl)
  have hget : ∀ h, (c.GetBlock h).header.timestamp ≠ 0 →
      (c.GetIndex ((c.GetBlock h).header.GetHash sha)).isSome = true := by
    intro h ht
    cases hb : StdMap.find uint256.lt h c.blockData with
    | none =>
      exfalso; apply ht
      unfold BlockChain.GetBlock; rw [hb]; rfl
    | some b => rw [(hfound h b hb).1]; exact (hfound h b hb).2
  refine ⟨?_, ?_, hstored, hfound, ?_, hget, ?_⟩
  · intro h
    cases hi : (StdMap.find uint256.lt h c.blockIndexMap).isSome with
    | true => exact ((hkeys h hi).2).symm
    | false =>
      cases hb : (StdMap.find uint256.lt h c.blockData).isSome with
      | false => rfl
      | true => rw [hidx.2 h hb] at hi; exact hi.symm
  · intro h
    constructor
    · intro hi; exact (hkeys h hi).1
    · rintro ⟨e, he, hek⟩
      rw [← hek]; exact hidx.1 e he
  · intro i hi
    have he : c.chain[i]? = some c.chain[i] := List.getElem?_eq_getElem hi
    obtain ⟨b, hb, _⟩ := blocks_of_reachable sha c hr i _ he
    rw [getBlockByHeight_eq c i _ he, (hfound _ b hb).1]
    exact (hfound _ b hb).2
  · intro height ht
    by_cases hrange : height < 0 ∨ height ≥ (c.chain.length : Int)
    · exfalso; apply ht
      unfold BlockChain.GetBlockByHeight; rw [if_pos hrange]; rfl
    · have hlt : height.toNat < c.chain.length := by omega
      have he : c.chain[height.toNat]? = some c.chain[height.toNat] :=
        List.getElem?_eq_getElem hlt
      have hh : ((height.toNat : Nat) : Int) = height := by omega
      have e1 := getBlockByHeight_eq c height.toNat _ he
      rw [hh] at e1
      rw [e1] at ht ⊢
      exact hget _ ht

theorem maps_share_keys_witness :
    Reachable sha256 (addBlocks sha256 BlockChain.empty [mainGenesis, sampleBlock1]) ∧
    ((StdMap.find uint256.lt (sampleBlock1.header.GetHash sha256)
        (addBlocks sha256 BlockChain.empty [mainGenesis, sampleBlock1]).blockIndexMap).isSome =
      (StdMap.find uint256.lt (sampleBlock1.header.GetHash sha256)
        (addBlocks sha256 BlockChain.empty [mainGenesis, sampleBlock1]).blockData).isSome) :=
  ⟨reachable_addBlocks sha256 _ _ Reachable.empty,
    (maps_share_keys sha256 _ (reachable_addBlocks sha256 _ _ Reachable.empty)).1 _⟩

/-! ## Hex conversions -/

theorem hexDigit_lower (n : Nat) (h : n < 16) :
    ((48 ≤ hexDigit n ∧ hexDigit n ≤ 57) ∨ (97 ≤ hexDigit n ∧ hexDigit n ≤ 102)) ∧
    hexVal (hexDigit n) = some n := by
  unfold hexDigit
  by_cases h10 : n < 10
  · rw [if_pos h10]
    refine ⟨Or.inl ⟨by omega, by omega⟩, ?_⟩
    unfold hexVal
    rw [if_pos ⟨by omega, by omega⟩]
    congr 1; omega
  · rw [if_neg h10]
    refine ⟨Or.inr ⟨by omega, by omega⟩, ?_⟩
    unfold hexVal
    rw [if_neg (by omega), if_pos ⟨by omega, by omega⟩]
    congr 1; omega

theorem encAll_hexByte_mem (data : Bytes) (h : ∀ b ∈ data, b < 256) :
    ∀ c ∈ encAll hexByte data, (48 ≤ c ∧ c ≤ 57) ∨ (97 ≤ c ∧ c ≤ 102) := by
  induction data with
  | nil => intro c hc; exact absurd hc (List.not_mem_nil c)
  | cons b bs ih =>
    intro c hc
    have hb : b < 256 := h b (List.mem_cons_self _ _)
    have hc2 : c ∈ hexByte b ++ encAll hexByte bs := hc
    rw [List.mem_append] at hc2
    rcases hc2 with hc2 | hc2
    · unfold hexByte at hc2
      rw [List.mem_cons, List.mem_singleton] at hc2
      rcases hc2 with hc2 | hc2
      · rw [hc2]; exact (hexDigit_lower _ (by omega)).1
      · rw [hc2]; exact (hexDigit_lower _ (Nat.mod_lt _ (by decide))).1
    · exact ih (fun x hx => h x (List.mem_cons_of_mem _ hx)) c hc2

theorem encAll_hexByte_pair (data : Bytes) (i : Nat) (b : Nat) (hb : data[i]? = some b) :
    ((encAll hexByte data).drop (2 * i)).take 2 = hexByte b := by
  induction data generalizing i with
  | nil => simp at hb
  | cons x xs ih =>
    cases i with
    | zero =>
      simp only [List.getElem?_cons_zero, Option.some.injEq] at hb
      rw [← hb]
      rfl
    | succ j =>
      rw [List.getElem?_cons_succ] at hb
      have e : 2 * (j + 1) = 2 * j + 2 := by ring
      rw [e]
      show ((hexDigit (x / 16) :: hexDigit (x % 16) :: encAll hexByte xs).drop
        (2 * j + 2)).take 2 = hexByte b
      rw [List.drop_succ_cons, List.drop_succ_cons]
      exact ih j hb

/-- C40: for every 32-byte hash `h`, `ToString(h)` is 64 characters, every one a decimal
digit or a lower-case letter `a`-`f`, the characters at `2i` and `2i+1` are the high and
the low digit of byte `i`, and `SetHex(ToString(h))` is `h`; for every byte vector `b`,
`Encode(b)` has length `2·|b|` and `Decode(Encode(b))` is `b`. -/
theorem hex_roundtrip :
    (∀ h : uint256, (∀ b ∈ h.data, b < 256) →
      h.ToString.length = 64 ∧
      (∀ c ∈ h.ToString, (48 ≤ c ∧ c ≤ 57) ∨ (97 ≤ c ∧ c ≤ 102)) ∧
      (∀ (i : Nat) (b : Nat), h.data[i]? = some b →
        (h.ToString.drop (2 * i)).take 2 = [hexDigit (b / 16), hexDigit (b % 16)] ∧
        hexVal (hexDigit (b / 16)) = some (b / 16) ∧
        hexVal (hexDigit (b % 16)) = some (b % 16)) ∧
      uint256.SetHex h.ToString = h) ∧
    (∀ b : Bytes, (∀ x ∈ b, x < 256) →
      (HexUtil.Encode b).length = 2 * b.length ∧
      HexUtil.Decode (HexUtil.Encode b) = b) := by
  constructor
  · intro h hh
    refine ⟨toString_length h, encAll_hexByte_mem h.data hh, ?_, setHex_toString h hh⟩
    intro i b hb
    have hlt : b < 256 := hh b (List.mem_iff_getElem?.mpr ⟨i, hb⟩)
    exact ⟨encAll_hexByte_pair h.data i b hb, (hexDigit_lower _ (by omega)).2,
      (hexDigit_lower _ (Nat.mod_lt _ (by decide))).2⟩
  · intro b hb
    exact ⟨encAll_hexByte_length b, hexBytes_encAll b hb⟩

/-! ## LoadChain from any state -/

theorem isGenesisReplay_iff (sha : Bytes → uint256) (c : BlockChain) (b : Block) :
    c.isGenesisReplay sha b = true ↔
      c.chain ≠ [] ∧ ∃ first, c.chain[0]? = some first ∧ b.header.GetHash sha = first.hash := by
  unfold BlockChain.isGenesisReplay
  cases hc : c.chain with
  | nil => simp
  | cons a l => simp

/-- `LoadChain` from any state whose log holds the serializations of well-formed
blocks processes exactly these blocks. -/
theorem loadChain_from (sha : Bytes → uint256) (S : BlockChain) (bs : List Block)
    (hwf : ∀ b ∈ bs, b.wf) (hlog : S.disk = logOf bs) :
    S.LoadChain sha = loadBlocks sha S bs := by
  unfold BlockChain.LoadChain
  rw [hlog]
  by_cases hempty : (logOf bs).isEmpty = true
  · rw [if_pos hempty]
    have hnil : logOf bs = [] := List.isEmpty_iff.mp hempty
    have hbs : bs = [] := by
      have h1 := logOf_length_ge bs
      rw [hnil] at h1
      exact List.eq_nil_of_length_eq_zero (by simpa using h1)
    rw [hbs]; rfl
  · rw [if_neg hempty]
    have hge := logOf_length_ge bs
    rw [loadLoop_blocks sha bs hwf (logOf bs) [] 0 _ _ (by simp) (by omega), Nat.zero_add]
    apply loadLoop_end
    simp

/-- C32: for every initial state `S` whose log is the concatenation of the
serializations of the blocks `bs`, `LoadChain` gives the state of processing `bs` in
order (`loadBlocks`): a block is skipped, the state unchanged, exactly when the chain
is non-empty and the header hash of the block is `chain[0].hash`; every other block is
installed whatever its hash, merkle root and `prev_block` are and whether or not it is
indexed: an entry of height `chain.size()` is appended, the entry and the block are
put into the two maps under the header hash, and the transactions are applied to the
UTXO set. In particular, over the log of `G :: rest`, loading into a chain that holds
`G` gives the state that loading into an empty chain gives. -/
theorem loadChain_processes_log (sha : Bytes → uint256) (S : BlockChain) (bs : List Block)
    (hwf : ∀ b ∈ bs, b.wf) (hlog : S.disk = logOf bs) :
    S.LoadChain sha = loadBlocks sha S bs ∧
    loadBlocks sha S [] = S ∧
    (∀ (c : BlockChain) (b : Block) (rest : List Block),
      (c.chain ≠ [] ∧ ∃ first, c.chain[0]? = some first ∧ b.header.GetHash sha = first.hash) →
      loadBlocks sha c (b :: rest) = loadBlocks sha c rest) ∧
    (∀ (c : BlockChain) (b : Block) (rest : List Block),
      ¬ (c.chain ≠ [] ∧ ∃ first, c.chain[0]? = some first ∧
        b.header.GetHash sha = first.hash) →
      loadBlocks sha c (b :: rest) =
        loadBlocks sha
          { chain := c.chain ++ [⟨b.header.GetHash sha, b.header, (c.chain.length : Int)⟩]
            blockIndexMap := StdMap.insert uint256.lt (b.header.GetHash sha)
              ⟨b.header.GetHash sha, b.header, (c.chain.length : Int)⟩ c.blockIndexMap
            blockData := StdMap.insert uint256.lt (b.header.GetHash sha) b c.blockData
            utxoSet := updateUTXO sha c.utxoSet b.vtx
            disk := c.disk } rest) ∧
    (∀ (G : Block) (rest : List Block), (∀ b ∈ G :: rest, b.wf) →
      BlockChain.LoadChain sha
          { BlockChain.empty.restore sha G with disk := logOf (G :: rest) } =
        (BlockChain.fresh (logOf (G :: rest))).LoadChain sha) := by
  refine ⟨loadChain_from sha S bs hwf hlog, rfl, ?_, ?_, ?_⟩
  · intro c b rest h
    rw [loadBlocks_cons, if_pos ((isGenesisReplay_iff sha c b).mpr h)]
  · intro c b rest h
    rw [loadBlocks_cons, if_neg (fun hx => h ((isGenesisReplay_iff sha c b).mp hx))]
    rfl
  · intro G rest hw
    rw [loadChain_from sha _ (G :: rest) hw rfl, loadChain_from sha _ (G :: rest) hw rfl,
      loadBlocks_cons, loadBlocks_cons]
    have h1 : BlockChain.isGenesisReplay sha
        { BlockChain.empty.restore sha G with disk := logOf (G :: rest) } G = true := by
      rw [isGenesisReplay_iff]
      exact ⟨by simp [BlockChain.restore, BlockChain.empty],
        ⟨BlockIndex.create sha G 0, by simp [BlockChain.restore, BlockChain.empty], rfl⟩⟩
    have h2 : (BlockChain.fresh (logOf (G :: rest))).isGenesisReplay sha G = false := rfl
    rw [if_pos h1, h2]
    rfl

theorem loadChain_processes_log_witness :
    (∀ b ∈ [mainGenesis, sampleBlock1], b.wf) ∧
    ({ BlockChain.empty.restore sha256 mainGenesis with
        disk := logOf [mainGenesis, sampleBlock1] } : BlockChain).disk =
      logOf [mainGenesis, sampleBlock1] ∧
    BlockChain.LoadChain sha256
        { BlockChain.empty.restore sha256 mainGenesis with
          disk := logOf [mainGenesis, sampleBlock1] } =
      loadBlocks sha256
        { BlockChain.empty.restore sha256 mainGenesis with
          disk := logOf [mainGenesis, sampleBlock1] } [mainGenesis, sampleBlock1] :=
  have hd : ∀ (c : BlockChain) (l : Bytes), ({ c with disk := l } : BlockChain).disk = l :=
    fun _ _ => rfl
  ⟨eval_blocks_wf, hd _ _,
    (loadChain_processes_log sha256 _ [mainGenesis, sampleBlock1] eval_blocks_wf
      (hd _ _)).1⟩

/-! ## mint -/

theorem dispatch_mint (sha : Bytes → uint256) (what : Bytes → Bytes) (srv : RpcServer)
    (params : List JsonValue) :
    Dispatch sha what srv (ascii "mint") params = rpcMint sha srv params := by
  unfold Dispatch
  rw [if_neg (by decide), if_neg (by decide), if_neg (by decide), if_neg (by decide),
    if_neg (by decide), if_neg (by decide), if_neg (by decide), if_neg (by decide),
    if_neg (by decide), if_pos rfl]

theorem toString_ne_of_length (s : Bytes) (h : s.length ≠ 64) (x : uint256) :
    s ≠ x.ToString := by
  intro e
  rw [e, toString_length] at h
  exact h rfl

/-- C34: the RPC `mint` with the parameters `[a, m]` builds the transaction of version
1 with the one input (zero `prevout_hash`, `prevout_n` 0, `scriptSig` the four bytes
`MINT`, `sequence` 0xFFFFFFFF), the one output (value `m`, `scriptPubKey` the bytes of
`a`) and `lockTime` 0. For `m > 0` and a hash that is not in the mempool the
transaction is admitted under its hash and the result is the hash in hex; for `m > 0`
and a hash in the mempool, and for every `m ≤ 0`, the mempool is unchanged and the
result is the error string, which is the hex string of no hash. -/
theorem mint_result (sha : Bytes → uint256) (what : Bytes → Bytes) (srv : RpcServer)
    (a : Bytes) (m : Int) :
    (0 < m →
      StdMap.find uint256.lt
        (Transaction.GetHash sha ⟨1, [⟨uint256.zero, 0, [77, 73, 78, 84], 0xFFFFFFFF⟩],
          [⟨m, a⟩], 0⟩) srv.mempool.pool = none →
      Dispatch sha what srv (ascii "mint") [.str a, .int m] =
        some (.str (Transaction.GetHash sha
            ⟨1, [⟨uint256.zero, 0, [77, 73, 78, 84], 0xFFFFFFFF⟩], [⟨m, a⟩], 0⟩).ToString,
          { srv with mempool :=
            { pool := StdMap.insert uint256.lt
                (Transaction.GetHash sha
                  ⟨1, [⟨uint256.zero, 0, [77, 73, 78, 84], 0xFFFFFFFF⟩], [⟨m, a⟩], 0⟩)
                ⟨1, [⟨uint256.zero, 0, [77, 73, 78, 84], 0xFFFFFFFF⟩], [⟨m, a⟩], 0⟩
                srv.mempool.pool } })) ∧
    (0 < m →
      StdMap.find uint256.lt
        (Transaction.GetHash sha ⟨1, [⟨uint256.zero, 0, [77, 73, 78, 84], 0xFFFFFFFF⟩],
          [⟨m, a⟩], 0⟩) srv.mempool.pool ≠ none →
      Dispatch sha what srv (ascii "mint") [.str a, .int m] =
        some (.str (ascii "Error: Failed to add mint transaction to mempool"), srv)) ∧
    (m ≤ 0 →
      Dispatch sha what srv (ascii "mint") [.str a, .int m] =
        some (.str (ascii "Error: Failed to add mint transaction to mempool"), srv)) ∧
    (∀ h : uint256, ascii "Error: Failed to add mint transaction to mempool" ≠ h.ToString) := by
  have hrun : Dispatch sha what srv (ascii "mint") [.str a, .int m] =
      (if (srv.mempool.AddTransaction sha
          ⟨1, [⟨uint256.zero, 0, [77, 73, 78, 84], 0xFFFFFFFF⟩], [⟨m, a⟩], 0⟩).1 = true then
        some (.str (Transaction.GetHash sha
            ⟨1, [⟨uint256.zero, 0, [77, 73, 78, 84], 0xFFFFFFFF⟩], [⟨m, a⟩], 0⟩).ToString,
          { srv with mempool := (srv.mempool.AddTransaction sha
            ⟨1, [⟨uint256.zero, 0, [77, 73, 78, 84], 0xFFFFFFFF⟩], [⟨m, a⟩], 0⟩).2 })
      else some (.str (ascii "Error: Failed to add mint transaction to mempool"),
          { srv with mempool := (srv.mempool.AddTransaction sha
            ⟨1, [⟨uint256.zero, 0, [77, 73, 78, 84], 0xFFFFFFFF⟩], [⟨m, a⟩], 0⟩).2 })) := by
    rw [dispatch_mint]; rfl
  have hvalid : Mempool.ValidateTransaction
      ⟨1, [⟨uint256.zero, 0, [77, 73, 78, 84], 0xFFFFFFFF⟩], [⟨m, a⟩], 0⟩ = true ↔ 0 < m := by
    rw [validateTransaction_iff]
    constructor
    · intro h; exact h.2.1 ⟨m, a⟩ (List.mem_singleton.mpr rfl)
    · intro h
      refine ⟨by simp, ?_, ?_⟩
      · intro o ho
        rw [List.mem_singleton.mp ho]; exact h
      · rintro ⟨i, hi, _, hs⟩
        apply hs
        rw [← (List.cons.inj hi).1]
        rfl
  have hrej : (srv.mempool.AddTransaction sha
      ⟨1, [⟨uint256.zero, 0, [77, 73, 78, 84], 0xFFFFFFFF⟩], [⟨m, a⟩], 0⟩).1 = false →
      Dispatch sha what srv (ascii "mint") [.str a, .int m] =
        some (.str (ascii "Error: Failed to add mint transaction to mempool"), srv) := by
    intro hf
    rw [hrun, if_neg (by rw [hf]; exact Bool.false_ne_true), addTransaction_false sha _ _ hf]
  refine ⟨?_, ?_, ?_, ?_⟩
  · intro hm hnew
    have ht := (addTransaction_true_iff sha srv.mempool _).mpr ⟨hnew, hvalid.mpr hm⟩
    rw [hrun, if_pos ht, addTransaction_true sha _ _ ht]
  · intro _ hold
    apply hrej
    cases hres : (srv.mempool.AddTransaction sha
      ⟨1, [⟨uint256.zero, 0, [77, 73, 78, 84], 0xFFFFFFFF⟩], [⟨m, a⟩], 0⟩).1 with
    | false => rfl
    | true => exact absurd ((addTransaction_true_iff sha _ _).mp hres).1 hold
  · intro hm
    apply hrej
    cases hres : (srv.mempool.AddTransaction sha
      ⟨1, [⟨uint256.zero, 0, [77, 73, 78, 84], 0xFFFFFFFF⟩], [⟨m, a⟩], 0⟩).1 with
    | false => rfl
    | true =>
      have := hvalid.mp ((addTransaction_true_iff sha _ _).mp hres).2
      omega
  · exact toString_ne_of_length _ (by decide)

/-! ## The nonces a worker tries -/

theorem advance_worker (sha : Bytes → uint256) (w : Worker) :
    (advance sha w).1.nonceCounter = w.nonceCounter + 1 ∧
    (advance sha w).1.workBlock.header.nonce = (w.workBlock.header.nonce + 1) % 2 ^ 32 ∧
    ({ (advance sha w).1.workBlock.header with nonce := 0 } : BlockHeader) =
      { w.workBlock.header with nonce := 0 } :=
  ⟨rfl, rfl, rfl⟩

theorem step_worker (sha : Bytes → uint256) (k : Int) (t : Trace) (p : Pass) :
    (t.step sha k p).worker = (advance sha (prepare sha k p.seen p.miner p.mempool t.worker)).1 ∧
    (t.step sha k p).template =
      if refreshes p.seen t.worker then some p.miner.targetBlock else t.template :=
  ⟨rfl, rfl⟩

/-- The locals at the hashing point of a pass, given what held after the passes
before: the counter is in `[0, 100000)`, the nonce is that of the template of the last
refresh plus the counter, and the header is otherwise that of the refresh. -/
theorem prepare_window (sha : Bytes → uint256) (k : Int) (p : Pass) (t : Trace)
    (hp : p.miner.targetBlock.header.nonce < 2 ^ 32)
    (h0 : 0 ≤ t.worker.nonceCounter)
    (hn : ∀ T, t.template = some T →
      (t.worker.workBlock.header.nonce : Int) =
        ((T.header.nonce : Int) + t.worker.nonceCounter) % 2 ^ 32) :
    (0 ≤ (prepare sha k p.seen p.miner p.mempool t.worker).nonceCounter ∧
      (prepare sha k p.seen p.miner p.mempool t.worker).nonceCounter < 100000) ∧
    (∀ T, (t.step sha k p).template = some T →
      ((prepare sha k p.seen p.miner p.mempool t.worker).workBlock.header.nonce : Int) =
        ((T.header.nonce : Int) +
          (prepare sha k p.seen p.miner p.mempool t.worker).nonceCounter) % 2 ^ 32) := by
  rw [(step_worker sha k t p).2]
  by_cases hr : refreshes p.seen t.worker = true
  · have hprep : prepare sha k p.seen p.miner p.mempool t.worker =
        refresh sha k p.miner p.mempool := by
      unfold prepare; rw [if_pos hr]
    rw [hprep, if_pos hr]
    have hnc : (refresh sha k p.miner p.mempool).nonceCounter = 0 := rfl
    have hno : (refresh sha k p.miner p.mempool).workBlock.header.nonce =
        p.miner.targetBlock.header.nonce := by rw [refresh_workBlock]
    rw [hnc, hno]
    refine ⟨⟨le_refl _, by norm_num⟩, ?_⟩
    intro T hT
    rw [← Option.some.inj hT, add_zero]
    have h1 : ((p.miner.targetBlock.header.nonce : Nat) : Int) < 2 ^ 32 := by exact_mod_cast hp
    rw [Int.emod_eq_of_lt (Int.ofNat_nonneg _) h1]
  · have hprep : prepare sha k p.seen p.miner p.mempool t.worker = t.worker := by
      unfold prepare; rw [if_neg hr]
    rw [hprep, if_neg hr]
    have hlt : t.worker.nonceCounter < 100000 := by
      unfold refreshes at hr
      simp only [decide_eq_true_eq, not_or, not_le] at hr
      omega
    exact ⟨⟨h0, hlt⟩, hn⟩

/-- What every pass keeps for the nonce: the counter is in `[0, 100000]` and the nonce
of the work block is the nonce of the template of the last refresh plus the counter,
modulo `2^32`. -/
theorem runWorker_nonce (sha : Bytes → uint256) (k : Int) (ps : List Pass)
    (hwf : ∀ q ∈ ps, q.miner.targetBlock.header.nonce < 2 ^ 32) :
    (0 ≤ (runWorker sha k ps).worker.nonceCounter ∧
      (runWorker sha k ps).worker.nonceCounter ≤ 100000) ∧
    (∀ T, (runWorker sha k ps).template = some T →
      ((runWorker sha k ps).worker.workBlock.header.nonce : Int) =
        ((T.header.nonce : Int) + (runWorker sha k ps).worker.nonceCounter) % 2 ^ 32) := by
  induction ps using List.reverseRecOn with
  | nil =>
    refine ⟨⟨le_refl _, ?_⟩, ?_⟩
    · show (0 : Int) ≤ 100000
      norm_num
    · intro T hT
      exact Option.noConfusion hT
  | append_singleton ps p ih =>
    obtain ⟨⟨h0, _⟩, hn⟩ := ih (fun q hq => hwf q (List.mem_append_left _ hq))
    have hp := hwf p (List.mem_append_right _ (List.mem_singleton.mpr rfl))
    obtain ⟨⟨g0, g1⟩, gn⟩ := prepare_window sha k p (runWorker sha k ps) hp h0 hn
    rw [runWorker_append, (step_worker sha k _ p).1]
    obtain ⟨a1, a2, _⟩ :=
      advance_worker sha (prepare sha k p.seen p.miner p.mempool (runWorker sha k ps).worker)
    rw [a1, a2]
    refine ⟨⟨by omega, by omega⟩, ?_⟩
    intro T hT
    have := gn T hT
    have e : (2 : Int) ^ 32 = 4294967296 := by norm_num
    push_cast
    rw [this, e]
    omega

/-- With one template `T` and one mempool in every pass, the header of the work block
is, up to the nonce, the header that a refresh gives, once there was a refresh. -/
theorem runWorker_fixed (sha : Bytes → uint256) (k : Int) (ps : List Pass) (T : Block)
    (mp : Mempool) (hfix : ∀ q ∈ ps, q.miner.targetBlock = T ∧ q.mempool = mp) :
    (∀ T0, (runWorker sha k ps).template = some T0 → T0 = T) ∧
    ((runWorker sha k ps).template ≠ none →
      ({ (runWorker sha k ps).worker.workBlock.header with nonce := 0 } : BlockHeader) =
        { T.header with
          merkle_root := minerMerkle sha (T.vtx ++ mp.GetTransactions.take 100), nonce := 0 } ∧
      (runWorker sha k ps).worker.workBlock.vtx = T.vtx ++ mp.GetTransactions.take 100) := by
  induction ps using List.reverseRecOn with
  | nil => exact ⟨fun T0 h => Option.noConfusion h, fun h => absurd rfl h⟩
  | append_singleton ps p ih =>
    obtain ⟨i1, i2⟩ := ih (fun q hq => hfix q (List.mem_append_left _ hq))
    obtain ⟨hT, hmp⟩ := hfix p (List.mem_append_right _ (List.mem_singleton.mpr rfl))
    rw [runWorker_append, (step_worker sha k _ p).1, (step_worker sha k _ p).2]
    by_cases hr : refreshes p.seen (runWorker sha k ps).worker = true
    · have hprep : prepare sha k p.seen p.miner p.mempool (runWorker sha k ps).worker =
          refresh sha k p.miner p.mempool := by
        unfold prepare; rw [if_pos hr]
      rw [if_pos hr, hprep]
      refine ⟨fun T0 h => by rw [← Option.some.inj h, hT], fun _ => ?_⟩
      have hw := refresh_workBlock sha k p.miner p.mempool
      rw [← hT, ← hmp]
      constructor
      · rw [(advance_worker sha _).2.2, hw]
      · show (refresh sha k p.miner p.mempool).workBlock.vtx = _
        rw [hw]
    · have hprep : prepare sha k p.seen p.miner p.mempool (runWorker sha k ps).worker =
          (runWorker sha k ps).worker := by
        unfold prepare; rw [if_neg hr]
      rw [if_neg hr, hprep]
      refine ⟨i1, fun h => ?_⟩
      constructor
      · rw [(advance_worker sha _).2.2]; exact (i2 h).1
      · exact (i2 h).2

/-- C35: with the worker as the step relation `runWorker` over its locals and the shared
template changed only from outside, at the point where a pass hashes the header the
counter satisfies `0 ≤ nonceCounter < 100000` and the nonce of the header is the nonce
of the template copied at the last refresh plus the counter, modulo `2^32`; a pass
that refreshes starts again at the nonce of the template with the counter 0. So with
one template `T` and one mempool in every pass, every header hashed after a refresh is
the header of the refresh with one of the nonces `T.nonce + i`, `i < 100000`. -/
theorem worker_nonce_window (sha : Bytes → uint256) (k : Int) (ps : List Pass) (p : Pass)
    (hwf : ∀ q ∈ ps ++ [p], q.miner.targetBlock.header.nonce < 2 ^ 32) :
    (0 ≤ (hashingPoint sha k ps p).nonceCounter ∧
      (hashingPoint sha k ps p).nonceCounter < 100000) ∧
    (∀ T, (runWorker sha k (ps ++ [p])).template = some T →
      ((hashingPoint sha k ps p).workBlock.header.nonce : Int) =
        ((T.header.nonce : Int) + (hashingPoint sha k ps p).nonceCounter) % 2 ^ 32) ∧
    (refreshes p.seen (runWorker sha k ps).worker = true →
      (runWorker sha k (ps ++ [p])).template = some p.miner.targetBlock ∧
      (hashingPoint sha k ps p).nonceCounter = 0 ∧
      (hashingPoint sha k ps p).workBlock.header.nonce = p.miner.targetBlock.header.nonce) ∧
    (∀ (T : Block) (mp : Mempool),
      (∀ q ∈ ps ++ [p], q.miner.targetBlock = T ∧ q.mempool = mp) →
      (runWorker sha k (ps ++ [p])).template ≠ none →
      ∃ i : Nat, i < 100000 ∧
        (hashingPoint sha k ps p).workBlock.header =
          { T.header with
            merkle_root := minerMerkle sha (T.vtx ++ mp.GetTransactions.take 100)
            nonce := (T.header.nonce + i) % 2 ^ 32 }) := by
  have hps : ∀ q ∈ ps, q.miner.targetBlock.header.nonce < 2 ^ 32 :=
    fun q hq => hwf q (List.mem_append_left _ hq)
  have hp := hwf p (List.mem_append_right _ (List.mem_singleton.mpr rfl))
  obtain ⟨⟨h0, _⟩, hn⟩ := runWorker_nonce sha k ps hps
  obtain ⟨hbound, hnonce⟩ := prepare_window sha k p (runWorker sha k ps) hp h0 hn
  have htmpl := (step_worker sha k (runWorker sha k ps) p).2
  unfold hashingPoint
  rw [runWorker_append]
  have hrefresh : refreshes p.seen (runWorker sha k ps).worker = true →
      prepare sha k p.seen p.miner p.mempool (runWorker sha k ps).worker =
        refresh sha k p.miner p.mempool := by
    intro hr; unfold prepare; rw [if_pos hr]
  refine ⟨hbound, hnonce, ?_, ?_⟩
  · intro hr
    rw [htmpl, if_pos hr, hrefresh hr, refresh_workBlock]
    exact ⟨rfl, rfl, rfl⟩
  · intro T mp hfix hsome
    obtain ⟨hT, hmp⟩ := hfix p (List.mem_append_right _ (List.mem_singleton.mpr rfl))
    by_cases hr : refreshes p.seen (runWorker sha k ps).worker = true
    · refine ⟨0, by norm_num, ?_⟩
      rw [hrefresh hr, refresh_workBlock, hT, hmp, Nat.add_zero,
        Nat.mod_eq_of_lt (by rw [← hT]; exact hp)]
    · have hprep : prepare sha k p.seen p.miner p.mempool (runWorker sha k ps).worker =
          (runWorker sha k ps).worker := by
        unfold prepare; rw [if_neg hr]
      rw [htmpl, if_neg hr] at hsome
      obtain ⟨f1, f2⟩ := runWorker_fixed sha k ps T mp
        (fun q hq => hfix q (List.mem_append_left _ hq))
      obtain ⟨T0, hT0⟩ := Option.ne_none_iff_exists'.mp hsome
      have hTT : T0 = T := f1 T0 hT0
      have hhdr := (f2 hsome).1
      have hnon := hn T0 hT0
      rw [hTT] at hnon
      rw [hprep] at hbound ⊢
      refine ⟨(runWorker sha k ps).worker.nonceCounter.toNat, by omega, ?_⟩
      have hval : (runWorker sha k ps).worker.workBlock.header.nonce =
          (T.header.nonce + (runWorker sha k ps).worker.nonceCounter.toNat) % 2 ^ 32 := by
        have hc : (((runWorker sha k ps).worker.nonceCounter.toNat : Nat) : Int) =
            (runWorker sha k ps).worker.nonceCounter := Int.toNat_of_nonneg hbound.1
        have : ((runWorker sha k ps).worker.workBlock.header.nonce : Int) =
            (((T.header.nonce + (runWorker sha k ps).worker.nonceCounter.toNat) % 2 ^ 32 : Nat) :
              Int) := by
          push_cast
          rw [hc, hnon]
          norm_num
        exact_mod_cast this
      have heta : (runWorker sha k ps).worker.workBlock.header =
          { ({ (runWorker sha k ps).worker.workBlock.header with nonce := 0 } : BlockHeader) with
            nonce := (runWorker sha k ps).worker.workBlock.header.nonce } := rfl
      rw [heta, hhdr, hval]

theorem worker_nonce_window_witness :
    (∀ q ∈ [(⟨0, Miner.create sampleTemplate, Mempool.empty⟩ : Pass)] ++
        [(⟨0, Miner.create sampleTemplate, Mempool.empty⟩ : Pass)],
      q.miner.targetBlock.header.nonce < 2 ^ 32) ∧
    (0 ≤ (hashingPoint sha256 0 [⟨0, Miner.create sampleTemplate, Mempool.empty⟩]
        ⟨0, Miner.create sampleTemplate, Mempool.empty⟩).nonceCounter ∧
      (hashingPoint sha256 0 [⟨0, Miner.create sampleTemplate, Mempool.empty⟩]
        ⟨0, Miner.create sampleTemplate, Mempool.empty⟩).nonceCounter < 100000) :=
  have hwf : ∀ q ∈ [(⟨0, Miner.create sampleTemplate, Mempool.empty⟩ : Pass)] ++
      [(⟨0, Miner.create sampleTemplate, Mempool.empty⟩ : Pass)],
      q.miner.targetBlock.header.nonce < 2 ^ 32 := by
    intro q hq
    have hq2 : q = ⟨0, Miner.create sampleTemplate, Mempool.empty⟩ := by
      simpa using hq
    rw [hq2]
    show (0 : Nat) < 2 ^ 32
    norm_num
  ⟨hwf, (worker_nonce_window sha256 0 _ _ hwf).1⟩

/-! ## Canonical decoding -/

theorem leValue_lt (bs : Bytes) (h : ∀ b ∈ bs, b < 256) : leValue bs < 2 ^ (8 * bs.length) := by
  induction bs with
  | nil => simp [leValue]
  | cons b bs ih =>
    have hb := h b (List.mem_cons_self _ _)
    have := ih (fun x hx => h x (List.mem_cons_of_mem _ hx))
    have hp : 2 ^ (8 * (bs.length + 1)) = 256 * 2 ^ (8 * bs.length) := by
      rw [Nat.mul_add, pow_add]; norm_num; ring
    simp only [leValue, List.length_cons, hp]
    omega

theorem leValue_inj (xs ys : Bytes) (hx : ∀ b ∈ xs, b < 256) (hy : ∀ b ∈ ys, b < 256)
    (hlen : xs.length = ys.length) (hv : leValue xs = leValue ys) : xs = ys := by
  induction xs generalizing ys with
  | nil =>
    cases ys with
    | nil => rfl
    | cons y ys => simp at hlen
  | cons x xs ih =>
    cases ys with
    | nil => simp at hlen
    | cons y ys =>
      have h1 := hx x (List.mem_cons_self _ _)
      have h2 := hy y (List.mem_cons_self _ _)
      simp only [leValue] at hv
      simp only [List.length_cons, Nat.add_right_cancel_iff] at hlen
      have hxy : x = y := by omega
      have hl : leValue xs = leValue ys := by omega
      rw [hxy, ih ys (fun b hb => hx b (List.mem_cons_of_mem _ hb))
        (fun b hb => hy b (List.mem_cons_of_mem _ hb)) hlen hl]

/-- The bytes written for an integer depend on its residue modulo `2^(8n)` only. -/
theorem writeIntLoop_congr (v w : Int) (n : Nat) (h : v % 2 ^ (8 * n) = w % 2 ^ (8 * n)) :
    writeIntLoop v n 0 = writeIntLoop w n 0 := by
  apply leValue_inj _ _ (writeIntLoop_lt v n 0) (writeIntLoop_lt w n 0)
  · rw [writeIntLoop_length, writeIntLoop_length]
  · have h1 := leValue_writeIntLoop v n 0
    have h2 := leValue_writeIntLoop w n 0
    simp only [Nat.mul_zero, pow_zero, Int.ediv_one] at h1 h2
    have : ((leValue (writeIntLoop v n 0) : Nat) : Int) = leValue (writeIntLoop w n 0) := by
      rw [h1, h2, h]
    exact_mod_cast this

/-- Writing the little-endian value of `n` bytes gives the bytes. -/
theorem writeIntLoop_leValue (bs : Bytes) (h : ∀ b ∈ bs, b < 256) :
    writeIntLoop (leValue bs : Int) bs.length 0 = bs := by
  apply leValue_inj _ _ (writeIntLoop_lt _ _ 0) h (writeIntLoop_length _ _ 0)
  have h1 := leValue_writeIntLoop (leValue bs : Int) bs.length 0
  simp only [Nat.mul_zero, pow_zero, Int.ediv_one] at h1
  have hlt := leValue_lt bs h
  have h2 : ((leValue bs : Nat) : Int) % 2 ^ (8 * bs.length) = leValue bs := by
    apply Int.emod_eq_of_lt (Int.ofNat_nonneg _)
    exact_mod_cast hlt
  rw [h2] at h1
  exact_mod_cast h1

theorem readInt_slice (buf : Bytes) (pos size : Nat) (v : Nat) (d1 : Deserializer)
    (hb : ∀ b ∈ buf, b < 256) (hd : Deserializer.readInt ⟨buf, pos⟩ size = some (v, d1)) :
    d1 = ⟨buf, pos + size⟩ ∧ ((buf.drop pos).take size).length = size ∧
    v = leValue ((buf.drop pos).take size) ∧
    buf.drop pos = (buf.drop pos).take size ++ buf.drop (pos + size) := by
  simp only [Deserializer.readInt] at hd
  split_ifs at hd with hg
  simp only [Option.some.injEq, Prod.mk.injEq] at hd
  obtain ⟨hx, hd1⟩ := hd
  have hle : pos + size ≤ buf.length := by omega
  rw [leValue_take_eq buf pos size hle hb] at hx hd1
  simp only at hx hd1
  refine ⟨hd1.symm, ?_, hx.symm, ?_⟩
  · rw [List.length_take, List.length_drop]; omega
  · rw [← List.drop_drop, List.take_append_drop]

theorem canonical_readInt (size : Nat) :
    Canonical (fun d => d.readInt size) (fun (v : Nat) => writeIntLoop (v : Int) size 0) := by
  intro buf pos v d1 hb hd
  obtain ⟨h1, h2, h3, h4⟩ := readInt_slice buf pos size v d1 hb hd
  have hbytes : ∀ b ∈ (buf.drop pos).take size, b < 256 := fun b hb1 =>
    hb b (List.mem_of_mem_drop (List.mem_of_mem_take hb1))
  have hw : writeIntLoop (v : Int) size 0 = (buf.drop pos).take size := by
    have := writeIntLoop_leValue _ hbytes
    rw [h2] at this
    rw [h3]; exact this
  simp only [writeIntLoop_length]
  rw [hw]
  exact ⟨h1, h4⟩

theorem asSigned_emod (size raw : Nat) :
    asSigned size raw % 2 ^ (8 * size) = (raw : Int) % 2 ^ (8 * size) := by
  unfold asSigned
  split_ifs
  · rfl
  · rw [Int.sub_emod, Int.emod_self, sub_zero, Int.emod_emod_of_dvd _ (dvd_refl _)]

theorem canonical_readSigned (size : Nat) :
    Canonical (fun d => d.readSigned size) (fun (v : Int) => writeIntLoop v size 0) := by
  intro buf pos v d1 hb hd
  simp only [Deserializer.readSigned] at hd
  cases hr : Deserializer.readInt ⟨buf, pos⟩ size with
  | none => rw [hr] at hd; exact Option.noConfusion hd
  | some r =>
    obtain ⟨raw, d2⟩ := r
    rw [hr] at hd
    simp only [Option.some.injEq, Prod.mk.injEq] at hd
    obtain ⟨hx, hd2⟩ := hd
    subst hd2
    have hc := canonical_readInt size buf pos raw d2 hb hr
    simp only at hc
    have hw : writeIntLoop v size 0 = writeIntLoop (raw : Int) size 0 := by
      rw [← hx]
      exact writeIntLoop_congr _ _ _ (asSigned_emod size raw)
    simp only
    rw [hw]
    exact hc

theorem canonical_readHash : Canonical Deserializer.readHash (fun h => h.data) := by
  intro buf pos x d1 hb hd
  unfold Deserializer.readHash at hd
  split_ifs at hd with hg
  simp only [Option.some.injEq, Prod.mk.injEq] at hd
  obtain ⟨hx, hd1⟩ := hd
  simp only
  rw [x.width]
  refine ⟨hd1.symm, ?_⟩
  rw [← hx]
  simp only
  rw [← List.drop_drop, List.take_append_drop]

theorem readItems_length {α : Type} (item : Deserializer → Option (α × Deserializer))
    (count : Nat) (d d1 : Deserializer) (xs : List α)
    (h : readItems item count d = some (xs, d1)) : xs.length = count := by
  induction count generalizing d d1 xs with
  | zero =>
    simp only [readItems, Option.some.injEq, Prod.mk.injEq] at h
    rw [← h.1]; rfl
  | succ n ih =>
    simp only [readItems] at h
    cases hi : item d with
    | none => rw [hi] at h; exact Option.noConfusion h
    | some r =>
      obtain ⟨x, d2⟩ := r
      rw [hi] at h
      simp only at h
      cases hr : readItems item n d2 with
      | none => rw [hr] at h; exact Option.noConfusion h
      | some r2 =>
        obtain ⟨ys, d3⟩ := r2
        rw [hr] at h
        simp only [Option.some.injEq, Prod.mk.injEq] at h
        rw [← h.1, List.length_cons, ih d2 d3 ys hr]

theorem canonical_readItems {α : Type} (item : Deserializer → Option (α × Deserializer))
    (enc : α → Bytes) (h : Canonical item enc) (count : Nat) :
    Canonical (readItems item count) (encAll enc) := by
  induction count with
  | zero =>
    intro buf pos xs d1 _ hd
    simp only [readItems, Option.some.injEq, Prod.mk.injEq] at hd
    rw [← hd.1, ← hd.2]
    simp [encAll]
  | succ n ih =>
    intro buf pos xs d1 hb hd
    simp only [readItems] at hd
    cases hi : item ⟨buf, pos⟩ with
    | none => rw [hi] at hd; exact Option.noConfusion hd
    | some r =>
      obtain ⟨x, d2⟩ := r
      rw [hi] at hd
      simp only at hd
      obtain ⟨e1, e2⟩ := h buf pos x d2 hb hi
      subst e1
      cases hr : readItems item n ⟨buf, pos + (enc x).length⟩ with
      | none => rw [hr] at hd; exact Option.noConfusion hd
      | some r2 =>
        obtain ⟨ys, d3⟩ := r2
        rw [hr] at hd
        simp only [Option.some.injEq, Prod.mk.injEq] at hd
        obtain ⟨f1, f2⟩ := ih buf _ ys d3 hb hr
        rw [← hd.1, ← hd.2, f1]
        simp only [encAll, List.length_append, Nat.add_assoc, List.append_assoc, true_and]
        rw [e2, List.append_cancel_left_eq]
        rw [← Nat.add_assoc]
        exact f2

theorem canonical_readVector {α : Type} (item : Deserializer → Option (α × Deserializer))
    (enc : α → Bytes) (h : Canonical item enc) :
    Canonical (Deserializer.readVector item)
      (fun v => writeIntLoop (v.length : Int) 8 0 ++ encAll enc v) := by
  intro buf pos xs d1 hb hd
  simp only [Deserializer.readVector] at hd
  cases hi : Deserializer.readInt ⟨buf, pos⟩ 8 with
  | none => rw [hi] at hd; exact Option.noConfusion hd
  | some r =>
    obtain ⟨size, d2⟩ := r
    rw [hi] at hd
    simp only at hd
    obtain ⟨e1, e2⟩ := canonical_readInt 8 buf pos size d2 hb hi
    simp only at e1 e2
    subst e1
    have hlen := readItems_length item size _ _ xs hd
    obtain ⟨f1, f2⟩ := canonical_readItems item enc h size buf _ xs d1 hb hd
    simp only [List.length_append, writeIntLoop_length] at e2 f1 f2 ⊢
    rw [hlen]
    refine ⟨by rw [f1, Nat.add_assoc], ?_⟩
    rw [e2, List.append_assoc, List.append_cancel_left_eq, ← Nat.add_assoc]
    exact f2

theorem canonical_readBytes :
    Canonical Deserializer.readBytes (bytesOf Serializer.writeBytes) := by
  have h := canonical_readVector (fun d => d.readInt 1)
    (fun (v : Nat) => writeIntLoop (v : Int) 1 0) (canonical_readInt 1)
  have he : (fun (v : Bytes) => writeIntLoop (v.length : Int) 8 0 ++
      encAll (fun (b : Nat) => writeIntLoop (b : Int) 1 0) v) =
      bytesOf Serializer.writeBytes := by
    funext v
    rw [bytesOf_writeBytes, writeIntLoop_eq_leBytes]
    congr 2
    funext b
    rw [writeIntLoop_eq_leBytes]
  rw [he] at h
  exact h

theorem Canonical.peel {α β : Type} {dec : Deserializer → Option (α × Deserializer)}
    {enc : α → Bytes} (h : Canonical dec enc)
    (k : α → Deserializer → Option (β × Deserializer)) (buf : Bytes) (pos : Nat) (x : β)
    (d2 : Deserializer) (hb : ∀ b ∈ buf, b < 256)
    (hd : andThen dec k ⟨buf, pos⟩ = some (x, d2)) :
    ∃ a, k a ⟨buf, pos + (enc a).length⟩ = some (x, d2) ∧
      buf.drop pos = enc a ++ buf.drop (pos + (enc a).length) := by
  simp only [andThen] at hd
  cases hr : dec ⟨buf, pos⟩ with
  | none => rw [hr] at hd; exact Option.noConfusion hd
  | some r =>
    obtain ⟨a, d1⟩ := r
    rw [hr] at hd
    simp only at hd
    obtain ⟨e1, e2⟩ := h buf pos a d1 hb hr
    subst e1
    exact ⟨a, hd, e2⟩

theorem txIn_canonical : Canonical TxIn.Deserialize (bytesOf TxIn.Serialize) := by
  intro buf pos x d1 hb hd
  rw [txIn_deserialize_eq] at hd
  obtain ⟨a1, hd, q1⟩ := canonical_readHash.peel _ buf pos x d1 hb hd
  obtain ⟨a2, hd, q2⟩ := (canonical_readInt 4).peel _ buf _ x d1 hb hd
  obtain ⟨a3, hd, q3⟩ := canonical_readBytes.peel _ buf _ x d1 hb hd
  obtain ⟨a4, hd, q4⟩ := (canonical_readInt 4).peel _ buf _ x d1 hb hd
  simp only [Option.some.injEq, Prod.mk.injEq] at hd
  obtain ⟨hx, hd1⟩ := hd
  subst hx
  rw [txIn_bytes]
  simp only [List.length_append, List.append_assoc]
  refine ⟨by rw [← hd1]; simp only [Nat.add_assoc], ?_⟩
  rw [q1, q2, q3, q4]
  simp only [List.append_assoc, Nat.add_assoc]

theorem txOut_canonical : Canonical TxOut.Deserialize (bytesOf TxOut.Serialize) := by
  intro buf pos x d1 hb hd
  rw [txOut_deserialize_eq] at hd
  obtain ⟨a1, hd, q1⟩ := (canonical_readSigned 8).peel _ buf pos x d1 hb hd
  obtain ⟨a2, hd, q2⟩ := canonical_readBytes.peel _ buf _ x d1 hb hd
  simp only [Option.some.injEq, Prod.mk.injEq] at hd
  obtain ⟨hx, hd1⟩ := hd
  subst hx
  rw [txOut_bytes]
  simp only [List.length_append, List.append_assoc]
  refine ⟨by rw [← hd1]; simp only [Nat.add_assoc], ?_⟩
  rw [q1, q2]
  simp only [List.append_assoc, Nat.add_assoc]

theorem transaction_canonical :
    Canonical Transaction.Deserialize (bytesOf Transaction.Serialize) := by
  intro buf pos x d1 hb hd
  rw [transaction_deserialize_eq] at hd
  obtain ⟨a1, hd, q1⟩ := (canonical_readSigned 4).peel _ buf pos x d1 hb hd
  obtain ⟨a2, hd, q2⟩ := (canonical_readVector _ _ txIn_canonical).peel _ buf _ x d1 hb hd
  obtain ⟨a3, hd, q3⟩ := (canonical_readVector _ _ txOut_canonical).peel _ buf _ x d1 hb hd
  obtain ⟨a4, hd, q4⟩ := (canonical_readInt 4).peel _ buf _ x d1 hb hd
  simp only [Option.some.injEq, Prod.mk.injEq] at hd
  obtain ⟨hx, hd1⟩ := hd
  subst hx
  rw [transaction_bytes]
  simp only [List.length_append, List.append_assoc]
  refine ⟨by rw [← hd1]; simp only [List.length_append, Nat.add_assoc], ?_⟩
  rw [q1, q2, q3, q4]
  simp only [List.append_assoc, List.length_append, Nat.add_assoc]

theorem blockHeader_canonical :
    Canonical BlockHeader.Deserialize (bytesOf BlockHeader.Serialize) := by
  intro buf pos x d1 hb hd
  rw [blockHeader_deserialize_eq] at hd
  obtain ⟨a1, hd, q1⟩ := (canonical_readSigned 4).peel _ buf pos x d1 hb hd
  obtain ⟨a2, hd, q2⟩ := canonical_readHash.peel _ buf _ x d1 hb hd
  obtain ⟨a3, hd, q3⟩ := canonical_readHash.peel _ buf _ x d1 hb hd
  obtain ⟨a4, hd, q4⟩ := (canonical_readInt 4).peel _ buf _ x d1 hb hd
  obtain ⟨a5, hd, q5⟩ := (canonical_readInt 4).peel _ buf _ x d1 hb hd
  obtain ⟨a6, hd, q6⟩ := (canonical_readInt 4).peel _ buf _ x d1 hb hd
  simp only [Option.some.injEq, Prod.mk.injEq] at hd
  obtain ⟨hx, hd1⟩ := hd
  subst hx
  rw [blockHeader_bytes]
  simp only [List.length_append, List.append_assoc]
  refine ⟨by rw [← hd1]; simp only [Nat.add_assoc], ?_⟩
  rw [q1, q2, q3, q4, q5, q6]
  simp only [List.append_assoc, Nat.add_assoc]

theorem block_canonical : Canonical Block.Deserialize (bytesOf Block.Serialize) := by
  intro buf pos x d1 hb hd
  rw [block_deserialize_eq] at hd
  obtain ⟨a1, hd, q1⟩ := blockHeader_canonical.peel _ buf pos x d1 hb hd
  obtain ⟨a2, hd, q2⟩ :=
    (canonical_readVector _ _ transaction_canonical).peel _ buf _ x d1 hb hd
  simp only [Option.some.injEq, Prod.mk.injEq] at hd
  obtain ⟨hx, hd1⟩ := hd
  subst hx
  rw [block_bytes]
  simp only [List.length_append, List.append_assoc]
  refine ⟨by rw [← hd1]; simp only [List.length_append, Nat.add_assoc], ?_⟩
  rw [q1, q2]
  simp only [List.append_assoc, List.length_append, Nat.add_assoc]

/-- A canonical decoder started at position 0: the value re-encodes to the bytes
before the cursor, and the cursor is within the buffer. -/
theorem Canonical.at_start {α : Type} {dec : Deserializer → Option (α × Deserializer)}
    {enc : α → Bytes} (h : Canonical dec enc) (buf : Bytes) (x : α) (d1 : Deserializer)
    (hb : ∀ b ∈ buf, b < 256) (hd : dec ⟨buf, 0⟩ = some (x, d1)) :
    d1.buffer = buf ∧ d1.pos ≤ buf.length ∧ enc x = buf.take d1.pos := by
  obtain ⟨e1, e2⟩ := h buf 0 x d1 hb hd
  rw [Nat.zero_add] at e1 e2
  rw [List.drop_zero] at e2
  rw [e1]
  have hlen : (enc x).length ≤ buf.length := by
    have := congrArg List.length e2
    rw [List.length_append] at this
    omega
  refine ⟨rfl, hlen, ?_⟩
  show enc x = buf.take (enc x).length
  conv_rhs => rw [e2]
  rw [List.take_left]

/-- C36: on every buffer of bytes, a successful `Transaction::Deserialize` (and
`Block::Deserialize`, `BlockHeader::Deserialize`) from position 0 that ends with the
cursor at `n` keeps the buffer, has `n ≤ |buffer|`, and the serialization of the decoded
value is the first `n` bytes of the buffer; hence the hash of the decoded transaction
is `Hash256` of the bytes consumed, and two buffers that decode, each consumed in full,
to the same transaction are the same buffer. -/
theorem decoding_canonical (sha : Bytes → uint256) (buf : Bytes) (hb : ∀ b ∈ buf, b < 256) :
    (∀ (tx : Transaction) (d1 : Deserializer),
      Transaction.Deserialize ⟨buf, 0⟩ = some (tx, d1) →
        d1.buffer = buf ∧ d1.pos ≤ buf.length ∧
        (Transaction.Serialize ⟨[]⟩ tx).buffer = buf.take d1.pos ∧
        tx.GetHash sha = Hash256 sha (buf.take d1.pos)) ∧
    (∀ (b : Block) (d1 : Deserializer),
      Block.Deserialize ⟨buf, 0⟩ = some (b, d1) →
        d1.buffer = buf ∧ d1.pos ≤ buf.length ∧
        (Block.Serialize ⟨[]⟩ b).buffer = buf.take d1.pos) ∧
    (∀ (h : BlockHeader) (d1 : Deserializer),
      BlockHeader.Deserialize ⟨buf, 0⟩ = some (h, d1) →
        d1.buffer = buf ∧ d1.pos ≤ buf.length ∧
        (BlockHeader.Serialize ⟨[]⟩ h).buffer = buf.take d1.pos ∧
        h.GetHash sha = Hash256 sha (buf.take d1.pos)) ∧
    (∀ (buf2 : Bytes) (tx : Transaction), (∀ b ∈ buf2, b < 256) →
      Transaction.Deserialize ⟨buf, 0⟩ = some (tx, ⟨buf, buf.length⟩) →
      Transaction.Deserialize ⟨buf2, 0⟩ = some (tx, ⟨buf2, buf2.length⟩) →
      buf = buf2) := by
  refine ⟨?_, ?_, ?_, ?_⟩
  · intro tx d1 hd
    obtain ⟨h1, h2, h3⟩ := transaction_canonical.at_start buf tx d1 hb hd
    refine ⟨h1, h2, h3, ?_⟩
    unfold Transaction.GetHash
    rw [← h3]; rfl
  · intro b d1 hd
    exact block_canonical.at_start buf b d1 hb hd
  · intro h d1 hd
    obtain ⟨h1, h2, h3⟩ := blockHeader_canonical.at_start buf h d1 hb hd
    refine ⟨h1, h2, h3, ?_⟩
    unfold BlockHeader.GetHash
    rw [← h3]; rfl
  · intro buf2 tx hb2 hd1 hd2
    have e1 := (transaction_canonical.at_start buf tx _ hb hd1).2.2
    have e2 := (transaction_canonical.at_start buf2 tx _ hb2 hd2).2.2
    simp only [List.take_length] at e1 e2
    rw [← e1, ← e2]

set_option maxRecDepth 100000 in
theorem decoding_canonical_witness :
    (∀ b ∈ (Transaction.Serialize ⟨[]⟩ sampleOddTx).buffer ++ [7, 7, 7], b < 256) ∧
    Transaction.Deserialize ⟨(Transaction.Serialize ⟨[]⟩ sampleOddTx).buffer ++ [7, 7, 7], 0⟩ =
      some (sampleOddTx, ⟨(Transaction.Serialize ⟨[]⟩ sampleOddTx).buffer ++ [7, 7, 7], 106⟩) ∧
    (Transaction.Serialize ⟨[]⟩ sampleOddTx).buffer =
      ((Transaction.Serialize ⟨[]⟩ sampleOddTx).buffer ++ [7, 7, 7]).take 106 :=
  have hb : ∀ b ∈ (Transaction.Serialize ⟨[]⟩ sampleOddTx).buffer ++ [7, 7, 7], b < 256 := by
    decide
  have hd : Transaction.Deserialize
      ⟨(Transaction.Serialize ⟨[]⟩ sampleOddTx).buffer ++ [7, 7, 7], 0⟩ =
      some (sampleOddTx, ⟨(Transaction.Serialize ⟨[]⟩ sampleOddTx).buffer ++ [7, 7, 7], 106⟩) := by
    decide
  ⟨hb, hd, ((decoding_canonical sha256 _ hb).1 _ _ hd).2.2.1⟩

/-! ## sendrawtransaction -/

theorem mem_encAll {α : Type} (enc : α → Bytes) (xs : List α) (b : Nat)
    (h : b ∈ encAll enc xs) : ∃ x ∈ xs, b ∈ enc x := by
  induction xs with
  | nil => exact absurd h (List.not_mem_nil b)
  | cons x xs ih =>
    have h2 : b ∈ enc x ++ encAll enc xs := h
    rw [List.mem_append] at h2
    rcases h2 with h2 | h2
    · exact ⟨x, List.mem_cons_self _ _, h2⟩
    · obtain ⟨y, hy, hb⟩ := ih h2
      exact ⟨y, List.mem_cons_of_mem _ hy, hb⟩

theorem writeBytes_lt (v : Bytes) : ∀ b ∈ bytesOf Serializer.writeBytes v, b < 256 := by
  intro b hb
  rw [bytesOf_writeBytes, List.mem_append] at hb
  rcases hb with hb | hb
  · rw [← writeIntLoop_eq_leBytes] at hb
    exact writeIntLoop_lt _ _ _ b hb
  · obtain ⟨x, _, hx⟩ := mem_encAll _ _ _ hb
    rw [← writeIntLoop_eq_leBytes] at hx
    exact writeIntLoop_lt _ _ _ b hx

theorem txIn_bytes_lt (x : TxIn) (h : ∀ b ∈ x.prevout_hash.data, b < 256) :
    ∀ b ∈ bytesOf TxIn.Serialize x, b < 256 := by
  intro b hb
  rw [txIn_bytes] at hb
  simp only [List.mem_append] at hb
  rcases hb with hb | hb | hb | hb
  · exact h b hb
  · exact writeIntLoop_lt _ _ _ b hb
  · exact writeBytes_lt _ b hb
  · exact writeIntLoop_lt _ _ _ b hb

theorem txOut_bytes_lt (x : TxOut) : ∀ b ∈ bytesOf TxOut.Serialize x, b < 256 := by
  intro b hb
  rw [txOut_bytes] at hb
  simp only [List.mem_append] at hb
  rcases hb with hb | hb
  · exact writeIntLoop_lt _ _ _ b hb
  · exact writeBytes_lt _ b hb

theorem transaction_bytes_lt (tx : Transaction)
    (h : ∀ i ∈ tx.vin, ∀ b ∈ i.prevout_hash.data, b < 256) :
    ∀ b ∈ bytesOf Transaction.Serialize tx, b < 256 := by
  intro b hb
  rw [transaction_bytes] at hb
  simp only [List.mem_append] at hb
  rcases hb with hb | (hb | hb) | (hb | hb) | hb
  · exact writeIntLoop_lt _ _ _ b hb
  · exact writeIntLoop_lt _ _ _ b hb
  · obtain ⟨i, hi, hx⟩ := mem_encAll _ _ _ hb
    exact txIn_bytes_lt i (h i hi) b hx
  · exact writeIntLoop_lt _ _ _ b hb
  · obtain ⟨o, _, hx⟩ := mem_encAll _ _ _ hb
    exact txOut_bytes_lt o b hx
  · exact writeIntLoop_lt _ _ _ b hb

theorem dispatch_sendraw (sha : Bytes → uint256) (what : Bytes → Bytes) (srv : RpcServer)
    (params : List JsonValue) :
    Dispatch sha what srv (ascii "sendrawtransaction") params =
      some (rpcSendRawTransaction sha what srv params) := by
  unfold Dispatch
  rw [if_neg (by decide), if_neg (by decide), if_neg (by decide), if_neg (by decide),
    if_neg (by decide), if_neg (by decide), if_neg (by decide), if_neg (by decide),
    if_neg (by decide), if_neg (by decide), if_neg (by decide), if_neg (by decide),
    if_neg (by decide), if_pos rfl]

theorem sendraw_of_decoded (sha : Bytes → uint256) (what : Bytes → Bytes) (srv : RpcServer)
    (hex : Bytes) (tx : Transaction) (d1 : Deserializer)
    (hd : Transaction.Deserialize ⟨HexUtil.Decode hex, 0⟩ = some (tx, d1)) :
    rpcSendRawTransaction sha what srv [.str hex] =
      (if (srv.mempool.AddTransaction sha tx).1 = true then .str (tx.GetHash sha).ToString
        else .str (ascii "Transaction rejected (invalid or exists)"),
        { srv with mempool := (srv.mempool.AddTransaction sha tx).2 }) := by
  unfold rpcSendRawTransaction
  simp only [JsonValue.as_string, hd]
  cases (srv.mempool.AddTransaction sha tx).1 <;> rfl

theorem sendraw_of_failed (sha : Bytes → uint256) (what : Bytes → Bytes) (srv : RpcServer)
    (hex : Bytes) (hd : Transaction.Deserialize ⟨HexUtil.Decode hex, 0⟩ = none) :
    rpcSendRawTransaction sha what srv [.str hex] =
      (.str (ascii "Error: " ++ what (HexUtil.Decode hex)), srv) := by
  unfold rpcSendRawTransaction
  simp only [JsonValue.as_string, hd]

/-- C39: for every transaction `tx` (with fields in the range of their types) and every
mempool, `sendrawtransaction` with the parameter `HexUtil::Encode(Serialize(tx))`
leaves the mempool that `AddTransaction(tx)` leaves, returns the hex of `hash(tx)` when
`AddTransaction(tx)` returns true and the string "Transaction rejected (invalid or
exists)", which is the hex string of no hash, when it returns false; for a hex string
whose decoded bytes are fewer than the 24 bytes of the least transaction, and for the
hex of every strict prefix of `Serialize(tx)`, the mempool is unchanged and the result
is the string "Error: " followed by the text of the exception. -/
theorem sendraw_refines_addTransaction (sha : Bytes → uint256) (what : Bytes → Bytes)
    (srv : RpcServer) (tx : Transaction) (hwf : tx.wf)
    (hhash : ∀ i ∈ tx.vin, ∀ b ∈ i.prevout_hash.data, b < 256) :
    Dispatch sha what srv (ascii "sendrawtransaction")
        [.str (HexUtil.Encode (Transaction.Serialize ⟨[]⟩ tx).buffer)] =
      some (if (srv.mempool.AddTransaction sha tx).1 = true then .str (tx.GetHash sha).ToString
        else .str (ascii "Transaction rejected (invalid or exists)"),
        { srv with mempool := (srv.mempool.AddTransaction sha tx).2 }) ∧
    (∀ h : uint256, ascii "Transaction rejected (invalid or exists)" ≠ h.ToString) ∧
    (∀ hex : Bytes, (HexUtil.Decode hex).length < 24 →
      Dispatch sha what srv (ascii "sendrawtransaction") [.str hex] =
        some (.str (ascii "Error: " ++ what (HexUtil.Decode hex)), srv)) ∧
    (∀ p ext : Bytes, p ++ ext = (Transaction.Serialize ⟨[]⟩ tx).buffer → ext ≠ [] →
      Dispatch sha what srv (ascii "sendrawtransaction") [.str (HexUtil.Encode p)] =
        some (.str (ascii "Error: " ++ what p), srv)) := by
  have hlt := transaction_bytes_lt tx hhash
  refine ⟨?_, ?_, ?_, ?_⟩
  · rw [dispatch_sendraw]
    have hdec : HexUtil.Decode (HexUtil.Encode (Transaction.Serialize ⟨[]⟩ tx).buffer) =
        bytesOf Transaction.Serialize tx := hexBytes_encAll _ hlt
    have hd := (transaction_reads tx hwf).whole
    rw [← hdec] at hd
    rw [sendraw_of_decoded sha what srv _ tx _ hd]
  · exact toString_ne_of_length _ (by decide)
  · intro hex hshort
    rw [dispatch_sendraw]
    have hd : Transaction.Deserialize ⟨HexUtil.Decode hex, 0⟩ = none := by
      cases hr : Transaction.Deserialize ⟨HexUtil.Decode hex, 0⟩ with
      | none => rfl
      | some r =>
        exfalso
        obtain ⟨x, d1⟩ := r
        obtain ⟨_, h2, h3, _⟩ := stable_transaction _ _ _ _ hr
        have := h3 (Nat.zero_le _)
        omega
    rw [sendraw_of_failed sha what srv hex hd]
  · intro p ext hp hext
    rw [dispatch_sendraw]
    have hpl : ∀ b ∈ p, b < 256 := fun b hb =>
      hlt b (by show b ∈ (Transaction.Serialize ⟨[]⟩ tx).buffer
                rw [← hp]; exact List.mem_append_left _ hb)
    have hdec : HexUtil.Decode (HexUtil.Encode p) = p := hexBytes_encAll _ hpl
    have hfail := strict_prefix_fails stable_transaction (transaction_reads tx hwf) [] p ext
      hp hext
    simp only [List.nil_append, List.length_nil] at hfail
    rw [← hdec] at hfail
    rw [sendraw_of_failed sha what srv _ hfail, hdec]

theorem sendraw_refines_addTransaction_witness :
    (sampleMint.wf ∧ ∀ i ∈ sampleMint.vin, ∀ b ∈ i.prevout_hash.data, b < 256) ∧
    Dispatch sha256 (fun _ => []) ⟨BlockChain.empty, Mempool.empty⟩
        (ascii "sendrawtransaction")
        [.str (HexUtil.Encode (Transaction.Serialize ⟨[]⟩ sampleMint).buffer)] =
      some (if (Mempool.empty.AddTransaction sha256 sampleMint).1 = true then
          .str (sampleMint.GetHash sha256).ToString
        else .str (ascii "Transaction rejected (invalid or exists)"),
        { (⟨BlockChain.empty, Mempool.empty⟩ : RpcServer) with
          mempool := (Mempool.empty.AddTransaction sha256 sampleMint).2 }) :=
  have h1 : sampleMint.wf := by decide
  have h2 : ∀ i ∈ sampleMint.vin, ∀ b ∈ i.prevout_hash.data, b < 256 := by decide
  ⟨⟨h1, h2⟩, (sendraw_refines_addTransaction sha256 (fun _ => [])
    ⟨BlockChain.empty, Mempool.empty⟩ sampleMint h1 h2).1⟩

/-! ## transfer -/

theorem dispatch_transfer (sha : Bytes → uint256) (what : Bytes → Bytes) (srv : RpcServer)
    (params : List JsonValue) :
    Dispatch sha what srv (ascii "transfer") params = rpcTransfer sha srv params := by
  unfold Dispatch
  rw [if_neg (by decide), if_neg (by decide), if_neg (by decide), if_neg (by decide),
    if_neg (by decide), if_neg (by decide), if_neg (by decide), if_neg (by decide),
    if_neg (by decide), if_neg (by decide), if_pos rfl]

theorem ite_some_pair {α β : Type} (c : Bool) (a b : α) (s : β) :
    (if c = true then some (a, s) else some (b, s)) =
      some (if c = true then a else b, s) := by
  cases c <;> rfl

theorem values_sum_nonneg (l : List (OutPoint × UTXO)) (h : ∀ u ∈ l, 0 ≤ u.2.out.value) :
    0 ≤ (l.map (fun u => u.2.out.value)).sum := by
  induction l with
  | nil => simp
  | cons u l ih =>
    have h1 := h u (List.mem_cons_self _ _)
    have h2 := ih (fun x hx => h x (List.mem_cons_of_mem _ hx))
    simp only [List.map_cons, List.sum_cons]
    omega

/-- The selection loop on non-negative values whose sum fits an `int64_t`, entered with
a running total below the amount: it takes all entries when they do not reach the
amount, and else the shortest prefix with which the running total reaches it. -/
theorem selectLoop_spec (m : Int) (l sel : List (OutPoint × UTXO)) (total : Int)
    (hpos : ∀ u ∈ l, 0 ≤ u.2.out.value) (h0 : 0 ≤ total) (hlt : total < m)
    (hsum : total + (l.map (fun u => u.2.out.value)).sum < 2 ^ 63) :
    (total + (l.map (fun u => u.2.out.value)).sum < m →
      selectLoop m l total sel = (total + (l.map (fun u => u.2.out.value)).sum, sel ++ l)) ∧
    (m ≤ total + (l.map (fun u => u.2.out.value)).sum →
      ∃ k, 0 < k ∧ k ≤ l.length ∧
        selectLoop m l total sel =
          (total + ((l.take k).map (fun u => u.2.out.value)).sum, sel ++ l.take k) ∧
        m ≤ total + ((l.take k).map (fun u => u.2.out.value)).sum ∧
        ∀ j, j < k → total + ((l.take j).map (fun u => u.2.out.value)).sum < m) := by
  induction l generalizing total sel with
  | nil =>
    constructor
    · intro _
      simp only [List.map_nil, List.sum_nil, add_zero, selectLoop, List.append_nil]
    · intro h
      simp only [List.map_nil, List.sum_nil, add_zero] at h
      exact absurd hlt (not_lt.mpr h)
  | cons u rest ih =>
    have hv := hpos u (List.mem_cons_self _ _)
    have hrest : ∀ x ∈ rest, 0 ≤ x.2.out.value := fun x hx => hpos x (List.mem_cons_of_mem _ hx)
    have hrs := values_sum_nonneg rest hrest
    simp only [List.map_cons, List.sum_cons] at hsum ⊢
    have e63 : (2 : Int) ^ 63 = 9223372036854775808 := by norm_num
    rw [e63] at hsum
    have hw : wrapInt64 (total + u.2.out.value) = total + u.2.out.value :=
      wrapInt64_of_range _ (by omega) (by omega)
    by_cases hge : total + u.2.out.value ≥ m
    · have hrun : selectLoop m (u :: rest) total sel = (total + u.2.out.value, sel ++ [u]) := by
        simp only [selectLoop, hw, hge, if_true]
      refine ⟨fun h => by omega, fun _ => ⟨1, Nat.one_pos, by simp, ?_, ?_, ?_⟩⟩
      · rw [hrun]; simp
      · simp; omega
      · intro j hj
        have : j = 0 := by omega
        rw [this]; simpa using hlt
    · have hrun : selectLoop m (u :: rest) total sel =
          selectLoop m rest (total + u.2.out.value) (sel ++ [u]) := by
        simp only [selectLoop, hw, hge, if_false]
      obtain ⟨i1, i2⟩ := ih (sel ++ [u]) (total + u.2.out.value) hrest (by omega) (by omega)
        (by rw [e63]; omega)
      constructor
      · intro h
        rw [hrun, i1 (by omega)]
        simp only [List.append_assoc, List.singleton_append, add_assoc]
      · intro h
        obtain ⟨k, hk0, hkl, hsel, hreach, hmin⟩ := i2 (by omega)
        refine ⟨k + 1, Nat.succ_pos _, by simp; omega, ?_, ?_, ?_⟩
        · rw [hrun, hsel]
          simp only [List.take_succ_cons, List.map_cons, List.sum_cons, List.append_assoc,
            List.singleton_append, add_assoc]
        · simp only [List.take_succ_cons, List.map_cons, List.sum_cons]
          omega
        · intro j hj
          cases j with
          | zero => simpa using hlt
          | succ j =>
            have := hmin j (by omega)
            simp only [List.take_succ_cons, List.map_cons, List.sum_cons]
            omega

/-- C38 with the condition it needs: for every chain state in which the values of the
UTXOs of `sender` are not negative and sum to less than `2^63`, and every amount
`m > 0`, the RPC `transfer` returns "Error: Insufficient balance" and leaves the mempool
as it was when the values sum to less than `m`; else, with `k` the length of the
shortest prefix of `GetUTXOs(sender)` (ascending in the outpoint) whose total reaches
`m` and `total` that total, it hands to `AddTransaction` the transaction whose inputs
are the outpoints of that prefix (with `scriptSig` the bytes of `sender`), whose first
output is `m` to `receiver` and whose second output, there exactly when `total > m`,
is `total − m` to `sender`; the values of its outputs sum to `total`. The result is
the hash in hex when `AddTransaction` returns true and an error string else. -/
theorem transfer_result (sha : Bytes → uint256) (what : Bytes → Bytes) (srv : RpcServer)
    (sender receiver : Bytes) (m : Int) (hm : 0 < m)
    (hpos : ∀ u ∈ srv.blockchain.GetUTXOs sender, 0 ≤ u.2.out.value)
    (hsum : ((srv.blockchain.GetUTXOs sender).map (fun u => u.2.out.value)).sum < 2 ^ 63) :
    (((srv.blockchain.GetUTXOs sender).map (fun u => u.2.out.value)).sum < m →
      Dispatch sha what srv (ascii "transfer") [.str sender, .str receiver, .int m] =
        some (.str (ascii "Error: Insufficient balance"), srv)) ∧
    (m ≤ ((srv.blockchain.GetUTXOs sender).map (fun u => u.2.out.value)).sum →
      ∃ (k : Nat) (total : Int) (tx : Transaction),
        (0 < k ∧ k ≤ (srv.blockchain.GetUTXOs sender).length) ∧
        total = (((srv.blockchain.GetUTXOs sender).take k).map (fun u => u.2.out.value)).sum ∧
        m ≤ total ∧
        (∀ j, j < k →
          (((srv.blockchain.GetUTXOs sender).take j).map (fun u => u.2.out.value)).sum < m) ∧
        tx = { version := 1
               vin := ((srv.blockchain.GetUTXOs sender).take k).map (fun s =>
                 ({ prevout_hash := s.1.hash, prevout_n := s.1.n, scriptSig := sender,
                    sequence := 0xFFFFFFFF } : TxIn))
               vout := if total > m then [⟨m, receiver⟩, ⟨total - m, sender⟩]
                 else [⟨m, receiver⟩]
               lockTime := 0 } ∧
        (tx.vout.map (fun o => o.value)).sum = total ∧
        Dispatch sha what srv (ascii "transfer") [.str sender, .str receiver, .int m] =
          some (if (srv.mempool.AddTransaction sha tx).1 = true then
              .str (tx.GetHash sha).ToString
            else .str (ascii "Error: Failed to add transfer to mempool"),
            { srv with mempool := (srv.mempool.AddTransaction sha tx).2 })) := by
  have e63 : (2 : Int) ^ 63 = 9223372036854775808 := by norm_num
  obtain ⟨s1, s2⟩ := selectLoop_spec m (srv.blockchain.GetUTXOs sender) [] 0 hpos (le_refl _) hm
    (by rw [zero_add]; exact hsum)
  rw [zero_add] at s1 s2
  constructor
  · intro hlow
    rw [dispatch_transfer]
    unfold rpcTransfer
    simp only [JsonValue.as_int, JsonValue.as_string, s1 hlow, zero_add]
    rw [if_pos hlow]
  · intro hhigh
    obtain ⟨k, hk0, hkl, hsel, hreach, hmin⟩ := s2 hhigh
    simp only [zero_add, List.nil_append] at hsel hreach hmin
    have htake : (((srv.blockchain.GetUTXOs sender).take k).map
        (fun u => u.2.out.value)).sum ≤
        ((srv.blockchain.GetUTXOs sender).map (fun u => u.2.out.value)).sum := by
      have hsplit := List.take_append_drop k (srv.blockchain.GetUTXOs sender)
      have hdrop := values_sum_nonneg ((srv.blockchain.GetUTXOs sender).drop k)
        (fun u hu => hpos u (List.mem_of_mem_drop hu))
      have : ((srv.blockchain.GetUTXOs sender).map (fun u => u.2.out.value)).sum =
          (((srv.blockchain.GetUTXOs sender).take k).map (fun u => u.2.out.value)).sum +
          (((srv.blockchain.GetUTXOs sender).drop k).map (fun u => u.2.out.value)).sum := by
        conv_lhs => rw [← hsplit]
        rw [List.map_append, List.sum_append]
      omega
    refine ⟨k, _, _, ⟨hk0, hkl⟩, rfl, hreach, hmin, rfl, ?_, ?_⟩
    · by_cases hgt : (((srv.blockchain.GetUTXOs sender).take k).map
          (fun u => u.2.out.value)).sum > m
      · simp only [if_pos hgt, List.map_cons, List.map_nil, List.sum_cons, List.sum_nil]
        omega
      · simp only [if_neg hgt, List.map_cons, List.map_nil, List.sum_cons, List.sum_nil]
        omega
    · rw [dispatch_transfer]
      unfold rpcTransfer
      simp only [JsonValue.as_int, JsonValue.as_string, hsel]
      rw [if_neg (not_lt.mpr hreach)]
      have hchange : wrapInt64 ((((srv.blockchain.GetUTXOs sender).take k).map
          (fun u => u.2.out.value)).sum - m) =
          (((srv.blockchain.GetUTXOs sender).take k).map (fun u => u.2.out.value)).sum - m :=
        wrapInt64_of_range _ (by omega) (by rw [e63] at hsum; omega)
      rw [hchange]
      by_cases hgt : (((srv.blockchain.GetUTXOs sender).take k).map
          (fun u => u.2.out.value)).sum > m
      · simp only [if_pos hgt, List.singleton_append]
        exact ite_some_pair _ _ _ _
      · simp only [if_neg hgt, List.append_nil]
        exact ite_some_pair _ _ _ _

set_option maxRecDepth 1000000 in
set_option maxHeartbeats 0 in
/-- The evaluations on the sample values of the RPC `transfer`, with the digest
`sha256`, in one statement. -/
theorem sample_evaluation_transfer :
    ((BlockChain.empty.AddBlock sha256 sampleDebtGenesis).1 = true) ∧
    ((BlockChain.empty.AddBlock sha256 sampleDebtGenesis).2.GetUTXOs RESERVE_ADDRESS =
      [(⟨sampleDebtTx.GetHash sha256, 0⟩, ⟨⟨10, RESERVE_ADDRESS⟩⟩),
       (⟨sampleDebtTx.GetHash sha256, 1⟩, ⟨⟨-5, RESERVE_ADDRESS⟩⟩)]) ∧
    ((Mempool.empty.AddTransaction sha256 sampleDebtTransfer).1 = true) ∧
    ((Mempool.empty.AddTransaction sha256 sampleDebtTransfer).2.Size = 1) ∧
    (((BlockChain.empty.AddBlock sha256 mainGenesis).2.GetUTXOs RESERVE_ADDRESS).map
      (fun u => u.2.out.value) = [250000000000]) := by
  decide!

theorem eval_debt_accepted :
    (BlockChain.empty.AddBlock sha256 sampleDebtGenesis).1 = true :=
  sample_evaluation_transfer.1

theorem eval_debt_utxos :
    (BlockChain.empty.AddBlock sha256 sampleDebtGenesis).2.GetUTXOs RESERVE_ADDRESS =
      [(⟨sampleDebtTx.GetHash sha256, 0⟩, ⟨⟨10, RESERVE_ADDRESS⟩⟩),
       (⟨sampleDebtTx.GetHash sha256, 1⟩, ⟨⟨-5, RESERVE_ADDRESS⟩⟩)] :=
  sample_evaluation_transfer.2.1

theorem eval_debt_transfer_added :
    (Mempool.empty.AddTransaction sha256 sampleDebtTransfer).1 = true :=
  sample_evaluation_transfer.2.2.1

theorem eval_debt_transfer_size :
    (Mempool.empty.AddTransaction sha256 sampleDebtTransfer).2.Size = 1 :=
  sample_evaluation_transfer.2.2.2.1

theorem eval_genesis_utxo_values :
    ((BlockChain.empty.AddBlock sha256 mainGenesis).2.GetUTXOs RESERVE_ADDRESS).map
      (fun u => u.2.out.value) = [250000000000] :=
  sample_evaluation_transfer.2.2.2.2

set_option maxRecDepth 100000 in
theorem transfer_result_witness :
    ((0 : Int) < 1000 ∧
      (∀ u ∈ (BlockChain.empty.AddBlock sha256 mainGenesis).2.GetUTXOs RESERVE_ADDRESS,
        0 ≤ u.2.out.value) ∧
      (((BlockChain.empty.AddBlock sha256 mainGenesis).2.GetUTXOs RESERVE_ADDRESS).map
        (fun u => u.2.out.value)).sum < 2 ^ 63) ∧
    ((((BlockChain.empty.AddBlock sha256 mainGenesis).2.GetUTXOs RESERVE_ADDRESS).map
        (fun u => u.2.out.value)).sum < 1000 →
      Dispatch sha256 (fun _ => []) ⟨(BlockChain.empty.AddBlock sha256 mainGenesis).2,
          Mempool.empty⟩ (ascii "transfer")
          [.str RESERVE_ADDRESS, .str [65, 85, 82, 98, 111, 98], .int 1000] =
        some (.str (ascii "Error: Insufficient balance"),
          ⟨(BlockChain.empty.AddBlock sha256 mainGenesis).2, Mempool.empty⟩)) :=
  have hm : (0 : Int) < 1000 := by norm_num
  have hpos : ∀ u ∈ (BlockChain.empty.AddBlock sha256 mainGenesis).2.GetUTXOs RESERVE_ADDRESS,
      0 ≤ u.2.out.value := by
    intro u hu
    have hv : u.2.out.value ∈ ((BlockChain.empty.AddBlock sha256 mainGenesis).2.GetUTXOs
        RESERVE_ADDRESS).map (fun u => u.2.out.value) := List.mem_map_of_mem _ hu
    rw [eval_genesis_utxo_values, List.mem_singleton] at hv
    rw [hv]; norm_num
  have hsum : (((BlockChain.empty.AddBlock sha256 mainGenesis).2.GetUTXOs RESERVE_ADDRESS).map
      (fun u => u.2.out.value)).sum < 2 ^ 63 := by
    rw [eval_genesis_utxo_values]; norm_num
  ⟨⟨hm, hpos, hsum⟩,
    (transfer_result sha256 (fun _ => []) ⟨(BlockChain.empty.AddBlock sha256 mainGenesis).2,
      Mempool.empty⟩ RESERVE_ADDRESS [65, 85, 82, 98, 111, 98] 1000 hm hpos hsum).1⟩

/-- The RPC `transfer` of 8 on a chain where the sender has the two UTXOs of values 10
and -5, in this order: the first one is selected and 2 is the change. -/
theorem transfer_of_debt (sha : Bytes → uint256) (what : Bytes → Bytes) (srv : RpcServer)
    (sender receiver : Bytes) (k0 k1 : OutPoint)
    (h : srv.blockchain.GetUTXOs sender =
      [(k0, ⟨⟨10, sender⟩⟩), (k1, ⟨⟨-5, sender⟩⟩)]) :
    Dispatch sha what srv (ascii "transfer") [.str sender, .str receiver, .int 8] =
      some (if (srv.mempool.AddTransaction sha
            ⟨1, [⟨k0.hash, k0.n, sender, 0xFFFFFFFF⟩], [⟨8, receiver⟩, ⟨2, sender⟩], 0⟩).1 = true
          then .str (Transaction.GetHash sha
            ⟨1, [⟨k0.hash, k0.n, sender, 0xFFFFFFFF⟩], [⟨8, receiver⟩, ⟨2, sender⟩], 0⟩).ToString
          else .str (ascii "Error: Failed to add transfer to mempool"),
        { srv with mempool := (srv.mempool.AddTransaction sha
            ⟨1, [⟨k0.hash, k0.n, sender, 0xFFFFFFFF⟩], [⟨8, receiver⟩, ⟨2, sender⟩], 0⟩).2 }) := by
  have hw : wrapInt64 (0 + 10) = 10 := wrapInt64_of_range _ (by norm_num) (by norm_num)
  have hc : wrapInt64 (10 - 8) = 2 := wrapInt64_of_range _ (by norm_num) (by norm_num)
  have hsel : selectLoop 8 [(k0, (⟨⟨10, sender⟩⟩ : UTXO)), (k1, ⟨⟨-5, sender⟩⟩)] 0 [] =
      (10, [(k0, ⟨⟨10, sender⟩⟩)]) := by
    simp only [selectLoop, hw]
    rw [if_pos (by decide)]
    rfl
  rw [dispatch_transfer]
  unfold rpcTransfer
  simp only [JsonValue.as_int, JsonValue.as_string, h, hsel, hc,
    show ¬ ((10 : Int) < 8) by norm_num, show (10 : Int) > 8 by norm_num, if_false, if_true,
    List.map_cons, List.map_nil, List.singleton_append]
  exact ite_some_pair _ _ _ _

set_option maxRecDepth 100000 in
/-- C38 as stated fails: the block `sampleDebtGenesis`, whose coinbase pays 10 and -5
to the reserve address, is accepted by a fresh chain; the UTXOs of the reserve address
then have the values 10 and -5, which sum to 5, less than 8; and the RPC `transfer` of 8
from the reserve address does not return "Error: Insufficient balance": it returns the
hash of a transaction that spends the first UTXO, and that transaction is in the
mempool afterwards. -/
theorem transfer_with_negative_utxo :
    Reachable sha256 (BlockChain.empty.AddBlock sha256 sampleDebtGenesis).2 ∧
    (BlockChain.empty.AddBlock sha256 sampleDebtGenesis).1 = true ∧
    (((BlockChain.empty.AddBlock sha256 sampleDebtGenesis).2.GetUTXOs RESERVE_ADDRESS).map
      (fun u => u.2.out.value) = [10, -5]) ∧
    (((BlockChain.empty.AddBlock sha256 sampleDebtGenesis).2.GetUTXOs RESERVE_ADDRESS).map
      (fun u => u.2.out.value)).sum < 8 ∧
    Dispatch sha256 (fun _ => []) ⟨(BlockChain.empty.AddBlock sha256 sampleDebtGenesis).2,
        Mempool.empty⟩ (ascii "transfer")
        [.str RESERVE_ADDRESS, .str [65, 85, 82, 98, 111, 98], .int 8] =
      some (.str (sampleDebtTransfer.GetHash sha256).ToString,
        ⟨(BlockChain.empty.AddBlock sha256 sampleDebtGenesis).2,
          (Mempool.empty.AddTransaction sha256 sampleDebtTransfer).2⟩) ∧
    (Mempool.empty.AddTransaction sha256 sampleDebtTransfer).2.Size = 1 := by
  have hv : ((BlockChain.empty.AddBlock sha256 sampleDebtGenesis).2.GetUTXOs
      RESERVE_ADDRESS).map (fun u => u.2.out.value) = [10, -5] := by
    rw [eval_debt_utxos]; rfl
  refine ⟨Reachable.add _ _ Reachable.empty, eval_debt_accepted, hv, ?_, ?_,
    eval_debt_transfer_size⟩
  · rw [hv]; norm_num
  · have h := transfer_of_debt sha256 (fun _ => [])
      ⟨(BlockChain.empty.AddBlock sha256 sampleDebtGenesis).2, Mempool.empty⟩
      RESERVE_ADDRESS [65, 85, 82, 98, 111, 98] _ _ eval_debt_utxos
    rw [h]
    have hadd : (Mempool.empty.AddTransaction sha256
        ⟨1, [⟨sampleDebtTx.GetHash sha256, 0, RESERVE_ADDRESS, 0xFFFFFFFF⟩],
          [⟨8, [65, 85, 82, 98, 111, 98]⟩, ⟨2, RESERVE_ADDRESS⟩], 0⟩).1 = true :=
      eval_debt_transfer_added
    rw [if_pos hadd]
    rfl

end aurelis
